import Mathlib

/-!
# yaff text formatter: tabular model, reflection pass and layout

A shallow embedding of `textformatter/tabular.go`, `textformatter/reflection.go`
and `textformatter/text.go`.

Conventions of the embedding

* Go `int`, `rowID` and `colID` are `Int`.
* A Go `map[string]V` is an association list; a lookup returns the first
  binding of the key, or the zero value of `V`.
* Errors are values of `Error`; a Go run-time panic is the error `Error.Panic`.
* The output sink is an in-memory buffer (as `bytes.Buffer` in the tests): a
  `String` to which every `Write` appends and which never fails.
* `len(s)` is the byte length of `s`.
-/

set_option autoImplicit false

namespace Yaff

/-! ## Library functions used by the formatter -/

/-- Go `len(s)` for a string: the number of bytes of its UTF-8 encoding. -/
def len (s : String) : Int := (s.utf8ByteSize : Int)

/-- Go `strings.ToLower`, on the ASCII range (Go also maps the upper-case
letters outside ASCII through the Unicode tables). -/
def ToLower (s : String) : String := String.mk (s.data.map Char.toLower)

/-- Go `unicode.IsUpper`, on the ASCII range. -/
def IsUpper (c : Char) : Bool := c.isUpper

/-- Pieces of a character list between occurrences of `sep`; there is always
at least one piece. -/
def splitChars (sep : Char) : List Char → List (List Char)
  | [] => [[]]
  | c :: cs =>
    if c = sep then [] :: splitChars sep cs
    else
      match splitChars sep cs with
      | [] => [[c]]
      | piece :: pieces => (c :: piece) :: pieces

/-- Go `strings.Split(s, sep)` for a one-character separator. -/
def Split (s : String) (sep : Char) : List String :=
  (splitChars sep s.data).map String.mk

/-- Characters left after removing every leading `c`. -/
def trimLeftChars (c : Char) : List Char → List Char
  | [] => []
  | d :: ds => if d = c then trimLeftChars c ds else d :: ds

/-- Go `strings.Trim(s, cutset)` for a one-character cutset. -/
def Trim (s : String) (c : Char) : String :=
  String.mk (trimLeftChars c (trimLeftChars c s.data).reverse).reverse

/-- Characters before and after the first occurrence of `sep`, if there is one. -/
def cutChars (sep : Char) : List Char → Option (List Char × List Char)
  | [] => none
  | c :: cs =>
    if c = sep then some ([], cs)
    else
      match cutChars sep cs with
      | none => none
      | some (before, after) => some (c :: before, after)

/-- Go `strings.SplitN(s, sep, 2)` for a one-character separator: one part when
`sep` does not occur, otherwise the text before and after its first occurrence. -/
def SplitN2 (s : String) (sep : Char) : List String :=
  match cutChars sep s.data with
  | none => [s]
  | some (before, after) => [String.mk before, String.mk after]

/-- Value of a run of decimal digits, most significant first; `none` when a
character is not a digit. -/
def digitsValue : List Char → Nat → Option Nat
  | [], acc => some acc
  | c :: cs, acc =>
    if c.isDigit then digitsValue cs (acc * 10 + (c.toNat - 48)) else none

/-- Go `strconv.ParseInt(s, 10, 32)`: an optional sign followed by at least one
decimal digit, in the range of a 32-bit signed integer; `none` stands for the
error result. -/
def ParseInt32 (s : String) : Option Int :=
  let body (negative : Bool) (ds : List Char) : Option Int :=
    match ds with
    | [] => none
    | _ :: _ =>
      match digitsValue ds 0 with
      | none => none
      | some n =>
        if negative then (if n ≤ 2147483648 then some (-(n : Int)) else none)
        else (if n ≤ 2147483647 then some (n : Int) else none)
  match s.data with
  | [] => none
  | c :: cs =>
    if c = '+' then body false cs
    else if c = '-' then body true cs
    else body false (c :: cs)

/-- Go `strings.Repeat(s, count)`; a negative count panics (`none`). -/
def Repeat (s : String) (count : Int) : Option String :=
  if count < 0 then none else some (String.join (List.replicate count.toNat s))

/-! ## Errors -/

/-- Failures of the formatter. -/
inductive Error where
  /-- `langpack.ErrorColumnInvalidID`. -/
  | ColumnInvalidID (column : Int)
  /-- `langpack.ErrorRowInvalidID`. -/
  | RowInvalidID (row : Int)
  /-- `langpack.ErrorUnknownStyle`. -/
  | UnknownStyle (style : Int)
  /-- `langpack.ErrorUnknownStyle` on the name of a style, as
  `GetTextStyleFromString` returns it. -/
  | UnknownStyleName (style : String)
  /-- `langpack.ErrorUnknownFormatter`. -/
  | UnknownFormatter (format : String)
  /-- The error of `strconv.ParseInt` on a width parameter. -/
  | ParseInt (text : String)
  /-- The error of `reflectArray` on a value that is no array or slice. -/
  | NotArrayOrSlice
  /-- A Go run-time panic. -/
  | Panic (message : String)
  /-- The step budget of a modelled loop ran out. -/
  | OutOfFuel
  deriving DecidableEq, Repr

deriving instance DecidableEq for Except

/-! ## Maps -/

/-- Go `m[k]` on a `map[string]bool`: the bound value, `false` when unbound. -/
def mapGet (m : List (String × Bool)) (k : String) : Bool :=
  match m.lookup k with
  | some v => v
  | none => false

/-- Go `m[k]` on a `map[string]string`: the bound value, `""` when unbound. -/
def mapGetString (m : List (String × String)) (k : String) : String :=
  match m.lookup k with
  | some v => v
  | none => ""

/-- Go `m[k] = v`: rebinds `k` when it is bound, adds a binding otherwise. -/
def mapSet {V : Type} : List (String × V) → String → V → List (String × V)
  | [], k, v => [(k, v)]
  | (k0, v0) :: rest, k, v =>
    if k0 = k then (k, v) :: rest else (k0, v0) :: mapSet rest k v

/-- Go `len(m)`: the number of distinct keys. -/
def mapLen {V : Type} (m : List (String × V)) : Nat :=
  (m.map Prod.fst).dedup.length

/-! ## The tabular model (`tabular.go`) -/

/-- A column of the table. -/
structure column where
  name : String
  width : Int
  rightAlign : Bool
  minWidth : Int
  deriving DecidableEq, Repr

/-- Tabular data. -/
structure tabular where
  columns : List column
  rows : List (List String)
  columnSet : List (String × Bool)
  excludeSet : List (String × Bool)
  deriving DecidableEq, Repr

/-- Create a new tabular output. A `nil` set is the empty association list. -/
def newTabular (columnSet excludeSet : List (String × Bool)) : tabular :=
  { columns := [], rows := [], columnSet := columnSet, excludeSet := excludeSet }

/-- Returns false if the column should not be output. -/
def shouldOutputColumn (tablet : tabular) (columnName : String) : Bool :=
  if columnName = "" ∨ columnName = "-" then false
  else
    let columnName := ToLower columnName
    if mapLen tablet.columnSet > 0 ∧ !mapGet tablet.columnSet columnName then false
    else if mapGet tablet.excludeSet columnName then false
    else true

/-- Add a column to the end of the table; returns the table and the new
column id. -/
def addColumn (tablet : tabular) (name : String) (rightAlign : Bool) (wrapFmt : String) :
    Except Error (tabular × Int) :=
  let c : Int := tablet.columns.length
  let nameLen := len name
  let grown (minWidth : Int) : tabular :=
    { tablet with columns := tablet.columns ++
        [{ name := name, rightAlign := rightAlign, width := nameLen, minWidth := minWidth }] }
  if wrapFmt ≠ "" then
    match ParseInt32 wrapFmt with
    | none => .error (.ParseInt wrapFmt)
    | some w => .ok (grown (if w > nameLen then w else nameLen), c)
  else .ok (grown nameLen, c)

/-- Add a new row, sized to the current number of columns, and return its id. -/
def newRow (tablet : tabular) : tabular × Int :=
  let c := tablet.columns.length
  let r : Int := tablet.rows.length
  ({ tablet with rows := tablet.rows ++ [List.replicate c ""] }, r)

/-- Set a field value; `s` is the text `fmt.Sprintf` produced from the format
and its arguments. Writing past the end of the stored row is an index panic. -/
def setField (tablet : tabular) (row : Int) (column : Int) (s : String) : Except Error tabular :=
  if column < 0 ∨ column ≥ tablet.columns.length then .error (.ColumnInvalidID column)
  else if row < 0 ∨ row ≥ tablet.rows.length then .error (.RowInvalidID row)
  else
    match tablet.rows.get? row.toNat, tablet.columns.get? column.toNat with
    | some cells, some col =>
      if column.toNat < cells.length then
        let rows := tablet.rows.set row.toNat (cells.set column.toNat s)
        let col := if col.width < len s then { col with width := len s } else col
        .ok { tablet with rows := rows, columns := tablet.columns.set column.toNat col }
      else .error (.Panic "index out of range")
    | _, _ => .error (.Panic "index out of range")

/-! ## Types and values seen through `reflect` -/

/-- Go `reflect.Kind`. -/
inductive Kind where
  | Invalid | Bool | Int | Int8 | Int16 | Int32 | Int64
  | Uint | Uint8 | Uint16 | Uint32 | Uint64 | Uintptr
  | Float32 | Float64 | Complex64 | Complex128
  | Array | Chan | Func | Interface | Map | Ptr | Slice | String | Struct | UnsafePointer
  deriving DecidableEq, Repr

/-- The kinds of the values that the formatter only prints or skips, without
looking into them: the numeric kinds and `Chan`, `Func`, `Interface`, `Map`,
`UnsafePointer`. -/
inductive OtherKind where
  | Int | Int8 | Int16 | Int32 | Int64
  | Uint | Uint8 | Uint16 | Uint32 | Uint64 | Uintptr
  | Float32 | Float64 | Complex64 | Complex128
  | Chan | Func | Interface | Map | UnsafePointer
  deriving DecidableEq, Repr

/-- The `reflect.Kind` of an `OtherKind`. -/
def OtherKind.toKind : OtherKind → Kind
  | .Int => .Int | .Int8 => .Int8 | .Int16 => .Int16 | .Int32 => .Int32 | .Int64 => .Int64
  | .Uint => .Uint | .Uint8 => .Uint8 | .Uint16 => .Uint16 | .Uint32 => .Uint32
  | .Uint64 => .Uint64 | .Uintptr => .Uintptr
  | .Float32 => .Float32 | .Float64 => .Float64
  | .Complex64 => .Complex64 | .Complex128 => .Complex128
  | .Chan => .Chan | .Func => .Func | .Interface => .Interface | .Map => .Map
  | .UnsafePointer => .UnsafePointer

/-- A struct member as `reflect.StructField` shows it: the declared name, the
value of the `tabular` key of its tag (what `t.Tag.Get("tabular")` returns) and
an item, which is the declared type in a `GoType` and the field's value in a
`Value`. -/
structure StructField (α : Type) where
  Name : String
  Tag : String
  Item : α
  deriving Repr

/-- A Go type as far as the formatter inspects it: the fields of a struct type,
and only the kind of any other type. -/
inductive GoType where
  | basic (k : Kind)
  | struct (fields : List (StructField GoType))

/-- A Go value as far as the formatter inspects it. The zero `reflect.Value`
is not a `Value`: it is the `none` of `Indirect`. Named boolean types are not
represented. -/
inductive Value where
  /-- A `bool`. -/
  | bool (b : Bool)
  /-- A `string`. -/
  | str (s : String)
  /-- A value of a kind that the formatter only prints or skips (a number, a
  channel, a map, ...), with the text `fmt.Sprintf("%v", v)` gives for it. -/
  | other (k : OtherKind) (text : String)
  /-- A pointer, `none` when nil, with the text `%v` gives for the pointer. -/
  | ptr (elem : Option Value) (text : String)
  /-- An array (`slice = false`) or a slice. -/
  | seq (slice : Bool) (items : List Value)
  /-- A struct value: its fields in declaration order. -/
  | struct (fields : List (StructField Value))

/-- Go `Type.Kind()`. -/
def GoType.Kind : GoType → Kind
  | .basic k => k
  | .struct _ => .Struct

/-- Go `Value.Kind()`. -/
def Value.Kind : Value → Kind
  | .bool _ => .Bool
  | .str _ => .String
  | .other k _ => k.toKind
  | .ptr _ _ => .Ptr
  | .seq slice _ => if slice then .Slice else .Array
  | .struct _ => .Struct

mutual
/-- Go `Value.Type()`. -/
def Value.Type : Value → GoType
  | .bool _ => .basic .Bool
  | .str _ => .basic .String
  | .other k _ => .basic k.toKind
  | .ptr _ _ => .basic .Ptr
  | .seq slice _ => .basic (if slice then .Slice else .Array)
  | .struct fields => .struct (Value.fieldTypes fields)
/-- The `reflect.StructField`s of a struct value, `value.Type().Field(i)` for
each `i`. -/
def Value.fieldTypes : List (StructField Value) → List (StructField GoType)
  | [] => []
  | f :: rest => { Name := f.Name, Tag := f.Tag, Item := Value.Type f.Item } :: Value.fieldTypes rest
end

/-- Go `reflect.Indirect`: the value a pointer points to, the zero Value
(`none`) for a nil pointer, the value itself when it is no pointer. -/
def Indirect : Value → Option Value
  | .ptr (some v) _ => some v
  | .ptr none _ => none
  | v => some v

/-- The dereference `if v.Kind() == reflect.Ptr { v = reflect.Indirect(v) }`. -/
def derefPtr (v : Value) : Option Value :=
  if v.Kind = .Ptr then Indirect v else some v

/-- Text of `fmt.Sprintf("%v", value.Interface())`. The formatter prints no
struct, array or slice: these have no text here. -/
def sprintV : Value → String
  | .bool b => if b then "true" else "false"
  | .str s => s
  | .other _ text => text
  | .ptr _ text => text
  | .seq _ _ => ""
  | .struct _ => ""

/-- The panic of `Value.Interface` on the zero Value. -/
def zeroValuePanic : Error := .Panic "reflect: call of reflect.Value.Interface on zero Value"

/-! ## Field tags (`reflection.go`) -/

/-- The parsed `tabular` tag of a field. -/
structure tagData where
  Name : String
  Options : List (String × Bool)
  Params : List (String × String)
  deriving DecidableEq, Repr

/-- The name of the width param used to support wrapping text. -/
def widthParamName : String := "width"

/-- The width parameter of a tag, `""` for a nil tag. -/
def getWidthParam (tagData : Option tagData) : String :=
  match tagData with
  | none => ""
  | some d => mapGetString d.Params widthParamName

/-- The body of the loop of `parseTags` over the pieces of the tag, `i` being
the index of the first piece of the list. -/
def parseTagsLoop : List String → Nat → tagData → tagData
  | [], _, d => d
  | s :: rest, i, d =>
    let s := Trim s ' '
    if s = "" then parseTagsLoop rest (i + 1) d
    else if i = 0 then parseTagsLoop rest (i + 1) { d with Name := s }
    else
      match SplitN2 s '=' with
      | [_] => parseTagsLoop rest (i + 1) { d with Options := mapSet d.Options s true }
      | [key, value] => parseTagsLoop rest (i + 1) { d with Params := mapSet d.Params key value }
      | _ => parseTagsLoop rest (i + 1) d

/-- Parse a tag entry; `none` is the nil result. -/
def parseTags (tagEntry : String) : Option tagData :=
  if tagEntry = "" then none
  else some (parseTagsLoop (Split tagEntry ',') 0 { Name := "", Options := [], Params := [] })

/-- The tag of a field with its options, or nil if not found; `tag` is the
value of the `tabular` key. -/
def getTags (tag : String) : Option tagData := parseTags tag

/-- The display name of a field: empty for a field that is not exported, the
name of the tag when it has one, the declared name otherwise. -/
def getFieldName (name : String) (tagInfo : Option tagData) : String :=
  match name.data with
  | [] => ""
  | c :: _ =>
    if !IsUpper c then ""
    else
      match tagInfo with
      | some d => if d.Name ≠ "" then d.Name else name
      | none => name

/-- The test `tagInfo != nil && tagInfo.Options["trueonly"]`. -/
def trueOnly (tagInfo : Option tagData) : Bool :=
  match tagInfo with
  | some d => mapGet d.Options "trueonly"
  | none => false

/-! ## The reflect pass (`reflection.go`) -/

mutual
/-- Declare the columns of one field: nothing for a hidden field or a field of
array, slice, func, map, pointer or interface kind, the columns of its fields
for a struct, one column otherwise. The `reflect.StructField` argument `t` of
the source is passed as `t.Name`, the `tabular` entry of `t.Tag`, and `t.Type`. -/
def reflectFieldHead (table : tabular) (fieldName tag : String) (typ : GoType) :
    Except Error tabular :=
  let tagData := getTags tag
  let name := getFieldName fieldName tagData
  if !shouldOutputColumn table name then .ok table
  else
    match typ with
    | .struct fields => reflectFieldHeadLoop table fields
    | .basic k =>
      match k with
      | .Array | .Slice | .Func | .Map | .Ptr | .Interface => .ok table
      | .Struct => .ok table
      | .String =>
        match addColumn table name false (getWidthParam tagData) with
        | .error e => .error e
        | .ok (table, _) => .ok table
      | _ =>
        match addColumn table name true (getWidthParam tagData) with
        | .error e => .error e
        | .ok (table, _) => .ok table
termination_by structural typ
/-- The loop `for i := 0; i < n; i++` over the fields of a struct type, calling
`reflectFieldHead` on each and stopping at the first error. -/
def reflectFieldHeadLoop (table : tabular) : List (StructField GoType) → Except Error tabular
  | [] => .ok table
  | t :: rest =>
    match reflectFieldHead table t.Name t.Tag t.Item with
    | .error e => .error e
    | .ok table => reflectFieldHeadLoop table rest
termination_by structural fields => fields
end

/-- Declare the header columns of a struct value; any other value panics. -/
def reflectStructHeader (table : tabular) (value : Value) : Except Error tabular :=
  match value.Type with
  | .struct fields => reflectFieldHeadLoop table fields
  | .basic _ => .error (.Panic "unexpected type")

mutual
/-- Set the cells of one field in `row`, starting at column `col`; returns the
table and the next free column. The field `t` is passed as `t.Name` and the
`tabular` entry of `t.Tag`; `t.Type` is the type of `value`. -/
def reflectFieldValue (table : tabular) (row : Int) (col : Int) (fieldName tag : String)
    (value : Value) : Except Error (tabular × Int) :=
  let tagInfo := getTags tag
  let name := getFieldName fieldName tagInfo
  if !shouldOutputColumn table name then .ok (table, col)
  else
    match value with
    | .struct fields => reflectFieldValueLoop table row col fields
    | .seq _ _ => .ok (table, col)
    | .ptr _ _ => .ok (table, col)
    | .bool b =>
      if trueOnly tagInfo && !b then
        match setField table row col "" with
        | .error e => .error e
        | .ok table => .ok (table, col + 1)
      else
        match setField table row col (if b then "true" else "false") with
        | .error e => .error e
        | .ok table => .ok (table, col + 1)
    | .str s =>
      match setField table row col s with
      | .error e => .error e
      | .ok table => .ok (table, col + 1)
    | .other k text =>
      match k.toKind with
      | .Array | .Slice | .Func | .Map | .Interface | .Ptr => .ok (table, col)
      | _ =>
        match setField table row col text with
        | .error e => .error e
        | .ok table => .ok (table, col + 1)
termination_by structural value
/-- The loop over the fields of a struct value, threading the column. -/
def reflectFieldValueLoop (table : tabular) (row : Int) (col : Int) :
    List (StructField Value) → Except Error (tabular × Int)
  | [] => .ok (table, col)
  | f :: rest =>
    match reflectFieldValue table row col f.Name f.Tag f.Item with
    | .error e => .error e
    | .ok (table, col) => reflectFieldValueLoop table row col rest
termination_by structural fields => fields
end

/-- Fill `row` from a struct value; any other value panics. -/
def reflectStructRow (table : tabular) (row : Int) (value : Value) : Except Error tabular :=
  match value with
  | .struct fields =>
    match reflectFieldValueLoop table row 0 fields with
    | .error e => .error e
    | .ok (table, _) => .ok table
  | _ => .error (.Panic "unexpected type")

/-- Go `value.NumField()` and `value.Field(i)` together: the fields of a struct
value (none for a value that holds no fields). -/
def Value.fields : Value → List (StructField Value)
  | .struct fields => fields
  | _ => []

/-- Go `value.Len()` and `value.Index(i)` together: the items of an array or
slice. -/
def Value.items : Value → List Value
  | .seq _ items => items
  | _ => []

mutual
/-- Add the name/value rows of one field to a detail table: nothing for a
hidden field or a field of array, slice, func, map, interface or pointer kind,
the rows of its fields for a struct, one row otherwise. The field `t` is passed
as `t.Name` and the `tabular` entry of `t.Tag`. -/
def reflectFieldNameValue (table : tabular) (fieldName tag : String) (value : Value) :
    Except Error tabular :=
  let name := getFieldName fieldName (getTags tag)
  if !shouldOutputColumn table name then .ok table
  else
    match value with
    | .struct fields => reflectFieldNameValueLoop table fields
    | .seq _ _ => .ok table
    | .ptr _ _ => .ok table
    | value =>
      match value.Kind with
      | .Array | .Slice | .Func | .Map | .Interface | .Ptr => .ok table
      | _ =>
        let (table, row) := newRow table
        match setField table row 0 name with
        | .error e => .error e
        | .ok table => setField table row 1 (sprintV value)
termination_by structural value
/-- The loop over the fields of a struct value in detail mode. -/
def reflectFieldNameValueLoop (table : tabular) : List (StructField Value) → Except Error tabular
  | [] => .ok table
  | f :: rest =>
    match reflectFieldNameValue table f.Name f.Tag f.Item with
    | .error e => .error e
    | .ok table => reflectFieldNameValueLoop table rest
termination_by structural fields => fields
end

/-- Build the two-column name/value table of a struct value; the errors of the
two `addColumn` calls are dropped as in the source. -/
def reflectStructDetail (table : tabular) (value : Value) : Except Error tabular :=
  if value.Kind ≠ .Struct then .error (.Panic "unexpected type")
  else if value.fields.length = 0 then .ok table
  else
    let table := match addColumn table "Name" true "" with
      | .ok (t, _) => t
      | .error _ => table
    let table := match addColumn table "Output" false "" with
      | .ok (t, _) => t
      | .error _ => table
    reflectFieldNameValueLoop table value.fields

/-- The loop of `reflectArray` from item `i` on; `col` is the variable holding
the id of the "Output" column. A nil pointer item indirects to the zero Value,
whose kind is `Invalid` and whose `Interface` panics. -/
def reflectArrayLoop : tabular → Int → Nat → List Value → Except Error tabular
  | table, _, _, [] => .ok table
  | table, col, i, item :: rest =>
    match derefPtr item with
    | none =>
      match (if i = 0 then addColumn table "Output" false "" else .ok (table, col)) with
      | .error e => .error e
      | .ok _ => .error zeroValuePanic
    | some item =>
      match item.Kind with
      | .Struct =>
        match (if i = 0 then reflectStructHeader table item else .ok table) with
        | .error e => .error e
        | .ok table =>
          let (table, row) := newRow table
          match reflectStructRow table row item with
          | .error e => .error e
          | .ok table => reflectArrayLoop table col (i + 1) rest
      | .Array | .Slice | .Map | .Func | .Ptr | .Interface =>
        reflectArrayLoop table col (i + 1) rest
      | _ =>
        match (if i = 0 then addColumn table "Output" false "" else .ok (table, col)) with
        | .error e => .error e
        | .ok (table, col) =>
          let (table, row) := newRow table
          match setField table row col (sprintV item) with
          | .error e => .error e
          | .ok table => reflectArrayLoop table col (i + 1) rest

/-- Build the table of an array or slice: a header from the first item when it
is a struct, and one row per struct or scalar item. -/
def reflectArray (table : tabular) (value : Value) : Except Error tabular :=
  if value.Kind ≠ .Array ∧ value.Kind ≠ .Slice then .error .NotArrayOrSlice
  else if value.items.length = 0 then .ok table
  else reflectArrayLoop table 0 0 value.items

/-- Build the table of any value: arrays are tabular, a struct displays as
detail, a func gives nothing, anything else one "Output" cell. A nil pointer
indirects to the zero Value, whose kind is `Invalid` and whose `Interface`
panics. -/
def reflectInterface (table : tabular) (value : Value) : Except Error tabular :=
  match derefPtr value with
  | none =>
    match addColumn table "Output" false "" with
    | .error e => .error e
    | .ok _ => .error zeroValuePanic
  | some value =>
    match value.Kind with
    | .Array | .Slice => reflectArray table value
    | .Struct => reflectStructDetail table value
    | .Func => .ok table
    | _ =>
      match addColumn table "Output" false "" with
      | .error e => .error e
      | .ok (table, col) =>
        let (table, row) := newRow table
        setField table row col (sprintV value)

/-! ## Options (`text.go`, `style.go`) -/

/-- Plain text. -/
def Plain : Int := 0

/-- Aligned in columns. -/
def Aligned : Int := 1

/-- Grid surrounding. -/
def Grid : Int := 2

/-- Modelled from the spec: the constant `Markdown` of type `TableStyle`, used
by `tabular.write` and the tests but not declared in `style.go`; the spec lists
the styles as plain, aligned, grid, markdown, so it is the next value. -/
def Markdown : Int := 3

/-- Options for the text formatter; a nil set is the empty list. -/
structure Options where
  Style : Int
  ExcludeHeader : Bool
  ColumnSeparator : String
  ColumnSet : List (String × Bool)
  ExcludeSet : List (String × Bool)
  TerminalWidth : Int
  deriving DecidableEq, Repr

/-- Return new options. -/
def NewOptions : Options :=
  { Style := Aligned, ExcludeHeader := false, ColumnSeparator := "\t",
    ColumnSet := [], ExcludeSet := [], TerminalWidth := 0 }

/-- The loop `for k, v := range set { out[strings.ToLower(k)] = v }`, the
bindings taken in the order of the list. -/
def lowerKeys : List (String × Bool) → List (String × Bool) → List (String × Bool)
  | [], out => out
  | (k, v) :: rest, out => lowerKeys rest (mapSet out (ToLower k) v)

/-- Use lower case for all exclusion and colset settings. -/
def normalizeOptions (options : Options) : Options :=
  let xSet := lowerKeys options.ExcludeSet []
  let cSet := lowerKeys options.ColumnSet []
  { options with ExcludeSet := xSet, ColumnSet := cSet }

/-! ## Layout (`tabular.go`) -/

/-- The loop of `writePlainHeader`: `sep` is empty until the first name is out. -/
def writePlainHeaderLoop (columnSeparator : String) :
    List column → Nat → String → String → String
  | [], _, _, out => out
  | col :: rest, i, sep, out =>
    writePlainHeaderLoop columnSeparator rest (i + 1)
      (if i = 0 then columnSeparator else sep) (out ++ (sep ++ col.name))

/-- Write the header of the plain style: nothing for a table without columns,
otherwise the names and, on return, a line break. -/
def writePlainHeader (tablet : tabular) (out : String) (columnSeparator : String) : String :=
  if tablet.columns.length = 0 then out
  else writePlainHeaderLoop columnSeparator tablet.columns 0 "" out ++ "\n"

/-- The loop of `writePlainRow`. -/
def writePlainRowLoop (columnSeparator : String) :
    List String → Nat → String → String → String
  | [], _, _, out => out
  | field :: rest, i, sep, out =>
    writePlainRowLoop columnSeparator rest (i + 1)
      (if i = 0 then columnSeparator else sep) (out ++ (sep ++ field))

/-- Write one row of the plain style: nothing for a row without cells. -/
def writePlainRow (out : String) (row : List String) (columnSeparator : String) : String :=
  if row.length = 0 then out
  else writePlainRowLoop columnSeparator row 0 "" out ++ "\n"

/-- The loop of `writePlain` over the rows. -/
def writePlainRows (columnSeparator : String) : List (List String) → String → String
  | [], out => out
  | row :: rest, out => writePlainRows columnSeparator rest (writePlainRow out row columnSeparator)

/-- Basic raw output, using a separator between columns. -/
def writePlain (tablet : tabular) (out : String) (excludeHeader : Bool)
    (columnSeparator : String) : String :=
  let out := if !excludeHeader then writePlainHeader tablet out columnSeparator else out
  writePlainRows columnSeparator tablet.rows out

/-- The loop of `writeMarkdownHeader` over the columns. -/
def writeMarkdownNames : List column → String → String
  | [], out => out
  | col :: rest, out => writeMarkdownNames rest (out ++ ("|" ++ col.name))

/-- Write the markdown header and its separator line. -/
def writeMarkdownHeader (tablet : tabular) (out : String) : String :=
  if tablet.columns.length = 0 then out
  else
    let out := writeMarkdownNames tablet.columns out
    let out := out ++ "|\n"
    let out := out ++ String.join (List.replicate tablet.columns.length "|-")
    let out := out ++ "|"
    out ++ "\n"

/-- The loop of `writeMarkdownRow` over the cells. -/
def writeMarkdownFields : List String → String → String
  | [], out => out
  | field :: rest, out => writeMarkdownFields rest (out ++ ("|" ++ field))

/-- Write one markdown row: nothing for a row without cells. -/
def writeMarkdownRow (out : String) (row : List String) : String :=
  if row.length = 0 then out
  else (writeMarkdownFields row out ++ "|") ++ "\n"

/-- The loop of `writeMarkdown` over the rows. -/
def writeMarkdownRows : List (List String) → String → String
  | [], out => out
  | row :: rest, out => writeMarkdownRows rest (writeMarkdownRow out row)

/-- Markdown output. -/
def writeMarkdown (tablet : tabular) (out : String) : String :=
  writeMarkdownRows tablet.rows (writeMarkdownHeader tablet out)

/-- The first loop of `calcWidths`: what each column needs, and the total. -/
def calcNeeded : List column → List Int × Int
  | [] => ([], 0)
  | col :: rest =>
    let needs := col.width - col.minWidth
    let (needed, totalNeeded) := calcNeeded rest
    if needs > 0 then (needs :: needed, needs + totalNeeded) else (0 :: needed, totalNeeded)

/-- The loop variables of `calcWidths`. -/
structure widthState where
  columns : List column
  needed : List Int
  available : Int
  totalNeeded : Int
  deriving DecidableEq, Repr

/-- One run of the inner loop of `calcWidths` over the columns: each column
that still needs room widens by one. -/
def calcWidthsPass : List column → List Int → Int → Int → widthState
  | col :: rest, n :: needed, available, totalNeeded =>
    if n > 0 then
      let st := calcWidthsPass rest needed (available - 1) (totalNeeded - 1)
      { st with
        columns := { col with minWidth := col.minWidth + 1, width := col.minWidth + 1 } :: st.columns,
        needed := (n - 1) :: st.needed }
    else
      let st := calcWidthsPass rest needed available totalNeeded
      { st with columns := col :: st.columns, needed := n :: st.needed }
  | columns, needed, available, totalNeeded =>
    { columns := columns, needed := needed, available := available, totalNeeded := totalNeeded }

/-- The outer loop of `calcWidths`, run for at most `fuel` passes; `none` when
the loop condition still holds after them. -/
def calcWidthsLoop : Nat → widthState → Option widthState
  | fuel, st =>
    if st.available > 0 ∧ st.totalNeeded > 0 then
      match fuel with
      | 0 => none
      | fuel + 1 => calcWidthsLoop fuel (calcWidthsPass st.columns st.needed st.available st.totalNeeded)
    else some st

/-- Widen the minimum widths within the terminal width. The outer loop is
given as many passes as the total needed, each pass taking at least one. -/
def calcWidths (tablet : tabular) (minSpacing terminalWidth : Int) : Option tabular :=
  let (needed, totalNeeded) := calcNeeded tablet.columns
  let st : widthState :=
    { columns := tablet.columns, needed := needed,
      available := terminalWidth - minSpacing, totalNeeded := totalNeeded }
  match calcWidthsLoop totalNeeded.toNat st with
  | none => none
  | some st => some { tablet with columns := st.columns }

/-- The loop of `calculateSpacing`: the spacing of each column, and what the
columns add to the total and to the minimum spacing. -/
def spacingLoop (extraSpacing : Int) : List column → List Int × Int × Int
  | [] => ([], 0, 0)
  | col :: rest =>
    let (spacing, totalSpacing, minSpacing) := spacingLoop extraSpacing rest
    ((col.width + extraSpacing) :: spacing,
      (col.width + extraSpacing + 1) + totalSpacing,
      (col.minWidth + extraSpacing + 1) + minSpacing)

/-- Returns `(spacing, totalSpacing, minSpacing)`. -/
def calculateSpacing (tablet : tabular) (hasGrid : Bool) (pad : Int) : List Int × Int × Int :=
  let extraSpacing := pad * 2
  let start : Int := if hasGrid then 1 else 0
  let (spacing, totalSpacing, minSpacing) := spacingLoop extraSpacing tablet.columns
  (spacing, start + totalSpacing, start + minSpacing)

/-- The table cut into physical lines. -/
structure wrappedTable where
  totalSpacing : Int
  spacing : List Int
  rowsLinesColumns : List (List (List String))
  deriving DecidableEq, Repr

/-- The lines of each cell of a row, wrapped at the minimum width of its
column; a cell past the last column is an index panic. -/
def wrapRow (wrapText : String → Int → List String) :
    List column → List String → Option (List (List String))
  | _, [] => some []
  | [], _ :: _ => none
  | col :: columns, field :: fields =>
    match wrapRow wrapText columns fields with
    | none => none
    | some lines => some (wrapText field col.minWidth :: lines)

/-- The largest number of lines of a cell of the row, at least 1. -/
def linesPerRow : List (List String) → Nat
  | [] => 1
  | lines :: rest => if lines.length > linesPerRow rest then lines.length else linesPerRow rest

/-- The pivot: physical line `j` holds line `j` of every column, or `""`. -/
def pivotRow (c : Nat) (columnLines : List (List String)) : List (List String) :=
  let columnLines := columnLines ++ List.replicate (c - columnLines.length) []
  (List.range (linesPerRow columnLines)).map
    (fun j => columnLines.map (fun linesPerCol => linesPerCol.getD j ""))

/-- The wrapped rows of the table, in row, line, column order. -/
def wrapRows (wrapText : String → Int → List String) (columns : List column) :
    List (List String) → Option (List (List (List String)))
  | [] => some []
  | r :: rest =>
    match wrapRow wrapText columns r, wrapRows wrapText columns rest with
    | some columnLines, some rows => some (pivotRow columns.length columnLines :: rows)
    | _, _ => none

/-- Cut the table into physical lines, wrapping when the terminal width is set
and too small. `wrapText` stands for the source function of that name,
`strings.Split(wordwrap.Wrapper(width, true)(text), "\n")`, whose wrapper is
the one of the library `github.com/eidolon/wordwrap`. -/
def buildWrappedTable (wrapText : String → Int → List String) (tablet : tabular)
    (hasGrid : Bool) (pad : Int) (terminalWidth : Int) : Except Error (tabular × wrappedTable) :=
  let (spacing, totalSpacing, minSpacing) := calculateSpacing tablet hasGrid pad
  if terminalWidth > 0 ∧ totalSpacing > terminalWidth then
    match calcWidths tablet minSpacing terminalWidth with
    | none => .error .OutOfFuel
    | some tablet =>
      let (spacing, totalSpacing, _) := calculateSpacing tablet hasGrid pad
      match wrapRows wrapText tablet.columns tablet.rows with
      | none => .error (.Panic "index out of range")
      | some rows =>
        .ok (tablet, { totalSpacing := totalSpacing, spacing := spacing, rowsLinesColumns := rows })
  else
    .ok (tablet, { totalSpacing := totalSpacing, spacing := spacing,
                   rowsLinesColumns := tablet.rows.map (fun r => [r]) })

/-- The text of one cell or header name in its column: `"|"` or a space before
it, and the padding to the width of the column on the left or on the right. -/
def alignedField (col : column) (i : Nat) (field : String) (hasGrid : Bool) (padding : Int) :
    Option String :=
  let fill := col.width - len field
  let lead := if hasGrid then "|" else if i > 0 then " " else ""
  if col.rightAlign then
    match Repeat " " (fill + padding), Repeat " " padding with
    | some l, some r => some (lead ++ l ++ field ++ r)
    | _, _ => none
  else
    match Repeat " " padding, Repeat " " (fill + padding) with
    | some l, some r => some (lead ++ l ++ field ++ r)
    | _, _ => none

/-- The inner loop of `writeAlignedRow` over the fields of one line, appending
to the builder `b`; a field past the last column is an index panic. -/
def alignedLineLoop (hasGrid : Bool) (padding : Int) :
    List column → List String → Nat → String → Option String
  | _, [], _, b => some b
  | [], _ :: _, _, _ => none
  | col :: columns, field :: fields, i, b =>
    match alignedField col i field hasGrid padding with
    | none => none
    | some text => alignedLineLoop hasGrid padding columns fields (i + 1) (b ++ text)

/-- The outer loop of `writeAlignedRow` over the lines of a row. -/
def alignedLinesLoop (columns : List column) (hasGrid : Bool) (padding : Int) :
    List (List String) → String → Option String
  | [], b => some b
  | line :: rest, b =>
    match alignedLineLoop hasGrid padding columns line 0 b with
    | none => none
    | some b =>
      let b := if hasGrid then b ++ "|" else b
      alignedLinesLoop columns hasGrid padding rest (b ++ "\n")

/-- Output one row, made of one or more physical lines. -/
def writeAlignedRow (tablet : tabular) (out : String) (row : List (List String))
    (hasGrid : Bool) (padding : Int) : Except Error String :=
  if tablet.columns.length = 0 then .ok out
  else
    match alignedLinesLoop tablet.columns hasGrid padding row "" with
    | none => .error (.Panic "strings: negative Repeat count or index out of range")
    | some b => .ok (out ++ b)

/-- The loop of `writeAlignedHeader` over the columns. -/
def alignedHeaderLoop (hasGrid : Bool) (padding : Int) : List column → Nat → String → Option String
  | [], _, b => some b
  | col :: columns, i, b =>
    match alignedField col i col.name hasGrid padding with
    | none => none
    | some text => alignedHeaderLoop hasGrid padding columns (i + 1) (b ++ text)

/-- Write out the aligned header. -/
def writeAlignedHeader (tablet : tabular) (out : String) (hasGrid : Bool) (padding : Int) :
    Except Error String :=
  if tablet.columns.length = 0 then .ok out
  else
    match alignedHeaderLoop hasGrid padding tablet.columns 0 "" with
    | none => .error (.Panic "strings: negative Repeat count")
    | some b =>
      let b := if hasGrid then b ++ "|" else b
      .ok (out ++ (b ++ "\n"))

/-- The loop of `writeGridLine` over the spacings. -/
def gridLineLoop : List Int → String → Option String
  | [], b => some b
  | c :: spacing, b =>
    match Repeat "-" c with
    | none => none
    | some dashes => gridLineLoop spacing (b ++ (dashes ++ "+"))

/-- Output a simple grid line. -/
def writeGridLine (out : String) (spacing : List Int) : Except Error String :=
  match gridLineLoop spacing "+" with
  | none => .error (.Panic "strings: negative Repeat count")
  | some b => .ok (out ++ (b ++ "\n"))

/-- The loop of `writeAligned` over the wrapped rows; returns the output so
far and the error that stopped it, if any. -/
def writeAlignedRows (tablet : tabular) (hasGrid : Bool) (pad : Int) (spacing : List Int) :
    List (List (List String)) → String → String × Option Error
  | [], out => (out, none)
  | row :: rest, out =>
    match writeAlignedRow tablet out row hasGrid pad with
    | .error e => (out, some e)
    | .ok out =>
      if hasGrid then
        match writeGridLine out spacing with
        | .error e => (out, some e)
        | .ok out => writeAlignedRows tablet hasGrid pad spacing rest out
      else writeAlignedRows tablet hasGrid pad spacing rest out

/-- Column width aligned output; returns the table as the width negotiation
left it, the output so far and the error, if any. -/
def writeAligned (wrapText : String → Int → List String) (tablet : tabular) (out : String)
    (excludeHeader : Bool) (hasGrid : Bool) (pad : Int) (terminalWidth : Int) :
    tabular × String × Option Error :=
  if tablet.rows.length = 0 then (tablet, out, none)
  else
    match buildWrappedTable wrapText tablet hasGrid pad terminalWidth with
    | .error e => (tablet, out, some e)
    | .ok (tablet, wrapped) =>
      match (if hasGrid then writeGridLine out wrapped.spacing else .ok out) with
      | .error e => (tablet, out, some e)
      | .ok out =>
        if !excludeHeader then
          match writeAlignedHeader tablet out hasGrid pad with
          | .error e => (tablet, out, some e)
          | .ok out =>
            match (if hasGrid then writeGridLine out wrapped.spacing else .ok out) with
            | .error e => (tablet, out, some e)
            | .ok out =>
              let (out, err) := writeAlignedRows tablet hasGrid pad wrapped.spacing
                wrapped.rowsLinesColumns out
              (tablet, out, err)
        else
          let (out, err) := writeAlignedRows tablet hasGrid pad wrapped.spacing
            wrapped.rowsLinesColumns out
          (tablet, out, err)

/-- Output the table to a writer using the supplied table style. -/
def write (wrapText : String → Int → List String) (tablet : tabular) (out : String) (style : Int)
    (excludeHeader : Bool) (columnSeparator : String) (terminalWidth : Int) :
    tabular × String × Option Error :=
  if style = Plain then (tablet, writePlain tablet out excludeHeader columnSeparator, none)
  else if style = Aligned then writeAligned wrapText tablet out excludeHeader false 0 terminalWidth
  else if style = Grid then writeAligned wrapText tablet out excludeHeader true 1 terminalWidth
  else if style = Markdown then (tablet, writeMarkdown tablet out, none)
  else (tablet, out, some (.UnknownStyle style))

/-- Render one value: a fresh table, the reflect pass, then the layout. -/
def renderStyledText (wrapText : String → Int → List String) (writer : String) (d : Value)
    (options : Options) : String × Option Error :=
  let table := newTabular options.ColumnSet options.ExcludeSet
  match reflectInterface table d with
  | .error e => (writer, some e)
  | .ok table =>
    let (_, out, err) := write wrapText table writer options.Style options.ExcludeHeader
      options.ColumnSeparator options.TerminalWidth
    (out, err)

/-- The loop of `Format` over the values, stopping at the first error. -/
def formatLoop (wrapText : String → Int → List String) (textOptions : Options) :
    List Value → String → String × Option Error
  | [], writer => (writer, none)
  | d :: rest, writer =>
    match renderStyledText wrapText writer d textOptions with
    | (writer, some e) => (writer, some e)
    | (writer, none) => formatLoop wrapText textOptions rest writer

/-- Format the values with the options, `none` standing for nil options. -/
def Format (wrapText : String → Int → List String) (writer : String) (options : Option Options)
    (data : List Value) : String × Option Error :=
  let textOptions := match options with
    | none => NewOptions
    | some o => o
  formatLoop wrapText (normalizeOptions textOptions) data writer

/-! ## Descriptions used to state the properties

The definitions below are not translations of source functions: they describe,
as plain lists, what the reflect pass and the layout are expected to produce. -/

/-- Visibility of a display name under an allow set and a deny set: what
`shouldOutputColumn` answers on any table holding these sets. -/
def visible (columnSet excludeSet : List (String × Bool)) (name : String) : Bool :=
  shouldOutputColumn (newTabular columnSet excludeSet) name

/-- The display name of a field: the name of its tag when the field is
exported and the tag has a name, the declared name when it is exported and the
tag has none, `""` when it is not exported. -/
def displayName (fieldName tag : String) : String := getFieldName fieldName (getTags tag)

/-- The kinds whose fields declare no column. -/
def skippedKind : Kind → Bool
  | .Array | .Slice | .Func | .Map | .Ptr | .Interface => true
  | _ => false

/-- A leaf field of a record type: declared name, `tabular` tag entry, kind. -/
structure leaf where
  fieldName : String
  tag : String
  kind : Kind
  deriving DecidableEq, Repr

/-- The display name of a leaf. -/
def leaf.name (l : leaf) : String := displayName l.fieldName l.tag

/-- The width hint of a leaf. -/
def leaf.widthParam (l : leaf) : String := getWidthParam (getTags l.tag)

/-- The width hint is absent or a 32-bit decimal integer. -/
def leaf.hintOk (l : leaf) : Bool := l.widthParam = "" || (ParseInt32 l.widthParam).isSome

/-- The column a leaf declares: named by its display name, as wide as the
name, left-aligned exactly for the kind `String`, with the larger of the hint
and the length of the name as minimum width. -/
def leaf.column (l : leaf) : column :=
  { name := l.name, width := len l.name, rightAlign := decide (l.kind ≠ Kind.String),
    minWidth :=
      match ParseInt32 l.widthParam with
      | some w => if w > len l.name then w else len l.name
      | none => len l.name }

mutual
/-- Every leaf of a field, nested records flattened, in declaration order and
whatever the names of the records on the way. -/
def allLeaves (fieldName tag : String) (typ : GoType) : List leaf :=
  match typ with
  | .struct fields => allLeavesLoop fields
  | .basic k => [{ fieldName := fieldName, tag := tag, kind := k }]
termination_by structural typ
/-- Every leaf of a list of fields. -/
def allLeavesLoop : List (StructField GoType) → List leaf
  | [] => []
  | t :: rest => allLeaves t.Name t.Tag t.Item ++ allLeavesLoop rest
termination_by structural fields => fields
end

/-- The column names of a record type as the flattening rule reads when only
the leaves are filtered: the display names of all leaves of a kind that can
hold a column, kept when the name of the leaf itself is visible. -/
def leafFilteredNames (columnSet excludeSet : List (String × Bool))
    (fields : List (StructField GoType)) : List String :=
  ((allLeavesLoop fields).filter
    (fun l => !skippedKind l.kind && l.kind != Kind.Struct && visible columnSet excludeSet l.name)).map
    leaf.name

mutual
/-- The visible leaves of a field, in depth-first declaration order: none
when the display name of the field is hidden, the visible leaves of its fields
for a record, the field itself for a kind that can hold a column. -/
def typeLeaves (columnSet excludeSet : List (String × Bool)) (fieldName tag : String)
    (typ : GoType) : List leaf :=
  if !visible columnSet excludeSet (displayName fieldName tag) then []
  else
    match typ with
    | .struct fields => typeLeavesLoop columnSet excludeSet fields
    | .basic k =>
      if skippedKind k || k == Kind.Struct then []
      else [{ fieldName := fieldName, tag := tag, kind := k }]
termination_by structural typ
/-- The visible leaves of a list of fields. -/
def typeLeavesLoop (columnSet excludeSet : List (String × Bool)) :
    List (StructField GoType) → List leaf
  | [] => []
  | t :: rest =>
    typeLeaves columnSet excludeSet t.Name t.Tag t.Item ++ typeLeavesLoop columnSet excludeSet rest
termination_by structural fields => fields
end

/-- A field is exported when its declared name starts with an upper-case
letter. -/
def exported (fieldName : String) : Bool :=
  match fieldName.data with
  | [] => false
  | c :: _ => IsUpper c

/-- The name of the tag of a field when the tag has one, the declared name of
the field otherwise. -/
def tagOrDeclaredName (fieldName tag : String) : String :=
  match getTags tag with
  | some d => if d.Name ≠ "" then d.Name else fieldName
  | none => fieldName

mutual
/-- The leaves a field keeps, in depth-first declaration order: none unless
the field is exported and its tag or declared name is visible; then the kept
leaves of its fields for a record, the field itself for a kind that can hold
a column, and none for the other kinds. -/
def exportedLeaves (columnSet excludeSet : List (String × Bool)) (fieldName tag : String)
    (typ : GoType) : List leaf :=
  if exported fieldName && visible columnSet excludeSet (tagOrDeclaredName fieldName tag) then
    match typ with
    | .struct fields => exportedLeavesLoop columnSet excludeSet fields
    | .basic k =>
      if skippedKind k || k == Kind.Struct then []
      else [{ fieldName := fieldName, tag := tag, kind := k }]
  else []
termination_by structural typ
/-- The leaves a list of fields keeps. -/
def exportedLeavesLoop (columnSet excludeSet : List (String × Bool)) :
    List (StructField GoType) → List leaf
  | [] => []
  | t :: rest =>
    exportedLeaves columnSet excludeSet t.Name t.Tag t.Item ++
      exportedLeavesLoop columnSet excludeSet rest
termination_by structural fields => fields
end

/-- A visible leaf field of a record value: the leaf and the value it holds. -/
structure leafValue where
  fieldName : String
  tag : String
  value : Value

/-- The leaf of a leaf value. -/
def leafValue.leaf (lv : leafValue) : leaf :=
  { fieldName := lv.fieldName, tag := lv.tag, kind := lv.value.Kind }

/-- The text of the cell of a leaf value in a row of a sequence of records: the
default rendering, except that a `false` under the option `trueonly` is empty. -/
def leafValue.cell (lv : leafValue) : String :=
  match lv.value with
  | .bool false => if trueOnly (getTags lv.tag) then "" else "false"
  | v => sprintV v

/-- The row of a leaf value in a detail table: display name, default rendering. -/
def leafValue.detailRow (lv : leafValue) : List String :=
  [displayName lv.fieldName lv.tag, sprintV lv.value]

mutual
/-- The visible leaf values of a field of a record value, as `typeLeaves`. -/
def valueLeaves (columnSet excludeSet : List (String × Bool)) (fieldName tag : String)
    (value : Value) : List leafValue :=
  if !visible columnSet excludeSet (displayName fieldName tag) then []
  else
    match value with
    | .struct fields => valueLeavesLoop columnSet excludeSet fields
    | v =>
      if skippedKind v.Kind then []
      else [{ fieldName := fieldName, tag := tag, value := v }]
termination_by structural value
/-- The visible leaf values of a list of fields. -/
def valueLeavesLoop (columnSet excludeSet : List (String × Bool)) :
    List (StructField Value) → List leafValue
  | [] => []
  | f :: rest =>
    valueLeaves columnSet excludeSet f.Name f.Tag f.Item ++
      valueLeavesLoop columnSet excludeSet rest
termination_by structural fields => fields
end

/-- What a successful `setField` does to the column: widen it to the text. -/
def widen (s : String) (col : column) : column :=
  if col.width < len s then { col with width := len s } else col

/-- What an in-bounds `setField t r c s` leaves: the text in cell `c` of row
`r`, and column `c` widened to it. -/
def setCell (t : tabular) (r c : Nat) (s : String) : tabular :=
  { t with
    rows := t.rows.set r ((t.rows.getD r []).set c s),
    columns := t.columns.set c (widen s (t.columns.getD c
      { name := "", width := 0, rightAlign := false, minWidth := 0 })) }

/-- The texts set one after the other in row `r`, from column `c` on. -/
def applyCells (r : Nat) : Nat → List String → tabular → tabular
  | _, [], t => t
  | c, s :: rest, t => applyCells r (c + 1) rest (setCell t r c s)

/-- The texts of the cells of a record in a row of a sequence: the cells of
its visible leaf values, in order. -/
def recordCells (columnSet excludeSet : List (String × Bool)) (value : Value) : List String :=
  (valueLeavesLoop columnSet excludeSet value.fields).map leafValue.cell

/-- A table with one more row, every column widened to its cell of the row. -/
def addRecord (t : tabular) (cells : List String) : tabular :=
  { t with rows := t.rows ++ [cells], columns := List.zipWith widen cells t.columns }

/-- The table of a sequence of records of one type: the columns declared by
the visible leaves of the type, then one row per record, each widening the
columns to its cells. -/
def recordsTable (columnSet excludeSet : List (String × Bool)) (fields : List (StructField GoType))
    (items : List Value) : tabular :=
  items.foldl (fun t v => addRecord t (recordCells columnSet excludeSet v))
    { columns := (typeLeavesLoop columnSet excludeSet fields).map leaf.column, rows := [],
      columnSet := columnSet, excludeSet := excludeSet }

/-- Every header name and every cell fits the width of its column, and every
row has one cell per column. -/
def Covered (t : tabular) : Prop :=
  (∀ c ∈ t.columns, len c.name ≤ c.width) ∧
  ∀ row ∈ t.rows, List.Forall₂ (fun (col : column) (s : String) => len s ≤ col.width) t.columns row

/-- The items the formatter treats as scalars: strings, booleans and numbers. -/
def Value.isScalar : Value → Bool
  | .bool _ => true
  | .str _ => true
  | .other k _ =>
    match k with
    | .Chan | .Func | .Interface | .Map | .UnsafePointer => false
    | _ => true
  | _ => false

/-- The outcome of declaring the columns of a list of leaves on a table: the
parse error of the first leaf whose width hint is out of order, if there is
one, otherwise the table with the columns of the leaves added. -/
def headResult (table : tabular) (leaves : List leaf) : Except Error tabular :=
  match leaves.find? (fun l => !l.hintOk) with
  | some l => .error (.ParseInt l.widthParam)
  | none => .ok { table with columns := table.columns ++ leaves.map leaf.column }

/-- Row `r` exists and columns `c .. c+n-1` exist in the table and in the row. -/
def Fits (t : tabular) (r c n : Nat) : Prop :=
  r < t.rows.length ∧ c + n ≤ t.columns.length ∧ c + n ≤ (t.rows.getD r []).length

/-- A text padded with spaces to a width, on the left for a right-aligned
column and on the right otherwise. -/
def padText (width : Int) (rightAlign : Bool) (text : String) : String :=
  let fill := String.join (List.replicate (width - len text).toNat " ")
  if rightAlign then fill ++ text else text ++ fill

/-- One line of the aligned style: the texts padded to the widths of their
columns and joined by single spaces. -/
def alignedLine (columns : List column) (texts : List String) : String :=
  " ".intercalate (List.zipWith (fun col text => padText col.width col.rightAlign text)
    columns texts)

/-- What the markdown rule reads for a table when every row is taken as a
line: the names between bars, the separator line, then the cells of each row
between bars. -/
def markdownText (tablet : tabular) : String :=
  ("|" ++ "|".intercalate (tablet.columns.map column.name) ++ "|" ++ "\n") ++
  (String.join (List.replicate tablet.columns.length "|-") ++ "|" ++ "\n") ++
  String.join (tablet.rows.map (fun r => "|" ++ "|".intercalate r ++ "|" ++ "\n"))

/-- Every text of a line fits the width of its column, the line holding no
more texts than there are columns. -/
def lineFits : List column → List String → Bool
  | _, [] => true
  | [], _ :: _ => false
  | col :: columns, s :: texts => decide (len s ≤ col.width) && lineFits columns texts

/-- A run of spaces. -/
def spaces (n : Nat) : String := String.join (List.replicate n " ")

/-- The segment of a text in its column: `pad` spaces, the text padded to the
width of the column, `pad` spaces. -/
def segment (pad : Nat) (col : column) (text : String) : String :=
  spaces pad ++ padText col.width col.rightAlign text ++ spaces pad

/-- One line of the aligned style with its segments: the segments joined by
single spaces. -/
def spacedLine (columns : List column) (texts : List String) : String :=
  " ".intercalate (List.zipWith (segment 0) columns texts)

/-- One line of the grid style: a bar before every segment and at the end. -/
def gridLine (columns : List column) (texts : List String) : String :=
  String.join (List.zipWith (fun col text => "|" ++ segment 1 col text) columns texts) ++ "|"

/-- The rule line of the grid style: a plus sign, then for each column as many
dashes as its width and two more, and a plus sign. -/
def gridRule (columns : List column) : String :=
  "+" ++ String.join (columns.map
    (fun col => String.join (List.replicate (col.width + 2).toNat "-") ++ "+"))

/-- The lines of one row in the grid style, each ended by a line break; a
table without columns writes no line for a row. -/
def gridRows (columns : List column) (lines : List (List String)) : String :=
  if columns.length = 0 then ""
  else String.join (lines.map (fun l => gridLine columns l ++ "\n"))

/-- The text of a table in the grid style, given the physical lines of each
row: the rule, unless the header is suppressed the line of the names and the
rule, then for each row its lines and the rule. -/
def gridText (excludeHeader : Bool) (columns : List column)
    (rows : List (List (List String))) : String :=
  (gridRule columns ++ "\n") ++
  (if excludeHeader then ""
    else gridRows columns [columns.map column.name] ++ (gridRule columns ++ "\n")) ++
  String.join (rows.map (fun lines => gridRows columns lines ++ (gridRule columns ++ "\n")))

/-- The state a table must be in for the aligned layout: every name fits the
width and the minimum width of its column, every minimum width is at least 1,
and every text of a row fits the width of its column. -/
def Sound (t : tabular) : Prop :=
  (∀ c ∈ t.columns, len c.name ≤ c.width ∧ len c.name ≤ c.minWidth ∧ 1 ≤ c.minWidth) ∧
  ∀ row ∈ t.rows, lineFits t.columns row = true

/-- The assumption on the word wrapper for the texts of a table: wrapped at a
width of at least 1, a text of the table comes back as lines no longer than
the width and no longer than the text. -/
def WrapsWell (wrapText : String → Int → List String) (t : tabular) : Prop :=
  ∀ row ∈ t.rows, ∀ s ∈ row, ∀ w : Int, 1 ≤ w →
    ∀ l ∈ wrapText s w, len l ≤ w ∧ len l ≤ len s

/-- What the width negotiation may do to a column: keep it, or raise its
minimum width and set its width to the new minimum. -/
def Adjusted (c c' : column) : Prop :=
  c'.name = c.name ∧ c'.rightAlign = c.rightAlign ∧ c.minWidth ≤ c'.minWidth ∧
  (c' = c ∨ c'.width = c'.minWidth)

/-- The loop condition of `buildWrappedTable`: the terminal width is set and
the table is wider. -/
def wrapTriggered (t : tabular) (hasGrid : Bool) (pad : Int) (terminalWidth : Int) : Prop :=
  terminalWidth > 0 ∧ (calculateSpacing t hasGrid pad).2.1 > terminalWidth

/-- The lines of one row in the grid style; a table without columns has no
line for a row. -/
def gridRowLines (columns : List column) (lines : List (List String)) : List String :=
  if columns.length = 0 then [] else lines.map (gridLine columns)

/-- The lines of a table in the grid style, given the physical lines of each
row: the rule, unless the header is suppressed the line of the names and the
rule, then for each row its lines and the rule. -/
def gridLines (excludeHeader : Bool) (columns : List column)
    (rows : List (List (List String))) : List String :=
  gridRule columns ::
    ((if excludeHeader then []
      else gridRowLines columns [columns.map column.name] ++ [gridRule columns]) ++
    (rows.map (fun lines => gridRowLines columns lines ++ [gridRule columns])).flatten)

/-- The loop of `hardWrap`: `cur` holds the characters of the line being
filled, last first. -/
def hardWrapLoop (width : Nat) : List Char → List Char → List String
  | [], cur => [String.mk cur.reverse]
  | c :: rest, cur =>
    if width ≤ cur.length ∧ 0 < cur.length then
      String.mk cur.reverse :: hardWrapLoop width rest [c]
    else hardWrapLoop width rest (c :: cur)

/-- A wrapper for the concrete runs, standing for `wrapText` on a text without
blanks, which the word wrapper, breaking words, cuts into pieces of `width`
characters. -/
def hardWrap (text : String) (width : Int) : List String :=
  hardWrapLoop width.toNat text.data []

/-- The text in cell `c` of row `r`, `""` where the table has no such cell. -/
def cellAt (t : tabular) (r c : Nat) : String := (t.rows.getD r []).getD c ""

/-- The tables the reflect pass can build under an allow set and a deny set:
from the empty table, by declaring a column whose name is neither empty nor
"-" while the table has no row, by adding a row, and by setting a cell that is
still empty. -/
inductive Reach (cs xs : List (String × Bool)) : tabular → Prop
  | start : Reach cs xs (newTabular cs xs)
  | column {t t' : tabular} {name : String} {rightAlign : Bool} {hint : String} {c : Int} :
      Reach cs xs t → t.rows = [] → name ≠ "" → name ≠ "-" →
      addColumn t name rightAlign hint = .ok (t', c) → Reach cs xs t'
  | row {t : tabular} : Reach cs xs t → Reach cs xs (newRow t).1
  | field {t t' : tabular} {r c : Int} {s : String} :
      Reach cs xs t → cellAt t r.toNat c.toNat = "" → setField t r c s = .ok t' → Reach cs xs t'

/-- From column `col` on, the cells of row `row` are empty. -/
def EmptyFrom (t : tabular) (row col : Int) : Prop :=
  ∀ j : Nat, col ≤ (j : Int) → cellAt t row.toNat j = ""

/-- The largest of the length of a header name and the lengths of the cells of
column `k` in the rows. -/
def columnMax (name : String) (k : Nat) (rows : List (List String)) : Int :=
  (rows.map (fun row => len (row.getD k ""))).foldl max (len name)

/-! ## Table styles by name (`style.go`) -/

/-- Get the text style for a string: the style, and the error (`none` is `nil`). -/
def GetTextStyleFromString (style : String) : Int × Option Error :=
  if style = "plain" then (Plain, none)
  else if style = "" ∨ style = "aligned" then (Aligned, none)
  else if style = "grid" then (Grid, none)
  else (Plain, some (.UnknownStyleName style))

/-! ## The registry of formatters (`registry.go`) -/

/-- `NewFormatter`: a factory of formatters. A call gives the pair of a
formatter and an error, each of which may be `nil` (`none`); `φ` is the type
of the formatters. -/
abbrev NewFormatter (φ : Type) : Type := Unit → Option φ × Option Error

/-- The registry: the map from format names to factories; a `nil` factory is
`none`. -/
structure registry (φ : Type) where
  factories : List (String × Option (NewFormatter φ))

/-- Create a new registry. -/
def NewRegistry (φ : Type) : registry φ := { factories := [] }

/-- Register a formatter factory; passing `nil` binds the name to `nil`. -/
def Register {φ : Type} (r : registry φ) (format : String) (factory : Option (NewFormatter φ)) :
    registry φ :=
  { factories := mapSet r.factories format factory }

/-- The factory bound to a format name, `nil` when the name is unbound. -/
def getFactory {φ : Type} (r : registry φ) (format : String) : Option (NewFormatter φ) :=
  match r.factories.lookup format with
  | some factory => factory
  | none => none

/-- Get a formatter by its format name: the result of its factory, or the
unknown formatter error when the factory is `nil`. -/
def GetFormatter {φ : Type} (r : registry φ) (format : String) : Option φ × Option Error :=
  match getFactory r format with
  | none => (none, some (.UnknownFormatter format))
  | some factory => factory ()

/-- The text of an annotation before its first comma, the whole text when it
has no comma. -/
def firstToken (tag : String) : String :=
  String.mk (tag.data.takeWhile (fun c => c ≠ ','))

/-- What one token after the first adds to a descriptor: nothing when it is
empty once trimmed of spaces; the token as a true option when it has no `=`;
otherwise the parameter whose key is the text before the first `=` and whose
value is all the text after it. -/
def tokenStep (d : tagData) (token : String) : tagData :=
  let s := Trim token ' '
  let key := String.mk (s.data.takeWhile (fun c => c ≠ '='))
  let value := String.mk ((s.data.dropWhile (fun c => c ≠ '=')).drop 1)
  if s = "" then d
  else if '=' ∈ s.data then { d with Params := mapSet d.Params key value }
  else { d with Options := mapSet d.Options s true }

/-- The width a hint asks for: 0 for the empty hint, otherwise its number. -/
def hintValue (hint : String) : Option Int :=
  if hint = "" then some 0 else ParseInt32 hint

/-- The tables built from an empty table by successful calls of `addColumn`,
`newRow` and `setField`, each with the texts set in its columns so far, in
the order of the calls. -/
inductive Traced (columnSet excludeSet : List (String × Bool)) :
    tabular → List (List String) → Prop where
  | start : Traced columnSet excludeSet (newTabular columnSet excludeSet) []
  | column {t t' : tabular} {sets : List (List String)} {name : String} {rightAlign : Bool}
      {hint : String} {c : Int} :
      Traced columnSet excludeSet t sets → addColumn t name rightAlign hint = .ok (t', c) →
      Traced columnSet excludeSet t' (sets ++ [[]])
  | row {t : tabular} {sets : List (List String)} :
      Traced columnSet excludeSet t sets → Traced columnSet excludeSet (newRow t).1 sets
  | field {t t' : tabular} {sets : List (List String)} {r c : Int} {s : String} :
      Traced columnSet excludeSet t sets → setField t r c s = .ok t' →
      Traced columnSet excludeSet t' (sets.set c.toNat (sets.getD c.toNat [] ++ [s]))

/-- The largest of the length of a name and the lengths of texts. -/
def widest (name : String) (texts : List String) : Int :=
  texts.foldl (fun w s => max w (len s)) (len name)

/-- The registry after a sequence of `Register` calls on a new registry. -/
def registerAll {φ : Type} (calls : List (String × Option (NewFormatter φ))) : registry φ :=
  calls.foldl (fun r call => Register r call.1 call.2) (NewRegistry φ)

/-- The factory of the most recent call that registered a name, `none` when
no call registered it. -/
def lastRegistered {φ : Type} (calls : List (String × Option (NewFormatter φ))) (name : String) :
    Option (Option (NewFormatter φ)) :=
  ((calls.filter (fun call => call.1 = name)).getLast?).map Prod.snd

/-- The widths of a table follow the texts set in its columns: there is one
list of texts per column, the width of each column is the largest of the
length of its name and the lengths of its texts, and every stored cell lies
in a column and is no longer than the width of that column. -/
def Tracked (t : tabular) (sets : List (List String)) : Prop :=
  sets.length = t.columns.length ∧
  (∀ (k : Nat) (col : column), t.columns[k]? = some col →
    col.width = widest col.name (sets.getD k [])) ∧
  ∀ (r : Nat) (row : List String) (k : Nat) (s : String), t.rows[r]? = some row →
    row[k]? = some s → ∃ col : column, t.columns[k]? = some col ∧ len s ≤ col.width

/-- From one table to the next, every column stays in its place under its
name and is no narrower than before. -/
def NoNarrower (t t' : tabular) : Prop :=
  ∀ (k : Nat) (col : column), t.columns[k]? = some col →
    ∃ col' : column, t'.columns[k]? = some col' ∧ col'.name = col.name ∧ col.width ≤ col'.width

/-- Formats returns the supported formats: each key of the map once. Go
leaves the order open; here it is the order of the bindings. -/
def Formats {φ : Type} (r : registry φ) : List String :=
  (r.factories.map Prod.fst).dedup

/-! ## Sets given as lists (`cliflags/flags.go`) -/

/-- The loop of `mapFromList` over the items. -/
def mapFromListLoop : List String → List (String × Bool) → List (String × Bool)
  | [], m => m
  | s :: items, m =>
    let s := ToLower (Trim s ' ')
    if s ≠ "" then mapFromListLoop items (mapSet m s true) else mapFromListLoop items m

/-- The set of the items of a comma-separated list. -/
def mapFromList (list : String) : List (String × Bool) :=
  mapFromListLoop (Split list ',') []

/-- The tokens of a comma-separated list: its pieces trimmed of spaces and in
lower case, the empty ones left out. -/
def listTokens (list : String) : List String :=
  ((Split list ',').map (fun s => ToLower (Trim s ' '))).filter (fun s => s ≠ "")

/-- The room a column has above its minimum width, 0 when it has none. -/
def slack (col : column) : Int := max 0 (col.width - col.minWidth)

/-- A column that received units in the width negotiation: as it was for no
unit, otherwise its minimum width raised by the units and its width set to
the new minimum width. -/
def give (units : Int) (col : column) : column :=
  if units > 0 then
    { col with minWidth := col.minWidth + units, width := col.minWidth + units }
  else col

/-- The columns after `R` rounds of the width negotiation: each column has
received one unit per round while it had room. -/
def afterRounds (R : Nat) (columns : List column) : List column :=
  columns.map (fun col => give (min (slack col) R) col)

/-- The units handed out in `R` rounds. -/
def unitsGiven (R : Nat) (columns : List column) : Int :=
  (columns.map (fun col => min (slack col) R)).sum

/-- The loop variables of `calcWidths` after `R` rounds on the columns, from
the budget `available`. -/
def roundState (columns : List column) (available : Int) (R : Nat) : widthState :=
  { columns := afterRounds R columns,
    needed := columns.map (fun col => slack col - min (slack col) R),
    available := available - unitsGiven R columns,
    totalNeeded := (columns.map slack).sum - unitsGiven R columns }

/-- What the loop of `calcWidths` keeps true of its variables: one need per
column, no need negative, and the total the sum of the needs. -/
def LoopInv (st : widthState) : Prop :=
  st.needed.length = st.columns.length ∧ (∀ n ∈ st.needed, 0 ≤ n) ∧
  st.totalNeeded = st.needed.sum

/-- The physical lines of a row whose cells are wrapped at the given widths:
as many lines as the cell with the most lines has, at least one; line `j`
holds, for each of the `c` columns, line `j` of the cell of the column, and
the empty text when the cell has no such line or the row no such cell. -/
def physicalLines (wrapText : String → Int → List String) (widths : List Int) (c : Nat)
    (row : List String) : List (List String) :=
  let wrapped := List.zipWith wrapText row widths
  (List.range ((wrapped.map List.length).foldr max 1)).map
    (fun j => (List.range c).map (fun i => (wrapped.getD i []).getD j ""))

/-! # Properties -/

/-! ## Visibility of a column -/

/-- C5: `shouldOutputColumn` answers true exactly for a name that is neither
`""` nor `"-"`, whose lower case is in the allow set unless that set is empty,
and whose lower case is not in the deny set; a name in both sets is hidden.
A set is empty when it has no key and holds a name when `m[name]` is true. -/
theorem shouldOutputColumn_iff (tablet : tabular) (name : String) :
    (shouldOutputColumn tablet name = true ↔
      name ≠ "" ∧ name ≠ "-" ∧
      (mapLen tablet.columnSet = 0 ∨ mapGet tablet.columnSet (ToLower name) = true) ∧
      mapGet tablet.excludeSet (ToLower name) = false) ∧
    (mapGet tablet.columnSet (ToLower name) = true →
      mapGet tablet.excludeSet (ToLower name) = true → shouldOutputColumn tablet name = false) := by
  unfold shouldOutputColumn
  constructor
  · by_cases h1 : name = "" ∨ name = "-"
    · rcases h1 with h | h <;> simp [h]
    · push_neg at h1
      simp only [h1.1, h1.2, or_self, if_false]
      cases hx : mapGet tablet.excludeSet (ToLower name) <;>
        cases hc : mapGet tablet.columnSet (ToLower name) <;>
        simp [Nat.pos_iff_ne_zero, h1.1, h1.2]
  · intro _ hx
    simp [hx]

/-- The name "A" is in the allow set and in the deny set, and is hidden. -/
theorem shouldOutputColumn_iff_witness :
    mapGet [("a", true)] (ToLower "A") = true ∧ mapGet [("a", true)] (ToLower "A") = true ∧
    shouldOutputColumn (newTabular [("a", true)] [("a", true)]) "A" = false :=
  ⟨by decide, by decide,
    (shouldOutputColumn_iff (newTabular [("a", true)] [("a", true)]) "A").2 (by decide) (by decide)⟩

/-! ## Plain layout -/

theorem join_nil : String.join [] = "" := rfl

theorem join_cons (a : String) (l : List String) : String.join (a :: l) = a ++ String.join l := by
  apply String.ext
  simp [String.join_eq, String.data_append]

theorem join_append (l₁ l₂ : List String) :
    String.join (l₁ ++ l₂) = String.join l₁ ++ String.join l₂ := by
  apply String.ext
  simp [String.join_eq, String.data_append]

theorem intercalate_go_eq (sep : String) (l : List String) (acc : String) :
    String.intercalate.go acc sep l = acc ++ String.join (l.map (fun x => sep ++ x)) := by
  induction l generalizing acc with
  | nil => simp [String.intercalate.go, join_nil]
  | cons a l ih =>
    simp only [String.intercalate.go, ih, List.map_cons, join_cons, String.append_assoc]

theorem intercalate_cons (sep a : String) (l : List String) :
    sep.intercalate (a :: l) = a ++ String.join (l.map (fun x => sep ++ x)) := by
  simp [String.intercalate, intercalate_go_eq]

/-- Once the first field is out, the row loop appends the separator and the
field for every remaining field. -/
theorem writePlainRowLoop_succ (sep : String) (row : List String) (i : Nat) (out : String) :
    writePlainRowLoop sep row (i + 1) sep out = out ++ String.join (row.map (fun x => sep ++ x)) := by
  induction row generalizing i out with
  | nil => simp [writePlainRowLoop, join_nil]
  | cons a l ih => simp [writePlainRowLoop, ih, join_cons, String.append_assoc]

theorem writePlainHeaderLoop_succ (sep : String) (cols : List column) (i : Nat) (out : String) :
    writePlainHeaderLoop sep cols (i + 1) sep out =
      out ++ String.join (cols.map (fun c => sep ++ c.name)) := by
  induction cols generalizing i out with
  | nil => simp [writePlainHeaderLoop, join_nil]
  | cons a l ih => simp [writePlainHeaderLoop, ih, join_cons, String.append_assoc]

theorem writePlainRow_eq (out : String) (row : List String) (sep : String) :
    writePlainRow out row sep = if row = [] then out else out ++ (sep.intercalate row ++ "\n") := by
  cases row with
  | nil => simp [writePlainRow]
  | cons a l =>
    simp [writePlainRow, writePlainRowLoop, writePlainRowLoop_succ, intercalate_cons,
      String.append_assoc]

theorem writePlainHeader_eq (tablet : tabular) (out : String) (sep : String) :
    writePlainHeader tablet out sep =
      if tablet.columns = [] then out
      else out ++ (sep.intercalate (tablet.columns.map (fun c => c.name)) ++ "\n") := by
  unfold writePlainHeader
  cases h : tablet.columns with
  | nil => simp
  | cons a l =>
    simp [writePlainHeaderLoop, writePlainHeaderLoop_succ, intercalate_cons,
      String.append_assoc, List.map_map, Function.comp_def]

theorem writePlainRows_eq (sep : String) (rows : List (List String)) (out : String) :
    writePlainRows sep rows out =
      out ++ String.join ((rows.filter (fun r => decide (r ≠ []))).map
        (fun r => sep.intercalate r ++ "\n")) := by
  induction rows generalizing out with
  | nil => simp [writePlainRows, join_nil]
  | cons r rest ih =>
    simp only [writePlainRows, ih, writePlainRow_eq]
    by_cases hr : r = []
    · simp [hr]
    · simp [hr, List.filter_cons, join_cons, String.append_assoc]

/-- C10: the output of `writePlain` is, unless the header is suppressed or the
table has no column, the column names joined by the separator and a line
break, then for each row with at least one cell, in row order, its cells joined
by the separator and a line break. -/
theorem writePlain_eq (tablet : tabular) (out : String) (excludeHeader : Bool) (sep : String) :
    writePlain tablet out excludeHeader sep =
      out ++
      (if excludeHeader = false ∧ tablet.columns ≠ []
        then sep.intercalate (tablet.columns.map (fun c => c.name)) ++ "\n" else "") ++
      String.join ((tablet.rows.filter (fun r => decide (r ≠ []))).map
        (fun r => sep.intercalate r ++ "\n")) := by
  unfold writePlain
  rw [writePlainRows_eq, writePlainHeader_eq]
  cases excludeHeader <;> by_cases hc : tablet.columns = [] <;> simp [hc, String.append_assoc]

/-! ## Declaring columns -/

/-- A successful `addColumn` appends one column with the given name and
alignment, whose width is the length of the name. -/
theorem addColumn_ok (tablet : tabular) (name : String) (rightAlign : Bool) (wrapFmt : String)
    (t : tabular) (c : Int) (h : addColumn tablet name rightAlign wrapFmt = .ok (t, c)) :
    ∃ minWidth, t = { tablet with columns := tablet.columns ++
        [{ name := name, width := len name, rightAlign := rightAlign, minWidth := minWidth }] } ∧
      c = tablet.columns.length := by
  unfold addColumn at h
  by_cases hw : wrapFmt = ""
  · simp [hw] at h
    exact ⟨len name, h.1.symm, h.2.symm⟩
  · simp only [ne_eq, hw, not_false_eq_true, if_true] at h
    cases hp : ParseInt32 wrapFmt with
    | none => simp [hp] at h
    | some w =>
      simp only [hp, Except.ok.injEq, Prod.mk.injEq] at h
      exact ⟨_, h.1.symm, h.2.symm⟩

/-- `addColumn` succeeds exactly when the width hint is empty or a 32-bit
decimal integer. -/
theorem addColumn_isOk (tablet : tabular) (name : String) (rightAlign : Bool) (wrapFmt : String)
    (h : wrapFmt = "" ∨ ParseInt32 wrapFmt ≠ none) :
    ∃ t, addColumn tablet name rightAlign wrapFmt = .ok (t, (tablet.columns.length : Int)) := by
  unfold addColumn
  by_cases hw : wrapFmt = ""
  · simp [hw]
  · rcases h with h | h
    · exact absurd h hw
    · cases hp : ParseInt32 wrapFmt with
      | none => exact absurd hp h
      | some w => simp [hw]

/-- C9: on a visible field of a kind that holds a column, `reflectFieldHead`
declares a column that is left-aligned exactly when the kind is `String` and
right-aligned for every other kind; it does so whenever the width hint of the
field is absent or a 32-bit decimal integer. -/
theorem reflectFieldHead_rightAlign (table : tabular) (fieldName tag : String) (k : Kind)
    (hvis : shouldOutputColumn table (getFieldName fieldName (getTags tag)) = true)
    (hk : k ∉ [Kind.Array, Kind.Slice, Kind.Func, Kind.Map, Kind.Ptr, Kind.Interface, Kind.Struct]) :
    (∀ table', reflectFieldHead table fieldName tag (.basic k) = .ok table' →
      ∃ col, table'.columns = table.columns ++ [col] ∧
        col.name = getFieldName fieldName (getTags tag) ∧
        (col.rightAlign = false ↔ k = Kind.String) ∧
        (col.rightAlign = true ↔ k ≠ Kind.String)) ∧
    ((getWidthParam (getTags tag) = "" ∨ ParseInt32 (getWidthParam (getTags tag)) ≠ none) →
      ∃ table', reflectFieldHead table fieldName tag (.basic k) = .ok table') := by
  have key : reflectFieldHead table fieldName tag (.basic k) =
      match addColumn table (getFieldName fieldName (getTags tag)) (decide (k ≠ Kind.String))
        (getWidthParam (getTags tag)) with
      | .error e => .error e
      | .ok (t, _) => .ok t := by
    rw [reflectFieldHead.eq_def]
    simp only [hvis, Bool.not_true, Bool.false_eq_true, if_false]
    cases k <;> first | rfl | (exfalso; simp at hk)
  rw [key]
  constructor
  · intro table' h
    cases ha : addColumn table (getFieldName fieldName (getTags tag)) (decide (k ≠ Kind.String))
        (getWidthParam (getTags tag)) with
    | error e => rw [ha] at h; simp at h
    | ok p =>
      obtain ⟨t, c⟩ := p
      rw [ha] at h
      simp only [Except.ok.injEq] at h
      obtain ⟨mw, ht, _⟩ := addColumn_ok _ _ _ _ _ _ ha
      subst h
      refine ⟨_, by rw [ht], rfl, ?_, ?_⟩ <;> simp
  · intro h
    obtain ⟨t, ht⟩ := addColumn_isOk table (getFieldName fieldName (getTags tag))
      (decide (k ≠ Kind.String)) _ h
    exact ⟨t, by rw [ht]⟩

/-! ## Setting cells -/

/-- An in-bounds `setField` stores the text and widens the column when the
text is longer than its width. -/
theorem setField_ok (t : tabular) (row col : Nat) (s : String) (cells : List String)
    (col0 : column) (hr : t.rows.get? row = some cells) (hcol : t.columns.get? col = some col0)
    (hc : col < cells.length) :
    setField t (row : Int) (col : Int) s =
      .ok { t with
        rows := t.rows.set row (cells.set col s),
        columns := t.columns.set col
          (if col0.width < len s then { col0 with width := len s } else col0) } := by
  have h1 : row < t.rows.length := by
    rcases Nat.lt_or_ge row t.rows.length with h | h
    · exact h
    · rw [List.get?_eq_none.2 h] at hr; cases hr
  have h2 : col < t.columns.length := by
    rcases Nat.lt_or_ge col t.columns.length with h | h
    · exact h
    · rw [List.get?_eq_none.2 h] at hcol; cases hcol
  unfold setField
  have e1 : ¬ ((col : Int) < 0 ∨ (col : Int) ≥ (t.columns.length : Int)) := by omega
  have e2 : ¬ ((row : Int) < 0 ∨ (row : Int) ≥ (t.rows.length : Int)) := by omega
  simp only [e1, e2, if_false, Int.toNat_ofNat, hr, hcol, hc, if_true]

/-- C7: in a row of a sequence of records, the cell that `reflectFieldValue`
sets for a visible `bool` field is `""` for false and `"true"` for true when
the tag carries the option `trueonly`, and `"false"` or `"true"` when it does
not; the next free column is the one after it. -/
theorem reflectFieldValue_bool (table : tabular) (row col : Nat) (fieldName tag : String)
    (b : Bool) (cells : List String)
    (hvis : shouldOutputColumn table (getFieldName fieldName (getTags tag)) = true)
    (hr : table.rows.get? row = some cells) (hcol : col < table.columns.length)
    (hc : col < cells.length) :
    ∃ t', reflectFieldValue table (row : Int) (col : Int) fieldName tag (.bool b) =
        .ok (t', (col : Int) + 1) ∧
      t'.rows.get? row = some (cells.set col
        (if trueOnly (getTags tag) then (if b then "true" else "")
         else (if b then "true" else "false"))) := by
  obtain ⟨col0, hcol0⟩ : ∃ c, table.columns.get? col = some c :=
    ⟨_, List.get?_eq_get hcol⟩
  have hrl : row < table.rows.length := by
    rcases Nat.lt_or_ge row table.rows.length with h | h
    · exact h
    · rw [List.get?_eq_none.2 h] at hr; cases hr
  rw [reflectFieldValue.eq_def]
  simp only [hvis, Bool.not_true, Bool.false_eq_true, if_false]
  cases ht : trueOnly (getTags tag) <;> cases b <;>
    simp [setField_ok table row col _ cells col0 hr hcol0 hc, hrl]

/-! ## The header pass -/

theorem shouldOutputColumn_eq_visible (t : tabular) (name : String) :
    shouldOutputColumn t name = visible t.columnSet t.excludeSet name := rfl

theorem len_nonneg (s : String) : 0 ≤ len s := by
  unfold len; exact Int.ofNat_nonneg _

/-- A column is declared from a leaf whenever its hint is in order. -/
theorem addColumn_leaf (table : tabular) (l : leaf) (h : l.hintOk = true) :
    addColumn table l.name (decide (l.kind ≠ Kind.String)) l.widthParam =
      .ok ({ table with columns := table.columns ++ [l.column] }, (table.columns.length : Int)) := by
  unfold leaf.hintOk at h
  unfold addColumn leaf.column
  by_cases hw : l.widthParam = ""
  · have hp : ParseInt32 "" = none := by decide
    simp [hw, hp]
  · simp [hw] at h
    obtain ⟨w, hw'⟩ := Option.isSome_iff_exists.1 h
    simp [hw, hw']

theorem reflectFieldHead_hidden (table : tabular) (fieldName tag : String) (typ : GoType)
    (hv : visible table.columnSet table.excludeSet (displayName fieldName tag) = false) :
    reflectFieldHead table fieldName tag typ = .ok table := by
  rw [reflectFieldHead.eq_def]
  simp only [shouldOutputColumn_eq_visible]
  simp only [displayName] at hv
  simp [hv]

theorem reflectFieldHead_struct (table : tabular) (fieldName tag : String)
    (fields : List (StructField GoType))
    (hv : visible table.columnSet table.excludeSet (displayName fieldName tag) = true) :
    reflectFieldHead table fieldName tag (.struct fields) = reflectFieldHeadLoop table fields := by
  rw [reflectFieldHead.eq_def]
  simp only [shouldOutputColumn_eq_visible]
  simp only [displayName] at hv
  simp [hv]

theorem reflectFieldHead_basic (table : tabular) (fieldName tag : String) (k : Kind)
    (hv : visible table.columnSet table.excludeSet (displayName fieldName tag) = true) :
    reflectFieldHead table fieldName tag (.basic k) =
      if skippedKind k || k == Kind.Struct then .ok table
      else
        match addColumn table (displayName fieldName tag) (decide (k ≠ Kind.String))
          (getWidthParam (getTags tag)) with
        | .error e => .error e
        | .ok (t, _) => .ok t := by
  rw [reflectFieldHead.eq_def]
  simp only [shouldOutputColumn_eq_visible]
  simp only [displayName] at hv
  simp only [hv, Bool.not_true, Bool.false_eq_true, if_false]
  cases k <;> rfl

theorem typeLeaves_hidden (cs xs : List (String × Bool)) (fieldName tag : String) (typ : GoType)
    (hv : visible cs xs (displayName fieldName tag) = false) :
    typeLeaves cs xs fieldName tag typ = [] := by
  rw [typeLeaves.eq_def]; simp [hv]

theorem typeLeaves_struct (cs xs : List (String × Bool)) (fieldName tag : String)
    (fields : List (StructField GoType))
    (hv : visible cs xs (displayName fieldName tag) = true) :
    typeLeaves cs xs fieldName tag (.struct fields) = typeLeavesLoop cs xs fields := by
  rw [typeLeaves.eq_def]; simp [hv]

theorem typeLeaves_basic (cs xs : List (String × Bool)) (fieldName tag : String) (k : Kind)
    (hv : visible cs xs (displayName fieldName tag) = true) :
    typeLeaves cs xs fieldName tag (.basic k) =
      if skippedKind k || k == Kind.Struct then []
      else [{ fieldName := fieldName, tag := tag, kind := k }] := by
  rw [typeLeaves.eq_def]; simp [hv]

theorem addColumn_bad_hint (table : tabular) (l : leaf) (h : l.hintOk = false) :
    addColumn table l.name (decide (l.kind ≠ Kind.String)) l.widthParam =
      .error (.ParseInt l.widthParam) := by
  unfold leaf.hintOk at h
  simp only [Bool.or_eq_false_iff, decide_eq_false_iff_not] at h
  obtain ⟨h1, h2⟩ := h
  have h3 : ParseInt32 l.widthParam = none := by
    cases hp : ParseInt32 l.widthParam with
    | none => rfl
    | some w => rw [hp] at h2; simp at h2
  unfold addColumn
  simp [h1, h3]

theorem headResult_nil (table : tabular) : headResult table [] = .ok table := by
  simp [headResult]

theorem headResult_append (table : tabular) (a b : List leaf) :
    headResult table (a ++ b) =
      match headResult table a with
      | .error e => .error e
      | .ok t => headResult t b := by
  unfold headResult
  rw [List.find?_append]
  cases ha : a.find? (fun l => !l.hintOk) with
  | some l => simp
  | none =>
    cases hb : b.find? (fun l => !l.hintOk) with
    | some l => simp [hb]
    | none => simp [hb]

theorem headResult_ok (table : tabular) (leaves : List leaf)
    (h : ∀ l ∈ leaves, l.hintOk = true) :
    headResult table leaves =
      .ok { table with columns := table.columns ++ leaves.map leaf.column } := by
  have : leaves.find? (fun l => !l.hintOk) = none := by
    rw [List.find?_eq_none]
    intro l hl
    simp [h l hl]
  simp [headResult, this]

theorem headResult_sets (table t : tabular) (leaves : List leaf)
    (h : headResult table leaves = .ok t) :
    t.columnSet = table.columnSet ∧ t.excludeSet = table.excludeSet := by
  unfold headResult at h
  cases hf : leaves.find? (fun l => !l.hintOk) with
  | some l => rw [hf] at h; simp at h
  | none =>
    rw [hf] at h
    simp only [Except.ok.injEq] at h
    subst h
    exact ⟨rfl, rfl⟩

mutual
/-- The header pass of one field declares the columns of its visible leaves,
or fails at the first of them whose width hint is out of order. -/
theorem reflectFieldHead_result : ∀ (typ : GoType) (table : tabular) (fieldName tag : String),
    reflectFieldHead table fieldName tag typ =
      headResult table (typeLeaves table.columnSet table.excludeSet fieldName tag typ)
  | .struct fields, table, fieldName, tag => by
    cases hv : visible table.columnSet table.excludeSet (displayName fieldName tag)
    · rw [reflectFieldHead_hidden _ _ _ _ hv, typeLeaves_hidden _ _ _ _ _ hv, headResult_nil]
    · rw [typeLeaves_struct _ _ _ _ _ hv, reflectFieldHead_struct _ _ _ _ hv]
      exact reflectFieldHeadLoop_result fields table
  | .basic k, table, fieldName, tag => by
    cases hv : visible table.columnSet table.excludeSet (displayName fieldName tag)
    · rw [reflectFieldHead_hidden _ _ _ _ hv, typeLeaves_hidden _ _ _ _ _ hv, headResult_nil]
    · rw [typeLeaves_basic _ _ _ _ _ hv, reflectFieldHead_basic _ _ _ _ hv]
      cases hk : (skippedKind k || k == Kind.Struct)
      · simp only [Bool.false_eq_true, if_false]
        cases hh : leaf.hintOk { fieldName := fieldName, tag := tag, kind := k }
        · have := addColumn_bad_hint table { fieldName := fieldName, tag := tag, kind := k } hh
          simp only [leaf.name, leaf.widthParam] at this
          rw [this]
          simp [headResult, hh, leaf.widthParam]
        · have := addColumn_leaf table { fieldName := fieldName, tag := tag, kind := k } hh
          simp only [leaf.name, leaf.widthParam] at this
          rw [this]
          simp [headResult, hh]
      · simp [headResult_nil]
/-- The header pass of a list of fields. -/
theorem reflectFieldHeadLoop_result : ∀ (fields : List (StructField GoType)) (table : tabular),
    reflectFieldHeadLoop table fields =
      headResult table (typeLeavesLoop table.columnSet table.excludeSet fields)
  | [], table => by
    simp [reflectFieldHeadLoop, typeLeavesLoop, headResult_nil]
  | t :: rest, table => by
    rw [reflectFieldHeadLoop, typeLeavesLoop, headResult_append,
      reflectFieldHead_result t.Item table t.Name t.Tag]
    cases hr : headResult table (typeLeaves table.columnSet table.excludeSet t.Name t.Tag t.Item)
      with
    | error e => rfl
    | ok t1 =>
      obtain ⟨h1, h2⟩ := headResult_sets _ _ _ hr
      simp only
      rw [reflectFieldHeadLoop_result rest t1, h1, h2]
end

/-- With every width hint in order, the header pass adds the columns of the
visible leaves. -/
theorem reflectFieldHeadLoop_eq (fields : List (StructField GoType)) (table : tabular)
    (h : ∀ l ∈ typeLeavesLoop table.columnSet table.excludeSet fields, l.hintOk = true) :
    reflectFieldHeadLoop table fields =
      .ok { table with columns := table.columns ++
        (typeLeavesLoop table.columnSet table.excludeSet fields).map leaf.column } := by
  rw [reflectFieldHeadLoop_result, headResult_ok _ _ h]

/-! ## The row pass -/



theorem setField_eq_setCell (t : tabular) (r c : Nat) (s : String) (h : Fits t r c 1) :
    setField t (r : Int) (c : Int) s = .ok (setCell t r c s) := by
  obtain ⟨h1, h2, h3⟩ := h
  unfold setField setCell
  have e1 : ¬ ((c : Int) < 0 ∨ (c : Int) ≥ (t.columns.length : Int)) := by omega
  have e2 : ¬ ((r : Int) < 0 ∨ (r : Int) ≥ (t.rows.length : Int)) := by omega
  have hr : t.rows.get? r = some (t.rows.getD r []) := by
    rw [List.getD_eq_getElem?_getD, List.get?_eq_getElem?, List.getElem?_eq_getElem h1]; simp
  have hc : t.columns.get? c = some (t.columns.getD c ⟨"", 0, false, 0⟩) := by
    rw [List.getD_eq_getElem?_getD, List.get?_eq_getElem?, List.getElem?_eq_getElem (by omega)]
    simp
  have h3' : c < (t.rows.getD r []).length := by omega
  simp only [e1, e2, if_false, Int.toNat_ofNat, hr, hc, h3', if_true, widen]

@[simp] theorem setCell_columnSet (t : tabular) (r c : Nat) (s : String) :
    (setCell t r c s).columnSet = t.columnSet := rfl

@[simp] theorem setCell_excludeSet (t : tabular) (r c : Nat) (s : String) :
    (setCell t r c s).excludeSet = t.excludeSet := rfl

@[simp] theorem setCell_rows_length (t : tabular) (r c : Nat) (s : String) :
    (setCell t r c s).rows.length = t.rows.length := by simp [setCell]

@[simp] theorem setCell_columns_length (t : tabular) (r c : Nat) (s : String) :
    (setCell t r c s).columns.length = t.columns.length := by simp [setCell]

theorem setCell_row_length (t : tabular) (r c : Nat) (s : String) (r' : Nat) :
    ((setCell t r c s).rows.getD r' []).length = (t.rows.getD r' []).length := by
  simp only [setCell, List.getD_eq_getElem?_getD, List.getElem?_set]
  by_cases h : r = r'
  · subst h
    by_cases h' : r < t.rows.length
    · simp [h']
    · have : t.rows[r]? = none := List.getElem?_eq_none (by omega)
      simp [h', this]
  · simp [h]

theorem setCell_fits (t : tabular) (r c : Nat) (s : String) (r' c' n : Nat) :
    Fits (setCell t r c s) r' c' n ↔ Fits t r' c' n := by
  rw [Fits, Fits, setCell_row_length]; simp

@[simp] theorem applyCells_columnSet (r : Nat) (cells : List String) (c : Nat) (t : tabular) :
    (applyCells r c cells t).columnSet = t.columnSet := by
  induction cells generalizing c t with
  | nil => rfl
  | cons s rest ih => simp [applyCells, ih]

@[simp] theorem applyCells_excludeSet (r : Nat) (cells : List String) (c : Nat) (t : tabular) :
    (applyCells r c cells t).excludeSet = t.excludeSet := by
  induction cells generalizing c t with
  | nil => rfl
  | cons s rest ih => simp [applyCells, ih]

theorem applyCells_fits (r : Nat) (cells : List String) (c : Nat) (t : tabular) (r' c' n : Nat) :
    Fits (applyCells r c cells t) r' c' n ↔ Fits t r' c' n := by
  induction cells generalizing c t with
  | nil => rfl
  | cons s rest ih => simp [applyCells, ih, setCell_fits]

theorem applyCells_append (r : Nat) (a b : List String) (c : Nat) (t : tabular) :
    applyCells r c (a ++ b) t = applyCells r (c + a.length) b (applyCells r c a t) := by
  induction a generalizing c t with
  | nil => simp [applyCells]
  | cons s rest ih =>
    rw [List.cons_append, applyCells, applyCells, ih, List.length_cons,
      show c + (rest.length + 1) = c + 1 + rest.length by omega]

theorem Fits.mono {t : tabular} {r c n : Nat} (h : Fits t r c n) {c' n' : Nat}
    (hc : c' + n' ≤ c + n) : Fits t r c' n' :=
  ⟨h.1, by have := h.2.1; omega, by have := h.2.2; omega⟩

theorem reflectFieldValue_hidden (table : tabular) (row col : Int) (fieldName tag : String)
    (value : Value)
    (hv : visible table.columnSet table.excludeSet (displayName fieldName tag) = false) :
    reflectFieldValue table row col fieldName tag value = .ok (table, col) := by
  rw [reflectFieldValue.eq_def]
  simp only [shouldOutputColumn_eq_visible]
  simp only [displayName] at hv
  simp [hv]

theorem reflectFieldValue_struct (table : tabular) (row col : Int) (fieldName tag : String)
    (fields : List (StructField Value))
    (hv : visible table.columnSet table.excludeSet (displayName fieldName tag) = true) :
    reflectFieldValue table row col fieldName tag (.struct fields) =
      reflectFieldValueLoop table row col fields := by
  rw [reflectFieldValue.eq_def]
  simp only [shouldOutputColumn_eq_visible]
  simp only [displayName] at hv
  simp [hv]

/-- On a visible field that is no record, `reflectFieldValue` skips the kinds
without a column and otherwise sets one cell to the text of the leaf. -/
theorem reflectFieldValue_leaf (table : tabular) (row col : Int) (fieldName tag : String)
    (value : Value) (hs : ∀ fields, value ≠ .struct fields)
    (hv : visible table.columnSet table.excludeSet (displayName fieldName tag) = true) :
    reflectFieldValue table row col fieldName tag value =
      if skippedKind value.Kind then .ok (table, col)
      else
        match setField table row col
          (leafValue.cell { fieldName := fieldName, tag := tag, value := value }) with
        | .error e => .error e
        | .ok t => .ok (t, col + 1) := by
  rw [reflectFieldValue.eq_def]
  simp only [shouldOutputColumn_eq_visible]
  simp only [displayName] at hv
  simp only [hv, Bool.not_true, Bool.false_eq_true, if_false]
  cases value with
  | struct fields => exact absurd rfl (hs fields)
  | seq slice items => cases slice <;> simp [Value.Kind, skippedKind]
  | ptr e text => simp [Value.Kind, skippedKind]
  | str s => simp [Value.Kind, skippedKind, leafValue.cell, sprintV]
  | bool b =>
    cases b <;> cases ht : trueOnly (getTags tag) <;>
      simp [Value.Kind, skippedKind, leafValue.cell, sprintV, ht]
  | other k text =>
    cases k <;> simp [Value.Kind, skippedKind, leafValue.cell, sprintV, OtherKind.toKind]

theorem valueLeaves_hidden (cs xs : List (String × Bool)) (fieldName tag : String) (value : Value)
    (hv : visible cs xs (displayName fieldName tag) = false) :
    valueLeaves cs xs fieldName tag value = [] := by
  rw [valueLeaves.eq_def]; simp [hv]

theorem valueLeaves_struct (cs xs : List (String × Bool)) (fieldName tag : String)
    (fields : List (StructField Value))
    (hv : visible cs xs (displayName fieldName tag) = true) :
    valueLeaves cs xs fieldName tag (.struct fields) = valueLeavesLoop cs xs fields := by
  rw [valueLeaves.eq_def]; simp [hv]

theorem valueLeaves_leaf (cs xs : List (String × Bool)) (fieldName tag : String) (value : Value)
    (hs : ∀ fields, value ≠ .struct fields)
    (hv : visible cs xs (displayName fieldName tag) = true) :
    valueLeaves cs xs fieldName tag value =
      if skippedKind value.Kind then []
      else [{ fieldName := fieldName, tag := tag, value := value }] := by
  cases value with
  | struct fields => exact absurd rfl (hs fields)
  | bool b => rw [valueLeaves.eq_def]; simp [hv]
  | str s => rw [valueLeaves.eq_def]; simp [hv]
  | other k text => rw [valueLeaves.eq_def]; simp [hv]
  | ptr e text => rw [valueLeaves.eq_def]; simp [hv]
  | seq slice items => rw [valueLeaves.eq_def]; simp [hv]


/-- The row pass on a field that is no record. -/
theorem reflectFieldValue_eq_leaf (value : Value) (hs : ∀ fields, value ≠ .struct fields)
    (table : tabular) (row col : Nat) (fieldName tag : String)
    (h : Fits table row col
      (valueLeaves table.columnSet table.excludeSet fieldName tag value).length) :
    reflectFieldValue table (row : Int) (col : Int) fieldName tag value =
      .ok (applyCells row col
          ((valueLeaves table.columnSet table.excludeSet fieldName tag value).map leafValue.cell)
          table,
        ((col + (valueLeaves table.columnSet table.excludeSet fieldName tag value).length : Nat)
          : Int)) := by
  cases hv : visible table.columnSet table.excludeSet (displayName fieldName tag)
  · rw [reflectFieldValue_hidden _ _ _ _ _ _ hv, valueLeaves_hidden _ _ _ _ _ hv]
    simp [applyCells]
  · rw [valueLeaves_leaf _ _ _ _ _ hs hv] at h ⊢
    rw [reflectFieldValue_leaf _ _ _ _ _ _ hs hv]
    cases hk : skippedKind value.Kind
    · simp only [hk, Bool.false_eq_true, if_false, List.length_singleton] at h ⊢
      rw [setField_eq_setCell _ _ _ _ h]
      simp [applyCells]
    · simp [applyCells]

mutual
/-- The row pass of one field writes the texts of its visible leaves, in
order, into consecutive cells. -/
theorem reflectFieldValue_eq : ∀ (value : Value) (table : tabular) (row col : Nat)
    (fieldName tag : String),
    Fits table row col (valueLeaves table.columnSet table.excludeSet fieldName tag value).length →
    reflectFieldValue table (row : Int) (col : Int) fieldName tag value =
      .ok (applyCells row col
          ((valueLeaves table.columnSet table.excludeSet fieldName tag value).map leafValue.cell)
          table,
        ((col + (valueLeaves table.columnSet table.excludeSet fieldName tag value).length : Nat)
          : Int))
  | .struct fields, table, row, col, fieldName, tag, h => by
    cases hv : visible table.columnSet table.excludeSet (displayName fieldName tag)
    · rw [reflectFieldValue_hidden _ _ _ _ _ _ hv, valueLeaves_hidden _ _ _ _ _ hv]
      simp [applyCells]
    · rw [valueLeaves_struct _ _ _ _ _ hv] at h ⊢
      rw [reflectFieldValue_struct _ _ _ _ _ _ hv]
      exact reflectFieldValueLoop_eq fields table row col h
  | .bool b, table, row, col, fieldName, tag, h =>
    reflectFieldValue_eq_leaf (.bool b) (fun _ => Value.noConfusion) table row col fieldName tag h
  | .str s, table, row, col, fieldName, tag, h =>
    reflectFieldValue_eq_leaf (.str s) (fun _ => Value.noConfusion) table row col fieldName tag h
  | .other k text, table, row, col, fieldName, tag, h =>
    reflectFieldValue_eq_leaf (.other k text) (fun _ => Value.noConfusion) table row col
      fieldName tag h
  | .ptr e text, table, row, col, fieldName, tag, h =>
    reflectFieldValue_eq_leaf (.ptr e text) (fun _ => Value.noConfusion) table row col
      fieldName tag h
  | .seq slice items, table, row, col, fieldName, tag, h =>
    reflectFieldValue_eq_leaf (.seq slice items) (fun _ => Value.noConfusion) table row col
      fieldName tag h
/-- The row pass of a list of fields. -/
theorem reflectFieldValueLoop_eq : ∀ (fields : List (StructField Value)) (table : tabular)
    (row col : Nat),
    Fits table row col (valueLeavesLoop table.columnSet table.excludeSet fields).length →
    reflectFieldValueLoop table (row : Int) (col : Int) fields =
      .ok (applyCells row col
          ((valueLeavesLoop table.columnSet table.excludeSet fields).map leafValue.cell) table,
        ((col + (valueLeavesLoop table.columnSet table.excludeSet fields).length : Nat) : Int))
  | [], table, row, col, _ => by
    simp [reflectFieldValueLoop, valueLeavesLoop, applyCells]
  | f :: rest, table, row, col, h => by
    rw [reflectFieldValueLoop, valueLeavesLoop] at *
    rw [List.length_append] at h
    rw [reflectFieldValue_eq f.Item table row col f.Name f.Tag (h.mono (by omega))]
    simp only
    have h2 := reflectFieldValueLoop_eq rest
      (applyCells row col
        ((valueLeaves table.columnSet table.excludeSet f.Name f.Tag f.Item).map leafValue.cell)
        table)
      row (col + (valueLeaves table.columnSet table.excludeSet f.Name f.Tag f.Item).length)
      (by
        rw [applyCells_fits, applyCells_columnSet, applyCells_excludeSet]
        exact h.mono (by omega))
    rw [h2]
    simp only [applyCells_columnSet, applyCells_excludeSet, List.map_append, applyCells_append,
      List.length_map, List.length_append, Nat.add_assoc]
end

/-- Texts written over a row from position `c` on. -/
theorem set_middle {α : Type} (pre : List α) (m : α) (post : List α) (x : α) :
    (pre ++ m :: post).set pre.length x = pre ++ x :: post := by
  induction pre with
  | nil => rfl
  | cons a pre ih => simp [ih]

theorem getD_middle {α : Type} (pre : List α) (m : α) (post : List α) (d : α) :
    (pre ++ m :: post).getD pre.length d = m := by
  induction pre with
  | nil => rfl
  | cons a pre ih => simpa using ih

/-- Setting cells `|pre|, |pre|+1, ...` of row `r` to `cells` replaces the
middle part of the row and widens the middle part of the columns. -/
theorem applyCells_middle (r : Nat) (cells : List String) :
    ∀ (t : tabular) (before after : List (List String)) (pre mid post : List String)
      (cpre cmid cpost : List column),
      t.rows = before ++ (pre ++ mid ++ post) :: after → before.length = r →
      t.columns = cpre ++ cmid ++ cpost → cpre.length = pre.length →
      mid.length = cells.length → cmid.length = cells.length →
      applyCells r pre.length cells t =
        { t with
          rows := before ++ (pre ++ cells ++ post) :: after,
          columns := cpre ++ List.zipWith widen cells cmid ++ cpost } := by
  induction cells with
  | nil =>
    intro t before after pre mid post cpre cmid cpost hr hb hc hp hm hcm
    have h1 : mid = [] := List.length_eq_zero.1 hm
    have h2 : cmid = [] := List.length_eq_zero.1 hcm
    subst h1 h2
    simp only [applyCells, List.append_nil, List.zipWith_nil_left] at *
    rw [← hr, ← hc]
  | cons s rest ih =>
    intro t before after pre mid post cpre cmid cpost hr hb hc hp hm hcm
    obtain ⟨m, mid', rfl⟩ : ∃ m mid', mid = m :: mid' := by
      cases mid with
      | nil => simp at hm
      | cons m mid' => exact ⟨m, mid', rfl⟩
    obtain ⟨cm, cmid', rfl⟩ : ∃ m mid', cmid = m :: mid' := by
      cases cmid with
      | nil => simp at hcm
      | cons m mid' => exact ⟨m, mid', rfl⟩
    simp only [List.length_cons, Nat.add_right_cancel_iff] at hm hcm
    rw [applyCells]
    have hrow : t.rows.getD r [] = pre ++ m :: mid' ++ post := by
      rw [hr, ← hb]; exact getD_middle _ _ _ _
    have hset : (setCell t r pre.length s).rows =
        before ++ ((pre ++ [s]) ++ mid' ++ post) :: after := by
      simp only [setCell, hrow]
      rw [hr, ← hb, set_middle]
      congr 2
      have := set_middle pre m (mid' ++ post) s
      simp [List.append_assoc]
    have hcol : (setCell t r pre.length s).columns =
        (cpre ++ [widen s cm]) ++ cmid' ++ cpost := by
      simp only [setCell]
      rw [hc, ← hp]
      have e1 : (cpre ++ cm :: cmid' ++ cpost).getD cpre.length
          { name := "", width := 0, rightAlign := false, minWidth := 0 } = cm := by
        have := getD_middle cpre cm (cmid' ++ cpost)
          { name := "", width := 0, rightAlign := false, minWidth := 0 }
        simpa [List.append_assoc] using this
      rw [e1]
      have := set_middle cpre cm (cmid' ++ cpost) (widen s cm)
      simp [List.append_assoc]
    have := ih (setCell t r pre.length s) before after (pre ++ [s]) mid' post
      (cpre ++ [widen s cm]) cmid' cpost hset hb hcol (by simp [hp]) hm hcm
    simp only [List.length_append, List.length_singleton] at this
    rw [this]
    simp [setCell, List.append_assoc]

/-- Filling a fresh last row from column 0 with as many texts as there are
columns leaves the texts as the row and widens every column to its text. -/
theorem applyCells_newRow (t : tabular) (cells : List String)
    (hlen : cells.length = t.columns.length) :
    applyCells t.rows.length 0 cells (newRow t).1 =
      { t with rows := t.rows ++ [cells], columns := List.zipWith widen cells t.columns } := by
  have := applyCells_middle t.rows.length cells (newRow t).1 t.rows [] []
    (List.replicate t.columns.length "") [] [] t.columns []
    (by simp [newRow]) rfl (by simp [newRow]) rfl (by simp [hlen]) hlen.symm
  simpa [newRow] using this

mutual
/-- The visible leaves of the type of a value are the leaves of its visible
leaf values. -/
theorem typeLeaves_type : ∀ (value : Value) (cs xs : List (String × Bool))
    (fieldName tag : String),
    typeLeaves cs xs fieldName tag value.Type =
      (valueLeaves cs xs fieldName tag value).map leafValue.leaf
  | .struct fields, cs, xs, fieldName, tag => by
    rw [typeLeaves.eq_def, valueLeaves.eq_def, Value.Type]
    cases hv : visible cs xs (displayName fieldName tag)
    · simp
    · simpa using typeLeavesLoop_type fields cs xs
  | .bool b, cs, xs, fieldName, tag => by
    rw [typeLeaves.eq_def, valueLeaves.eq_def, Value.Type]
    cases hv : visible cs xs (displayName fieldName tag) <;>
      simp [Value.Kind, skippedKind, leafValue.leaf]
  | .str s, cs, xs, fieldName, tag => by
    rw [typeLeaves.eq_def, valueLeaves.eq_def, Value.Type]
    cases hv : visible cs xs (displayName fieldName tag) <;>
      simp [Value.Kind, skippedKind, leafValue.leaf]
  | .other k text, cs, xs, fieldName, tag => by
    rw [typeLeaves.eq_def, valueLeaves.eq_def, Value.Type]
    cases hv : visible cs xs (displayName fieldName tag) <;>
      cases k <;> simp [Value.Kind, skippedKind, leafValue.leaf, OtherKind.toKind]
  | .ptr e text, cs, xs, fieldName, tag => by
    rw [typeLeaves.eq_def, valueLeaves.eq_def, Value.Type]
    cases hv : visible cs xs (displayName fieldName tag) <;>
      simp [Value.Kind, skippedKind, leafValue.leaf]
  | .seq slice items, cs, xs, fieldName, tag => by
    rw [typeLeaves.eq_def, valueLeaves.eq_def, Value.Type]
    cases hv : visible cs xs (displayName fieldName tag) <;>
      cases slice <;> simp [Value.Kind, skippedKind, leafValue.leaf]
/-- The same for a list of fields. -/
theorem typeLeavesLoop_type : ∀ (fields : List (StructField Value)) (cs xs : List (String × Bool)),
    typeLeavesLoop cs xs (Value.fieldTypes fields) =
      (valueLeavesLoop cs xs fields).map leafValue.leaf
  | [], cs, xs => by simp [Value.fieldTypes, typeLeavesLoop, valueLeavesLoop]
  | f :: rest, cs, xs => by
    rw [Value.fieldTypes, typeLeavesLoop, valueLeavesLoop, List.map_append,
      ← typeLeaves_type f.Item cs xs f.Name f.Tag, ← typeLeavesLoop_type rest cs xs]
end

/-- A record of a type has as many visible leaf values as the type has visible
leaves. -/
theorem valueLeavesLoop_length (fields : List (StructField Value)) (cs xs : List (String × Bool)) :
    (valueLeavesLoop cs xs fields).length =
      (typeLeavesLoop cs xs (Value.fieldTypes fields)).length := by
  rw [typeLeavesLoop_type, List.length_map]

/-- Filling a new row from a record whose visible leaves are as many as the
columns appends the texts of the leaves as a row and widens the columns. -/
theorem reflectStructRow_newRow (t : tabular) (fields : List (StructField Value))
    (hlen : (valueLeavesLoop t.columnSet t.excludeSet fields).length = t.columns.length) :
    reflectStructRow (newRow t).1 (newRow t).2 (.struct fields) =
      .ok (addRecord t (recordCells t.columnSet t.excludeSet (.struct fields))) := by
  have hfit : Fits (newRow t).1 t.rows.length 0
      (valueLeavesLoop (newRow t).1.columnSet (newRow t).1.excludeSet fields).length := by
    refine ⟨by simp [newRow], by simp [newRow, hlen], ?_⟩
    simp [newRow, hlen, List.getD_eq_getElem?_getD]
  have h := reflectFieldValueLoop_eq fields (newRow t).1 t.rows.length 0 hfit
  have e : ((newRow t).2 : Int) = ((t.rows.length : Nat) : Int) := rfl
  rw [reflectStructRow, e]
  simp only [Nat.cast_zero] at h
  rw [h]
  simp only
  have h2 := applyCells_newRow t
    ((valueLeavesLoop t.columnSet t.excludeSet fields).map leafValue.cell) (by simp [hlen])
  have e2 : (newRow t).1.columnSet = t.columnSet := rfl
  have e3 : (newRow t).1.excludeSet = t.excludeSet := rfl
  rw [e2, e3, h2]
  rfl

/-! ## Sequences of records -/

@[simp] theorem addRecord_columnSet (t : tabular) (cells : List String) :
    (addRecord t cells).columnSet = t.columnSet := rfl

@[simp] theorem addRecord_excludeSet (t : tabular) (cells : List String) :
    (addRecord t cells).excludeSet = t.excludeSet := rfl

theorem addRecord_columns_length (t : tabular) (cells : List String)
    (h : cells.length = t.columns.length) :
    (addRecord t cells).columns.length = t.columns.length := by
  simp [addRecord, h]

theorem recordCells_length (cs xs : List (String × Bool)) (fields : List (StructField Value)) :
    (recordCells cs xs (.struct fields)).length =
      (typeLeavesLoop cs xs (Value.fieldTypes fields)).length := by
  simp [recordCells, Value.fields, valueLeavesLoop_length]

/-- After the first item, the loop of `reflectArray` over records of one type
adds one row per record to a table holding the columns of the type. -/
theorem reflectArrayLoop_records (T : List (StructField GoType)) :
    ∀ (items : List Value) (t : tabular) (col : Int) (i : Nat),
      (∀ v ∈ items, ∃ fields, v = .struct fields ∧ Value.fieldTypes fields = T) →
      t.columns.length = (typeLeavesLoop t.columnSet t.excludeSet T).length →
      reflectArrayLoop t col (i + 1) items =
        .ok (items.foldl
          (fun t v => addRecord t (recordCells t.columnSet t.excludeSet v)) t) := by
  intro items
  induction items with
  | nil => intro t col i _ _; simp [reflectArrayLoop]
  | cons v rest ih =>
    intro t col i hT hlen
    obtain ⟨fields, rfl, hf⟩ := hT v (List.mem_cons_self _ _)
    have hl : (valueLeavesLoop t.columnSet t.excludeSet fields).length = t.columns.length := by
      rw [valueLeavesLoop_length, hf, hlen]
    have hrow := reflectStructRow_newRow t fields hl
    rw [reflectArrayLoop]
    simp only [derefPtr, Value.Kind, Indirect, Nat.add_one_ne_zero, if_false]
    simp only [reduceCtorEq, if_false]
    rw [hrow]
    simp only [List.foldl_cons]
    refine ih _ col (i + 1) (fun w hw => hT w (List.mem_cons_of_mem _ hw)) ?_
    rw [addRecord_columns_length _ _ (by rw [recordCells_length, hf, hlen])]
    exact hlen


theorem foldl_addRecord_sets (cs xs : List (String × Bool)) (items : List Value) :
    ∀ (t : tabular), t.columnSet = cs → t.excludeSet = xs →
      items.foldl (fun t v => addRecord t (recordCells t.columnSet t.excludeSet v)) t =
        items.foldl (fun t v => addRecord t (recordCells cs xs v)) t := by
  induction items with
  | nil => intro t _ _; rfl
  | cons v rest ih =>
    intro t h1 h2
    simp only [List.foldl_cons, h1, h2]
    exact ih _ h1 h2

/-- The reflect pass over a non-empty sequence of records of one type whose
width hints are in order builds the table of the records. -/
theorem reflectArray_records (cs xs : List (String × Bool)) (T : List (StructField GoType))
    (slice : Bool) (items : List Value) (hne : items ≠ [])
    (hT : ∀ v ∈ items, ∃ fields, v = .struct fields ∧ Value.fieldTypes fields = T)
    (hh : ∀ l ∈ typeLeavesLoop cs xs T, l.hintOk = true) :
    reflectArray (newTabular cs xs) (.seq slice items) = .ok (recordsTable cs xs T items) := by
  cases items with
  | nil => exact absurd rfl hne
  | cons v rest =>
    obtain ⟨fields, rfl, hf⟩ := hT _ (List.mem_cons_self _ _)
    have hk : ¬ ((Value.seq slice (Value.struct fields :: rest)).Kind ≠ Kind.Array ∧
        (Value.seq slice (Value.struct fields :: rest)).Kind ≠ Kind.Slice) := by
      cases slice <;> simp [Value.Kind]
    rw [reflectArray, if_neg hk]
    simp only [Value.items, List.length_cons, Nat.add_one_ne_zero, if_false]
    rw [reflectArrayLoop]
    simp only [derefPtr, Value.Kind, Indirect, if_true]
    simp only [reduceCtorEq, if_false]
    have hhead : reflectStructHeader (newTabular cs xs) (.struct fields) =
        .ok { newTabular cs xs with columns := (typeLeavesLoop cs xs T).map leaf.column } := by
      rw [reflectStructHeader, Value.Type, hf]
      have := reflectFieldHeadLoop_eq T (newTabular cs xs) hh
      simpa [newTabular] using this
    rw [hhead]
    simp only
    have hl : (valueLeavesLoop cs xs fields).length =
        ((typeLeavesLoop cs xs T).map leaf.column).length := by
      rw [valueLeavesLoop_length, hf, List.length_map]
    have hrow := reflectStructRow_newRow
      { newTabular cs xs with columns := (typeLeavesLoop cs xs T).map leaf.column } fields hl
    rw [hrow]
    simp only
    rw [reflectArrayLoop_records T rest _ 0 0 (fun w hw => hT w (List.mem_cons_of_mem _ hw))
      (by
        rw [addRecord_columns_length _ _ (by
          rw [recordCells_length, hf]; simp [newTabular])]
        simp [newTabular])]
    rw [foldl_addRecord_sets cs xs rest _ rfl rfl]
    simp [recordsTable, newTabular]

theorem widen_name (s : String) (c : column) : (widen s c).name = c.name := by
  unfold widen; split <;> rfl

theorem widen_rightAlign (s : String) (c : column) : (widen s c).rightAlign = c.rightAlign := by
  unfold widen; split <;> rfl

theorem widen_minWidth (s : String) (c : column) : (widen s c).minWidth = c.minWidth := by
  unfold widen; split <;> rfl

theorem widen_width_ge (s : String) (c : column) : c.width ≤ (widen s c).width := by
  unfold widen; split
  · show c.width ≤ len s
    omega
  · exact le_refl _

theorem widen_width_text (s : String) (c : column) : len s ≤ (widen s c).width := by
  unfold widen; split
  · exact le_refl _
  · omega

theorem zipWith_widen_names : ∀ (cells : List String) (cols : List column),
    cells.length = cols.length →
    (List.zipWith widen cells cols).map column.name = cols.map column.name ∧
    (List.zipWith widen cells cols).map column.rightAlign = cols.map column.rightAlign
  | [], [], _ => by simp
  | [], _ :: _, h => by simp at h
  | _ :: _, [], h => by simp at h
  | s :: cells, c :: cols, h => by
    have := zipWith_widen_names cells cols (by simpa using h)
    simp [widen_name, widen_rightAlign, this.1, this.2]

theorem zipWith_widen_name_le : ∀ (cells : List String) (cols : List column),
    (∀ c ∈ cols, len c.name ≤ c.width) →
    ∀ c ∈ List.zipWith widen cells cols, len c.name ≤ c.width
  | [], _, _ => by simp
  | _ :: _, [], _ => by simp
  | s :: cells, c :: cols, h => by
    intro c' hc'
    simp only [List.zipWith_cons_cons, List.mem_cons] at hc'
    rcases hc' with rfl | hc'
    · rw [widen_name]
      exact le_trans (h c (List.mem_cons_self _ _)) (widen_width_ge s c)
    · exact zipWith_widen_name_le cells cols (fun d hd => h d (List.mem_cons_of_mem _ hd)) c' hc'

theorem zipWith_widen_old : ∀ (cells : List String) (cols : List column) (row : List String),
    cells.length = cols.length →
    List.Forall₂ (fun (col : column) (s : String) => len s ≤ col.width) cols row →
    List.Forall₂ (fun (col : column) (s : String) => len s ≤ col.width)
      (List.zipWith widen cells cols) row
  | [], [], _, _, h => by simpa using h
  | [], _ :: _, _, h, _ => by simp at h
  | _ :: _, [], _, h, _ => by simp at h
  | s :: cells, c :: cols, row, hl, h => by
    cases h with
    | cons h1 h2 =>
      simp only [List.zipWith_cons_cons]
      exact List.Forall₂.cons (le_trans h1 (widen_width_ge s c))
        (zipWith_widen_old cells cols _ (by simpa using hl) h2)

theorem zipWith_widen_new : ∀ (cells : List String) (cols : List column),
    cells.length = cols.length →
    List.Forall₂ (fun (col : column) (s : String) => len s ≤ col.width)
      (List.zipWith widen cells cols) cells
  | [], [], _ => by simp
  | [], _ :: _, h => by simp at h
  | _ :: _, [], h => by simp at h
  | s :: cells, c :: cols, hl => by
    simp only [List.zipWith_cons_cons]
    exact List.Forall₂.cons (widen_width_text s c)
      (zipWith_widen_new cells cols (by simpa using hl))

/-- Adding a record keeps every name and cell within its column. -/
theorem addRecord_covered (t : tabular) (cells : List String)
    (hl : cells.length = t.columns.length) (h : Covered t) : Covered (addRecord t cells) := by
  constructor
  · exact zipWith_widen_name_le cells t.columns h.1
  · intro row hrow
    simp only [addRecord, List.mem_append, List.mem_singleton] at hrow
    rcases hrow with hrow | rfl
    · exact zipWith_widen_old cells t.columns row hl (h.2 row hrow)
    · exact zipWith_widen_new row t.columns hl

/-- Rows added by a fold of `addRecord`, with the names and alignments of the
columns kept and every text within its column. -/
theorem foldl_addRecord (cs xs : List (String × Bool)) (m : Nat) :
    ∀ (items : List Value) (t : tabular),
      (∀ v ∈ items, (recordCells cs xs v).length = m) → t.columns.length = m → Covered t →
      let t' := items.foldl (fun t v => addRecord t (recordCells cs xs v)) t
      t'.rows = t.rows ++ items.map (recordCells cs xs) ∧
      t'.columns.map column.name = t.columns.map column.name ∧
      t'.columns.map column.rightAlign = t.columns.map column.rightAlign ∧
      Covered t' := by
  intro items
  induction items with
  | nil => intro t _ _ hc; simp [hc]
  | cons v rest ih =>
    intro t hm hl hc
    have hv := hm v (List.mem_cons_self _ _)
    have hl' : (recordCells cs xs v).length = t.columns.length := by rw [hv, hl]
    have := ih (addRecord t (recordCells cs xs v))
      (fun w hw => hm w (List.mem_cons_of_mem _ hw))
      (by simp [addRecord, hl', hl]) (addRecord_covered t _ hl' hc)
    obtain ⟨h1, h2, h3, h4⟩ := this
    have hn := zipWith_widen_names (recordCells cs xs v) t.columns hl'
    refine ⟨?_, ?_, ?_, h4⟩
    · simp only [List.foldl_cons]; rw [h1]; simp [addRecord]
    · simp only [List.foldl_cons]; rw [h2]; exact hn.1
    · simp only [List.foldl_cons]; rw [h3]; exact hn.2

/-! ## Aligned layout -/

theorem Repeat_zero (s : String) : Repeat s 0 = some "" := by
  simp [Repeat, join_nil]

theorem Repeat_nonneg (s : String) (n : Int) (h : 0 ≤ n) :
    Repeat s n = some (String.join (List.replicate n.toNat s)) := by
  simp [Repeat, not_lt.2 h]

/-- In the aligned style a text that fits its column comes out padded to the
width of the column, after a space unless it is the first of the line. -/
theorem alignedField_aligned (col : column) (i : Nat) (field : String)
    (h : len field ≤ col.width) :
    alignedField col i field false 0 =
      some ((if i > 0 then " " else "") ++ padText col.width col.rightAlign field) := by
  have hf : 0 ≤ col.width - len field := by omega
  unfold alignedField padText
  simp only [Bool.false_eq_true, if_false, add_zero, Repeat_zero, Repeat_nonneg _ _ hf]
  cases col.rightAlign <;> simp [String.append_assoc]

theorem alignedLineLoop_succ : ∀ (cols : List column) (fields : List String) (i : Nat)
    (b : String),
    List.Forall₂ (fun (col : column) (s : String) => len s ≤ col.width) cols fields →
    alignedLineLoop false 0 cols fields (i + 1) b =
      some (b ++ String.join ((List.zipWith
        (fun col text => padText col.width col.rightAlign text) cols fields).map
          (fun x => " " ++ x)))
  | [], [], _, _, _ => by simp [alignedLineLoop, join_nil]
  | col :: cols, field :: fields, i, b, h => by
    cases h with
    | cons h1 h2 =>
      rw [alignedLineLoop, alignedField_aligned col (i + 1) field h1]
      simp only [Nat.zero_lt_succ, if_true]
      rw [alignedLineLoop_succ cols fields (i + 1) _ h2]
      simp [join_cons, String.append_assoc]

/-- The loop over the fields of a line produces the aligned line. -/
theorem alignedLineLoop_zero (cols : List column) (fields : List String)
    (h : List.Forall₂ (fun (col : column) (s : String) => len s ≤ col.width) cols fields) :
    alignedLineLoop false 0 cols fields 0 "" = some (alignedLine cols fields) := by
  cases h with
  | nil => simp [alignedLineLoop, alignedLine, String.intercalate]
  | cons h1 h2 =>
    rw [alignedLineLoop, alignedField_aligned _ 0 _ h1]
    simp only [Nat.lt_irrefl, if_false, Nat.zero_add]
    rw [alignedLineLoop_succ _ _ 0 _ h2]
    simp [alignedLine, intercalate_cons, String.append_assoc]

theorem alignedHeaderLoop_succ : ∀ (cols : List column) (i : Nat) (b : String),
    (∀ c ∈ cols, len c.name ≤ c.width) →
    alignedHeaderLoop false 0 cols (i + 1) b =
      some (b ++ String.join ((List.zipWith
        (fun col text => padText col.width col.rightAlign text) cols
          (cols.map column.name)).map (fun x => " " ++ x)))
  | [], _, _, _ => by simp [alignedHeaderLoop, join_nil]
  | col :: cols, i, b, h => by
    rw [alignedHeaderLoop, alignedField_aligned col (i + 1) _ (h col (List.mem_cons_self _ _))]
    simp only [Nat.zero_lt_succ, if_true]
    rw [alignedHeaderLoop_succ cols (i + 1) _ (fun c hc => h c (List.mem_cons_of_mem _ hc))]
    simp [join_cons, String.append_assoc]

/-- The loop over the columns produces the aligned line of the names. -/
theorem alignedHeaderLoop_zero (cols : List column) (h : ∀ c ∈ cols, len c.name ≤ c.width) :
    alignedHeaderLoop false 0 cols 0 "" = some (alignedLine cols (cols.map column.name)) := by
  cases cols with
  | nil => simp [alignedHeaderLoop, alignedLine, String.intercalate]
  | cons col cols =>
    rw [alignedHeaderLoop, alignedField_aligned _ 0 _ (h col (List.mem_cons_self _ _))]
    simp only [Nat.lt_irrefl, if_false, Nat.zero_add]
    rw [alignedHeaderLoop_succ _ 0 _ (fun c hc => h c (List.mem_cons_of_mem _ hc))]
    simp [alignedLine, intercalate_cons, String.append_assoc]

theorem writeAlignedRows_aligned (t : tabular) (hc : t.columns ≠ []) (spacing : List Int) :
    ∀ (rows : List (List String)) (out : String),
      (∀ row ∈ rows,
        List.Forall₂ (fun (col : column) (s : String) => len s ≤ col.width) t.columns row) →
      writeAlignedRows t false 0 spacing (rows.map (fun r => [r])) out =
        (out ++ String.join (rows.map (fun r => alignedLine t.columns r ++ "\n")), none)
  | [], out, _ => by simp [writeAlignedRows, join_nil]
  | row :: rows, out, h => by
    have hlen : ¬ t.columns.length = 0 := by
      intro h0; exact hc (List.length_eq_zero.1 h0)
    rw [List.map_cons, writeAlignedRows, writeAlignedRow, if_neg hlen, alignedLinesLoop,
      alignedLineLoop_zero _ _ (h row (List.mem_cons_self _ _))]
    simp only [Bool.false_eq_true, if_false, alignedLinesLoop]
    rw [writeAlignedRows_aligned t hc spacing rows _ (fun r hr => h r (List.mem_cons_of_mem _ hr))]
    simp [join_cons, String.append_assoc]

/-- Aligned layout without a terminal width: the header line, then one line
per row, each text padded to its column. -/
theorem writeAligned_aligned (wrapText : String → Int → List String) (t : tabular) (out : String)
    (hr : t.rows ≠ []) (hc : t.columns ≠ []) (hcov : Covered t) :
    writeAligned wrapText t out false false 0 0 =
      (t, out ++ (alignedLine t.columns (t.columns.map column.name) ++ "\n") ++
        String.join (t.rows.map (fun r => alignedLine t.columns r ++ "\n")), none) := by
  have hrl : ¬ t.rows.length = 0 := by
    intro h0; exact hr (List.length_eq_zero.1 h0)
  have hcl : ¬ t.columns.length = 0 := by
    intro h0; exact hc (List.length_eq_zero.1 h0)
  rw [writeAligned, if_neg hrl]
  simp only [buildWrappedTable, lt_self_iff_false, false_and, if_false, Bool.false_eq_true,
    Bool.not_false, if_true]
  rw [writeAlignedHeader, if_neg hcl, alignedHeaderLoop_zero _ hcov.1]
  simp only [Bool.false_eq_true, if_false]
  rw [writeAlignedRows_aligned t hc _ t.rows _ hcov.2]


theorem mem_join_data (c : Char) (l : List String) (h : c ∈ (String.join l).data) :
    ∃ s ∈ l, c ∈ s.data := by
  rw [String.join_eq] at h
  simp only [List.mem_flatten, List.mem_map] at h
  obtain ⟨d, ⟨s, hs, rfl⟩, hc⟩ := h
  exact ⟨s, hs, hc⟩

theorem mem_padText_data (c : Char) (w : Int) (r : Bool) (text : String)
    (h : c ∈ (padText w r text).data) : c = ' ' ∨ c ∈ text.data := by
  unfold padText at h
  have hfill : ∀ n : Nat, c ∈ (String.join (List.replicate n " ")).data → c = ' ' := by
    intro n hn
    obtain ⟨s, hs, hc⟩ := mem_join_data c _ hn
    rw [List.eq_of_mem_replicate hs] at hc
    simpa using hc
  cases r
  · simp only [Bool.false_eq_true, if_false, String.data_append, List.mem_append] at h
    rcases h with h | h
    · exact Or.inr h
    · exact Or.inl (hfill _ h)
  · simp only [if_true, String.data_append, List.mem_append] at h
    rcases h with h | h
    · exact Or.inl (hfill _ h)
    · exact Or.inr h

theorem mem_intercalate_data (c : Char) (sep : String) (l : List String)
    (h : c ∈ (sep.intercalate l).data) : c ∈ sep.data ∨ ∃ s ∈ l, c ∈ s.data := by
  cases l with
  | nil => simp [String.intercalate] at h
  | cons a l =>
    rw [intercalate_cons, String.data_append, List.mem_append] at h
    rcases h with h | h
    · exact Or.inr ⟨a, List.mem_cons_self _ _, h⟩
    · obtain ⟨s, hs, hc⟩ := mem_join_data c _ h
      obtain ⟨x, hx, rfl⟩ := List.mem_map.1 hs
      rw [String.data_append, List.mem_append] at hc
      rcases hc with hc | hc
      · exact Or.inl hc
      · exact Or.inr ⟨x, List.mem_cons_of_mem _ hx, hc⟩

/-- A character of an aligned line is a space or a character of one of its
texts. -/
theorem mem_alignedLine_data (c : Char) (cols : List column) (texts : List String)
    (h : c ∈ (alignedLine cols texts).data) : c = ' ' ∨ ∃ s ∈ texts, c ∈ s.data := by
  unfold alignedLine at h
  rcases mem_intercalate_data c _ _ h with h | ⟨s, hs, hc⟩
  · left; simpa using h
  · have key : ∃ (col : column) (text : String), text ∈ texts ∧
        s = padText col.width col.rightAlign text := by
      clear h hc
      induction cols generalizing texts with
      | nil => simp at hs
      | cons col cols ih =>
        cases texts with
        | nil => simp at hs
        | cons t ts =>
          simp only [List.zipWith_cons_cons, List.mem_cons] at hs
          rcases hs with rfl | hs
          · exact ⟨col, t, List.mem_cons_self _ _, rfl⟩
          · obtain ⟨col', text, hm, he⟩ := ih ts hs
            exact ⟨col', text, List.mem_cons_of_mem _ hm, he⟩
    obtain ⟨col, text, hmem, rfl⟩ := key
    rcases mem_padText_data c _ _ _ hc with h' | h'
    · exact Or.inl h'
    · exact Or.inr ⟨text, hmem, h'⟩

theorem alignedLine_no_newline (cols : List column) (texts : List String)
    (h : ∀ s ∈ texts, '\n' ∉ s.data) : '\n' ∉ (alignedLine cols texts).data := by
  intro hc
  rcases mem_alignedLine_data _ _ _ hc with h' | ⟨s, hs, h'⟩
  · exact absurd h' (by decide)
  · exact h s hs h'

/-! ## Rendering a sequence of records -/

/-- The table of a non-empty sequence of records: its rows are the cells of the
records, its columns carry the names and alignments of the visible leaves of
the type, and every text fits its column. -/
theorem recordsTable_spec (cs xs : List (String × Bool)) (T : List (StructField GoType))
    (items : List Value)
    (hT : ∀ v ∈ items, ∃ fields, v = .struct fields ∧ Value.fieldTypes fields = T) :
    (recordsTable cs xs T items).rows = items.map (recordCells cs xs) ∧
    (recordsTable cs xs T items).columns.map column.name =
      (typeLeavesLoop cs xs T).map leaf.name ∧
    (recordsTable cs xs T items).columns.map column.rightAlign =
      (typeLeavesLoop cs xs T).map (fun l => decide (l.kind ≠ Kind.String)) ∧
    Covered (recordsTable cs xs T items) := by
  have hm : ∀ v ∈ items, (recordCells cs xs v).length = (typeLeavesLoop cs xs T).length := by
    intro v hv
    obtain ⟨fields, rfl, hf⟩ := hT v hv
    rw [recordCells_length, hf]
  have hcov : Covered (⟨(typeLeavesLoop cs xs T).map leaf.column, [], cs, xs⟩ : tabular) := by
    constructor
    · intro c hc
      obtain ⟨l, _, rfl⟩ := List.mem_map.1 hc
      exact le_refl _
    · intro row hrow; simp at hrow
  have := foldl_addRecord cs xs (typeLeavesLoop cs xs T).length items
    ⟨(typeLeavesLoop cs xs T).map leaf.column, [], cs, xs⟩ hm (by simp) hcov
  obtain ⟨h1, h2, h3, h4⟩ := this
  refine ⟨by simpa [recordsTable] using h1, ?_, ?_, h4⟩
  · rw [recordsTable, h2]; simp [leaf.column, Function.comp_def]
  · rw [recordsTable, h3]; simp [leaf.column, Function.comp_def]

/-- C2 (amended): for a non-empty sequence of `n` records of one record type
with at least one visible leaf, whose width hints are absent or 32-bit decimal
integers and whose column names and cells hold no line break, the aligned
style with header and terminal width 0 writes exactly `n + 1` lines: the line
of the names, then one line per record in input order, whose `k`-th text is
the cell of the `k`-th visible leaf value of the record, the leaf that declared
the `k`-th column. -/
theorem render_records_aligned (wrapText : String → Int → List String) (writer sep : String)
    (cs xs : List (String × Bool)) (T : List (StructField GoType)) (slice : Bool)
    (items : List Value) (hne : items ≠ [])
    (hT : ∀ v ∈ items, ∃ fields, v = .struct fields ∧ Value.fieldTypes fields = T)
    (hvis : typeLeavesLoop cs xs T ≠ [])
    (hh : ∀ l ∈ typeLeavesLoop cs xs T, l.hintOk = true)
    (hnames : ∀ l ∈ typeLeavesLoop cs xs T, '\n' ∉ l.name.data)
    (hcells : ∀ v ∈ items, ∀ s ∈ recordCells cs xs v, '\n' ∉ s.data) :
    ∃ (cols : List column) (header : String) (dataLines : List String),
      renderStyledText wrapText writer (.seq slice items)
        { Style := Aligned, ExcludeHeader := false, ColumnSeparator := sep, ColumnSet := cs,
          ExcludeSet := xs, TerminalWidth := 0 } =
        (writer ++ String.join ((header :: dataLines).map (fun l => l ++ "\n")), none) ∧
      (header :: dataLines).length = items.length + 1 ∧
      (∀ l ∈ header :: dataLines, '\n' ∉ l.data) ∧
      cols.map column.name = (typeLeavesLoop cs xs T).map leaf.name ∧
      header = alignedLine cols ((typeLeavesLoop cs xs T).map leaf.name) ∧
      dataLines = items.map (fun v => alignedLine cols (recordCells cs xs v)) ∧
      ∀ v ∈ items,
        (valueLeavesLoop cs xs v.fields).map leafValue.leaf = typeLeavesLoop cs xs T ∧
        recordCells cs xs v = (valueLeavesLoop cs xs v.fields).map leafValue.cell := by
  obtain ⟨h1, h2, h3, h4⟩ := recordsTable_spec cs xs T items hT
  have hrows : (recordsTable cs xs T items).rows ≠ [] := by
    rw [h1]; simpa using hne
  have hcols : (recordsTable cs xs T items).columns ≠ [] := by
    intro h0; rw [h0] at h2; exact hvis (List.map_eq_nil_iff.1 h2.symm)
  refine ⟨(recordsTable cs xs T items).columns, _, _, ?_, by simp, ?_, h2, rfl, rfl, ?_⟩
  · have hk : (Value.seq slice items).Kind ≠ Kind.Ptr := by cases slice <;> simp [Value.Kind]
    have hi : reflectInterface (newTabular cs xs) (.seq slice items) =
        .ok (recordsTable cs xs T items) := by
      rw [reflectInterface, derefPtr, if_neg hk]
      cases slice <;> simp only [Value.Kind, Bool.false_eq_true, if_false, if_true] <;>
        exact reflectArray_records cs xs T _ items hne hT hh
    rw [renderStyledText]
    simp only [hi, write, Aligned, Plain, Grid, Markdown]
    simp only [one_ne_zero, if_false, if_true]
    rw [writeAligned_aligned wrapText _ writer hrows hcols h4, h1, ← h2]
    simp [join_cons, String.append_assoc, List.map_map, Function.comp_def]
  · intro l hl
    rcases List.mem_cons.1 hl with rfl | hl
    · apply alignedLine_no_newline
      intro s hs
      obtain ⟨lf, hlf, rfl⟩ := List.mem_map.1 hs
      exact hnames lf hlf
    · obtain ⟨v, hv, rfl⟩ := List.mem_map.1 hl
      exact alignedLine_no_newline _ _ (hcells v hv)
  · intro v hv
    obtain ⟨fields, rfl, hf⟩ := hT v hv
    exact ⟨by rw [Value.fields, ← typeLeavesLoop_type, hf], rfl⟩

/-! ## Detail tables and sequences of scalars -/

/-- A new row whose first cells are set one after the other, one per column,
is the table with the row added. -/
theorem newRow_setField_one (t : tabular) (a : String) (h : t.columns.length = 1) :
    setField (newRow t).1 (newRow t).2 0 a = .ok (addRecord t [a]) := by
  have e : ((newRow t).2 : Int) = ((t.rows.length : Nat) : Int) := rfl
  have hf : Fits (newRow t).1 t.rows.length 0 1 :=
    ⟨by simp [newRow], by simp [newRow, h], by simp [newRow, h, List.getD_eq_getElem?_getD]⟩
  have := setField_eq_setCell (newRow t).1 t.rows.length 0 a hf
  rw [e]
  simp only [Nat.cast_zero] at this
  rw [this]
  have h2 := applyCells_newRow t [a] (by simp [h])
  simp only [applyCells] at h2
  rw [h2]; rfl

theorem newRow_setField_two (t : tabular) (a b : String) (h : t.columns.length = 2) :
    (match setField (newRow t).1 (newRow t).2 0 a with
      | .error e => Except.error e
      | .ok t1 => setField t1 (newRow t).2 1 b) = .ok (addRecord t [a, b]) := by
  have e : ((newRow t).2 : Int) = ((t.rows.length : Nat) : Int) := rfl
  have hf : Fits (newRow t).1 t.rows.length 0 2 :=
    ⟨by simp [newRow], by simp [newRow, h], by simp [newRow, h, List.getD_eq_getElem?_getD]⟩
  have h1 := setField_eq_setCell (newRow t).1 t.rows.length 0 a (hf.mono (by omega))
  have h2 := setField_eq_setCell (setCell (newRow t).1 t.rows.length 0 a) t.rows.length 1 b
    ((setCell_fits _ _ _ _ _ _ _).2 (hf.mono (by omega)))
  rw [e]
  simp only [Nat.cast_zero, Nat.cast_one] at h1 h2
  rw [h1]
  simp only
  rw [h2]
  have h3 := applyCells_newRow t [a, b] (by simp [h])
  simp only [applyCells] at h3
  rw [h3]; rfl

theorem reflectFieldNameValue_hidden (table : tabular) (fieldName tag : String) (value : Value)
    (hv : visible table.columnSet table.excludeSet (displayName fieldName tag) = false) :
    reflectFieldNameValue table fieldName tag value = .ok table := by
  rw [reflectFieldNameValue.eq_def]
  simp only [shouldOutputColumn_eq_visible]
  simp only [displayName] at hv
  simp [hv]

theorem reflectFieldNameValue_struct (table : tabular) (fieldName tag : String)
    (fields : List (StructField Value))
    (hv : visible table.columnSet table.excludeSet (displayName fieldName tag) = true) :
    reflectFieldNameValue table fieldName tag (.struct fields) =
      reflectFieldNameValueLoop table fields := by
  rw [reflectFieldNameValue.eq_def]
  simp only [shouldOutputColumn_eq_visible]
  simp only [displayName] at hv
  simp [hv]

/-- On a visible field that is no record, detail mode skips the kinds without
a column and otherwise adds the row of the name and the default rendering. -/
theorem reflectFieldNameValue_leaf (table : tabular) (fieldName tag : String)
    (value : Value) (hs : ∀ fields, value ≠ .struct fields)
    (hv : visible table.columnSet table.excludeSet (displayName fieldName tag) = true)
    (hc : table.columns.length = 2) :
    reflectFieldNameValue table fieldName tag value =
      if skippedKind value.Kind then .ok table
      else .ok (addRecord table
        (leafValue.detailRow { fieldName := fieldName, tag := tag, value := value })) := by
  have key := newRow_setField_two table (displayName fieldName tag) (sprintV value) hc
  rw [reflectFieldNameValue.eq_def]
  simp only [shouldOutputColumn_eq_visible]
  simp only [displayName] at hv key
  simp only [hv, Bool.not_true, Bool.false_eq_true, if_false]
  cases value with
  | struct fields => exact absurd rfl (hs fields)
  | seq slice items => cases slice <;> simp [Value.Kind, skippedKind]
  | ptr e text => simp [Value.Kind, skippedKind]
  | str s =>
    simp only [Value.Kind, skippedKind, Bool.false_eq_true, if_false]
    exact key
  | bool b =>
    simp only [Value.Kind, skippedKind, Bool.false_eq_true, if_false]
    exact key
  | other k text =>
    cases k <;> simp only [Value.Kind, skippedKind, OtherKind.toKind, Bool.false_eq_true,
      if_false, if_true] <;> first | rfl | exact key

@[simp] theorem foldl_addRecord_columnSet (rows : List (List String)) (t : tabular) :
    (rows.foldl addRecord t).columnSet = t.columnSet := by
  induction rows generalizing t with
  | nil => rfl
  | cons r rest ih => simp [ih]

@[simp] theorem foldl_addRecord_excludeSet (rows : List (List String)) (t : tabular) :
    (rows.foldl addRecord t).excludeSet = t.excludeSet := by
  induction rows generalizing t with
  | nil => rfl
  | cons r rest ih => simp [ih]

theorem foldl_addRecord_columns_length (m : Nat) (rows : List (List String)) (t : tabular)
    (hr : ∀ r ∈ rows, r.length = m) (ht : t.columns.length = m) :
    (rows.foldl addRecord t).columns.length = m := by
  induction rows generalizing t with
  | nil => exact ht
  | cons r rest ih =>
    simp only [List.foldl_cons]
    exact ih _ (fun x hx => hr x (List.mem_cons_of_mem _ hx))
      (by rw [addRecord_columns_length _ _ (by rw [hr r (List.mem_cons_self _ _), ht]), ht])

theorem detailRow_length (lv : leafValue) : lv.detailRow.length = 2 := rfl

/-- Detail mode on a field that is no record. -/
theorem reflectFieldNameValue_eq_leaf (value : Value) (hs : ∀ fields, value ≠ .struct fields)
    (table : tabular) (fieldName tag : String) (h : table.columns.length = 2) :
    reflectFieldNameValue table fieldName tag value =
      .ok (((valueLeaves table.columnSet table.excludeSet fieldName tag value).map
        leafValue.detailRow).foldl addRecord table) := by
  cases hv : visible table.columnSet table.excludeSet (displayName fieldName tag)
  · rw [reflectFieldNameValue_hidden _ _ _ _ hv, valueLeaves_hidden _ _ _ _ _ hv]; rfl
  · rw [valueLeaves_leaf _ _ _ _ _ hs hv, reflectFieldNameValue_leaf _ _ _ _ hs hv h]
    cases hk : skippedKind value.Kind <;> simp


mutual
/-- Detail mode adds one name/value row per visible leaf value of a field. -/
theorem reflectFieldNameValue_eq : ∀ (value : Value) (table : tabular) (fieldName tag : String),
    table.columns.length = 2 →
    reflectFieldNameValue table fieldName tag value =
      .ok (((valueLeaves table.columnSet table.excludeSet fieldName tag value).map
        leafValue.detailRow).foldl addRecord table)
  | .struct fields, table, fieldName, tag, h => by
    cases hv : visible table.columnSet table.excludeSet (displayName fieldName tag)
    · rw [reflectFieldNameValue_hidden _ _ _ _ hv, valueLeaves_hidden _ _ _ _ _ hv]; rfl
    · rw [valueLeaves_struct _ _ _ _ _ hv, reflectFieldNameValue_struct _ _ _ _ hv]
      exact reflectFieldNameValueLoop_eq fields table h
  | .bool b, table, fieldName, tag, h =>
    reflectFieldNameValue_eq_leaf (.bool b) (fun _ => Value.noConfusion) table fieldName tag h
  | .str s, table, fieldName, tag, h =>
    reflectFieldNameValue_eq_leaf (.str s) (fun _ => Value.noConfusion) table fieldName tag h
  | .other k text, table, fieldName, tag, h =>
    reflectFieldNameValue_eq_leaf (.other k text) (fun _ => Value.noConfusion) table
      fieldName tag h
  | .ptr e text, table, fieldName, tag, h =>
    reflectFieldNameValue_eq_leaf (.ptr e text) (fun _ => Value.noConfusion) table
      fieldName tag h
  | .seq slice items, table, fieldName, tag, h =>
    reflectFieldNameValue_eq_leaf (.seq slice items) (fun _ => Value.noConfusion) table
      fieldName tag h
/-- Detail mode over a list of fields. -/
theorem reflectFieldNameValueLoop_eq : ∀ (fields : List (StructField Value)) (table : tabular),
    table.columns.length = 2 →
    reflectFieldNameValueLoop table fields =
      .ok (((valueLeavesLoop table.columnSet table.excludeSet fields).map
        leafValue.detailRow).foldl addRecord table)
  | [], table, _ => by
    simp [reflectFieldNameValueLoop, valueLeavesLoop]
  | f :: rest, table, h => by
    rw [reflectFieldNameValueLoop, valueLeavesLoop]
    rw [reflectFieldNameValue_eq f.Item table f.Name f.Tag h]
    simp only
    have h2 := reflectFieldNameValueLoop_eq rest
      (((valueLeaves table.columnSet table.excludeSet f.Name f.Tag f.Item).map
        leafValue.detailRow).foldl addRecord table)
      (foldl_addRecord_columns_length 2 _ _
        (by intro r hr; obtain ⟨lv, _, rfl⟩ := List.mem_map.1 hr; rfl) h)
    rw [h2]
    simp only [foldl_addRecord_columnSet, foldl_addRecord_excludeSet, List.map_append,
      List.foldl_append]
end


/-- Rows added by a fold of `addRecord` come after the rows of the table, in
order, and the names and alignments of the columns stay. -/
theorem foldl_addRecord_rows (m : Nat) :
    ∀ (rows : List (List String)) (t : tabular),
      (∀ r ∈ rows, r.length = m) → t.columns.length = m →
      (rows.foldl addRecord t).rows = t.rows ++ rows ∧
      (rows.foldl addRecord t).columns.map column.name = t.columns.map column.name ∧
      (rows.foldl addRecord t).columns.map column.rightAlign =
        t.columns.map column.rightAlign := by
  intro rows
  induction rows with
  | nil => intro t _ _; simp
  | cons r rest ih =>
    intro t hm hl
    have hr : r.length = t.columns.length := by rw [hm r (List.mem_cons_self _ _), hl]
    obtain ⟨h1, h2, h3⟩ := ih (addRecord t r) (fun w hw => hm w (List.mem_cons_of_mem _ hw))
      (by rw [addRecord_columns_length _ _ hr, hl])
    have hn := zipWith_widen_names r t.columns hr
    refine ⟨?_, ?_, ?_⟩
    · simp only [List.foldl_cons]; rw [h1]; simp [addRecord]
    · simp only [List.foldl_cons]; rw [h2]; exact hn.1
    · simp only [List.foldl_cons]; rw [h3]; exact hn.2

/-- The table `reflectStructDetail` starts from: the columns "Name" and
"Output" added to the empty table. -/
theorem reflectStructDetail_eq (cs xs : List (String × Bool))
    (fields : List (StructField Value)) (hne : fields ≠ []) :
    reflectStructDetail (newTabular cs xs) (.struct fields) =
      .ok (((valueLeavesLoop cs xs fields).map leafValue.detailRow).foldl addRecord
        ⟨[⟨"Name", len "Name", true, len "Name"⟩, ⟨"Output", len "Output", false, len "Output"⟩],
          [], cs, xs⟩) := by
  have hl : ¬ (Value.struct fields).fields.length = 0 := by
    simpa [Value.fields] using hne
  rw [reflectStructDetail]
  simp only [Value.Kind, ne_eq, not_true_eq_false, if_false, hl]
  have hp : ("" : String) ≠ "" ↔ False := by simp
  simp only [addColumn, hp, if_false, newTabular, List.nil_append, List.cons_append,
    Value.fields]
  exact reflectFieldNameValueLoop_eq fields _ rfl

/-- C3: for a record with at least one field, or a pointer to one,
`reflectInterface` builds a table with exactly the columns "Name" and "Output"
and one row per visible leaf value, in flattened declaration order, holding the
display name of the field and the default rendering of its value. -/
theorem reflectInterface_detail (cs xs : List (String × Bool)) (fields : List (StructField Value))
    (value : Value) (hne : fields ≠ [])
    (hv : value = .struct fields ∨ ∃ text, value = .ptr (some (.struct fields)) text) :
    ∃ t, reflectInterface (newTabular cs xs) value = .ok t ∧
      t.columns.map column.name = ["Name", "Output"] ∧
      t.rows = (valueLeavesLoop cs xs fields).map leafValue.detailRow ∧
      (∀ lv ∈ valueLeavesLoop cs xs fields,
        lv.detailRow = [displayName lv.fieldName lv.tag, sprintV lv.value]) := by
  have hd : derefPtr value = some (.struct fields) := by
    rcases hv with rfl | ⟨text, rfl⟩ <;> simp [derefPtr, Value.Kind, Indirect]
  have hri : reflectInterface (newTabular cs xs) value =
      reflectStructDetail (newTabular cs xs) (.struct fields) := by
    rw [reflectInterface, hd]
    simp only [Value.Kind]
  obtain ⟨h1, h2, _⟩ := foldl_addRecord_rows 2
    ((valueLeavesLoop cs xs fields).map leafValue.detailRow)
    ⟨[⟨"Name", len "Name", true, len "Name"⟩, ⟨"Output", len "Output", false, len "Output"⟩],
      [], cs, xs⟩
    (by intro r hr; obtain ⟨lv, _, rfl⟩ := List.mem_map.1 hr; rfl) rfl
  refine ⟨_, by rw [hri, reflectStructDetail_eq cs xs fields hne], ?_, ?_, fun _ _ => rfl⟩
  · rw [h2]; rfl
  · rw [h1]; rfl

theorem isScalar_kind (v : Value) (h : v.isScalar = true) :
    v.Kind ∉ [Kind.Struct, Kind.Array, Kind.Slice, Kind.Map, Kind.Func, Kind.Ptr,
      Kind.Interface] := by
  cases v with
  | bool b => simp [Value.Kind]
  | str s => simp [Value.Kind]
  | other k text => cases k <;> simp [Value.isScalar] at h <;> simp [Value.Kind, OtherKind.toKind]
  | ptr e text => simp [Value.isScalar] at h
  | seq slice items => simp [Value.isScalar] at h
  | struct fields => simp [Value.isScalar] at h

/-- One step of the loop of `reflectArray` on a scalar item after the first:
a row holding its default rendering. -/
theorem reflectArrayLoop_scalar_step (t : tabular) (i : Nat) (v : Value) (rest : List Value)
    (hs : v.isScalar = true) (hc : t.columns.length = 1) :
    reflectArrayLoop t 0 (i + 1) (v :: rest) =
      reflectArrayLoop (addRecord t [sprintV v]) 0 (i + 2) rest := by
  have hk := isScalar_kind v hs
  have hd : derefPtr v = some v := by
    rw [derefPtr, if_neg]; intro h; rw [h] at hk; simp at hk
  have hrow := newRow_setField_one t (sprintV v) hc
  rw [reflectArrayLoop, hd]
  simp only [Nat.add_one_ne_zero, if_false]
  cases hkv : v.Kind <;> rw [hkv] at hk <;> first | (exfalso; simp at hk; done) | (simp only [hrow])

theorem reflectArrayLoop_scalars : ∀ (items : List Value) (t : tabular) (i : Nat),
    (∀ v ∈ items, v.isScalar = true) → t.columns.length = 1 →
    reflectArrayLoop t 0 (i + 1) items =
      .ok ((items.map (fun v => [sprintV v])).foldl addRecord t)
  | [], t, i, _, _ => by simp [reflectArrayLoop]
  | v :: rest, t, i, hs, hc => by
    rw [reflectArrayLoop_scalar_step t i v rest (hs v (List.mem_cons_self _ _)) hc]
    rw [reflectArrayLoop_scalars rest _ (i + 1) (fun w hw => hs w (List.mem_cons_of_mem _ hw))
      (by rw [addRecord_columns_length _ _ (by simp [hc]), hc])]
    simp

/-- C4: for a non-empty sequence of `n` scalars `reflectInterface` builds a
table with the one column "Output", left-aligned, and `n` rows, row `i` holding
the default rendering of item `i`. -/
theorem reflectInterface_scalars (cs xs : List (String × Bool)) (slice : Bool)
    (items : List Value) (hne : items ≠ []) (hs : ∀ v ∈ items, v.isScalar = true) :
    ∃ t, reflectInterface (newTabular cs xs) (.seq slice items) = .ok t ∧
      t.columns.map column.name = ["Output"] ∧
      t.columns.map column.rightAlign = [false] ∧
      t.rows = items.map (fun v => [sprintV v]) ∧ t.rows.length = items.length := by
  have hk : (Value.seq slice items).Kind ≠ Kind.Ptr := by cases slice <;> simp [Value.Kind]
  have hk2 : ¬ ((Value.seq slice items).Kind ≠ Kind.Array ∧
      (Value.seq slice items).Kind ≠ Kind.Slice) := by cases slice <;> simp [Value.Kind]
  have hra : reflectInterface (newTabular cs xs) (.seq slice items) =
      reflectArrayLoop (newTabular cs xs) 0 0 items := by
    have hl : ¬ (Value.seq slice items).items.length = 0 := by
      simpa [Value.items] using hne
    rw [reflectInterface, derefPtr, if_neg hk]
    cases slice <;> simp only [Value.Kind, Bool.false_eq_true, if_false, if_true] <;>
      rw [reflectArray, if_neg hk2, if_neg hl] <;> rfl
  cases items with
  | nil => exact absurd rfl hne
  | cons v rest =>
    have hkv := isScalar_kind v (hs v (List.mem_cons_self _ _))
    have hd : derefPtr v = some v := by
      rw [derefPtr, if_neg]; intro h; rw [h] at hkv; simp at hkv
    have hp : ("" : String) ≠ "" ↔ False := by simp
    have hrow := newRow_setField_one
      (⟨[⟨"Output", len "Output", false, len "Output"⟩], [], cs, xs⟩ : tabular) (sprintV v) rfl
    have hstep : reflectArrayLoop (newTabular cs xs) 0 0 (v :: rest) =
        reflectArrayLoop (addRecord
          (⟨[⟨"Output", len "Output", false, len "Output"⟩], [], cs, xs⟩ : tabular) [sprintV v])
          0 1 rest := by
      rw [reflectArrayLoop, hd]
      simp only [if_true, addColumn, hp, if_false, newTabular, List.nil_append, List.length_nil,
        Nat.cast_zero]
      cases hkv' : v.Kind <;> rw [hkv'] at hkv <;>
        first | (exfalso; simp at hkv; done) | (simp only [hrow])
    have hloop := reflectArrayLoop_scalars rest _ 0
      (fun w hw => hs w (List.mem_cons_of_mem _ hw))
      (show (addRecord (⟨[⟨"Output", len "Output", false, len "Output"⟩], [], cs, xs⟩ : tabular)
        [sprintV v]).columns.length = 1 from rfl)
    obtain ⟨h1, h2, h3⟩ := foldl_addRecord_rows 1 ((v :: rest).map (fun v => [sprintV v]))
      (⟨[⟨"Output", len "Output", false, len "Output"⟩], [], cs, xs⟩ : tabular)
      (by intro r hr; obtain ⟨w, _, rfl⟩ := List.mem_map.1 hr; rfl) rfl
    refine ⟨_, by rw [hra, hstep, hloop], ?_, ?_, ?_, ?_⟩
    · exact h2
    · exact h3
    · exact h1
    · rw [show (List.foldl addRecord (addRecord _ [sprintV v]) _).rows = _ from h1]; simp

/-! ## Case-insensitive filtering -/

theorem toLower_char_dash (c : Char) (h : c.toLower = '-') : c = '-' := by
  unfold Char.toLower at h
  simp only at h
  by_cases hr : c.toNat ≥ 65 ∧ c.toNat ≤ 90
  · rw [if_pos hr] at h
    exfalso
    obtain ⟨h1, h2⟩ := hr
    generalize c.toNat = n at h h1 h2
    interval_cases n <;> exact absurd h (by decide)
  · rw [if_neg hr] at h
    exact h

theorem ToLower_eq_empty (s : String) : ToLower s = "" ↔ s = "" := by
  constructor
  · intro h
    have := congrArg String.data h
    simp only [ToLower, List.map_eq_nil_iff] at this
    exact String.ext this
  · rintro rfl; rfl

theorem ToLower_eq_dash (s : String) : ToLower s = "-" ↔ s = "-" := by
  constructor
  · intro h
    have := congrArg String.data h
    simp only [ToLower] at this
    apply String.ext
    cases hs : s.data with
    | nil => rw [hs] at this; simp at this
    | cons c cs =>
      rw [hs] at this
      simp only [List.map_cons] at this
      have h1 : c.toLower = '-' := by
        have := List.head_eq_of_cons_eq this; exact this
      have h2 : cs.map Char.toLower = [] := List.tail_eq_of_cons_eq this
      rw [toLower_char_dash c h1, List.map_eq_nil_iff.1 h2]
  · rintro rfl; decide

/-- Names that differ only in letter case are both suppressed or both not. -/
theorem suppressed_congr (a b : String) (h : ToLower a = ToLower b) :
    (a = "" ∨ a = "-") ↔ (b = "" ∨ b = "-") := by
  rw [← ToLower_eq_empty a, ← ToLower_eq_dash a, ← ToLower_eq_empty b, ← ToLower_eq_dash b, h]

theorem shouldOutputColumn_congr (t : tabular) (a b : String) (h : ToLower a = ToLower b) :
    shouldOutputColumn t a = shouldOutputColumn t b := by
  unfold shouldOutputColumn
  have := suppressed_congr a b h
  by_cases ha : a = "" ∨ a = "-"
  · rw [if_pos ha, if_pos (this.1 ha)]
  · rw [if_neg ha, if_neg (fun hb => ha (this.2 hb))]
    simp only [h]

theorem mapSet_fresh {V : Type} (m : List (String × V)) (k : String) (v : V)
    (h : k ∉ m.map Prod.fst) : mapSet m k v = m ++ [(k, v)] := by
  induction m with
  | nil => rfl
  | cons e rest ih =>
    obtain ⟨k0, v0⟩ := e
    simp only [List.map_cons, List.mem_cons, not_or] at h
    have h0 : ¬ k0 = k := fun e => h.1 e.symm
    simp [mapSet, h0, ih h.2]

/-- When no two keys fall together in lower case, the loop of
`normalizeOptions` lower-cases every key and keeps every binding. -/
theorem lowerKeys_eq : ∀ (m out : List (String × Bool)),
    (out.map Prod.fst ++ m.map (fun e => ToLower e.1)).Nodup →
    lowerKeys m out = out ++ m.map (fun e => (ToLower e.1, e.2))
  | [], out, _ => by simp [lowerKeys]
  | (k, v) :: rest, out, h => by
    have hk : ToLower k ∉ out.map Prod.fst := by
      intro hmem
      have := List.nodup_append.1 h
      exact this.2.2 hmem (by simp)
    rw [lowerKeys, mapSet_fresh out _ v hk]
    rw [lowerKeys_eq rest _ (by
      simp only [List.map_append, List.map_cons, List.map_nil, List.append_assoc,
        List.singleton_append]
      simpa using h)]
    simp

/-- C6: when no two keys of a set fall together in lower case, the answer of
`shouldOutputColumn` on the sets of `normalizeOptions` does not change when
keys of the sets and the column name are replaced by others that differ from
them only in letter case. -/
theorem normalizeOptions_case_insensitive (o o' : Options) (name name' : String)
    (hc : (o.ColumnSet.map (fun e => ToLower e.1)).Nodup)
    (hx : (o.ExcludeSet.map (fun e => ToLower e.1)).Nodup)
    (hcs : List.Forall₂ (fun e e' => ToLower e.1 = ToLower e'.1 ∧ e.2 = e'.2)
      o.ColumnSet o'.ColumnSet)
    (hxs : List.Forall₂ (fun e e' => ToLower e.1 = ToLower e'.1 ∧ e.2 = e'.2)
      o.ExcludeSet o'.ExcludeSet)
    (hn : ToLower name = ToLower name') :
    shouldOutputColumn
        (newTabular (normalizeOptions o).ColumnSet (normalizeOptions o).ExcludeSet) name =
      shouldOutputColumn
        (newTabular (normalizeOptions o').ColumnSet (normalizeOptions o').ExcludeSet) name' := by
  have key : ∀ (m m' : List (String × Bool)),
      List.Forall₂ (fun e e' => ToLower e.1 = ToLower e'.1 ∧ e.2 = e'.2) m m' →
      m.map (fun e => (ToLower e.1, e.2)) = m'.map (fun e => (ToLower e.1, e.2)) := by
    intro m m' h
    induction h with
    | nil => rfl
    | cons h1 _ ih => simp [h1.1, h1.2, ih]
  have keys : ∀ (m : List (String × Bool)),
      (m.map (fun e => (ToLower e.1, e.2))).map Prod.fst = m.map (fun e => ToLower e.1) := by
    intro m; simp [List.map_map, Function.comp_def]
  have hc' : (o'.ColumnSet.map (fun e => ToLower e.1)).Nodup := by
    rw [← keys, ← key _ _ hcs, keys]; exact hc
  have hx' : (o'.ExcludeSet.map (fun e => ToLower e.1)).Nodup := by
    rw [← keys, ← key _ _ hxs, keys]; exact hx
  have e1 : (normalizeOptions o).ColumnSet = (normalizeOptions o').ColumnSet := by
    simp only [normalizeOptions]
    rw [lowerKeys_eq _ [] (by simpa using hc), lowerKeys_eq _ [] (by simpa using hc'),
      key _ _ hcs]
  have e2 : (normalizeOptions o).ExcludeSet = (normalizeOptions o').ExcludeSet := by
    simp only [normalizeOptions]
    rw [lowerKeys_eq _ [] (by simpa using hx), lowerKeys_eq _ [] (by simpa using hx'),
      key _ _ hxs]
  rw [e1, e2]
  exact shouldOutputColumn_congr _ _ _ hn

/-! ## The columns of a record type -/

/-- C1 (as stated) fails: with the name "n" denied, the record `N` is hidden
with its leaf, so the header pass declares only "S", while filtering the leaves
alone keeps "S" and "Sun". -/
theorem reflectStructHeader_hidden_record :
    reflectStructHeader (newTabular [] [("n", true)])
        (.struct [⟨"S", "", .str "a"⟩, ⟨"N", "", .struct [⟨"Sin", "Sun", .str "b"⟩]⟩]) =
      .ok ⟨[⟨"S", 1, false, 1⟩], [], [], [("n", true)]⟩ ∧
    leafFilteredNames [] [("n", true)]
        [⟨"S", "", .basic .String⟩, ⟨"N", "", .struct [⟨"Sin", "Sun", .basic .String⟩]⟩] =
      ["S", "Sun"] := by decide!

/-! ## Concrete runs -/

/-- C2 (as stated) fails: a record whose only field is visible and carries the
width hint "x" renders no line at all in the aligned style; the reflect pass
returns the parse error. -/
theorem render_records_bad_width :
    renderStyledText (fun s _ => [s]) "" (.seq true [.struct [⟨"A", "A,width=x", .str "v"⟩]])
        { Style := Aligned, ExcludeHeader := false, ColumnSeparator := "\t", ColumnSet := [],
          ExcludeSet := [], TerminalWidth := 0 } =
      ("", some (.ParseInt "x")) ∧
    typeLeavesLoop [] [] [⟨"A", "A,width=x", .basic .String⟩] =
      [⟨"A", "A,width=x", .String⟩] := by decide!

/-- C8: in the detail table of a single record, a `bool` field tagged
`trueonly` whose value is false renders "false", not the empty string; the
same record in a sequence renders the empty string. -/
theorem reflectInterface_detail_trueonly_false :
    reflectInterface (newTabular [] []) (.struct [⟨"B2", ",trueonly", .bool false⟩]) =
      .ok ⟨[⟨"Name", 4, true, 4⟩, ⟨"Output", 6, false, 6⟩], [["B2", "false"]], [], []⟩ ∧
    reflectInterface (newTabular [] []) (.seq true [.struct [⟨"B2", ",trueonly", .bool false⟩]]) =
      .ok ⟨[⟨"B2", 2, true, 2⟩], [[""]], [], []⟩ := by decide!

/-- The field `I int` of the tests declares a column. -/
theorem reflectFieldHead_rightAlign_witness :
    shouldOutputColumn (newTabular [] []) (getFieldName "I" (getTags "")) = true ∧
    ∃ table', reflectFieldHead (newTabular [] []) "I" "" (.basic .Int) = .ok table' :=
  ⟨by decide, (reflectFieldHead_rightAlign (newTabular [] []) "I" "" .Int (by decide)
    (by decide)).2 (Or.inl (by decide))⟩

/-- The field `B2` of the tests, tagged `trueonly` and false, leaves its cell
empty. -/
theorem reflectFieldValue_bool_witness :
    ∃ t', reflectFieldValue ⟨[⟨"B2", 2, true, 2⟩], [["?"]], [], []⟩ ((0 : Nat) : Int)
        ((0 : Nat) : Int) "B2" ",trueonly" (.bool false) = .ok (t', ((0 : Nat) : Int) + 1) ∧
      t'.rows.get? 0 = some [""] := by
  obtain ⟨t', h1, h2⟩ := reflectFieldValue_bool ⟨[⟨"B2", 2, true, 2⟩], [["?"]], [], []⟩ 0 0
    "B2" ",trueonly" false ["?"] (by decide) rfl (by decide) (by decide)
  exact ⟨t', h1, by rw [h2]; decide⟩

/-- The key "I" of the deny set hides the column "I", and the key "i" hides
the column "i" just as well. -/
theorem normalizeOptions_case_insensitive_witness :
    shouldOutputColumn
        (newTabular (normalizeOptions { NewOptions with ExcludeSet := [("I", true)] }).ColumnSet
          (normalizeOptions { NewOptions with ExcludeSet := [("I", true)] }).ExcludeSet) "I" =
      shouldOutputColumn
        (newTabular (normalizeOptions { NewOptions with ExcludeSet := [("i", true)] }).ColumnSet
          (normalizeOptions { NewOptions with ExcludeSet := [("i", true)] }).ExcludeSet) "i" ∧
    shouldOutputColumn
        (newTabular (normalizeOptions { NewOptions with ExcludeSet := [("I", true)] }).ColumnSet
          (normalizeOptions { NewOptions with ExcludeSet := [("I", true)] }).ExcludeSet) "I" =
      false :=
  ⟨normalizeOptions_case_insensitive { NewOptions with ExcludeSet := [("I", true)] }
      { NewOptions with ExcludeSet := [("i", true)] } "I" "i" (by decide) (by decide)
      List.Forall₂.nil (List.Forall₂.cons ⟨by decide, rfl⟩ List.Forall₂.nil) (by decide),
    by decide⟩

/-- The detail table of the record of the tests. -/
theorem reflectInterface_detail_witness :
    ∃ t, reflectInterface (newTabular [] [])
        (.ptr (some (.struct [⟨"S", "", .str "Hello"⟩, ⟨"I", "", .other .Int "10"⟩,
          ⟨"F", "", .other .Float64 "3.14"⟩,
          ⟨"N", "", .struct [⟨"Sin", "Sun", .str "Inside"⟩, ⟨"next", "", .ptr none "<nil>"⟩,
            ⟨"list", "", .seq false []⟩]⟩,
          ⟨"h", "", .other .Int "0"⟩])) "&") = .ok t ∧
      t.columns.map column.name = ["Name", "Output"] ∧
      t.rows = [["S", "Hello"], ["I", "10"], ["F", "3.14"], ["Sun", "Inside"]] := by
  obtain ⟨t, h1, h2, h3, _⟩ := reflectInterface_detail [] []
    [⟨"S", "", .str "Hello"⟩, ⟨"I", "", .other .Int "10"⟩, ⟨"F", "", .other .Float64 "3.14"⟩,
      ⟨"N", "", .struct [⟨"Sin", "Sun", .str "Inside"⟩, ⟨"next", "", .ptr none "<nil>"⟩,
        ⟨"list", "", .seq false []⟩]⟩,
      ⟨"h", "", .other .Int "0"⟩]
    (.ptr (some (.struct [⟨"S", "", .str "Hello"⟩, ⟨"I", "", .other .Int "10"⟩,
          ⟨"F", "", .other .Float64 "3.14"⟩,
          ⟨"N", "", .struct [⟨"Sin", "Sun", .str "Inside"⟩, ⟨"next", "", .ptr none "<nil>"⟩,
            ⟨"list", "", .seq false []⟩]⟩,
          ⟨"h", "", .other .Int "0"⟩])) "&")
    (by simp) (Or.inr ⟨"&", rfl⟩)
  exact ⟨t, h1, h2, by rw [h3]; decide!⟩

/-- The table of the slice of the two strings of the tests. -/
theorem reflectInterface_scalars_witness :
    ∃ t, reflectInterface (newTabular [] []) (.seq true [.str "one", .str "two"]) = .ok t ∧
      t.columns.map column.name = ["Output"] ∧ t.rows = [["one"], ["two"]] := by
  obtain ⟨t, h1, h2, _, h4, _⟩ := reflectInterface_scalars [] [] true [.str "one", .str "two"]
    (by simp) (by decide)
  exact ⟨t, h1, h2, by rw [h4]; rfl⟩

/-- The two records of the boolean test render as three lines in the aligned
style. -/
theorem render_records_aligned_witness :
    ∃ (header : String) (dataLines : List String),
      renderStyledText (fun s _ => [s]) ""
        (.seq true [.struct [⟨"S", "", .str "Hello"⟩, ⟨"B1", "", .bool true⟩,
            ⟨"B2", ",trueonly", .bool true⟩],
          .struct [⟨"S", "", .str "Hello"⟩, ⟨"B1", "", .bool false⟩,
            ⟨"B2", ",trueonly", .bool false⟩]])
        { Style := Aligned, ExcludeHeader := false, ColumnSeparator := "\t", ColumnSet := [],
          ExcludeSet := [], TerminalWidth := 0 } =
        ("" ++ String.join ((header :: dataLines).map (fun l => l ++ "\n")), none) ∧
      (header :: dataLines).length = 2 + 1 := by
  obtain ⟨cols, header, dataLines, h1, h2, _⟩ := render_records_aligned (fun s _ => [s]) "" "\t"
    [] [] [⟨"S", "", .basic .String⟩, ⟨"B1", "", .basic .Bool⟩, ⟨"B2", ",trueonly", .basic .Bool⟩]
    true
    [.struct [⟨"S", "", .str "Hello"⟩, ⟨"B1", "", .bool true⟩, ⟨"B2", ",trueonly", .bool true⟩],
      .struct [⟨"S", "", .str "Hello"⟩, ⟨"B1", "", .bool false⟩,
        ⟨"B2", ",trueonly", .bool false⟩]]
    (by simp)
    (by
      intro v hv
      simp only [List.mem_cons, List.mem_singleton, List.not_mem_nil, or_false] at hv
      rcases hv with rfl | rfl <;> exact ⟨_, rfl, rfl⟩)
    (by decide!) (by decide!) (by decide!) (by decide!)
  exact ⟨header, dataLines, h1, h2⟩

/-! ## Output appended to the writer -/

theorem empty_append (s : String) : "" ++ s = s := by
  apply String.ext; simp [String.data_append]

theorem append_empty (s : String) : s ++ "" = s := by
  apply String.ext; simp [String.data_append]

theorem writePlain_out (tablet : tabular) (out : String) (excludeHeader : Bool) (sep : String) :
    writePlain tablet out excludeHeader sep = out ++ writePlain tablet "" excludeHeader sep := by
  simp only [writePlain, writePlainRows_eq, writePlainHeader_eq]
  cases excludeHeader <;> by_cases hc : tablet.columns = [] <;>
    simp [hc, String.append_assoc, empty_append]

theorem writeMarkdownNames_eq (cols : List column) (out : String) :
    writeMarkdownNames cols out = out ++ String.join (cols.map (fun c => "|" ++ c.name)) := by
  induction cols generalizing out with
  | nil => simp [writeMarkdownNames, join_nil]
  | cons a l ih => simp [writeMarkdownNames, ih, join_cons, String.append_assoc]

theorem writeMarkdownFields_eq (row : List String) (out : String) :
    writeMarkdownFields row out = out ++ String.join (row.map (fun x => "|" ++ x)) := by
  induction row generalizing out with
  | nil => simp [writeMarkdownFields, join_nil]
  | cons a l ih => simp [writeMarkdownFields, ih, join_cons, String.append_assoc]

theorem join_bar (l : List String) (h : l ≠ []) :
    String.join (l.map (fun x => "|" ++ x)) = "|" ++ "|".intercalate l := by
  cases l with
  | nil => exact absurd rfl h
  | cons a l => simp [intercalate_cons, join_cons, String.append_assoc]

theorem writeMarkdownRow_eq (out : String) (row : List String) :
    writeMarkdownRow out row =
      if row = [] then out else out ++ ("|" ++ "|".intercalate row ++ "|" ++ "\n") := by
  by_cases hr : row = []
  · simp [hr, writeMarkdownRow]
  · have hl : ¬ row.length = 0 := fun h => hr (List.length_eq_zero.1 h)
    rw [writeMarkdownRow, if_neg hl, if_neg hr, writeMarkdownFields_eq, join_bar _ hr]
    simp [String.append_assoc]

theorem writeMarkdownRows_eq (rows : List (List String)) (out : String) :
    writeMarkdownRows rows out =
      out ++ String.join ((rows.filter (fun r => decide (r ≠ []))).map
        (fun r => "|" ++ "|".intercalate r ++ "|" ++ "\n")) := by
  induction rows generalizing out with
  | nil => simp [writeMarkdownRows, join_nil]
  | cons r rest ih =>
    simp only [writeMarkdownRows, ih, writeMarkdownRow_eq]
    by_cases hr : r = []
    · simp [hr]
    · simp [hr, List.filter_cons, join_cons, String.append_assoc]

theorem writeMarkdownHeader_eq (tablet : tabular) (out : String) :
    writeMarkdownHeader tablet out =
      if tablet.columns = [] then out
      else out ++ (("|" ++ "|".intercalate (tablet.columns.map column.name) ++ "|" ++ "\n") ++
        (String.join (List.replicate tablet.columns.length "|-") ++ "|" ++ "\n")) := by
  by_cases hc : tablet.columns = []
  · simp [writeMarkdownHeader, hc]
  · have hl : ¬ tablet.columns.length = 0 := fun h => hc (List.length_eq_zero.1 h)
    have hn : tablet.columns.map column.name ≠ [] := by
      intro h; exact hc (List.map_eq_nil_iff.1 h)
    rw [writeMarkdownHeader, if_neg hl, if_neg hc]
    simp only [writeMarkdownNames_eq]
    have := join_bar _ hn
    rw [List.map_map] at this
    simp only [Function.comp_def] at this
    rw [this]
    simp [String.append_assoc]

theorem writeMarkdown_out (tablet : tabular) (out : String) :
    writeMarkdown tablet out = out ++ writeMarkdown tablet "" := by
  simp only [writeMarkdown, writeMarkdownRows_eq, writeMarkdownHeader_eq]
  by_cases hc : tablet.columns = [] <;> simp [hc, String.append_assoc, empty_append]

theorem writeGridLine_out (out : String) (spacing : List Int) :
    writeGridLine out spacing =
      match writeGridLine "" spacing with
      | .ok o => .ok (out ++ o)
      | .error e => .error e := by
  unfold writeGridLine
  cases gridLineLoop spacing "+" <;> simp [empty_append]

theorem writeAlignedHeader_out (t : tabular) (out : String) (hasGrid : Bool) (pad : Int) :
    writeAlignedHeader t out hasGrid pad =
      match writeAlignedHeader t "" hasGrid pad with
      | .ok o => .ok (out ++ o)
      | .error e => .error e := by
  unfold writeAlignedHeader
  by_cases hc : t.columns.length = 0
  · simp [hc, append_empty]
  · simp only [hc, if_false]
    cases alignedHeaderLoop hasGrid pad t.columns 0 "" <;> simp [empty_append]

theorem writeAlignedRow_out (t : tabular) (out : String) (row : List (List String))
    (hasGrid : Bool) (pad : Int) :
    writeAlignedRow t out row hasGrid pad =
      match writeAlignedRow t "" row hasGrid pad with
      | .ok o => .ok (out ++ o)
      | .error e => .error e := by
  unfold writeAlignedRow
  by_cases hc : t.columns.length = 0
  · simp [hc, append_empty]
  · simp only [hc, if_false]
    cases alignedLinesLoop t.columns hasGrid pad row "" <;> simp [empty_append]

theorem writeAlignedRows_out (t : tabular) (hasGrid : Bool) (pad : Int) (spacing : List Int) :
    ∀ (rows : List (List (List String))) (out : String),
      writeAlignedRows t hasGrid pad spacing rows out =
        (out ++ (writeAlignedRows t hasGrid pad spacing rows "").1,
          (writeAlignedRows t hasGrid pad spacing rows "").2)
  | [], out => by simp [writeAlignedRows, append_empty]
  | row :: rest, out => by
    rw [writeAlignedRows, writeAlignedRows, writeAlignedRow_out t out]
    cases hrow : writeAlignedRow t "" row hasGrid pad with
    | error e => simp [append_empty]
    | ok o =>
      simp only
      cases hasGrid
      · simp only [Bool.false_eq_true, if_false]
        rw [writeAlignedRows_out t false pad spacing rest (out ++ o),
          writeAlignedRows_out t false pad spacing rest o]
        simp [String.append_assoc]
      · simp only [if_true]
        rw [writeGridLine_out (out ++ o), writeGridLine_out o]
        cases hg : writeGridLine "" spacing with
        | error e => simp
        | ok g =>
          simp only
          rw [writeAlignedRows_out t true pad spacing rest (out ++ o ++ g),
            writeAlignedRows_out t true pad spacing rest (o ++ g)]
          simp [String.append_assoc]

theorem writeAligned_out (wrapText : String → Int → List String) (t : tabular) (out : String)
    (excludeHeader hasGrid : Bool) (pad terminalWidth : Int) :
    writeAligned wrapText t out excludeHeader hasGrid pad terminalWidth =
      ((writeAligned wrapText t "" excludeHeader hasGrid pad terminalWidth).1,
        out ++ (writeAligned wrapText t "" excludeHeader hasGrid pad terminalWidth).2.1,
        (writeAligned wrapText t "" excludeHeader hasGrid pad terminalWidth).2.2) := by
  unfold writeAligned
  by_cases hr : t.rows.length = 0
  · simp [hr, append_empty]
  · simp only [hr, if_false]
    cases hb : buildWrappedTable wrapText t hasGrid pad terminalWidth with
    | error e => simp [append_empty]
    | ok p =>
      obtain ⟨t1, wrapped⟩ := p
      simp only
      have hg : ∀ o : String,
          (if hasGrid = true then writeGridLine o wrapped.spacing else Except.ok o) =
            match (if hasGrid = true then writeGridLine "" wrapped.spacing else Except.ok "") with
            | .ok g => .ok (o ++ g)
            | .error e => .error e := by
        intro o
        cases hasGrid
        · simp [append_empty]
        · simp only [if_true]; exact writeGridLine_out o _
      rw [hg out]
      cases hg1 : (if hasGrid = true then writeGridLine "" wrapped.spacing else Except.ok "") with
      | error e => simp [append_empty]
      | ok g =>
        simp only [empty_append]
        cases excludeHeader
        · simp only [Bool.not_false, if_true]
          rw [writeAlignedHeader_out t1 (out ++ g), writeAlignedHeader_out t1 g]
          cases hh : writeAlignedHeader t1 "" hasGrid pad with
          | error e => simp [append_empty]
          | ok h =>
            simp only
            rw [hg (out ++ g ++ h), hg (g ++ h), hg1]
            simp only
            rw [writeAlignedRows_out t1 hasGrid pad wrapped.spacing _ (out ++ g ++ h ++ g),
              writeAlignedRows_out t1 hasGrid pad wrapped.spacing _ (g ++ h ++ g)]
            simp [String.append_assoc]
        · simp only [Bool.not_true, Bool.false_eq_true, if_false]
          rw [writeAlignedRows_out t1 hasGrid pad wrapped.spacing _ (out ++ g),
            writeAlignedRows_out t1 hasGrid pad wrapped.spacing _ g]
          simp [String.append_assoc]

theorem write_out (wrapText : String → Int → List String) (t : tabular) (out : String)
    (style : Int) (excludeHeader : Bool) (sep : String) (terminalWidth : Int) :
    write wrapText t out style excludeHeader sep terminalWidth =
      ((write wrapText t "" style excludeHeader sep terminalWidth).1,
        out ++ (write wrapText t "" style excludeHeader sep terminalWidth).2.1,
        (write wrapText t "" style excludeHeader sep terminalWidth).2.2) := by
  unfold write
  by_cases h0 : style = Plain
  · simp only [h0, if_true]; rw [writePlain_out]
  · by_cases h1 : style = Aligned
    · simp only [h0, h1, if_true, if_false]; exact writeAligned_out _ _ _ _ _ _ _
    · by_cases h2 : style = Grid
      · simp only [h0, h1, h2, if_true, if_false]; exact writeAligned_out _ _ _ _ _ _ _
      · by_cases h3 : style = Markdown
        · simp only [h0, h1, h2, if_false]
          simp only [if_pos h3]
          rw [writeMarkdown_out]
        · simp [h0, h1, h2, h3, append_empty]

theorem renderStyledText_out (wrapText : String → Int → List String) (writer : String) (d : Value)
    (options : Options) :
    renderStyledText wrapText writer d options =
      (writer ++ (renderStyledText wrapText "" d options).1,
        (renderStyledText wrapText "" d options).2) := by
  simp only [renderStyledText]
  cases h : reflectInterface (newTabular options.ColumnSet options.ExcludeSet) d with
  | error e => simp [append_empty]
  | ok table =>
    simp only
    rw [write_out]

theorem formatLoop_concat (wrapText : String → Int → List String) (o : Options) :
    ∀ (data : List Value) (writer : String),
      (∀ v ∈ data, (renderStyledText wrapText "" v o).2 = none) →
      formatLoop wrapText o data writer =
        (writer ++ String.join (data.map (fun v => (renderStyledText wrapText "" v o).1)), none)
  | [], writer, _ => by simp [formatLoop, join_nil, append_empty]
  | d :: rest, writer, h => by
    have hd := h d (List.mem_cons_self _ _)
    rw [formatLoop, renderStyledText_out]
    rw [hd]
    simp only
    rw [formatLoop_concat wrapText o rest _ (fun v hv => h v (List.mem_cons_of_mem _ hv))]
    simp [join_cons, String.append_assoc]

theorem Format_eq (wrapText : String → Int → List String) (writer : String)
    (options : Option Options) (data : List Value) :
    Format wrapText writer options data =
      formatLoop wrapText (normalizeOptions (options.getD NewOptions)) data writer := by
  cases options <;> rfl

theorem Format_single (wrapText : String → Int → List String) (options : Option Options)
    (v : Value) :
    Format wrapText "" options [v] =
      renderStyledText wrapText "" v (normalizeOptions (options.getD NewOptions)) := by
  rw [Format_eq]
  simp only [formatLoop]
  generalize renderStyledText wrapText "" v _ = r
  obtain ⟨w, e⟩ := r
  cases e <;> rfl


/-! ## Markdown layout -/

/-- C11 (amended): for a table with at least one column, `writeMarkdown`
writes the line of the names between bars, the separator line of one "|-" per
column and a closing bar, then for each row with at least one cell, in row
order, the line of its cells between bars; every line ends with one line break
and every name and cell appears as it is, neither padded nor wrapped. -/
theorem writeMarkdown_rows (tablet : tabular) (out : String)
    (hc : 1 ≤ tablet.columns.length) :
    writeMarkdown tablet out =
      out ++ ("|" ++ "|".intercalate (tablet.columns.map column.name) ++ "|" ++ "\n") ++
      (String.join (List.replicate tablet.columns.length "|-") ++ "|" ++ "\n") ++
      String.join ((tablet.rows.filter (fun r => decide (r ≠ []))).map
        (fun r => "|" ++ "|".intercalate r ++ "|" ++ "\n")) := by
  have hne : tablet.columns ≠ [] := by
    intro h; rw [h] at hc; simp at hc
  rw [writeMarkdown, writeMarkdownRows_eq, writeMarkdownHeader_eq, if_neg hne]
  simp [String.append_assoc]

/-- A table with two columns and a row without cells between two rows. -/
theorem writeMarkdown_rows_witness :
    writeMarkdown ⟨[⟨"A", 1, false, 1⟩, ⟨"B", 1, true, 1⟩], [["x", "y"], [], ["z", "w"]], [], []⟩
        "" = "|A|B|\n|-|-|\n|x|y|\n|z|w|\n" := by
  rw [writeMarkdown_rows _ _ (by decide)]
  decide!

/-- C11 (as stated) fails: the table left by `newRow` followed by
`addColumn "A"` has one column and one row, the row has no cell, and
`writeMarkdown` writes no line for it, where the rule as stated reads "||". -/
theorem writeMarkdown_empty_row :
    addColumn (newRow (newTabular [] [])).1 "A" false "" =
      .ok (⟨[⟨"A", 1, false, 1⟩], [[]], [], []⟩, 0) ∧
    1 ≤ (⟨[⟨"A", 1, false, 1⟩], [[]], [], []⟩ : tabular).columns.length ∧
    writeMarkdown ⟨[⟨"A", 1, false, 1⟩], [[]], [], []⟩ "" = "|A|\n|-|\n" ∧
    markdownText ⟨[⟨"A", 1, false, 1⟩], [[]], [], []⟩ = "|A|\n|-|\n||\n" ∧
    writeMarkdown ⟨[⟨"A", 1, false, 1⟩], [[]], [], []⟩ "" ≠
      "" ++ markdownText ⟨[⟨"A", 1, false, 1⟩], [[]], [], []⟩ := by
  decide!

/-! ## Styles and values -/

/-- C18: with a style that is none of `Plain`, `Aligned`, `Grid`, `Markdown`,
`write` returns the error `UnknownStyle` and leaves the output as it was; so
`Format` with such a style and at least one value returns an error, and
writes nothing. -/
theorem write_unknown_style (wrapText : String → Int → List String) (tablet : tabular)
    (out : String) (style : Int) (excludeHeader : Bool) (sep : String) (terminalWidth : Int)
    (h0 : style ≠ Plain) (h1 : style ≠ Aligned) (h2 : style ≠ Grid) (h3 : style ≠ Markdown) :
    write wrapText tablet out style excludeHeader sep terminalWidth =
      (tablet, out, some (.UnknownStyle style)) ∧
    ∀ (writer : String) (options : Options) (d : Value) (rest : List Value),
      options.Style = style →
      ∃ e, Format wrapText writer (some options) (d :: rest) = (writer, some e) := by
  have hw : ∀ (t : tabular) (o : String) (eh : Bool) (s : String) (w : Int),
      write wrapText t o style eh s w = (t, o, some (.UnknownStyle style)) := by
    intro t o eh s w
    simp [write, h0, h1, h2, h3]
  refine ⟨hw _ _ _ _ _, ?_⟩
  intro writer options d rest hs
  rw [Format_eq]
  simp only [formatLoop, renderStyledText, Option.getD_some]
  have hst : (normalizeOptions options).Style = style := hs
  cases hr : reflectInterface (newTabular (normalizeOptions options).ColumnSet
      (normalizeOptions options).ExcludeSet) d with
  | error e => exact ⟨e, rfl⟩
  | ok table =>
    refine ⟨.UnknownStyle style, ?_⟩
    simp only [hst, hw]

/-- The style 7 on the slice of the tests. -/
theorem write_unknown_style_witness :
    write (fun s _ => [s]) ⟨[⟨"Output", 6, false, 6⟩], [["one"]], [], []⟩ "" 7 false "\t" 0 =
      (⟨[⟨"Output", 6, false, 6⟩], [["one"]], [], []⟩, "", some (.UnknownStyle 7)) :=
  (write_unknown_style (fun s _ => [s]) ⟨[⟨"Output", 6, false, 6⟩], [["one"]], [], []⟩ "" 7
    false "\t" 0 (by decide) (by decide) (by decide) (by decide)).1

/-- C17: when every value formats without error on its own, `Format` on the
values writes the outputs of `Format` on each value, one after the other in
order; the output of one value is that of `renderStyledText` on that value
alone, which starts from a new table, so every value repeats its own header
and takes nothing from the columns, widths or rows of another. -/
theorem Format_concat (wrapText : String → Int → List String) (writer : String)
    (options : Option Options) (data : List Value)
    (h : ∀ v ∈ data, (Format wrapText "" options [v]).2 = none) :
    Format wrapText writer options data =
      (writer ++ String.join (data.map (fun v => (Format wrapText "" options [v]).1)), none) ∧
    ∀ v ∈ data, Format wrapText "" options [v] =
      renderStyledText wrapText "" v (normalizeOptions (options.getD NewOptions)) := by
  refine ⟨?_, fun v _ => Format_single wrapText options v⟩
  simp only [Format_single] at h ⊢
  rw [Format_eq, formatLoop_concat wrapText _ data writer h]

/-- A slice of two strings and a string, under the default options. -/
theorem Format_concat_witness :
    Format (fun s _ => [s]) "" none [.seq true [.str "one", .str "two"], .str "x"] =
      ("" ++ String.join ([Value.seq true [.str "one", .str "two"], .str "x"].map
        (fun v => (Format (fun s _ => [s]) "" none [v]).1)), none) ∧
    Format (fun s _ => [s]) "" none [.seq true [.str "one", .str "two"], .str "x"] =
      ("Output\none   \ntwo   \nOutput\nx     \n", none) :=
  ⟨(Format_concat (fun s _ => [s]) "" none [.seq true [.str "one", .str "two"], .str "x"]
    (by decide!)).1, by decide!⟩

/-! ## Segments and lines of the aligned and grid styles -/

theorem spaces_add (a b : Nat) : spaces (a + b) = spaces a ++ spaces b := by
  unfold spaces
  rw [List.replicate_add, join_append]

theorem Repeat_spaces (n : Nat) : Repeat " " (n : Int) = some (spaces n) := by
  rw [Repeat_nonneg _ _ (Int.ofNat_nonneg _)]; simp [spaces]

/-- A text that fits its column comes out as its segment, after a bar in a
grid, after a space when it is not the first text of a line without grid. -/
theorem alignedField_segment (col : column) (i : Nat) (field : String) (hasGrid : Bool)
    (pad : Nat) (h : len field ≤ col.width) :
    alignedField col i field hasGrid (pad : Int) =
      some ((if hasGrid then "|" else if i > 0 then " " else "") ++ segment pad col field) := by
  obtain ⟨n, hn⟩ : ∃ n : Nat, col.width - len field = (n : Int) :=
    ⟨(col.width - len field).toNat, by omega⟩
  have e1 : (n : Int) + (pad : Int) = ((n + pad : Nat) : Int) := (Nat.cast_add n pad).symm
  unfold alignedField segment padText
  simp only [hn, e1, Repeat_spaces, Int.toNat_ofNat]
  have e2 : String.join (List.replicate n " ") = spaces n := rfl
  rw [e2]
  cases col.rightAlign
  · simp only [Bool.false_eq_true, if_false]
    rw [spaces_add]
    simp [String.append_assoc]
  · simp only [if_true]
    rw [Nat.add_comm, spaces_add]
    simp [String.append_assoc]

theorem alignedLineLoop_grid (pad : Nat) : ∀ (cols : List column) (fields : List String)
    (i : Nat) (b : String), lineFits cols fields = true →
    alignedLineLoop true (pad : Int) cols fields i b =
      some (b ++ String.join (List.zipWith (fun col text => "|" ++ segment pad col text)
        cols fields))
  | cols, [], _, _, _ => by cases cols <;> simp [alignedLineLoop, join_nil, append_empty]
  | [], _ :: _, _, _, h => by simp [lineFits] at h
  | col :: cols, field :: fields, i, b, h => by
    simp only [lineFits, Bool.and_eq_true, decide_eq_true_eq] at h
    rw [alignedLineLoop, alignedField_segment col i field true pad h.1]
    simp only [if_true]
    rw [alignedLineLoop_grid pad cols fields (i + 1) _ h.2]
    simp [join_cons, String.append_assoc]

theorem alignedLineLoop_spaced_succ (pad : Nat) : ∀ (cols : List column) (fields : List String)
    (i : Nat) (b : String), lineFits cols fields = true →
    alignedLineLoop false (pad : Int) cols fields (i + 1) b =
      some (b ++ String.join ((List.zipWith (segment pad) cols fields).map (fun x => " " ++ x)))
  | cols, [], _, _, _ => by cases cols <;> simp [alignedLineLoop, join_nil, append_empty]
  | [], _ :: _, _, _, h => by simp [lineFits] at h
  | col :: cols, field :: fields, i, b, h => by
    simp only [lineFits, Bool.and_eq_true, decide_eq_true_eq] at h
    rw [alignedLineLoop, alignedField_segment col (i + 1) field false pad h.1]
    simp only [Bool.false_eq_true, if_false, Nat.zero_lt_succ, if_true]
    rw [alignedLineLoop_spaced_succ pad cols fields (i + 1) _ h.2]
    simp [join_cons, String.append_assoc]

theorem alignedLineLoop_spaced (pad : Nat) (cols : List column) (fields : List String)
    (b : String) (h : lineFits cols fields = true) :
    alignedLineLoop false (pad : Int) cols fields 0 b =
      some (b ++ " ".intercalate (List.zipWith (segment pad) cols fields)) := by
  cases fields with
  | nil => cases cols <;> simp [alignedLineLoop, String.intercalate, append_empty]
  | cons field fields =>
    cases cols with
    | nil => simp [lineFits] at h
    | cons col cols =>
      simp only [lineFits, Bool.and_eq_true, decide_eq_true_eq] at h
      rw [alignedLineLoop, alignedField_segment col 0 field false pad h.1]
      simp only [Bool.false_eq_true, if_false, Nat.lt_irrefl, Nat.zero_add]
      rw [alignedLineLoop_spaced_succ pad cols fields 0 _ h.2]
      simp [intercalate_cons, String.append_assoc, empty_append]

theorem lineFits_names : ∀ (cols : List column), (∀ c ∈ cols, len c.name ≤ c.width) →
    lineFits cols (cols.map column.name) = true
  | [], _ => rfl
  | col :: cols, h => by
    simp only [List.map_cons, lineFits, Bool.and_eq_true, decide_eq_true_eq]
    exact ⟨h col (List.mem_cons_self _ _),
      lineFits_names cols (fun c hc => h c (List.mem_cons_of_mem _ hc))⟩

/-- The loop over the columns of the header is the loop over the texts of a
line, run on the names. -/
theorem alignedHeaderLoop_eq (hasGrid : Bool) (pad : Int) : ∀ (cols : List column) (i : Nat)
    (b : String),
    alignedHeaderLoop hasGrid pad cols i b =
      alignedLineLoop hasGrid pad cols (cols.map column.name) i b
  | [], _, _ => by simp [alignedHeaderLoop, alignedLineLoop]
  | col :: cols, i, b => by
    rw [alignedHeaderLoop, List.map_cons, alignedLineLoop]
    cases alignedField col i col.name hasGrid pad with
    | none => rfl
    | some text => exact alignedHeaderLoop_eq hasGrid pad cols (i + 1) _

theorem alignedLinesLoop_grid (cols : List column) :
    ∀ (lines : List (List String)) (b : String),
      (∀ l ∈ lines, lineFits cols l = true) →
      alignedLinesLoop cols true 1 lines b =
        some (b ++ String.join (lines.map (fun l => gridLine cols l ++ "\n")))
  | [], b, _ => by simp [alignedLinesLoop, join_nil, append_empty]
  | l :: rest, b, h => by
    have := alignedLineLoop_grid 1 cols l 0 b (h l (List.mem_cons_self _ _))
    simp only [Nat.cast_one] at this
    rw [alignedLinesLoop, this]
    simp only [if_true]
    rw [alignedLinesLoop_grid cols rest _ (fun x hx => h x (List.mem_cons_of_mem _ hx))]
    simp [join_cons, gridLine, String.append_assoc]

theorem alignedLinesLoop_spaced (cols : List column) :
    ∀ (lines : List (List String)) (b : String),
      (∀ l ∈ lines, lineFits cols l = true) →
      alignedLinesLoop cols false 0 lines b =
        some (b ++ String.join (lines.map (fun l => spacedLine cols l ++ "\n")))
  | [], b, _ => by simp [alignedLinesLoop, join_nil, append_empty]
  | l :: rest, b, h => by
    have := alignedLineLoop_spaced 0 cols l b (h l (List.mem_cons_self _ _))
    simp only [Nat.cast_zero] at this
    rw [alignedLinesLoop, this]
    simp only [Bool.false_eq_true, if_false]
    rw [alignedLinesLoop_spaced cols rest _ (fun x hx => h x (List.mem_cons_of_mem _ hx))]
    simp [join_cons, spacedLine, String.append_assoc]

/-! ## The width negotiation -/

theorem spacingLoop_fst (e : Int) (cols : List column) :
    (spacingLoop e cols).1 = cols.map (fun c => c.width + e) := by
  induction cols with
  | nil => rfl
  | cons c cols ih => simp [spacingLoop, ih]

theorem calculateSpacing_fst (t : tabular) (hasGrid : Bool) (pad : Int) :
    (calculateSpacing t hasGrid pad).1 = t.columns.map (fun c => c.width + pad * 2) := by
  simp [calculateSpacing, spacingLoop_fst]

theorem Adjusted.refl (c : column) : Adjusted c c := ⟨rfl, rfl, le_refl _, Or.inl rfl⟩

theorem Adjusted.trans {a b c : column} (h1 : Adjusted a b) (h2 : Adjusted b c) :
    Adjusted a c := by
  obtain ⟨n1, r1, m1, w1⟩ := h1
  obtain ⟨n2, r2, m2, w2⟩ := h2
  refine ⟨n2.trans n1, r2.trans r1, le_trans m1 m2, ?_⟩
  rcases w2 with rfl | w2
  · exact w1
  · exact Or.inr w2

theorem forall₂_adjusted_refl (cols : List column) : List.Forall₂ Adjusted cols cols :=
  List.forall₂_same.2 (fun c _ => Adjusted.refl c)

theorem forall₂_adjusted_trans {a b c : List column} (h1 : List.Forall₂ Adjusted a b)
    (h2 : List.Forall₂ Adjusted b c) : List.Forall₂ Adjusted a c := by
  induction h1 generalizing c with
  | nil => cases h2; exact List.Forall₂.nil
  | cons hx _ ih =>
    cases h2 with
    | cons hy h2 => exact List.Forall₂.cons (hx.trans hy) (ih h2)

/-- One pass of the inner loop keeps every column or raises its minimum width
by one and sets its width to it. -/
theorem calcWidthsPass_adjusted : ∀ (cols : List column) (needed : List Int) (a tn : Int),
    List.Forall₂ Adjusted cols (calcWidthsPass cols needed a tn).columns
  | [], needed, a, tn => by
    cases needed <;> simp [calcWidthsPass]
  | col :: cols, [], a, tn => by
    simp only [calcWidthsPass]
    exact forall₂_adjusted_refl _
  | col :: cols, n :: needed, a, tn => by
    rw [calcWidthsPass]
    by_cases hn : n > 0
    · simp only [hn, if_true]
      refine List.Forall₂.cons ⟨rfl, rfl, by simp, Or.inr rfl⟩ ?_
      exact calcWidthsPass_adjusted cols needed _ _
    · simp only [hn, if_false]
      exact List.Forall₂.cons (Adjusted.refl _) (calcWidthsPass_adjusted cols needed _ _)

theorem calcWidthsLoop_adjusted : ∀ (fuel : Nat) (st st' : widthState),
    calcWidthsLoop fuel st = some st' → List.Forall₂ Adjusted st.columns st'.columns
  | 0, st, st', h => by
    rw [calcWidthsLoop] at h
    by_cases hc : st.available > 0 ∧ st.totalNeeded > 0
    · simp [hc] at h
    · simp only [hc, if_false, Option.some.injEq] at h
      subst h; exact forall₂_adjusted_refl _
  | fuel + 1, st, st', h => by
    rw [calcWidthsLoop] at h
    by_cases hc : st.available > 0 ∧ st.totalNeeded > 0
    · simp only [hc, and_self, if_true] at h
      exact forall₂_adjusted_trans (calcWidthsPass_adjusted _ _ _ _)
        (calcWidthsLoop_adjusted fuel _ _ h)
    · simp only [hc, if_false, Option.some.injEq] at h
      subst h; exact forall₂_adjusted_refl _

/-- What one pass does to the total: it never grows, it drops when some need
is positive, and it stays the sum of the needs when it was. -/
theorem calcWidthsPass_total : ∀ (cols : List column) (needed : List Int) (a tn : Int),
    needed.length = cols.length → (∀ n ∈ needed, 0 ≤ n) →
    (calcWidthsPass cols needed a tn).needed.length = (calcWidthsPass cols needed a tn).columns.length ∧
    (∀ n ∈ (calcWidthsPass cols needed a tn).needed, 0 ≤ n) ∧
    (calcWidthsPass cols needed a tn).totalNeeded - (calcWidthsPass cols needed a tn).needed.sum =
      tn - needed.sum ∧
    (calcWidthsPass cols needed a tn).totalNeeded ≤ tn ∧
    (0 < needed.sum → (calcWidthsPass cols needed a tn).totalNeeded < tn)
  | [], [], a, tn, _, _ => by simp [calcWidthsPass]
  | [], _ :: _, a, tn, hl, _ => by simp at hl
  | _ :: _, [], a, tn, hl, _ => by simp at hl
  | col :: cols, n :: needed, a, tn, hl, hn => by
    have hl' : needed.length = cols.length := by simpa using hl
    have hn' : ∀ m ∈ needed, 0 ≤ m := fun m hm => hn m (List.mem_cons_of_mem _ hm)
    have h0 : 0 ≤ n := hn n (List.mem_cons_self _ _)
    have hs : 0 ≤ needed.sum := List.sum_nonneg hn'
    rw [calcWidthsPass]
    by_cases hp : n > 0
    · simp only [hp, if_true]
      obtain ⟨i1, i2, i3, i4, i5⟩ := calcWidthsPass_total cols needed (a - 1) (tn - 1) hl' hn'
      refine ⟨by simp [i1], ?_, ?_, by omega, fun _ => by omega⟩
      · intro m hm
        rcases List.mem_cons.1 hm with rfl | hm
        · omega
        · exact i2 m hm
      · simp only [List.sum_cons]; omega
    · simp only [hp, if_false]
      have hz : n = 0 := by omega
      obtain ⟨i1, i2, i3, i4, i5⟩ := calcWidthsPass_total cols needed a tn hl' hn'
      refine ⟨by simp [i1], ?_, ?_, i4, ?_⟩
      · intro m hm
        rcases List.mem_cons.1 hm with rfl | hm
        · omega
        · exact i2 m hm
      · simp only [List.sum_cons]; omega
      · intro h; simp only [List.sum_cons, hz, zero_add] at h; exact i5 h

/-- The outer loop ends within as many passes as the total needed. -/
theorem calcWidthsLoop_isSome : ∀ (fuel : Nat) (st : widthState),
    st.needed.length = st.columns.length → (∀ n ∈ st.needed, 0 ≤ n) →
    st.totalNeeded = st.needed.sum → st.totalNeeded.toNat ≤ fuel →
    ∃ st', calcWidthsLoop fuel st = some st'
  | 0, st, _, _, _, hf => by
    rw [calcWidthsLoop]
    have : ¬ (st.available > 0 ∧ st.totalNeeded > 0) := by omega
    simp [this]
  | fuel + 1, st, hl, hn, hs, hf => by
    rw [calcWidthsLoop]
    by_cases hc : st.available > 0 ∧ st.totalNeeded > 0
    · simp only [hc, and_self, if_true]
      obtain ⟨i1, i2, i3, i4, i5⟩ :=
        calcWidthsPass_total st.columns st.needed st.available st.totalNeeded hl hn
      have hlt := i5 (by rw [← hs]; exact hc.2)
      exact calcWidthsLoop_isSome fuel _ i1 i2 (by omega) (by omega)
    · simp [hc]

theorem calcNeeded_spec : ∀ (cols : List column),
    (calcNeeded cols).1.length = cols.length ∧ (∀ n ∈ (calcNeeded cols).1, 0 ≤ n) ∧
    (calcNeeded cols).2 = (calcNeeded cols).1.sum
  | [] => by simp [calcNeeded]
  | col :: cols => by
    obtain ⟨h1, h2, h3⟩ := calcNeeded_spec cols
    rw [calcNeeded]
    by_cases hp : col.width - col.minWidth > 0
    · simp only [hp, if_true, List.length_cons, h1, List.sum_cons, h3, true_and]
      refine ⟨?_, trivial⟩
      intro n hn
      rcases List.mem_cons.1 hn with rfl | hn
      · omega
      · exact h2 n hn
    · simp only [hp, if_false, List.length_cons, h1, List.sum_cons, h3, zero_add, true_and]
      refine ⟨?_, trivial⟩
      intro n hn
      rcases List.mem_cons.1 hn with rfl | hn
      · exact le_refl _
      · exact h2 n hn

/-- The width negotiation returns: it keeps the rows and the sets, and keeps
or adjusts every column. -/
theorem calcWidths_spec (t : tabular) (minSpacing terminalWidth : Int) :
    ∃ cols, calcWidths t minSpacing terminalWidth = some { t with columns := cols } ∧
      List.Forall₂ Adjusted t.columns cols := by
  obtain ⟨h1, h2, h3⟩ := calcNeeded_spec t.columns
  obtain ⟨st', hst⟩ := calcWidthsLoop_isSome (calcNeeded t.columns).2.toNat
    ⟨t.columns, (calcNeeded t.columns).1, terminalWidth - minSpacing, (calcNeeded t.columns).2⟩
    h1 h2 h3 (le_refl _)
  refine ⟨st'.columns, ?_, calcWidthsLoop_adjusted _ _ _ hst⟩
  unfold calcWidths
  simp only [hst]

/-! ## Wrapped rows -/

theorem lineFits_length : ∀ (cols : List column) (row : List String),
    lineFits cols row = true → row.length ≤ cols.length
  | _, [], _ => by simp
  | [], _ :: _, h => by simp [lineFits] at h
  | _ :: cols, _ :: row, h => by
    simp only [lineFits, Bool.and_eq_true, decide_eq_true_eq] at h
    simpa using lineFits_length cols row h.2

theorem lineFits_of_forall₂ {cols : List column} {row : List String}
    (h : List.Forall₂ (fun (col : column) (s : String) => len s ≤ col.width) cols row) :
    lineFits cols row = true := by
  induction h with
  | nil => rfl
  | cons h1 _ ih => simp [lineFits, h1, ih]

theorem forall₂_of_lineFits : ∀ (cols : List column) (row : List String),
    lineFits cols row = true → row.length = cols.length →
    List.Forall₂ (fun (col : column) (s : String) => len s ≤ col.width) cols row
  | [], [], _, _ => List.Forall₂.nil
  | [], _ :: _, h, _ => by simp [lineFits] at h
  | _ :: _, [], _, hl => by simp at hl
  | _ :: cols, _ :: row, h, hl => by
    simp only [lineFits, Bool.and_eq_true, decide_eq_true_eq] at h
    exact List.Forall₂.cons h.1 (forall₂_of_lineFits cols row h.2 (by simpa using hl))

theorem wrapRow_eq (wrapText : String → Int → List String) : ∀ (cols : List column)
    (row : List String), row.length ≤ cols.length →
    wrapRow wrapText cols row =
      some (List.zipWith (fun (col : column) field => wrapText field col.minWidth) cols row)
  | cols, [], _ => by cases cols <;> simp [wrapRow]
  | [], _ :: _, h => by simp at h
  | col :: cols, f :: row, h => by
    rw [wrapRow, wrapRow_eq wrapText cols row (by simpa using h)]
    simp

theorem linesPerRow_pos : ∀ (l : List (List String)), 1 ≤ linesPerRow l
  | [] => le_refl _
  | a :: rest => by
    rw [linesPerRow]
    have := linesPerRow_pos rest
    split <;> omega

/-- The lines of the cells of a row, wrapped at the minimum widths the
negotiation left, fit the widths it left; the columns past the row hold no
line. -/
theorem wrapped_fit (wrapText : String → Int → List String) :
    ∀ (cols cols' : List column) (row : List String),
      List.Forall₂ Adjusted cols cols' → lineFits cols row = true →
      (∀ c ∈ cols', 1 ≤ c.minWidth ∧ 0 ≤ c.width) →
      (∀ s ∈ row, ∀ w : Int, 1 ≤ w → ∀ l ∈ wrapText s w, len l ≤ w ∧ len l ≤ len s) →
      List.Forall₂ (fun (c : column) (ls : List String) => 0 ≤ c.width ∧ ∀ l ∈ ls, len l ≤ c.width)
        cols'
        (List.zipWith (fun (col : column) field => wrapText field col.minWidth) cols' row ++
          List.replicate (cols'.length - row.length) [])
  | _, [], row, _, _, _, _ => by simp
  | _, c' :: cols', [], _, _, hc, _ => by
    simp only [List.zipWith_nil_right, List.nil_append, List.length_nil, Nat.sub_zero,
      List.length_cons, List.replicate_succ]
    refine List.Forall₂.cons ⟨(hc c' (List.mem_cons_self _ _)).2, by simp⟩ ?_
    have := wrapped_fit wrapText cols' cols' [] (forall₂_adjusted_refl _) (by cases cols' <;> rfl)
      (fun c h => hc c (List.mem_cons_of_mem _ h)) (by simp)
    simpa using this
  | [], _ :: _, _ :: _, ha, _, _, _ => by cases ha
  | c :: cols, c' :: cols', s :: row, ha, hf, hc, hw => by
    cases ha with
    | cons hcc ha =>
      simp only [lineFits, Bool.and_eq_true, decide_eq_true_eq] at hf
      simp only [List.zipWith_cons_cons, List.cons_append, List.length_cons,
        Nat.succ_sub_succ_eq_sub]
      have hc' := hc c' (List.mem_cons_self _ _)
      refine List.Forall₂.cons ⟨hc'.2, ?_⟩ ?_
      · intro l hl
        obtain ⟨h1, h2⟩ := hw s (List.mem_cons_self _ _) c'.minWidth hc'.1 l hl
        obtain ⟨_, _, _, hk⟩ := hcc
        rcases hk with rfl | hk
        · exact le_trans h2 hf.1
        · rw [hk]; exact h1
      · exact wrapped_fit wrapText cols cols' row ha hf.2
          (fun c h => hc c (List.mem_cons_of_mem _ h))
          (fun s' hs' => hw s' (List.mem_cons_of_mem _ hs'))

theorem getD_empty_of_fit (c : column) (ls : List String) (j : Nat)
    (h : 0 ≤ c.width ∧ ∀ l ∈ ls, len l ≤ c.width) : len (ls.getD j "") ≤ c.width := by
  rw [List.getD_eq_getElem?_getD]
  cases hj : ls[j]? with
  | none => simpa [len] using h.1
  | some l =>
    simp only [Option.getD_some]
    exact h.2 l (List.mem_iff_getElem?.2 ⟨j, hj⟩)

/-- Every physical line of a pivoted row holds one text per column, each
within the width of its column. -/
theorem pivotRow_fits (cols' : List column) (columnLines : List (List String))
    (h : List.Forall₂ (fun (c : column) (ls : List String) =>
        0 ≤ c.width ∧ ∀ l ∈ ls, len l ≤ c.width) cols'
      (columnLines ++ List.replicate (cols'.length - columnLines.length) [])) :
    ∀ line ∈ pivotRow cols'.length columnLines,
      List.Forall₂ (fun (col : column) (s : String) => len s ≤ col.width) cols' line := by
  intro line hline
  simp only [pivotRow, List.mem_map, List.mem_range] at hline
  obtain ⟨j, _, rfl⟩ := hline
  rw [List.forall₂_map_right_iff]
  exact h.imp (fun c ls hcl => getD_empty_of_fit c ls j hcl)

theorem wrapRows_spec (wrapText : String → Int → List String) (cols cols' : List column)
    (ha : List.Forall₂ Adjusted cols cols')
    (hc : ∀ c ∈ cols', 1 ≤ c.minWidth ∧ 0 ≤ c.width) :
    ∀ (rows : List (List String)),
      (∀ row ∈ rows, lineFits cols row = true) →
      (∀ row ∈ rows, ∀ s ∈ row, ∀ w : Int, 1 ≤ w →
        ∀ l ∈ wrapText s w, len l ≤ w ∧ len l ≤ len s) →
      ∃ out, wrapRows wrapText cols' rows = some out ∧ out.length = rows.length ∧
        ∀ lines ∈ out, lines ≠ [] ∧ ∀ line ∈ lines,
          List.Forall₂ (fun (col : column) (s : String) => len s ≤ col.width) cols' line
  | [], _, _ => ⟨[], rfl, rfl, by simp⟩
  | row :: rows, hf, hw => by
    obtain ⟨out, h1, h2, h3⟩ := wrapRows_spec wrapText cols cols' ha hc rows
      (fun r hr => hf r (List.mem_cons_of_mem _ hr))
      (fun r hr => hw r (List.mem_cons_of_mem _ hr))
    have hfr := hf row (List.mem_cons_self _ _)
    have hlen : row.length ≤ cols'.length := by
      rw [← ha.length_eq]; exact lineFits_length _ _ hfr
    have hfit := wrapped_fit wrapText cols cols' row ha hfr hc (hw row (List.mem_cons_self _ _))
    have hzl : (List.zipWith (fun (col : column) field => wrapText field col.minWidth)
        cols' row).length = row.length := by
      simp [List.length_zipWith, hlen]
    refine ⟨pivotRow cols'.length (List.zipWith
      (fun (col : column) field => wrapText field col.minWidth) cols' row) :: out, ?_, by simp [h2],
      ?_⟩
    · rw [wrapRows, wrapRow_eq wrapText cols' row hlen, h1]
    · intro lines hl
      rcases List.mem_cons.1 hl with rfl | hl
      · refine ⟨?_, pivotRow_fits cols' _ (by rw [hzl]; exact hfit)⟩
        intro h0
        have := congrArg List.length h0
        simp only [pivotRow, List.length_map, List.length_range, List.length_nil] at this
        have := linesPerRow_pos (List.zipWith (fun (col : column) field =>
          wrapText field col.minWidth) cols' row ++ List.replicate (cols'.length -
            (List.zipWith (fun (col : column) field => wrapText field col.minWidth)
              cols' row).length) [])
        omega
      · exact h3 lines hl

/-! ## The grid style -/

theorem adjusted_names {cols cols' : List column} (ha : List.Forall₂ Adjusted cols cols')
    (h : ∀ c ∈ cols, len c.name ≤ c.width ∧ len c.name ≤ c.minWidth ∧ 1 ≤ c.minWidth) :
    ∀ c ∈ cols', len c.name ≤ c.width ∧ len c.name ≤ c.minWidth ∧ 1 ≤ c.minWidth := by
  induction ha with
  | nil => simp
  | @cons a b l₁ l₂ hab _ ih =>
    intro c hc
    rcases List.mem_cons.1 hc with rfl | hc
    · obtain ⟨h1, h2, h3⟩ := h a (List.mem_cons_self _ _)
      obtain ⟨n, _, m, k⟩ := hab
      rcases k with rfl | k
      · exact ⟨h1, h2, h3⟩
      · rw [n, k]; exact ⟨by omega, by omega, by omega⟩
    · exact ih (fun x hx => h x (List.mem_cons_of_mem _ hx)) c hc

/-- On a sound table, with a wrapper that wraps the texts of the table well,
`buildWrappedTable` returns: it keeps or adjusts every column, leaves the table
as it is when no wrapping is triggered, and cuts every row into lines whose
texts fit the columns. -/
theorem buildWrappedTable_spec (wrapText : String → Int → List String) (t : tabular)
    (hasGrid : Bool) (pad W : Int) (hs : Sound t) (hw : WrapsWell wrapText t) :
    ∃ cols rows,
      buildWrappedTable wrapText t hasGrid pad W =
        .ok ({ t with columns := cols },
          { totalSpacing := (calculateSpacing { t with columns := cols } hasGrid pad).2.1,
            spacing := cols.map (fun c => c.width + pad * 2), rowsLinesColumns := rows }) ∧
      List.Forall₂ Adjusted t.columns cols ∧
      (¬ wrapTriggered t hasGrid pad W → cols = t.columns ∧ rows = t.rows.map (fun r => [r])) ∧
      rows.length = t.rows.length ∧
      (∀ lines ∈ rows, lines ≠ [] ∧ ∀ l ∈ lines, lineFits cols l = true) ∧
      ((∀ row ∈ t.rows, row.length = t.columns.length) →
        ∀ lines ∈ rows, ∀ l ∈ lines, l.length = cols.length) ∧
      (∀ c ∈ cols, len c.name ≤ c.width ∧ len c.name ≤ c.minWidth ∧ 1 ≤ c.minWidth) := by
  by_cases htr : wrapTriggered t hasGrid pad W
  · obtain ⟨cols, hcw, ha⟩ := calcWidths_spec t (calculateSpacing t hasGrid pad).2.2 W
    have hn := adjusted_names ha hs.1
    obtain ⟨rows, hr1, hr2, hr3⟩ := wrapRows_spec wrapText t.columns cols ha
      (fun c hc => ⟨(hn c hc).2.2, le_trans (len_nonneg _) (hn c hc).1⟩) t.rows hs.2 hw
    refine ⟨cols, rows, ?_, ha, fun h => absurd htr h, hr2, ?_, ?_, hn⟩
    · have htr' : W > 0 ∧ (calculateSpacing t hasGrid pad).2.1 > W := htr
      simp only [buildWrappedTable, htr', and_self, if_true, hcw, hr1]
      rw [calculateSpacing_fst]
    · intro lines hl
      exact ⟨(hr3 lines hl).1, fun l hlm => lineFits_of_forall₂ ((hr3 lines hl).2 l hlm)⟩
    · intro _ lines hl l hlm
      exact ((hr3 lines hl).2 l hlm).length_eq.symm
  · refine ⟨t.columns, t.rows.map (fun r => [r]), ?_, forall₂_adjusted_refl _, fun _ => ⟨rfl, rfl⟩,
      by simp, ?_, ?_, hs.1⟩
    · have htr' : ¬ (W > 0 ∧ (calculateSpacing t hasGrid pad).2.1 > W) := htr
      simp only [buildWrappedTable, htr', if_false]
      rw [calculateSpacing_fst]
    · intro lines hl
      obtain ⟨r, hr, rfl⟩ := List.mem_map.1 hl
      refine ⟨by simp, ?_⟩
      intro l hlm
      rw [List.mem_singleton] at hlm; subst hlm
      exact hs.2 l hr
    · intro hfull lines hl l hlm
      obtain ⟨r, hr, rfl⟩ := List.mem_map.1 hl
      rw [List.mem_singleton] at hlm; subst hlm
      exact hfull l hr

theorem gridLineLoop_rule : ∀ (cols : List column) (b : String),
    (∀ c ∈ cols, 0 ≤ c.width) →
    gridLineLoop (cols.map (fun c => c.width + 1 * 2)) b =
      some (b ++ String.join (cols.map
        (fun col => String.join (List.replicate (col.width + 2).toNat "-") ++ "+")))
  | [], b, _ => by simp [gridLineLoop, join_nil, append_empty]
  | c :: cols, b, h => by
    have h0 := h c (List.mem_cons_self _ _)
    rw [List.map_cons, gridLineLoop, Repeat_nonneg _ _ (by omega)]
    simp only
    rw [gridLineLoop_rule cols _ (fun x hx => h x (List.mem_cons_of_mem _ hx))]
    simp [join_cons, String.append_assoc]

theorem writeGridLine_rule (cols : List column) (out : String) (h : ∀ c ∈ cols, 0 ≤ c.width) :
    writeGridLine out (cols.map (fun c => c.width + 1 * 2)) =
      .ok (out ++ (gridRule cols ++ "\n")) := by
  rw [writeGridLine, gridLineLoop_rule cols "+" h]
  rfl

theorem writeAlignedRow_grid (t : tabular) (out : String) (lines : List (List String))
    (h : ∀ l ∈ lines, lineFits t.columns l = true) :
    writeAlignedRow t out lines true 1 = .ok (out ++ gridRows t.columns lines) := by
  rw [writeAlignedRow, gridRows]
  by_cases hc : t.columns.length = 0
  · simp [hc, append_empty]
  · simp only [hc, if_false]
    rw [alignedLinesLoop_grid t.columns lines "" h, empty_append]

theorem writeAlignedHeader_grid (t : tabular) (out : String)
    (h : ∀ c ∈ t.columns, len c.name ≤ c.width) :
    writeAlignedHeader t out true 1 =
      .ok (out ++ gridRows t.columns [t.columns.map column.name]) := by
  rw [writeAlignedHeader, gridRows]
  by_cases hc : t.columns.length = 0
  · simp [hc, append_empty]
  · simp only [hc, if_false]
    rw [alignedHeaderLoop_eq]
    have := alignedLineLoop_grid 1 t.columns _ 0 "" (lineFits_names t.columns h)
    simp only [Nat.cast_one] at this
    rw [this]
    simp [gridLine, join_cons, join_nil, String.append_assoc, empty_append, append_empty]

theorem writeAlignedRows_grid (t : tabular) (h0 : ∀ c ∈ t.columns, 0 ≤ c.width) :
    ∀ (rows : List (List (List String))) (out : String),
      (∀ lines ∈ rows, ∀ l ∈ lines, lineFits t.columns l = true) →
      writeAlignedRows t true 1 (t.columns.map (fun c => c.width + 1 * 2)) rows out =
        (out ++ String.join (rows.map
          (fun lines => gridRows t.columns lines ++ (gridRule t.columns ++ "\n"))), none)
  | [], out, _ => by simp [writeAlignedRows, join_nil, append_empty]
  | lines :: rows, out, h => by
    rw [writeAlignedRows, writeAlignedRow_grid t out lines (h lines (List.mem_cons_self _ _))]
    simp only [if_true]
    rw [writeGridLine_rule t.columns _ h0]
    simp only
    rw [writeAlignedRows_grid t h0 rows _ (fun x hx => h x (List.mem_cons_of_mem _ hx))]
    simp [join_cons, String.append_assoc]

/-- The grid style on a table cut into lines that fit: the text of the grid. -/
theorem writeAligned_grid (wrapText : String → Int → List String) (t : tabular) (out : String)
    (excludeHeader : Bool) (W : Int) (hr : t.rows ≠ []) (hs : Sound t)
    (hw : WrapsWell wrapText t) :
    ∃ cols rows,
      writeAligned wrapText t out excludeHeader true 1 W =
        ({ t with columns := cols }, out ++ gridText excludeHeader cols rows, none) ∧
      List.Forall₂ Adjusted t.columns cols ∧
      (¬ wrapTriggered t true 1 W → cols = t.columns ∧ rows = t.rows.map (fun r => [r])) ∧
      rows.length = t.rows.length ∧
      (∀ lines ∈ rows, lines ≠ [] ∧ ∀ l ∈ lines, lineFits cols l = true) ∧
      ((∀ row ∈ t.rows, row.length = t.columns.length) →
        ∀ lines ∈ rows, ∀ l ∈ lines, l.length = cols.length) ∧
      (∀ c ∈ cols, len c.name ≤ c.width ∧ len c.name ≤ c.minWidth ∧ 1 ≤ c.minWidth) := by
  obtain ⟨cols, rows, hb, h1, h2, h3, h4, h5, h6⟩ :=
    buildWrappedTable_spec wrapText t true 1 W hs hw
  refine ⟨cols, rows, ?_, h1, h2, h3, h4, h5, h6⟩
  have hrl : ¬ t.rows.length = 0 := fun h => hr (List.length_eq_zero.1 h)
  have h0 : ∀ c ∈ cols, 0 ≤ c.width := fun c hc => le_trans (len_nonneg _) (h6 c hc).1
  have hg : ∀ o : String, writeGridLine o (cols.map (fun c => c.width + 1 * 2)) =
      .ok (o ++ (gridRule cols ++ "\n")) := fun o => writeGridLine_rule cols o h0
  have hh := writeAlignedHeader_grid { t with columns := cols }
  have hrows := writeAlignedRows_grid { t with columns := cols } h0 rows
  simp only at hh hrows
  rw [writeAligned, if_neg hrl, hb]
  simp only [if_true, hg]
  cases excludeHeader
  · simp only [Bool.not_false, if_true]
    rw [hh _ (fun c hc => (h6 c hc).1)]
    simp only [hg]
    rw [hrows _ (fun lines hl => (h4 lines hl).2)]
    simp [gridText, String.append_assoc]
  · simp only [Bool.not_true, Bool.false_eq_true, if_false]
    rw [hrows _ (fun lines hl => (h4 lines hl).2)]
    simp [gridText, String.append_assoc, empty_append]

/-! ## Lengths of the lines of the grid -/

theorem len_append (a b : String) : len (a ++ b) = len a + len b := by
  obtain ⟨a⟩ := a
  obtain ⟨b⟩ := b
  show ((String.utf8ByteSize (⟨a⟩ ++ ⟨b⟩) : Nat) : Int) = _
  have : (⟨a⟩ ++ ⟨b⟩ : String) = ⟨a ++ b⟩ := rfl
  rw [this]
  simp [len, String.utf8ByteSize_mk, String.utf8Len_append]

theorem len_empty : len "" = 0 := rfl

theorem len_join (l : List String) : len (String.join l) = (l.map len).sum := by
  induction l with
  | nil => rfl
  | cons a l ih => rw [join_cons, len_append, ih]; simp

theorem len_replicate (n : Nat) (s : String) (h : len s = 1) :
    len (String.join (List.replicate n s)) = n := by
  rw [len_join]
  simp [h]

theorem len_spaces (n : Nat) : len (spaces n) = n := len_replicate n " " rfl

theorem len_padText (w : Int) (r : Bool) (text : String) (h : len text ≤ w) :
    len (padText w r text) = w := by
  unfold padText
  have := len_replicate (w - len text).toNat " " rfl
  cases r <;> simp only [Bool.false_eq_true, if_false, if_true, len_append, this] <;> omega

theorem len_segment (pad : Nat) (c : column) (text : String) (h : len text ≤ c.width) :
    len (segment pad c text) = c.width + 2 * pad := by
  unfold segment
  rw [len_append, len_append, len_spaces, len_padText _ _ _ h]
  ring

theorem len_gridRule (cols : List column) (h : ∀ c ∈ cols, 0 ≤ c.width) :
    len (gridRule cols) = 1 + (cols.map (fun c => c.width + 3)).sum := by
  unfold gridRule
  rw [len_append, len_join]
  have h1 : len "+" = 1 := rfl
  rw [h1]
  congr 1
  induction cols with
  | nil => rfl
  | cons c cols ih =>
    have h0 := h c (List.mem_cons_self _ _)
    simp only [List.map_cons, List.sum_cons]
    rw [ih (fun x hx => h x (List.mem_cons_of_mem _ hx)), len_append,
      len_replicate _ "-" rfl, h1]
    have : (((c.width + 2).toNat : Nat) : Int) = c.width + 2 := Int.toNat_of_nonneg (by omega)
    rw [this]
    ring

theorem len_gridLine (cols : List column) (texts : List String)
    (h : List.Forall₂ (fun (col : column) (s : String) => len s ≤ col.width) cols texts) :
    len (gridLine cols texts) = 1 + (cols.map (fun c => c.width + 3)).sum := by
  unfold gridLine
  have h1 : len "|" = 1 := rfl
  rw [len_append, len_join, h1, add_comm]
  congr 1
  induction h with
  | nil => rfl
  | @cons c s cols texts hcs _ ih =>
    simp only [List.zipWith_cons_cons, List.map_cons, List.sum_cons]
    rw [ih, len_append, h1, len_segment 1 c s hcs]
    push_cast
    ring

theorem gridText_eq_lines (excludeHeader : Bool) (cols : List column)
    (rows : List (List (List String))) :
    gridText excludeHeader cols rows =
      String.join ((gridLines excludeHeader cols rows).map (fun l => l ++ "\n")) := by
  have hrow : ∀ lines : List (List String),
      gridRows cols lines = String.join ((gridRowLines cols lines).map (fun l => l ++ "\n")) := by
    intro lines
    unfold gridRows gridRowLines
    by_cases hc : cols.length = 0
    · simp [hc, join_nil]
    · simp [hc, List.map_map, Function.comp_def]
  have hrows : String.join (rows.map
      (fun lines => gridRows cols lines ++ (gridRule cols ++ "\n"))) =
      String.join (((rows.map (fun lines => gridRowLines cols lines ++ [gridRule cols])).flatten).map
        (fun l => l ++ "\n")) := by
    induction rows with
    | nil => rfl
    | cons r rows ih =>
      simp only [List.map_cons, join_cons]
      rw [ih]
      simp only [List.flatten_cons, List.map_append, join_append, List.map_cons,
        hrow, List.map_nil, join_nil, join_cons, append_empty, String.append_assoc]
  unfold gridText gridLines
  rw [hrows]
  cases excludeHeader
  · simp only [Bool.false_eq_true, if_false, List.map_cons, List.map_append, join_cons,
      join_append, hrow, List.map_nil, join_nil, append_empty, String.append_assoc]
  · simp only [if_true, List.map_cons, List.map_append, join_cons, join_append, List.map_nil,
      join_nil, empty_append, List.nil_append, String.append_assoc]

theorem gridLine_ne_rule (cols cols' : List column) (texts : List String) :
    gridLine cols texts ≠ gridRule cols' := by
  intro h
  have h2 : (gridRule cols').data.head? = some '+' := by
    unfold gridRule; simp [String.data_append]
  have h1 : (gridLine cols texts).data.head? = some '|' := by
    unfold gridLine
    cases hz : List.zipWith (fun col text => "|" ++ segment 1 col text) cols texts with
    | nil => simp [join_nil, String.data_append]
    | cons a l =>
      cases cols with
      | nil => simp at hz
      | cons c cols =>
        cases texts with
        | nil => simp at hz
        | cons s texts =>
          simp only [List.zipWith_cons_cons, List.cons.injEq] at hz
          rw [← hz.1, join_cons]
          simp [String.data_append]
  rw [h, h2] at h1
  exact absurd h1 (by decide)

theorem count_rule_rowLines (cols cols' : List column) (lines : List (List String)) :
    (gridRowLines cols lines).count (gridRule cols') = 0 := by
  rw [List.count_eq_zero]
  intro hm
  unfold gridRowLines at hm
  split at hm
  · simp at hm
  · obtain ⟨l, _, hl⟩ := List.mem_map.1 hm
    exact gridLine_ne_rule cols cols' l hl

/-- The rule occurs once before the header, once after it, and once after
every row, and nowhere else among the lines. -/
theorem count_rule_gridLines (excludeHeader : Bool) (cols : List column)
    (rows : List (List (List String))) :
    (gridLines excludeHeader cols rows).count (gridRule cols) =
      rows.length + (if excludeHeader then 1 else 2) := by
  have hrows : ((rows.map (fun lines => gridRowLines cols lines ++ [gridRule cols])).flatten).count
      (gridRule cols) = rows.length := by
    induction rows with
    | nil => rfl
    | cons r rows ih =>
      simp only [List.map_cons, List.flatten_cons, List.count_append, ih, count_rule_rowLines,
        List.count_singleton_self, List.length_cons]
      omega
  unfold gridLines
  rw [List.count_cons_self, List.count_append, hrows]
  cases excludeHeader
  · simp only [Bool.false_eq_true, if_false, List.count_append, count_rule_rowLines,
      List.count_singleton_self]
    omega
  · simp

/-! ## A wrapper for the concrete runs -/

theorem len_ascii (s : String) (h : ∀ c ∈ s.data, c.utf8Size = 1) : len s = s.data.length := by
  obtain ⟨cs⟩ := s
  simp only [len, String.utf8ByteSize_mk]
  induction cs with
  | nil => rfl
  | cons c cs ih =>
    have hc := h c (List.mem_cons_self _ _)
    have := ih (fun x hx => h x (List.mem_cons_of_mem _ hx))
    simp only [String.utf8Len_cons, List.length_cons, hc]
    push_cast
    omega

theorem hardWrapLoop_spec (w : Nat) (hw : 1 ≤ w) : ∀ (rest cur : List Char), cur.length ≤ w →
    ∀ l ∈ hardWrapLoop w rest cur,
      l.data.length ≤ w ∧ l.data.length ≤ cur.length + rest.length ∧
      ∀ c ∈ l.data, c ∈ cur ∨ c ∈ rest
  | [], cur, hc, l, hl => by
    simp only [hardWrapLoop, List.mem_singleton] at hl
    subst hl
    simp [hc]
  | c :: rest, cur, hc, l, hl => by
    rw [hardWrapLoop] at hl
    by_cases hfull : w ≤ cur.length ∧ 0 < cur.length
    · simp only [hfull, and_self, if_true, List.mem_cons] at hl
      rcases hl with rfl | hl
      · simp only [List.length_reverse, List.mem_reverse, List.length_cons]
        exact ⟨hc, by omega, fun x hx => Or.inl hx⟩
      · obtain ⟨h1, h2, h3⟩ := hardWrapLoop_spec w hw rest [c] (by simpa using hw) l hl
        refine ⟨h1, by simp only [List.length_cons, List.length_singleton] at h2 ⊢; omega, ?_⟩
        intro x hx
        rcases h3 x hx with h | h
        · right; simp only [List.mem_singleton] at h; subst h; exact List.mem_cons_self _ _
        · right; exact List.mem_cons_of_mem _ h
    · simp only [hfull, if_false] at hl
      have hlen : (c :: cur).length ≤ w := by
        simp only [List.length_cons]
        by_contra hne
        apply hfull
        constructor <;> omega
      obtain ⟨h1, h2, h3⟩ := hardWrapLoop_spec w hw rest (c :: cur) hlen l hl
      refine ⟨h1, by simp only [List.length_cons] at h2 ⊢; omega, ?_⟩
      intro x hx
      rcases h3 x hx with h | h
      · rcases List.mem_cons.1 h with rfl | h
        · right; exact List.mem_cons_self _ _
        · left; exact h
      · right; exact List.mem_cons_of_mem _ h

/-- The stand-in wrapper wraps well every table whose texts are ASCII. -/
theorem hardWrap_wrapsWell (t : tabular)
    (h : ∀ row ∈ t.rows, ∀ s ∈ row, ∀ c ∈ s.data, c.utf8Size = 1) : WrapsWell hardWrap t := by
  intro row hrow s hs w hw l hl
  have hw' : 1 ≤ w.toNat := by omega
  obtain ⟨h1, h2, h3⟩ := hardWrapLoop_spec w.toNat hw' s.data [] (by simp) l hl
  have hascii : ∀ c ∈ l.data, c.utf8Size = 1 := by
    intro c hc
    rcases h3 c hc with h' | h'
    · simp at h'
    · exact h row hrow s hs c h'
  rw [len_ascii l hascii, len_ascii s (h row hrow s hs)]
  simp only [List.length_nil, zero_add] at h2
  constructor <;> omega

/-! ## Rule lines and segments -/

theorem write_Grid (wrapText : String → Int → List String) (t : tabular) (out : String)
    (excludeHeader : Bool) (sep : String) (W : Int) :
    write wrapText t out Grid excludeHeader sep W =
      writeAligned wrapText t out excludeHeader true 1 W := by
  simp [write, Grid, Plain, Aligned]

theorem write_Aligned (wrapText : String → Int → List String) (t : tabular) (out : String)
    (excludeHeader : Bool) (sep : String) (W : Int) :
    write wrapText t out Aligned excludeHeader sep W =
      writeAligned wrapText t out excludeHeader false 0 W := by
  simp [write, Plain, Aligned]

/-- C12: in the grid style, with a wrapper that wraps its texts well, a table
with `r ≥ 1` rows whose texts fit their columns comes out as the rule line (a plus sign, then for each column as many
dashes as its final width and two more, and a plus sign), unless the header is
suppressed the line of the names and the rule line, then for each row its
physical lines and the rule line: the rule line occurs exactly `r + 2` times
among the lines written when the header is shown and `r + 1` times when it is
not, and the lines of a row lie between two consecutive rule lines. `cols`
are the columns as the width negotiation leaves them and `rows` the physical
lines of each row. -/
theorem write_grid_rules (wrapText : String → Int → List String) (t : tabular) (out : String)
    (excludeHeader : Bool) (sep : String) (W : Int) (hr : 1 ≤ t.rows.length) (hs : Sound t)
    (hw : WrapsWell wrapText t) :
    ∃ (cols : List column) (rows : List (List (List String))),
      write wrapText t out Grid excludeHeader sep W =
        ({ t with columns := cols },
          out ++ String.join ((gridLines excludeHeader cols rows).map (fun l => l ++ "\n")),
          none) ∧
      rows.length = t.rows.length ∧
      (gridLines excludeHeader cols rows).count (gridRule cols) =
        t.rows.length + (if excludeHeader then 1 else 2) ∧
      gridLines excludeHeader cols rows =
        gridRule cols ::
          ((if excludeHeader then []
            else gridRowLines cols [cols.map column.name] ++ [gridRule cols]) ++
          (rows.map (fun lines => gridRowLines cols lines ++ [gridRule cols])).flatten) ∧
      gridRule cols = "+" ++ String.join (cols.map
        (fun col => String.join (List.replicate (col.width + 2).toNat "-") ++ "+")) := by
  have hne : t.rows ≠ [] := by
    intro h; rw [h] at hr; simp at hr
  obtain ⟨cols, rows, h1, _, _, h4, _⟩ :=
    writeAligned_grid wrapText t out excludeHeader W hne hs hw
  refine ⟨cols, rows, ?_, h4, ?_, rfl, rfl⟩
  · rw [write_Grid, h1, gridText_eq_lines]
  · rw [count_rule_gridLines, h4]

/-- A table of one column and one row whose cell is cut into three lines under
the terminal width 8: three rule lines. -/
theorem write_grid_rules_witness :
    ∃ (cols : List column) (rows : List (List (List String))),
      write hardWrap ⟨[⟨"A", 10, false, 1⟩], [["abcdefghij"]], [], []⟩ "" Grid false "\t" 8 =
        (⟨cols, [["abcdefghij"]], [], []⟩,
          "" ++ String.join ((gridLines false cols rows).map (fun l => l ++ "\n")), none) ∧
      (gridLines false cols rows).count (gridRule cols) = 1 + 2 ∧
      write hardWrap ⟨[⟨"A", 10, false, 1⟩], [["abcdefghij"]], [], []⟩ "" Grid false "\t" 8 =
        (⟨[⟨"A", 4, false, 4⟩], [["abcdefghij"]], [], []⟩,
          "+------+\n| A    |\n+------+\n| abcd |\n| efgh |\n| ij   |\n+------+\n", none) := by
  obtain ⟨cols, rows, h1, _, h3, _⟩ := write_grid_rules hardWrap
    ⟨[⟨"A", 10, false, 1⟩], [["abcdefghij"]], [], []⟩ "" false "\t" 8 (by decide)
    ⟨by decide!, by decide!⟩ (hardWrap_wrapsWell _ (by decide!))
  exact ⟨cols, rows, h1, h3, by decide!⟩

theorem writeAlignedRow_spaced (t : tabular) (out : String) (lines : List (List String))
    (hc : t.columns ≠ []) (h : ∀ l ∈ lines, lineFits t.columns l = true) :
    writeAlignedRow t out lines false 0 =
      .ok (out ++ String.join (lines.map (fun l => spacedLine t.columns l ++ "\n"))) := by
  have hl : ¬ t.columns.length = 0 := fun h0 => hc (List.length_eq_zero.1 h0)
  rw [writeAlignedRow, if_neg hl, alignedLinesLoop_spaced t.columns lines "" h, empty_append]

theorem writeAlignedHeader_spaced (t : tabular) (out : String) (hc : t.columns ≠ [])
    (h : ∀ c ∈ t.columns, len c.name ≤ c.width) :
    writeAlignedHeader t out false 0 =
      .ok (out ++ (spacedLine t.columns (t.columns.map column.name) ++ "\n")) := by
  have hl : ¬ t.columns.length = 0 := fun h0 => hc (List.length_eq_zero.1 h0)
  rw [writeAlignedHeader, if_neg hl, alignedHeaderLoop_eq]
  have := alignedLineLoop_spaced 0 t.columns _ "" (lineFits_names t.columns h)
  simp only [Nat.cast_zero] at this
  rw [this]
  simp [spacedLine, empty_append]

/-- C13: a text that fits a column comes out as its segment: `pad` spaces,
the text with the spaces that fill the width before it in a right-aligned
column and after it in a left-aligned one, `pad` spaces; in a grid every segment
follows a bar, without grid it follows one space unless it is the first of the
line. So, for a table with at least one column whose names and lines fit, the
aligned style (no grid, `pad` 0) writes every line and the header as the
segments joined by single spaces, and the grid style (`pad` 1) as the segments
each after a bar, and a closing bar; the header is the line of the names, laid
out with the same columns and so the same alignment. -/
theorem writeAlignedRow_segments (t : tabular) (out : String) (lines : List (List String))
    (hc : t.columns ≠ []) (hn : ∀ c ∈ t.columns, len c.name ≤ c.width)
    (hl : ∀ l ∈ lines, lineFits t.columns l = true) :
    (∀ (pad : Nat) (c : column) (text : String),
      segment pad c text =
        spaces pad ++
          (if c.rightAlign then spaces (c.width - len text).toNat ++ text
            else text ++ spaces (c.width - len text).toNat) ++ spaces pad) ∧
    (∀ (c : column) (i : Nat) (text : String) (hasGrid : Bool) (pad : Nat),
      len text ≤ c.width →
      alignedField c i text hasGrid (pad : Int) =
        some ((if hasGrid then "|" else if i > 0 then " " else "") ++ segment pad c text)) ∧
    writeAlignedRow t out lines false 0 =
      .ok (out ++ String.join (lines.map
        (fun l => " ".intercalate (List.zipWith (segment 0) t.columns l) ++ "\n"))) ∧
    writeAlignedHeader t out false 0 =
      .ok (out ++ (" ".intercalate (List.zipWith (segment 0) t.columns
        (t.columns.map column.name)) ++ "\n")) ∧
    writeAlignedRow t out lines true 1 =
      .ok (out ++ String.join (lines.map (fun l =>
        String.join (List.zipWith (fun c s => "|" ++ segment 1 c s) t.columns l) ++ "|" ++
          "\n"))) ∧
    writeAlignedHeader t out true 1 =
      .ok (out ++ (String.join (List.zipWith (fun c s => "|" ++ segment 1 c s) t.columns
        (t.columns.map column.name)) ++ "|" ++ "\n")) := by
  have hlen : ¬ t.columns.length = 0 := fun h0 => hc (List.length_eq_zero.1 h0)
  refine ⟨?_, ?_, ?_, ?_, ?_, ?_⟩
  · intro pad c text
    unfold segment padText spaces
    cases c.rightAlign <;> rfl
  · intro c i text hasGrid pad h
    exact alignedField_segment c i text hasGrid pad h
  · exact writeAlignedRow_spaced t out lines hc hl
  · exact writeAlignedHeader_spaced t out hc hn
  · rw [writeAlignedRow_grid t out lines hl, gridRows, if_neg hlen]
    rfl
  · rw [writeAlignedHeader_grid t out hn, gridRows, if_neg hlen]
    simp [gridLine, join_cons, join_nil, append_empty, String.append_assoc]

/-- The columns "S" (left-aligned) and "I" (right-aligned) of the tests with
the row of "Hello" and "10". -/
theorem writeAlignedRow_segments_witness :
    writeAlignedRow ⟨[⟨"S", 5, false, 1⟩, ⟨"I", 3, true, 1⟩], [["Hello", "10"]], [], []⟩ ""
        [["Hello", "10"]] false 0 = .ok "Hello  10\n" ∧
    writeAlignedHeader ⟨[⟨"S", 5, false, 1⟩, ⟨"I", 3, true, 1⟩], [["Hello", "10"]], [], []⟩ ""
        false 0 = .ok "S       I\n" ∧
    writeAlignedRow ⟨[⟨"S", 5, false, 1⟩, ⟨"I", 3, true, 1⟩], [["Hello", "10"]], [], []⟩ ""
        [["Hello", "10"]] true 1 = .ok "| Hello |  10 |\n" ∧
    writeAlignedHeader ⟨[⟨"S", 5, false, 1⟩, ⟨"I", 3, true, 1⟩], [["Hello", "10"]], [], []⟩ ""
        true 1 = .ok "| S     |   I |\n" := by
  obtain ⟨_, _, h3, h4, h5, h6⟩ := writeAlignedRow_segments
    ⟨[⟨"S", 5, false, 1⟩, ⟨"I", 3, true, 1⟩], [["Hello", "10"]], [], []⟩ "" [["Hello", "10"]]
    (by simp) (by decide!) (by decide!)
  refine ⟨?_, ?_, ?_, ?_⟩
  · rw [h3]; decide!
  · rw [h4]; decide!
  · rw [h5]; decide!
  · rw [h6]; decide!

/-! ## Tables within reach of the reflect pass -/

/-- A successful `setField` is in bounds and leaves the text in the cell and
the column widened. -/
theorem setField_inv (t t' : tabular) (r c : Int) (s : String)
    (h : setField t r c s = .ok t') :
    0 ≤ r ∧ 0 ≤ c ∧ Fits t r.toNat c.toNat 1 ∧ t' = setCell t r.toNat c.toNat s := by
  have h0 := h
  unfold setField at h
  by_cases hc : c < 0 ∨ c ≥ t.columns.length
  · simp [hc] at h
  · by_cases hr : r < 0 ∨ r ≥ t.rows.length
    · simp [hc, hr] at h
    · simp only [hc, hr, if_false] at h
      have hr1 : r.toNat < t.rows.length := by omega
      have hc1 : c.toNat < t.columns.length := by omega
      have e1 : t.rows.get? r.toNat = some (t.rows.getD r.toNat []) := by
        rw [List.getD_eq_getElem?_getD, List.get?_eq_getElem?, List.getElem?_eq_getElem hr1]; simp
      have e2 : t.columns.get? c.toNat = some (t.columns.getD c.toNat ⟨"", 0, false, 0⟩) := by
        rw [List.getD_eq_getElem?_getD, List.get?_eq_getElem?, List.getElem?_eq_getElem hc1]
        simp
      by_cases hl : c.toNat < (t.rows.getD r.toNat []).length
      · have hf : Fits t r.toNat c.toNat 1 := ⟨hr1, by omega, by omega⟩
        have := setField_eq_setCell t r.toNat c.toNat s hf
        refine ⟨by omega, by omega, hf, ?_⟩
        have hr' : ((r.toNat : Nat) : Int) = r := by omega
        have hc' : ((c.toNat : Nat) : Int) = c := by omega
        rw [hr', hc'] at this
        rw [this] at h0
        simp only [Except.ok.injEq] at h0
        exact h0.symm
      · rw [e1, e2] at h
        simp only [hl, if_false] at h
        cases h

theorem cellAt_newRow (t : tabular) (j : Nat) : cellAt (newRow t).1 t.rows.length j = "" := by
  simp only [cellAt, newRow, List.getD_eq_getElem?_getD]
  rw [List.getElem?_append_right (le_refl _)]
  simp only [Nat.sub_self, List.getElem?_cons_zero, Option.getD_some]
  by_cases hj : j < t.columns.length
  · simp [List.getElem?_replicate, hj]
  · simp [List.getElem?_replicate, hj]

theorem cellAt_setCell_ne (t : tabular) (r c : Nat) (s : String) (j : Nat) (h : j ≠ c) :
    cellAt (setCell t r c s) r j = cellAt t r j := by
  simp only [cellAt, setCell, List.getD_eq_getElem?_getD, List.getElem?_set]
  by_cases hr : r < t.rows.length
  · simp [hr, List.getElem?_set, Ne.symm h]
  · have : t.rows[r]? = none := List.getElem?_eq_none (by omega)
    simp [hr, this]

theorem emptyFrom_newRow (t : tabular) (col : Int) :
    EmptyFrom (newRow t).1 (newRow t).2 col := by
  intro j _
  have : ((newRow t).2).toNat = t.rows.length := by simp [newRow]
  rw [this]; exact cellAt_newRow t j

/-- Setting the cell at the head of the empty part of a row keeps the table
within reach and leaves the rest of the row empty. -/
theorem reach_setField {cs xs : List (String × Bool)} {t t' : tabular} {row col : Int}
    {s : String} (hr : Reach cs xs t) (he : EmptyFrom t row col)
    (h : setField t row col s = .ok t') :
    Reach cs xs t' ∧ EmptyFrom t' row (col + 1) := by
  obtain ⟨_, h2, _, h4⟩ := setField_inv t t' row col s h
  have hcell : cellAt t row.toNat col.toNat = "" := he col.toNat (by omega)
  refine ⟨Reach.field hr hcell h, ?_⟩
  intro j hj
  rw [h4, cellAt_setCell_ne _ _ _ _ _ (by omega)]
  exact he j (by omega)

theorem visible_ne (cs xs : List (String × Bool)) (name : String)
    (h : visible cs xs name = true) : name ≠ "" ∧ name ≠ "-" := by
  unfold visible shouldOutputColumn at h
  by_cases hn : name = "" ∨ name = "-"
  · simp [hn] at h
  · push_neg at hn; exact hn

mutual
/-- Every leaf that declares a column has a visible name. -/
theorem typeLeaves_visible (cs xs : List (String × Bool)) : ∀ (typ : GoType)
    (fieldName tag : String), ∀ l ∈ typeLeaves cs xs fieldName tag typ,
      visible cs xs l.name = true
  | .struct fields, fieldName, tag, l, hl => by
    cases hv : visible cs xs (displayName fieldName tag)
    · rw [typeLeaves_hidden _ _ _ _ _ hv] at hl; simp at hl
    · rw [typeLeaves_struct _ _ _ _ _ hv] at hl
      exact typeLeavesLoop_visible cs xs fields l hl
  | .basic k, fieldName, tag, l, hl => by
    cases hv : visible cs xs (displayName fieldName tag)
    · rw [typeLeaves_hidden _ _ _ _ _ hv] at hl; simp at hl
    · rw [typeLeaves_basic _ _ _ _ _ hv] at hl
      split at hl
      · simp at hl
      · simp only [List.mem_singleton] at hl
        subst hl
        exact hv
/-- Every leaf of a list of fields that declares a column has a visible name. -/
theorem typeLeavesLoop_visible (cs xs : List (String × Bool)) :
    ∀ (fields : List (StructField GoType)), ∀ l ∈ typeLeavesLoop cs xs fields,
      visible cs xs l.name = true
  | [], l, hl => by simp [typeLeavesLoop] at hl
  | t :: rest, l, hl => by
    rw [typeLeavesLoop, List.mem_append] at hl
    rcases hl with hl | hl
    · exact typeLeaves_visible cs xs t.Item t.Name t.Tag l hl
    · exact typeLeavesLoop_visible cs xs rest l hl
end

theorem reach_columns {cs xs : List (String × Bool)} : ∀ (leaves : List leaf) (t : tabular),
    Reach cs xs t → t.rows = [] → (∀ l ∈ leaves, l.hintOk = true) →
    (∀ l ∈ leaves, l.name ≠ "" ∧ l.name ≠ "-") →
    Reach cs xs { t with columns := t.columns ++ leaves.map leaf.column }
  | [], t, hr, _, _, _ => by simpa using hr
  | l :: rest, t, hr, h0, hh, hn => by
    have h1 := Reach.column hr h0 (hn l (List.mem_cons_self _ _)).1
      (hn l (List.mem_cons_self _ _)).2 (addColumn_leaf t l (hh l (List.mem_cons_self _ _)))
    have := reach_columns rest _ h1 h0 (fun x hx => hh x (List.mem_cons_of_mem _ hx))
      (fun x hx => hn x (List.mem_cons_of_mem _ hx))
    simpa using this

/-- The header pass keeps a table without rows within reach. -/
theorem reach_head {cs xs : List (String × Bool)} (fields : List (StructField GoType))
    (t t' : tabular) (hr : Reach cs xs t) (h0 : t.rows = [])
    (h : reflectFieldHeadLoop t fields = .ok t') : Reach cs xs t' ∧ t'.rows = [] := by
  rw [reflectFieldHeadLoop_result] at h
  have hall : ∀ l ∈ typeLeavesLoop t.columnSet t.excludeSet fields, l.hintOk = true := by
    intro l hl
    by_contra hne
    have hf : (typeLeavesLoop t.columnSet t.excludeSet fields).find? (fun l => !l.hintOk) ≠
        none := by
      intro hnone
      rw [List.find?_eq_none] at hnone
      have := hnone l hl
      simp at this
      exact hne this
    unfold headResult at h
    cases hfind : (typeLeavesLoop t.columnSet t.excludeSet fields).find? (fun l => !l.hintOk) with
    | none => exact hf hfind
    | some l' => rw [hfind] at h; simp at h
  rw [headResult_ok _ _ hall] at h
  simp only [Except.ok.injEq] at h
  subst h
  refine ⟨reach_columns _ t hr h0 hall ?_, h0⟩
  intro l hl
  exact visible_ne _ _ _ (typeLeavesLoop_visible _ _ fields l hl)

theorem reach_fieldValue_leaf {cs xs : List (String × Bool)} (value : Value)
    (hs : ∀ fields, value ≠ .struct fields) (table : tabular) (row col : Int)
    (fieldName tag : String) (t' : tabular) (col' : Int) (hr : Reach cs xs table)
    (he : EmptyFrom table row col)
    (h : reflectFieldValue table row col fieldName tag value = .ok (t', col')) :
    Reach cs xs t' ∧ EmptyFrom t' row col' := by
  cases hv : visible table.columnSet table.excludeSet (displayName fieldName tag)
  · rw [reflectFieldValue_hidden _ _ _ _ _ _ hv] at h
    simp only [Except.ok.injEq, Prod.mk.injEq] at h
    obtain ⟨rfl, rfl⟩ := h
    exact ⟨hr, he⟩
  · rw [reflectFieldValue_leaf _ _ _ _ _ _ hs hv] at h
    by_cases hk : skippedKind value.Kind = true
    · simp only [hk, if_true, Except.ok.injEq, Prod.mk.injEq] at h
      obtain ⟨rfl, rfl⟩ := h
      exact ⟨hr, he⟩
    · simp only [hk, if_false] at h
      cases hsf : setField table row col
          (leafValue.cell { fieldName := fieldName, tag := tag, value := value }) with
      | error e => rw [hsf] at h; cases h
      | ok t1 =>
        rw [hsf] at h
        simp only [Except.ok.injEq, Prod.mk.injEq] at h
        obtain ⟨rfl, rfl⟩ := h
        exact reach_setField hr he hsf

mutual
/-- The row pass of one field keeps the table within reach and the rest of
the row empty. -/
theorem reach_fieldValue {cs xs : List (String × Bool)} : ∀ (value : Value) (table : tabular)
    (row col : Int) (fieldName tag : String) (t' : tabular) (col' : Int),
    Reach cs xs table → EmptyFrom table row col →
    reflectFieldValue table row col fieldName tag value = .ok (t', col') →
    Reach cs xs t' ∧ EmptyFrom t' row col'
  | .struct fields, table, row, col, fieldName, tag, t', col', hr, he, h => by
    cases hv : visible table.columnSet table.excludeSet (displayName fieldName tag)
    · rw [reflectFieldValue_hidden _ _ _ _ _ _ hv] at h
      simp only [Except.ok.injEq, Prod.mk.injEq] at h
      obtain ⟨rfl, rfl⟩ := h
      exact ⟨hr, he⟩
    · rw [reflectFieldValue_struct _ _ _ _ _ _ hv] at h
      exact reach_fieldValueLoop fields table row col t' col' hr he h
  | .bool b, table, row, col, fieldName, tag, t', col', hr, he, h =>
    reach_fieldValue_leaf (.bool b) (fun _ => Value.noConfusion) table row col fieldName tag
      t' col' hr he h
  | .str s, table, row, col, fieldName, tag, t', col', hr, he, h =>
    reach_fieldValue_leaf (.str s) (fun _ => Value.noConfusion) table row col fieldName tag
      t' col' hr he h
  | .other k text, table, row, col, fieldName, tag, t', col', hr, he, h =>
    reach_fieldValue_leaf (.other k text) (fun _ => Value.noConfusion) table row col fieldName
      tag t' col' hr he h
  | .ptr e text, table, row, col, fieldName, tag, t', col', hr, he, h =>
    reach_fieldValue_leaf (.ptr e text) (fun _ => Value.noConfusion) table row col fieldName
      tag t' col' hr he h
  | .seq slice items, table, row, col, fieldName, tag, t', col', hr, he, h =>
    reach_fieldValue_leaf (.seq slice items) (fun _ => Value.noConfusion) table row col
      fieldName tag t' col' hr he h
/-- The row pass of a list of fields. -/
theorem reach_fieldValueLoop {cs xs : List (String × Bool)} :
    ∀ (fields : List (StructField Value)) (table : tabular) (row col : Int) (t' : tabular)
      (col' : Int),
    Reach cs xs table → EmptyFrom table row col →
    reflectFieldValueLoop table row col fields = .ok (t', col') →
    Reach cs xs t' ∧ EmptyFrom t' row col'
  | [], table, row, col, t', col', hr, he, h => by
    simp only [reflectFieldValueLoop, Except.ok.injEq, Prod.mk.injEq] at h
    obtain ⟨rfl, rfl⟩ := h
    exact ⟨hr, he⟩
  | f :: rest, table, row, col, t', col', hr, he, h => by
    rw [reflectFieldValueLoop] at h
    cases hf : reflectFieldValue table row col f.Name f.Tag f.Item with
    | error e => rw [hf] at h; cases h
    | ok p =>
      obtain ⟨t1, c1⟩ := p
      rw [hf] at h
      simp only at h
      obtain ⟨hr1, he1⟩ := reach_fieldValue f.Item table row col f.Name f.Tag t1 c1 hr he hf
      exact reach_fieldValueLoop rest t1 row c1 t' col' hr1 he1 h
end

theorem reach_applyCells {cs xs : List (String × Bool)} (r : Nat) :
    ∀ (cells : List String) (c : Nat) (t : tabular), Reach cs xs t →
      Fits t r c cells.length → (∀ j, c ≤ j → cellAt t r j = "") →
      Reach cs xs (applyCells r c cells t)
  | [], _, t, hr, _, _ => hr
  | s :: rest, c, t, hr, hf, he => by
    rw [applyCells]
    have hf1 : Fits t r c 1 := hf.mono (by simp)
    have hset := setField_eq_setCell t r c s hf1
    have h1 : Reach cs xs (setCell t r c s) :=
      Reach.field hr (by simpa using he c (le_refl _)) hset
    refine reach_applyCells r rest (c + 1) _ h1 ?_ ?_
    · rw [setCell_fits]
      exact hf.mono (by simp only [List.length_cons]; omega)
    · intro j hj
      rw [cellAt_setCell_ne _ _ _ _ _ (by omega)]
      exact he j (by omega)

/-- Adding a record of one cell per column keeps the table within reach. -/
theorem reach_addRecord {cs xs : List (String × Bool)} (t : tabular) (cells : List String)
    (hr : Reach cs xs t) (hl : cells.length = t.columns.length) :
    Reach cs xs (addRecord t cells) := by
  have h := reach_applyCells t.rows.length cells 0 (newRow t).1 (Reach.row hr)
    ⟨by simp [newRow], by simp [newRow, hl], by simp [newRow, hl, List.getD_eq_getElem?_getD]⟩
    (fun j _ => cellAt_newRow t j)
  rw [applyCells_newRow t cells hl] at h
  exact h

theorem reach_foldl_addRecord {cs xs : List (String × Bool)} (m : Nat) :
    ∀ (rows : List (List String)) (t : tabular), Reach cs xs t → t.columns.length = m →
      (∀ r ∈ rows, r.length = m) → Reach cs xs (rows.foldl addRecord t)
  | [], t, hr, _, _ => hr
  | r :: rest, t, hr, hm, hl => by
    have hrl : r.length = t.columns.length := by rw [hl r (List.mem_cons_self _ _), hm]
    exact reach_foldl_addRecord m rest _ (reach_addRecord t r hr hrl)
      (by rw [addRecord_columns_length _ _ hrl, hm])
      (fun x hx => hl x (List.mem_cons_of_mem _ hx))

theorem reach_newRow_setField {cs xs : List (String × Bool)} (t t' : tabular) (col : Int)
    (s : String) (hr : Reach cs xs t)
    (h : setField (newRow t).1 (newRow t).2 col s = .ok t') : Reach cs xs t' :=
  (reach_setField (Reach.row hr) (emptyFrom_newRow t col) h).1

/-- The step of the loop of `reflectArray` on an item that is printed as one
cell keeps the table within reach. -/
theorem reach_scalar_step {cs xs : List (String × Bool)} (t : tabular) (col : Int) (i : Nat)
    (text : String) (rest : List Value) (t' : tabular) (hr : Reach cs xs t)
    (h0 : i = 0 → t.rows = [])
    (ih : ∀ t1 col1, Reach cs xs t1 → reflectArrayLoop t1 col1 (i + 1) rest = .ok t' →
      Reach cs xs t')
    (h : (match (if i = 0 then addColumn t "Output" false "" else .ok (t, col)) with
      | .error e => Except.error e
      | .ok (table, col) =>
        match setField (newRow table).1 (newRow table).2 col text with
        | .error e => .error e
        | .ok table => reflectArrayLoop table col (i + 1) rest) = .ok t') :
    Reach cs xs t' := by
  by_cases hi : i = 0
  · simp only [hi, if_true] at h
    cases hac : addColumn t "Output" false "" with
    | error e => rw [hac] at h; cases h
    | ok p =>
      obtain ⟨t1, c1⟩ := p
      rw [hac] at h
      simp only at h
      have hr1 : Reach cs xs t1 := Reach.column hr (h0 hi) (by decide) (by decide) hac
      cases hsf : setField (newRow t1).1 (newRow t1).2 c1 text with
      | error e => rw [hsf] at h; cases h
      | ok t2 =>
        rw [hsf] at h
        exact ih t2 c1 (reach_newRow_setField t1 t2 c1 text hr1 hsf) (by simpa [hi] using h)
  · simp only [hi, if_false] at h
    cases hsf : setField (newRow t).1 (newRow t).2 col text with
    | error e => rw [hsf] at h; cases h
    | ok t2 =>
      rw [hsf] at h
      exact ih t2 col (reach_newRow_setField t t2 col text hr hsf) h

theorem reach_struct_step {cs xs : List (String × Bool)} (t : tabular) (col : Int) (i : Nat)
    (fields : List (StructField Value)) (rest : List Value) (t' : tabular)
    (hr : Reach cs xs t) (h0 : i = 0 → t.rows = [])
    (ih : ∀ t1 col1, Reach cs xs t1 → reflectArrayLoop t1 col1 (i + 1) rest = .ok t' →
      Reach cs xs t')
    (h : (match (if i = 0 then reflectStructHeader t (.struct fields) else .ok t) with
      | .error e => Except.error e
      | .ok table =>
        match reflectStructRow (newRow table).1 (newRow table).2 (.struct fields) with
        | .error e => .error e
        | .ok table => reflectArrayLoop table col (i + 1) rest) = .ok t') :
    Reach cs xs t' := by
  have key : ∀ t1, Reach cs xs t1 →
      (match reflectStructRow (newRow t1).1 (newRow t1).2 (.struct fields) with
        | .error e => Except.error e
        | .ok table => reflectArrayLoop table col (i + 1) rest) = .ok t' → Reach cs xs t' := by
    intro t1 hr1 h1
    rw [reflectStructRow] at h1
    cases hl : reflectFieldValueLoop (newRow t1).1 (newRow t1).2 0 fields with
    | error e => rw [hl] at h1; cases h1
    | ok p =>
      obtain ⟨t2, c2⟩ := p
      rw [hl] at h1
      simp only at h1
      exact ih t2 col (reach_fieldValueLoop fields _ _ 0 t2 c2 (Reach.row hr1)
        (emptyFrom_newRow t1 0) hl).1 h1
  by_cases hi : i = 0
  · simp only [hi, if_true] at h
    rw [reflectStructHeader, Value.Type] at h
    simp only at h
    cases hh : reflectFieldHeadLoop t (Value.fieldTypes fields) with
    | error e => rw [hh] at h; cases h
    | ok t1 =>
      rw [hh] at h
      simp only at h
      exact key t1 (reach_head _ t t1 hr (h0 hi) hh).1 (by simpa [hi] using h)
  · simp only [hi, if_false] at h
    exact key t hr h

theorem value_class (v : Value) :
    (∃ fields, v = .struct fields) ∨ skippedKind v.Kind = true ∨
    v.Kind ∉ [Kind.Struct, Kind.Array, Kind.Slice, Kind.Map, Kind.Func, Kind.Ptr,
      Kind.Interface] := by
  cases v with
  | struct fields => exact Or.inl ⟨fields, rfl⟩
  | bool b => right; right; simp [Value.Kind]
  | str s => right; right; simp [Value.Kind]
  | ptr e text => right; left; rfl
  | seq slice items => right; left; cases slice <;> rfl
  | other k text => cases k <;> simp [Value.Kind, OtherKind.toKind, skippedKind]

/-- The loop of `reflectArray` keeps the table within reach. -/
theorem reach_arrayLoop {cs xs : List (String × Bool)} :
    ∀ (items : List Value) (t : tabular) (col : Int) (i : Nat) (t' : tabular),
      Reach cs xs t → (i = 0 → t.rows = []) → reflectArrayLoop t col i items = .ok t' →
      Reach cs xs t'
  | [], t, col, i, t', hr, _, h => by
    simp only [reflectArrayLoop, Except.ok.injEq] at h
    subst h; exact hr
  | item :: rest, t, col, i, t', hr, h0, h => by
    have ih : ∀ t1 col1, Reach cs xs t1 → reflectArrayLoop t1 col1 (i + 1) rest = .ok t' →
        Reach cs xs t' :=
      fun t1 col1 hr1 h1 => reach_arrayLoop rest t1 col1 (i + 1) t' hr1 (by simp) h1
    rw [reflectArrayLoop] at h
    cases hd : derefPtr item with
    | none =>
      rw [hd] at h
      simp only at h
      split at h <;> cases h
    | some v =>
      rw [hd] at h
      simp only at h
      rcases value_class v with ⟨fields, rfl⟩ | hk | hk
      · simp only [Value.Kind] at h
        exact reach_struct_step t col i fields rest t' hr h0 ih h
      · cases hkv : v.Kind <;> rw [hkv] at hk <;>
          first
          | (exfalso; revert hk; decide)
          | (rw [hkv] at h; exact ih t col hr h)
      · cases hkv : v.Kind <;> rw [hkv] at hk <;>
          first
          | (exfalso; revert hk; decide)
          | (rw [hkv] at h; exact reach_scalar_step t col i (sprintV v) rest t' hr h0 ih h)

/-- Every table the reflect pass builds from the empty table is within
reach. -/
theorem reflectInterface_reach (cs xs : List (String × Bool)) (value : Value) (t : tabular)
    (h : reflectInterface (newTabular cs xs) value = .ok t) : Reach cs xs t := by
  rw [reflectInterface] at h
  cases hd : derefPtr value with
  | none =>
    rw [hd] at h
    simp only at h
    split at h <;> cases h
  | some v =>
    rw [hd] at h
    simp only at h
    have hscalar : (match addColumn (newTabular cs xs) "Output" false "" with
        | .error e => Except.error e
        | .ok (table, col) => setField (newRow table).1 (newRow table).2 col (sprintV v)) =
          .ok t → Reach cs xs t := by
      intro h1
      cases hac : addColumn (newTabular cs xs) "Output" false "" with
      | error e => rw [hac] at h1; cases h1
      | ok p =>
        obtain ⟨t1, c1⟩ := p
        rw [hac] at h1
        exact reach_newRow_setField t1 t c1 _
          (Reach.column Reach.start rfl (by decide) (by decide) hac) h1
    cases v with
    | struct fields =>
      simp only [Value.Kind] at h
      by_cases hf : fields = []
      · subst hf
        simp [reflectStructDetail, Value.Kind, Value.fields] at h
        subst h; exact Reach.start
      · rw [reflectStructDetail_eq cs xs fields hf] at h
        simp only [Except.ok.injEq] at h
        subst h
        refine reach_foldl_addRecord 2 _ _ ?_ rfl ?_
        · have h1 : Reach cs xs (⟨[⟨"Name", len "Name", true, len "Name"⟩], [], cs, xs⟩ : tabular) :=
            @Reach.column cs xs (newTabular cs xs) _ "Name" true "" 0 Reach.start rfl
              (by decide) (by decide) (by simp [addColumn, newTabular])
          exact @Reach.column cs xs _ _ "Output" false "" 1 h1 rfl (by decide) (by decide)
            (by simp [addColumn])
        · intro r hr
          obtain ⟨lv, _, rfl⟩ := List.mem_map.1 hr
          rfl
    | seq slice items =>
      have hk : ¬ ((Value.seq slice items).Kind ≠ Kind.Array ∧
          (Value.seq slice items).Kind ≠ Kind.Slice) := by cases slice <;> simp [Value.Kind]
      have h' : reflectArray (newTabular cs xs) (.seq slice items) = .ok t := by
        cases slice <;> simpa [Value.Kind] using h
      rw [reflectArray, if_neg hk] at h'
      by_cases hl : (Value.seq slice items).items.length = 0
      · simp only [hl, if_true, Except.ok.injEq] at h'
        subst h'; exact Reach.start
      · simp only [hl, if_false] at h'
        exact reach_arrayLoop _ _ 0 0 t Reach.start (fun _ => rfl) h'
    | bool b => exact hscalar (by simpa [Value.Kind] using h)
    | str s => exact hscalar (by simpa [Value.Kind] using h)
    | ptr e text => exact hscalar (by simpa [Value.Kind] using h)
    | other k text =>
      cases k <;> simp only [Value.Kind, OtherKind.toKind] at h <;>
        first
        | exact hscalar h
        | (simp only [Except.ok.injEq] at h; subst h; exact Reach.start)

/-! ## What holds of every table within reach -/

theorem len_pos_of_ne (s : String) (h : s ≠ "") : 1 ≤ len s := by
  obtain ⟨cs⟩ := s
  cases cs with
  | nil => exact absurd rfl h
  | cons c cs =>
    simp only [len, String.utf8ByteSize_mk, String.utf8Len_cons]
    have := Char.utf8Size_pos c
    omega

/-- A successful `addColumn` appends a column as wide as its name, whose
minimum width is at least the length of the name. -/
theorem addColumn_inv (t t' : tabular) (name : String) (rightAlign : Bool) (hint : String)
    (c : Int) (h : addColumn t name rightAlign hint = .ok (t', c)) :
    ∃ m, len name ≤ m ∧ t' = { t with columns := t.columns ++
      [{ name := name, width := len name, rightAlign := rightAlign, minWidth := m }] } := by
  unfold addColumn at h
  by_cases hw : hint = ""
  · simp [hw] at h
    exact ⟨len name, le_refl _, h.1.symm⟩
  · simp only [ne_eq, hw, not_false_eq_true, if_true] at h
    cases hp : ParseInt32 hint with
    | none => simp [hp] at h
    | some w =>
      simp only [hp, Except.ok.injEq, Prod.mk.injEq] at h
      refine ⟨if w > len name then w else len name, ?_, h.1.symm⟩
      split <;> omega

/-- A column of a table after `setCell` is a column of the table before, or
one of them widened. -/
theorem mem_setCell_columns (t : tabular) (r c : Nat) (s : String) (hc : c < t.columns.length)
    (col : column) (h : col ∈ (setCell t r c s).columns) :
    ∃ col0 ∈ t.columns, col = col0 ∨ col = widen s col0 := by
  simp only [setCell] at h
  rcases List.mem_or_eq_of_mem_set h with h | rfl
  · exact ⟨col, h, Or.inl rfl⟩
  · refine ⟨t.columns[c], List.getElem_mem _, Or.inr ?_⟩
    rw [List.getD_eq_getElem?_getD, List.getElem?_eq_getElem hc]
    rfl

/-- The names of the columns of a table within reach are neither empty nor
"-". -/
theorem reach_names {cs xs : List (String × Bool)} {t : tabular} (h : Reach cs xs t) :
    ∀ c ∈ t.columns, c.name ≠ "" ∧ c.name ≠ "-" := by
  induction h with
  | start => intro c hc; simp [newTabular] at hc
  | @column t t' name ra hint c _ _ hn1 hn2 hac ih =>
    obtain ⟨m, _, rfl⟩ := addColumn_inv _ _ _ _ _ _ hac
    intro col hcol
    simp only [List.mem_append, List.mem_singleton] at hcol
    rcases hcol with hcol | rfl
    · exact ih col hcol
    · exact ⟨hn1, hn2⟩
  | row _ ih => exact ih
  | @field t t' r c s _ _ hsf ih =>
    obtain ⟨_, _, hf, rfl⟩ := setField_inv _ _ _ _ _ hsf
    intro col hcol
    obtain ⟨col0, h0, rfl | rfl⟩ := mem_setCell_columns t _ _ s (by have := hf.2.1; omega) col hcol
    · exact ih _ h0
    · rw [widen_name]; exact ih _ h0

theorem lineFits_set_widen : ∀ (cols : List column) (row : List String) (c : Nat) (s : String)
    (d : column), lineFits cols row = true →
    lineFits (cols.set c (widen s (cols.getD c d))) row = true
  | cols, [], c, s, d, _ => by
    cases cols.set c (widen s (cols.getD c d)) <;> rfl
  | [], _ :: _, _, _, _, h => by simp [lineFits] at h
  | col :: cols, x :: row, 0, s, d, h => by
    simp only [lineFits, Bool.and_eq_true, decide_eq_true_eq] at h
    simp only [List.set_cons_zero, List.getD_cons_zero, lineFits, Bool.and_eq_true,
      decide_eq_true_eq]
    exact ⟨le_trans h.1 (widen_width_ge s col), h.2⟩
  | col :: cols, x :: row, c + 1, s, d, h => by
    simp only [lineFits, Bool.and_eq_true, decide_eq_true_eq] at h
    simp only [List.set_cons_succ, List.getD_cons_succ, lineFits, Bool.and_eq_true,
      decide_eq_true_eq]
    exact ⟨h.1, lineFits_set_widen cols row c s d h.2⟩

theorem lineFits_set_cell : ∀ (cols : List column) (row : List String) (c : Nat) (s : String)
    (d : column), lineFits cols row = true →
    lineFits (cols.set c (widen s (cols.getD c d))) (row.set c s) = true
  | cols, [], c, s, d, _ => by
    cases cols.set c (widen s (cols.getD c d)) <;> rfl
  | [], _ :: _, _, _, _, h => by simp [lineFits] at h
  | col :: cols, x :: row, 0, s, d, h => by
    simp only [lineFits, Bool.and_eq_true, decide_eq_true_eq] at h
    simp only [List.set_cons_zero, List.getD_cons_zero, lineFits, Bool.and_eq_true,
      decide_eq_true_eq]
    exact ⟨widen_width_text s col, h.2⟩
  | col :: cols, x :: row, c + 1, s, d, h => by
    simp only [lineFits, Bool.and_eq_true, decide_eq_true_eq] at h
    simp only [List.set_cons_succ, List.getD_cons_succ, lineFits, Bool.and_eq_true,
      decide_eq_true_eq]
    exact ⟨h.1, lineFits_set_cell cols row c s d h.2⟩

theorem lineFits_replicate : ∀ (cols : List column), (∀ c ∈ cols, 0 ≤ c.width) →
    lineFits cols (List.replicate cols.length "") = true
  | [], _ => rfl
  | col :: cols, h => by
    simp only [List.length_cons, List.replicate_succ, lineFits, Bool.and_eq_true,
      decide_eq_true_eq]
    exact ⟨h col (List.mem_cons_self _ _),
      lineFits_replicate cols (fun c hc => h c (List.mem_cons_of_mem _ hc))⟩

/-- A table within reach is sound, and each of its rows has one cell per
column. -/
theorem reach_sound {cs xs : List (String × Bool)} {t : tabular} (h : Reach cs xs t) :
    Sound t ∧ ∀ row ∈ t.rows, row.length = t.columns.length := by
  induction h with
  | start => exact ⟨⟨by simp [newTabular], by simp [newTabular]⟩, by simp [newTabular]⟩
  | @column t t' name ra hint c _ h0 hn1 hn2 hac ih =>
    obtain ⟨m, hm, rfl⟩ := addColumn_inv _ _ _ _ _ _ hac
    have hp := len_pos_of_ne name hn1
    refine ⟨⟨?_, ?_⟩, ?_⟩
    · intro col hcol
      simp only [List.mem_append, List.mem_singleton] at hcol
      rcases hcol with hcol | rfl
      · exact ih.1.1 col hcol
      · exact ⟨le_refl _, hm, by simp only; omega⟩
    · intro row hrow; simp only [h0] at hrow; simp at hrow
    · intro row hrow; simp only [h0] at hrow; simp at hrow
  | @row t _ ih =>
    have h0 : ∀ c ∈ t.columns, 0 ≤ c.width :=
      fun c hc => le_trans (len_nonneg _) (ih.1.1 c hc).1
    refine ⟨⟨ih.1.1, ?_⟩, ?_⟩
    · intro row hrow
      simp only [newRow, List.mem_append, List.mem_singleton] at hrow
      rcases hrow with hrow | rfl
      · exact ih.1.2 row hrow
      · exact lineFits_replicate _ h0
    · intro row hrow
      simp only [newRow, List.mem_append, List.mem_singleton] at hrow
      rcases hrow with hrow | rfl
      · exact ih.2 row hrow
      · simp [newRow]
  | @field t t' r c s _ _ hsf ih =>
    obtain ⟨_, _, hf, rfl⟩ := setField_inv _ _ _ _ _ hsf
    have hc : c.toNat < t.columns.length := by have := hf.2.1; omega
    refine ⟨⟨?_, ?_⟩, ?_⟩
    · intro col hcol
      obtain ⟨col0, h0, rfl | rfl⟩ := mem_setCell_columns t _ _ s hc col hcol
      · exact ih.1.1 _ h0
      · rw [widen_name, widen_minWidth]
        exact ⟨le_trans (ih.1.1 _ h0).1 (widen_width_ge s col0), (ih.1.1 _ h0).2⟩
    · intro row hrow
      simp only [setCell] at hrow ⊢
      rcases List.mem_or_eq_of_mem_set hrow with hrow | rfl
      · exact lineFits_set_widen _ _ _ _ _ (ih.1.2 row hrow)
      · apply lineFits_set_cell
        rw [List.getD_eq_getElem?_getD, List.getElem?_eq_getElem hf.1]
        exact ih.1.2 _ (List.getElem_mem _)
    · intro row hrow
      simp only [setCell] at hrow ⊢
      rw [List.length_set]
      rcases List.mem_or_eq_of_mem_set hrow with hrow | rfl
      · exact ih.2 row hrow
      · rw [List.length_set, List.getD_eq_getElem?_getD, List.getElem?_eq_getElem hf.1]
        exact ih.2 _ (List.getElem_mem _)

theorem foldl_max_ge (L : List Int) (b : Int) : b ≤ L.foldl max b := by
  induction L generalizing b with
  | nil => exact le_refl _
  | cons a L ih => exact le_trans (le_max_left _ _) (ih (max b a))

theorem foldl_max_comm (L : List Int) (b x : Int) :
    L.foldl max (max b x) = max (L.foldl max b) x := by
  induction L generalizing b with
  | nil => rfl
  | cons a L ih =>
    simp only [List.foldl_cons]
    rw [show max (max b x) a = max (max b a) x by
      simp only [max_assoc, max_comm x a], ih]

theorem foldl_max_set : ∀ (L : List Int) (b x : Int) (r : Nat), 0 ≤ b → r < L.length →
    L.getD r 0 = 0 → (L.set r x).foldl max b = max (L.foldl max b) x
  | [], _, _, _, _, hr, _ => by simp at hr
  | a :: L, b, x, 0, hb, _, h0 => by
    simp only [List.getD_cons_zero] at h0
    subst h0
    simp only [List.set_cons_zero, List.foldl_cons, max_eq_left hb]
    exact foldl_max_comm L b x
  | a :: L, b, x, r + 1, hb, hr, h0 => by
    simp only [List.set_cons_succ, List.foldl_cons]
    exact foldl_max_set L (max b a) x r (le_trans hb (le_max_left _ _))
      (by simpa using hr) (by simpa using h0)

theorem columnMax_nil (name : String) (k : Nat) : columnMax name k [] = len name := rfl

theorem columnMax_append_empty (name : String) (k : Nat) (rows : List (List String)) (n : Nat) :
    columnMax name k (rows ++ [List.replicate n ""]) = columnMax name k rows := by
  have h0 : len ((List.replicate n "").getD k "") = 0 := by
    rw [List.getD_eq_getElem?_getD]
    by_cases hk : k < n
    · simp [List.getElem?_replicate, hk, len_empty]
    · simp [List.getElem?_replicate, hk, len_empty]
  unfold columnMax
  rw [List.map_append, List.foldl_append]
  simp only [List.map_cons, List.map_nil, List.foldl_cons, List.foldl_nil, h0]
  exact max_eq_left (le_trans (len_nonneg _) (foldl_max_ge _ _))

/-- Setting a cell of another column changes nothing in column `k`. -/
theorem columnMax_set_ne (name : String) (k c r : Nat) (s : String) (rows : List (List String))
    (h : k ≠ c) :
    columnMax name k (rows.set r ((rows.getD r []).set c s)) = columnMax name k rows := by
  unfold columnMax
  congr 1
  apply List.ext_getElem?
  intro i
  simp only [List.getElem?_map, List.getElem?_set]
  by_cases hi : r = i
  · subst hi
    by_cases hr : r < rows.length
    · simp [hr, List.getD_eq_getElem?_getD, List.getElem?_set, Ne.symm h]
    · have : rows[r]? = none := List.getElem?_eq_none (by omega)
      simp [hr, this]
  · simp [hi]

/-- Setting an empty cell of column `c` to a text raises the largest length
of the column to the length of the text, if it is larger. -/
theorem columnMax_set_eq (name : String) (c r : Nat) (s : String) (rows : List (List String))
    (hr : r < rows.length) (hc : c < (rows.getD r []).length)
    (he : (rows.getD r []).getD c "" = "") :
    columnMax name c (rows.set r ((rows.getD r []).set c s)) =
      max (columnMax name c rows) (len s) := by
  unfold columnMax
  have hmap : (rows.set r ((rows.getD r []).set c s)).map (fun row => len (row.getD c "")) =
      (rows.map (fun row => len (row.getD c ""))).set r (len s) := by
    rw [List.map_set]
    congr 1
    rw [List.getD_eq_getElem?_getD ((rows.getD r []).set c s), List.getElem?_set_self (by simpa using hc)]
    rfl
  rw [hmap]
  apply foldl_max_set _ _ _ _ (len_nonneg _) (by simpa using hr)
  rw [List.getD_eq_getElem?_getD, List.getElem?_map]
  rw [List.getD_eq_getElem?_getD] at he
  cases hrow : rows[r]? with
  | none => rfl
  | some row =>
    simp only [Option.map_some', Option.getD_some]
    rw [List.getD_eq_getElem?_getD, hrow] at he
    simp only [Option.getD_some] at he
    rw [List.getD_eq_getElem?_getD, he]
    rfl

/-- In a table within reach every column is exactly as wide as the longest of
its name and its cells. -/
theorem reach_exact {cs xs : List (String × Bool)} {t : tabular} (h : Reach cs xs t) :
    ∀ (k : Nat) (c : column), t.columns[k]? = some c → c.width = columnMax c.name k t.rows := by
  induction h with
  | start => intro k c hk; simp [newTabular] at hk
  | @column t t' name ra hint c _ h0 _ _ hac ih =>
    obtain ⟨m, _, rfl⟩ := addColumn_inv _ _ _ _ _ _ hac
    intro k col hk
    simp only [h0, columnMax_nil]
    by_cases hlt : k < t.columns.length
    · rw [List.getElem?_append_left hlt] at hk
      have := ih k col hk
      rw [h0, columnMax_nil] at this
      exact this
    · rw [List.getElem?_append_right (by omega)] at hk
      cases hkk : k - t.columns.length with
      | zero => rw [hkk] at hk; simp at hk; subst hk; rfl
      | succ n => rw [hkk] at hk; simp at hk
  | @row t _ ih =>
    intro k col hk
    simp only [newRow] at hk ⊢
    rw [columnMax_append_empty]
    exact ih k col hk
  | @field t t' r c s _ hcell hsf ih =>
    obtain ⟨_, _, hf, rfl⟩ := setField_inv _ _ _ _ _ hsf
    have hc : c.toNat < t.columns.length := by have := hf.2.1; omega
    intro k col hk
    simp only [setCell] at hk ⊢
    by_cases hkc : k = c.toNat
    · subst hkc
      rw [List.getElem?_set_self hc] at hk
      simp only [Option.some.injEq] at hk
      subst hk
      rw [widen_name, columnMax_set_eq _ _ _ _ _ hf.1 (by have := hf.2.2; omega) hcell]
      have hold := ih c.toNat (t.columns.getD c.toNat ⟨"", 0, false, 0⟩) (by
        rw [List.getD_eq_getElem?_getD, List.getElem?_eq_getElem hc]; rfl)
      rw [← hold]
      unfold widen
      split
      · show len s = _
        rw [max_eq_right (by omega)]
      · rw [max_eq_left (by omega)]
    · rw [List.getElem?_set_ne (Ne.symm hkc)] at hk
      rw [columnMax_set_ne _ _ _ _ _ _ hkc]
      exact ih k col hk

/-! ## Fixed layout of the grid -/

theorem forall₂_names (cols : List column) (h : ∀ c ∈ cols, len c.name ≤ c.width) :
    List.Forall₂ (fun (col : column) (s : String) => len s ≤ col.width) cols
      (cols.map column.name) := by
  rw [List.forall₂_map_right_iff]
  exact List.forall₂_same.2 h

/-- C14: for a table built by the reflect pass, any terminal width and a
wrapper that wraps the texts of the table well (its lines are no longer than
the width it is given, nor than the text), the grid style succeeds and every
line it writes (each ended by a line break: the rule lines, the line of the
names and every physical line of a row) has the same length, 1 plus the sum
over the columns of the final width plus 3; no name and no text of a physical
line exceeds the final width of its column. `cols` are the columns as the width
negotiation leaves them. -/
theorem write_grid_fixed_layout (wrapText : String → Int → List String)
    (cs xs : List (String × Bool)) (value : Value) (t : tabular) (out : String)
    (excludeHeader : Bool) (sep : String) (W : Int)
    (ht : reflectInterface (newTabular cs xs) value = .ok t) (hw : WrapsWell wrapText t) :
    ∃ (cols : List column) (lines : List String),
      write wrapText t out Grid excludeHeader sep W =
        ({ t with columns := cols }, out ++ String.join (lines.map (fun l => l ++ "\n")),
          none) ∧
      (∀ l ∈ lines, len l = 1 + (cols.map (fun c => c.width + 3)).sum) ∧
      (∀ c ∈ cols, len c.name ≤ c.width) ∧
      (t.rows = [] → lines = []) ∧
      (t.rows ≠ [] → ∃ rows : List (List (List String)),
        lines = gridLines excludeHeader cols rows ∧ rows.length = t.rows.length ∧
        ∀ ls ∈ rows, ∀ l ∈ ls,
          List.Forall₂ (fun (col : column) (s : String) => len s ≤ col.width) cols l) := by
  obtain ⟨hs, hfull⟩ := reach_sound (reflectInterface_reach cs xs value t ht)
  by_cases hr : t.rows = []
  · refine ⟨t.columns, [], ?_, by simp, fun c hc => (hs.1 c hc).1, fun _ => rfl,
      fun h => absurd hr h⟩
    have hl : t.rows.length = 0 := by rw [hr]; rfl
    rw [write_Grid, writeAligned, if_pos hl]
    simp [join_nil, append_empty]
  · obtain ⟨cols, rows, h1, _, _, h4, h5, h6, h7⟩ :=
      writeAligned_grid wrapText t out excludeHeader W hr hs hw
    have h0 : ∀ c ∈ cols, 0 ≤ c.width := fun c hc => le_trans (len_nonneg _) (h7 c hc).1
    have hfit : ∀ ls ∈ rows, ∀ l ∈ ls,
        List.Forall₂ (fun (col : column) (s : String) => len s ≤ col.width) cols l :=
      fun ls hls l hl => forall₂_of_lineFits cols l ((h5 ls hls).2 l hl) (h6 hfull ls hls l hl)
    have hrowlines : ∀ (ls : List (List String)),
        (∀ l ∈ ls, List.Forall₂ (fun (col : column) (s : String) => len s ≤ col.width) cols l) →
        ∀ x ∈ gridRowLines cols ls, len x = 1 + (cols.map (fun c => c.width + 3)).sum := by
      intro ls hls x hx
      unfold gridRowLines at hx
      split at hx
      · simp at hx
      · obtain ⟨l, hl, rfl⟩ := List.mem_map.1 hx
        exact len_gridLine cols l (hls l hl)
    refine ⟨cols, gridLines excludeHeader cols rows, ?_, ?_, fun c hc => (h7 c hc).1,
      fun h => absurd h hr, fun _ => ⟨rows, rfl, h4, hfit⟩⟩
    · rw [write_Grid, h1, gridText_eq_lines]
    · intro l hl
      unfold gridLines at hl
      simp only [List.mem_cons, List.mem_append, List.mem_flatten, List.mem_map] at hl
      rcases hl with rfl | hl | ⟨blk, ⟨ls, hls, rfl⟩, hl⟩
      · exact len_gridRule cols h0
      · cases excludeHeader
        · simp only [Bool.false_eq_true, if_false, List.mem_append, List.mem_singleton] at hl
          rcases hl with hl | rfl
          · refine hrowlines [cols.map column.name] ?_ l hl
            intro x hx
            rw [List.mem_singleton] at hx; subst hx
            exact forall₂_names cols (fun c hc => (h7 c hc).1)
          · exact len_gridRule cols h0
        · simp at hl
      · simp only [List.mem_append, List.mem_singleton] at hl
        rcases hl with hl | rfl
        · exact hrowlines ls (hfit ls hls) l hl
        · exact len_gridRule cols h0

/-- The slice of one record whose cell is cut into three lines under the
terminal width 8: seven lines of 8 bytes. -/
theorem write_grid_fixed_layout_witness :
    ∃ (cols : List column) (lines : List String),
      write hardWrap ⟨[⟨"A", 10, false, 1⟩], [["abcdefghij"]], [], []⟩ "" Grid false "\t" 8 =
        (⟨cols, [["abcdefghij"]], [], []⟩,
          "" ++ String.join (lines.map (fun l => l ++ "\n")), none) ∧
      (∀ l ∈ lines, len l = 1 + (cols.map (fun c => c.width + 3)).sum) ∧
      write hardWrap ⟨[⟨"A", 10, false, 1⟩], [["abcdefghij"]], [], []⟩ "" Grid false "\t" 8 =
        (⟨[⟨"A", 4, false, 4⟩], [["abcdefghij"]], [], []⟩,
          "+------+\n| A    |\n+------+\n| abcd |\n| efgh |\n| ij   |\n+------+\n", none) := by
  obtain ⟨cols, lines, h1, h2, _⟩ := write_grid_fixed_layout hardWrap [] []
    (.seq true [.struct [⟨"A", "", .str "abcdefghij"⟩]])
    ⟨[⟨"A", 10, false, 1⟩], [["abcdefghij"]], [], []⟩ "" false "\t" 8 (by decide!)
    (hardWrap_wrapsWell _ (by decide!))
  exact ⟨cols, lines, h1, h2, by decide!⟩

/-! ## Widths after rendering, and rendering twice -/

/-- A terminal width that triggers no wrapping leaves the table as it is. -/
theorem writeAligned_fst (wrapText : String → Int → List String) (t : tabular) (out : String)
    (excludeHeader hasGrid : Bool) (pad W : Int) (h : ¬ wrapTriggered t hasGrid pad W) :
    (writeAligned wrapText t out excludeHeader hasGrid pad W).1 = t := by
  have h' : ¬ (W > 0 ∧ (calculateSpacing t hasGrid pad).2.1 > W) := h
  unfold writeAligned
  by_cases hr : t.rows.length = 0
  · simp [hr]
  · simp only [hr, if_false, buildWrappedTable, h']
    repeat' split
    all_goals rfl

/-- C15 (amended): after rendering a table built by the reflect pass in the
aligned or the grid style with a terminal width that triggers no wrapping (a
width that is not positive, or not below the total spacing of the table), the
table is as it was, and the width of every column is the largest of the length
of its name and the lengths of the cells of the column. -/
theorem write_keeps_widths (wrapText : String → Int → List String)
    (cs xs : List (String × Bool)) (value : Value) (t : tabular) (out : String) (style : Int)
    (excludeHeader : Bool) (sep : String) (W : Int)
    (ht : reflectInterface (newTabular cs xs) value = .ok t)
    (hst : style = Aligned ∨ style = Grid)
    (hA : style = Aligned → ¬ wrapTriggered t false 0 W)
    (hG : style = Grid → ¬ wrapTriggered t true 1 W) :
    (write wrapText t out style excludeHeader sep W).1 = t ∧
    ∀ (k : Nat) (c : column),
      (write wrapText t out style excludeHeader sep W).1.columns[k]? = some c →
      c.width = columnMax c.name k (write wrapText t out style excludeHeader sep W).1.rows := by
  have hsame : (write wrapText t out style excludeHeader sep W).1 = t := by
    rcases hst with rfl | rfl
    · rw [write_Aligned]; exact writeAligned_fst _ _ _ _ _ _ _ (hA rfl)
    · rw [write_Grid]; exact writeAligned_fst _ _ _ _ _ _ _ (hG rfl)
  refine ⟨hsame, ?_⟩
  rw [hsame]
  exact reach_exact (reflectInterface_reach cs xs value t ht)

/-- The table of the records of the boolean test, in the grid style without
terminal width: the table is left as it was, and the column "S" is as wide as
"Hello". -/
theorem write_keeps_widths_witness :
    (write (fun s _ => [s])
      ⟨[⟨"S", 5, false, 1⟩, ⟨"B1", 5, true, 2⟩], [["Hello", "true"], ["Hello", "false"]], [],
        []⟩ "" Grid false "\t" 0).1 =
      ⟨[⟨"S", 5, false, 1⟩, ⟨"B1", 5, true, 2⟩], [["Hello", "true"], ["Hello", "false"]], [],
        []⟩ ∧
    (⟨"S", 5, false, 1⟩ : column).width = columnMax (⟨"S", 5, false, 1⟩ : column).name 0
      (write (fun s _ => [s])
        ⟨[⟨"S", 5, false, 1⟩, ⟨"B1", 5, true, 2⟩], [["Hello", "true"], ["Hello", "false"]], [],
          []⟩ "" Grid false "\t" 0).1.rows := by
  have h := write_keeps_widths (fun s _ => [s]) [] []
    (.seq true [.struct [⟨"S", "", .str "Hello"⟩, ⟨"B1", "", .bool true⟩],
      .struct [⟨"S", "", .str "Hello"⟩, ⟨"B1", "", .bool false⟩]])
    ⟨[⟨"S", 5, false, 1⟩, ⟨"B1", 5, true, 2⟩], [["Hello", "true"], ["Hello", "false"]], [], []⟩
    "" Grid false "\t" 0 (by decide!) (Or.inr rfl) (fun h => absurd h (by decide))
    (fun _ h => absurd h.1 (by decide))
  exact ⟨h.1, h.2 0 ⟨"S", 5, false, 1⟩ (by rw [h.1]; rfl)⟩

/-- C15 (as stated) fails: the table of one record whose cell "abcdefghij" is
10 bytes long, rendered in the aligned style under the terminal width 5, is
left with a column of width 4, while the largest of the lengths of the name and
of the cell is 10. -/
theorem write_shrinks_width :
    reflectInterface (newTabular [] []) (.seq true [.struct [⟨"A", "", .str "abcdefghij"⟩]]) =
      .ok ⟨[⟨"A", 10, false, 1⟩], [["abcdefghij"]], [], []⟩ ∧
    write hardWrap ⟨[⟨"A", 10, false, 1⟩], [["abcdefghij"]], [], []⟩ "" Aligned false "\t" 5 =
      (⟨[⟨"A", 4, false, 4⟩], [["abcdefghij"]], [], []⟩, "A   \nabcd\nefgh\nij  \n", none) ∧
    columnMax "A" 0 [["abcdefghij"]] = 10 := by decide!

theorem calcWidthsPass_le : ∀ (cols : List column) (needed : List Int) (a tn : Int),
    (∀ c ∈ cols, c.width ≤ c.minWidth) →
    ∀ c ∈ (calcWidthsPass cols needed a tn).columns, c.width ≤ c.minWidth
  | [], needed, a, tn, h => by
    cases needed <;> simp [calcWidthsPass]
  | col :: cols, [], a, tn, h => by
    simpa [calcWidthsPass] using h
  | col :: cols, n :: needed, a, tn, h => by
    rw [calcWidthsPass]
    have ih := fun a tn => calcWidthsPass_le cols needed a tn
      (fun c hc => h c (List.mem_cons_of_mem _ hc))
    by_cases hn : n > 0
    · simp only [hn, if_true]
      intro c hc
      rcases List.mem_cons.1 hc with rfl | hc
      · exact le_refl _
      · exact ih _ _ c hc
    · simp only [hn, if_false]
      intro c hc
      rcases List.mem_cons.1 hc with rfl | hc
      · exact h _ (List.mem_cons_self _ _)
      · exact ih _ _ c hc

/-- After one pass over the needs as first computed, no column is wider than
its minimum width. -/
theorem calcWidthsPass_first : ∀ (cols : List column) (a tn : Int),
    ∀ c ∈ (calcWidthsPass cols (calcNeeded cols).1 a tn).columns, c.width ≤ c.minWidth
  | [], a, tn => by simp [calcNeeded, calcWidthsPass]
  | col :: cols, a, tn => by
    rw [calcNeeded]
    by_cases hp : col.width - col.minWidth > 0
    · simp only [hp, if_true]
      rw [calcWidthsPass]
      simp only [hp, if_true]
      intro c hc
      rcases List.mem_cons.1 hc with rfl | hc
      · exact le_refl _
      · exact calcWidthsPass_first cols _ _ c hc
    · simp only [hp, if_false]
      rw [calcWidthsPass]
      simp only [gt_iff_lt, lt_self_iff_false, if_false]
      intro c hc
      rcases List.mem_cons.1 hc with rfl | hc
      · omega
      · exact calcWidthsPass_first cols _ _ c hc

theorem calcWidthsLoop_le : ∀ (fuel : Nat) (st st' : widthState),
    (∀ c ∈ st.columns, c.width ≤ c.minWidth) → calcWidthsLoop fuel st = some st' →
    ∀ c ∈ st'.columns, c.width ≤ c.minWidth
  | 0, st, st', hle, h => by
    rw [calcWidthsLoop] at h
    by_cases hc : st.available > 0 ∧ st.totalNeeded > 0
    · simp [hc] at h
    · simp only [hc, if_false, Option.some.injEq] at h
      subst h; exact hle
  | fuel + 1, st, st', hle, h => by
    rw [calcWidthsLoop] at h
    by_cases hc : st.available > 0 ∧ st.totalNeeded > 0
    · simp only [hc, and_self, if_true] at h
      exact calcWidthsLoop_le fuel _ st' (calcWidthsPass_le _ _ _ _ hle) h
    · simp only [hc, if_false, Option.some.injEq] at h
      subst h; exact hle

/-- The width negotiation leaves the table as it was, or with no column wider
than its minimum width. -/
theorem calcWidths_result (t t' : tabular) (ms W : Int) (h : calcWidths t ms W = some t') :
    t' = t ∨ ∀ c ∈ t'.columns, c.width ≤ c.minWidth := by
  unfold calcWidths at h
  simp only at h
  cases hf : (calcNeeded t.columns).2.toNat with
  | zero =>
    rw [hf, calcWidthsLoop] at h
    by_cases hc : W - ms > 0 ∧ (calcNeeded t.columns).2 > 0
    · simp [hc] at h
    · simp only [hc, if_false, Option.some.injEq] at h
      left; rw [← h]
  | succ fuel =>
    rw [hf, calcWidthsLoop] at h
    by_cases hc : W - ms > 0 ∧ (calcNeeded t.columns).2 > 0
    · simp only [hc, and_self, if_true] at h
      right
      cases hl : calcWidthsLoop fuel (calcWidthsPass t.columns (calcNeeded t.columns).1
          (W - ms) (calcNeeded t.columns).2) with
      | none => rw [hl] at h; cases h
      | some st' =>
        rw [hl] at h
        simp only [Option.some.injEq] at h
        rw [← h]
        exact calcWidthsLoop_le fuel _ st' (calcWidthsPass_first _ _ _) hl
    · simp only [hc, if_false, Option.some.injEq] at h
      left; rw [← h]

theorem calcNeeded_zero : ∀ (cols : List column), (∀ c ∈ cols, c.width ≤ c.minWidth) →
    (calcNeeded cols).2 = 0
  | [], _ => rfl
  | col :: cols, h => by
    have h1 := h col (List.mem_cons_self _ _)
    have hp : ¬ col.width - col.minWidth > 0 := by omega
    rw [calcNeeded]
    simp only [hp, if_false]
    exact calcNeeded_zero cols (fun c hc => h c (List.mem_cons_of_mem _ hc))

/-- A table with no column wider than its minimum width comes out of the
width negotiation as it went in. -/
theorem calcWidths_fixed (t : tabular) (ms W : Int)
    (h : ∀ c ∈ t.columns, c.width ≤ c.minWidth) : calcWidths t ms W = some t := by
  have h0 := calcNeeded_zero t.columns h
  unfold calcWidths
  simp only [h0, Int.toNat_zero]
  rw [calcWidthsLoop]
  simp

theorem calcWidths_rows (t t' : tabular) (ms W : Int) (h : calcWidths t ms W = some t') :
    t'.rows = t.rows := by
  unfold calcWidths at h
  simp only at h
  split at h
  · cases h
  · simp only [Option.some.injEq] at h
    rw [← h]

theorem buildWrappedTable_triggered (wrapText : String → Int → List String) (t : tabular)
    (hasGrid : Bool) (pad W : Int) (htr : wrapTriggered t hasGrid pad W) :
    buildWrappedTable wrapText t hasGrid pad W =
      match calcWidths t (calculateSpacing t hasGrid pad).2.2 W with
      | none => .error .OutOfFuel
      | some t1 =>
        match wrapRows wrapText t1.columns t1.rows with
        | none => .error (.Panic "index out of range")
        | some rows =>
          .ok (t1, { totalSpacing := (calculateSpacing t1 hasGrid pad).2.1,
                     spacing := (calculateSpacing t1 hasGrid pad).1, rowsLinesColumns := rows }) := by
  have htr' : W > 0 ∧ (calculateSpacing t hasGrid pad).2.1 > W := htr
  simp only [buildWrappedTable, htr', and_self, if_true]

theorem writeAligned_fst_build (wrapText : String → Int → List String) (t t' : tabular)
    (out : String) (excludeHeader hasGrid : Bool) (pad W : Int) (wt : wrappedTable)
    (hr : ¬ t.rows.length = 0)
    (hb : buildWrappedTable wrapText t hasGrid pad W = .ok (t', wt)) :
    (writeAligned wrapText t out excludeHeader hasGrid pad W).1 = t' := by
  unfold writeAligned
  simp only [hr, if_false, hb]
  repeat' split
  all_goals rfl

theorem writeAligned_fst_error (wrapText : String → Int → List String) (t : tabular)
    (out : String) (excludeHeader hasGrid : Bool) (pad W : Int) (e : Error)
    (hb : buildWrappedTable wrapText t hasGrid pad W = .error e) :
    (writeAligned wrapText t out excludeHeader hasGrid pad W).1 = t := by
  unfold writeAligned
  by_cases hr : t.rows.length = 0
  · simp [hr]
  · simp only [hr, if_false, hb]

theorem writeAligned_congr (wrapText : String → Int → List String) (t u : tabular)
    (out : String) (excludeHeader hasGrid : Bool) (pad W : Int)
    (p : tabular × wrappedTable) (hr : ¬ t.rows.length = 0) (hu : ¬ u.rows.length = 0)
    (hb : buildWrappedTable wrapText t hasGrid pad W = .ok p)
    (hbu : buildWrappedTable wrapText u hasGrid pad W = .ok p) :
    writeAligned wrapText u out excludeHeader hasGrid pad W =
      writeAligned wrapText t out excludeHeader hasGrid pad W := by
  unfold writeAligned
  simp only [hr, hu, if_false, hb, hbu]

/-- Rendering again the table an aligned rendering left gives the same result,
when the first rendering wrapped nothing or the second still wraps. -/
theorem writeAligned_twice (wrapText : String → Int → List String) (t : tabular) (out : String)
    (excludeHeader hasGrid : Bool) (pad W : Int)
    (h : ¬ wrapTriggered t hasGrid pad W ∨
      wrapTriggered (writeAligned wrapText t out excludeHeader hasGrid pad W).1 hasGrid pad W) :
    writeAligned wrapText (writeAligned wrapText t out excludeHeader hasGrid pad W).1 out
        excludeHeader hasGrid pad W =
      writeAligned wrapText t out excludeHeader hasGrid pad W := by
  by_cases htr : wrapTriggered t hasGrid pad W
  · rcases h with h | h
    · exact absurd htr h
    · by_cases hr : t.rows.length = 0
      · have : (writeAligned wrapText t out excludeHeader hasGrid pad W).1 = t := by
          unfold writeAligned; simp [hr]
        rw [this]
      · cases hb : buildWrappedTable wrapText t hasGrid pad W with
        | error e => rw [writeAligned_fst_error _ _ _ _ _ _ _ e hb]
        | ok p =>
          obtain ⟨t', wt⟩ := p
          have hfst := writeAligned_fst_build wrapText t t' out excludeHeader hasGrid pad W wt hr hb
          rw [hfst] at h ⊢
          have hb' := hb
          rw [buildWrappedTable_triggered _ _ _ _ _ htr] at hb'
          cases hcw : calcWidths t (calculateSpacing t hasGrid pad).2.2 W with
          | none => rw [hcw] at hb'; cases hb'
          | some t1 =>
            rw [hcw] at hb'
            simp only at hb'
            cases hwr : wrapRows wrapText t1.columns t1.rows with
            | none => rw [hwr] at hb'; cases hb'
            | some rows =>
              rw [hwr] at hb'
              simp only [Except.ok.injEq, Prod.mk.injEq] at hb'
              obtain ⟨rfl, hwt⟩ := hb'
              have hrows := calcWidths_rows _ _ _ _ hcw
              have hr1 : ¬ t1.rows.length = 0 := by rw [hrows]; exact hr
              refine writeAligned_congr wrapText t t1 out excludeHeader hasGrid pad W (t1, wt)
                hr hr1 hb ?_
              rcases calcWidths_result _ _ _ _ hcw with heq | hle
              · rw [heq] at hb ⊢; exact hb
              · rw [buildWrappedTable_triggered _ _ _ _ _ h, calcWidths_fixed t1 _ _ hle]
                simp only [hwr, hwt]
  · rw [writeAligned_fst _ _ _ _ _ _ _ htr]

/-- C16 (amended): rendering a table and then rendering the table as the first
call left it, through the same style, header flag, separator and terminal
width and from the same output, gives the same result both times (the same
bytes, the same error if any, the same table), for the plain and the markdown
style always, and for the aligned and the grid style whenever the first call
triggers no wrapping or the second call still does, the table left by the
first call being wider than the terminal. -/
theorem write_twice (wrapText : String → Int → List String) (t : tabular) (out : String)
    (style : Int) (excludeHeader : Bool) (sep : String) (W : Int)
    (hA : style = Aligned → ¬ wrapTriggered t false 0 W ∨
      wrapTriggered (write wrapText t out style excludeHeader sep W).1 false 0 W)
    (hG : style = Grid → ¬ wrapTriggered t true 1 W ∨
      wrapTriggered (write wrapText t out style excludeHeader sep W).1 true 1 W) :
    write wrapText (write wrapText t out style excludeHeader sep W).1 out style excludeHeader
        sep W =
      write wrapText t out style excludeHeader sep W := by
  by_cases h1 : style = Aligned
  · subst h1
    have := hA rfl
    rw [write_Aligned] at this ⊢
    rw [write_Aligned]
    exact writeAligned_twice wrapText t out excludeHeader false 0 W this
  · by_cases h2 : style = Grid
    · subst h2
      have := hG rfl
      rw [write_Grid] at this ⊢
      rw [write_Grid]
      exact writeAligned_twice wrapText t out excludeHeader true 1 W this
    · have hfst : (write wrapText t out style excludeHeader sep W).1 = t := by
        unfold write
        simp only [h1, h2, if_false]
        repeat' split
        all_goals rfl
      rw [hfst]

/-- Two columns of width 4 under the terminal width 5 in the aligned style:
the first call narrows both columns to 2, the table is still wider than the
terminal, and the second call writes the same lines. -/
theorem write_twice_witness :
    write hardWrap
        (write hardWrap ⟨[⟨"A", 4, false, 1⟩, ⟨"B", 4, false, 1⟩], [["abcd", "efgh"]], [], []⟩ ""
          Aligned false "\t" 5).1 "" Aligned false "\t" 5 =
      write hardWrap ⟨[⟨"A", 4, false, 1⟩, ⟨"B", 4, false, 1⟩], [["abcd", "efgh"]], [], []⟩ ""
        Aligned false "\t" 5 ∧
    write hardWrap ⟨[⟨"A", 4, false, 1⟩, ⟨"B", 4, false, 1⟩], [["abcd", "efgh"]], [], []⟩ ""
        Aligned false "\t" 5 =
      (⟨[⟨"A", 2, false, 2⟩, ⟨"B", 2, false, 2⟩], [["abcd", "efgh"]], [], []⟩,
        "A  B \nab ef\ncd gh\n", none) :=
  ⟨write_twice hardWrap ⟨[⟨"A", 4, false, 1⟩, ⟨"B", 4, false, 1⟩], [["abcd", "efgh"]], [], []⟩ ""
      Aligned false "\t" 5 (fun _ => Or.inr (by unfold wrapTriggered; decide!))
      (fun h => absurd h (by decide)),
    by decide!⟩

/-- C16 (as stated) fails: the table of one record whose cell is "abcdefghij",
rendered in the aligned style under the terminal width 5, comes out in four
lines and is left with a column of width 4; rendered again, the table is no
longer wider than the terminal, nothing is wrapped, and the cell of 10 bytes
in a column of width 4 makes the padding negative: the second call writes the
header line only and panics. -/
theorem write_twice_differs :
    reflectInterface (newTabular [] []) (.seq true [.struct [⟨"A", "", .str "abcdefghij"⟩]]) =
      .ok ⟨[⟨"A", 10, false, 1⟩], [["abcdefghij"]], [], []⟩ ∧
    write hardWrap ⟨[⟨"A", 10, false, 1⟩], [["abcdefghij"]], [], []⟩ "" Aligned false "\t" 5 =
      (⟨[⟨"A", 4, false, 4⟩], [["abcdefghij"]], [], []⟩, "A   \nabcd\nefgh\nij  \n", none) ∧
    write hardWrap ⟨[⟨"A", 4, false, 4⟩], [["abcdefghij"]], [], []⟩ "" Aligned false "\t" 5 =
      (⟨[⟨"A", 4, false, 4⟩], [["abcdefghij"]], [], []⟩, "A   \n",
        some (.Panic "strings: negative Repeat count or index out of range")) ∧
    (write hardWrap
        (write hardWrap ⟨[⟨"A", 10, false, 1⟩], [["abcdefghij"]], [], []⟩ "" Aligned false "\t"
          5).1 "" Aligned false "\t" 5).2.1 ≠
      (write hardWrap ⟨[⟨"A", 10, false, 1⟩], [["abcdefghij"]], [], []⟩ "" Aligned false "\t"
        5).2.1 := by
  decide!

/-! ## Names of the columns, and indices of the reflect pass -/

/-- C20 (amended): in every table built by the reflect pass, over a record, a
sequence of records or any other value, the name of every column is not empty,
and is not "-". -/
theorem reflectInterface_names (cs xs : List (String × Bool)) (value : Value) (t : tabular)
    (ht : reflectInterface (newTabular cs xs) value = .ok t) :
    ∀ c ∈ t.columns, c.name ≠ "" ∧ c.name ≠ "-" :=
  reach_names (reflectInterface_reach cs xs value t ht)

/-- The column "Sun" of a record with a nested record. -/
theorem reflectInterface_names_witness :
    reflectInterface (newTabular [] [])
        (.seq true [.struct [⟨"S", "", .str "Hello"⟩,
          ⟨"N", "", .struct [⟨"Sin", "Sun", .str "Inside"⟩]⟩]]) =
      .ok ⟨[⟨"S", 5, false, 1⟩, ⟨"Sun", 6, false, 3⟩], [["Hello", "Inside"]], [], []⟩ ∧
    (⟨"Sun", 6, false, 3⟩ : column).name ≠ "" ∧ (⟨"Sun", 6, false, 3⟩ : column).name ≠ "-" :=
  ⟨by decide!,
    reflectInterface_names [] []
      (.seq true [.struct [⟨"S", "", .str "Hello"⟩,
        ⟨"N", "", .struct [⟨"Sin", "Sun", .str "Inside"⟩]⟩]])
      ⟨[⟨"S", 5, false, 1⟩, ⟨"Sun", 6, false, 3⟩], [["Hello", "Inside"]], [], []⟩ (by decide!)
      ⟨"Sun", 6, false, 3⟩ (by simp)⟩

/-- C20 (as stated) fails: a record with the fields `A` and `B`, both tagged
with the name "N", gives a table whose two columns are both named "N". -/
theorem reflectInterface_same_names :
    reflectInterface (newTabular [] [])
        (.seq true [.struct [⟨"A", "N", .str "a"⟩, ⟨"B", "N", .str "b"⟩]]) =
      .ok ⟨[⟨"N", 1, false, 1⟩, ⟨"N", 1, false, 1⟩], [["a", "b"]], [], []⟩ ∧
    ¬ ((⟨[⟨"N", 1, false, 1⟩, ⟨"N", 1, false, 1⟩], [["a", "b"]], [], []⟩ :
      tabular).columns.map (fun c => ToLower c.name)).Nodup := by
  decide!

/-- The outcome of the header pass on the empty table, spelled out. -/
theorem reflectArray_result (cs xs : List (String × Bool)) (T : List (StructField GoType))
    (slice : Bool) (items : List Value) (hne : items ≠ [])
    (hT : ∀ v ∈ items, ∃ fields, v = .struct fields ∧ Value.fieldTypes fields = T) :
    reflectInterface (newTabular cs xs) (.seq slice items) =
      match (typeLeavesLoop cs xs T).find? (fun l => !l.hintOk) with
      | some l => .error (.ParseInt l.widthParam)
      | none => .ok (recordsTable cs xs T items) := by
  have hk : (Value.seq slice items).Kind ≠ Kind.Ptr := by cases slice <;> simp [Value.Kind]
  have hi : reflectInterface (newTabular cs xs) (.seq slice items) =
      reflectArray (newTabular cs xs) (.seq slice items) := by
    rw [reflectInterface, derefPtr, if_neg hk]
    cases slice <;> simp only [Value.Kind, Bool.false_eq_true, if_false, if_true]
  rw [hi]
  cases hfind : (typeLeavesLoop cs xs T).find? (fun l => !l.hintOk) with
  | none =>
    simp only
    refine reflectArray_records cs xs T slice items hne hT ?_
    intro l hl
    rw [List.find?_eq_none] at hfind
    simpa using hfind l hl
  | some l =>
    simp only
    cases items with
    | nil => exact absurd rfl hne
    | cons v rest =>
      obtain ⟨fields, rfl, hf⟩ := hT _ (List.mem_cons_self _ _)
      have hk2 : ¬ ((Value.seq slice (Value.struct fields :: rest)).Kind ≠ Kind.Array ∧
          (Value.seq slice (Value.struct fields :: rest)).Kind ≠ Kind.Slice) := by
        cases slice <;> simp [Value.Kind]
      rw [reflectArray, if_neg hk2]
      simp only [Value.items, List.length_cons, Nat.add_one_ne_zero, if_false]
      rw [reflectArrayLoop]
      simp only [derefPtr, Value.Kind, Indirect, if_true]
      simp only [reduceCtorEq, if_false]
      have hhead : reflectStructHeader (newTabular cs xs) (.struct fields) =
          .error (.ParseInt l.widthParam) := by
        rw [reflectStructHeader, Value.Type, hf]
        simp only
        rw [reflectFieldHeadLoop_result]
        simp only [newTabular, headResult, hfind]
      rw [hhead]

/-- The row pass on a new row of a table holding one column per visible leaf
of a record sets the cells of the row from column 0 on, one after the other. -/
theorem reflectStructRow_applyCells (t : tabular) (fields : List (StructField Value))
    (hlen : (valueLeavesLoop t.columnSet t.excludeSet fields).length = t.columns.length) :
    reflectStructRow (newRow t).1 (newRow t).2 (.struct fields) =
      .ok (applyCells t.rows.length 0
        ((valueLeavesLoop t.columnSet t.excludeSet fields).map leafValue.cell) (newRow t).1) := by
  have hfit : Fits (newRow t).1 t.rows.length 0
      (valueLeavesLoop (newRow t).1.columnSet (newRow t).1.excludeSet fields).length := by
    refine ⟨by simp [newRow], by simp [newRow, hlen], ?_⟩
    simp [newRow, hlen, List.getD_eq_getElem?_getD]
  have h := reflectFieldValueLoop_eq fields (newRow t).1 t.rows.length 0 hfit
  have e : ((newRow t).2 : Int) = ((t.rows.length : Nat) : Int) := rfl
  rw [reflectStructRow, e]
  simp only [Nat.cast_zero] at h
  rw [h]
  rfl

/-- C19: for a record type, an allow set, a deny set and a non-empty sequence
of records of the type, `reflectInterface` returns the table of the records,
or the parse error of the first visible leaf whose width hint is out of order:
never `ColumnInvalidID`, never `RowInvalidID`. When `reflectStructHeader`
succeeds it declares `k` columns, one per visible leaf of the type, and
`reflectStructRow`, on a new row of a table with these `k` columns, sets `k`
cells, those of the columns 0, 1, ..., `k - 1`, one after the other in that
order, each by a `setField` that is in bounds. -/
theorem reflectInterface_in_bounds (cs xs : List (String × Bool))
    (T : List (StructField GoType)) (slice : Bool) (items : List Value) (hne : items ≠ [])
    (hT : ∀ v ∈ items, ∃ fields, v = .struct fields ∧ Value.fieldTypes fields = T) :
    (reflectInterface (newTabular cs xs) (.seq slice items) =
      match (typeLeavesLoop cs xs T).find? (fun l => !l.hintOk) with
      | some l => .error (.ParseInt l.widthParam)
      | none => .ok (recordsTable cs xs T items)) ∧
    (∀ c, reflectInterface (newTabular cs xs) (.seq slice items) ≠ .error (.ColumnInvalidID c)) ∧
    (∀ r, reflectInterface (newTabular cs xs) (.seq slice items) ≠ .error (.RowInvalidID r)) ∧
    (∀ v ∈ items, ∀ th, reflectStructHeader (newTabular cs xs) v = .ok th →
      th.columns.length = (typeLeavesLoop cs xs T).length) ∧
    (∀ v ∈ items, ∀ t : tabular, t.columnSet = cs → t.excludeSet = xs →
      t.columns.length = (typeLeavesLoop cs xs T).length →
      reflectStructRow (newRow t).1 (newRow t).2 v =
        .ok (applyCells t.rows.length 0 (recordCells cs xs v) (newRow t).1) ∧
      (recordCells cs xs v).length = t.columns.length ∧
      ∀ (c : Nat) (t1 : tabular) (s : String), c < t.columns.length →
        t1.columns.length = t.columns.length → t1.rows.length = t.rows.length + 1 →
        (t1.rows.getD t.rows.length []).length = t.columns.length →
        setField t1 (t.rows.length : Int) (c : Int) s = .ok (setCell t1 t.rows.length c s)) := by
  have hres := reflectArray_result cs xs T slice items hne hT
  refine ⟨hres, ?_, ?_, ?_, ?_⟩
  · intro c
    rw [hres]
    cases (typeLeavesLoop cs xs T).find? (fun l => !l.hintOk) <;> simp
  · intro r
    rw [hres]
    cases (typeLeavesLoop cs xs T).find? (fun l => !l.hintOk) <;> simp
  · intro v hv th hth
    obtain ⟨fields, rfl, hf⟩ := hT v hv
    rw [reflectStructHeader, Value.Type, hf] at hth
    simp only at hth
    rw [reflectFieldHeadLoop_result] at hth
    simp only [newTabular, headResult] at hth
    cases hfind : (typeLeavesLoop cs xs T).find? (fun l => !l.hintOk) with
    | some l => rw [hfind] at hth; cases hth
    | none =>
      rw [hfind] at hth
      simp only [Except.ok.injEq] at hth
      rw [← hth]
      simp
  · intro v hv t h1 h2 hk
    obtain ⟨fields, rfl, hf⟩ := hT v hv
    have hl : (valueLeavesLoop t.columnSet t.excludeSet fields).length = t.columns.length := by
      rw [valueLeavesLoop_length, hf, h1, h2, hk]
    refine ⟨?_, ?_, ?_⟩
    · rw [reflectStructRow_applyCells t fields hl, h1, h2]
      rfl
    · rw [recordCells_length, hf, hk]
    · intro c t1 s hc hc1 hr1 hrow
      exact setField_eq_setCell t1 t.rows.length c s ⟨by omega, by omega, by omega⟩

/-- The two records of the boolean test: the table has three columns and the
row pass sets the three cells of a new row. -/
theorem reflectInterface_in_bounds_witness :
    reflectInterface (newTabular [] [])
        (.seq true [.struct [⟨"S", "", .str "Hello"⟩, ⟨"B1", "", .bool true⟩,
            ⟨"B2", ",trueonly", .bool true⟩],
          .struct [⟨"S", "", .str "Hello"⟩, ⟨"B1", "", .bool false⟩,
            ⟨"B2", ",trueonly", .bool false⟩]]) =
      .ok ⟨[⟨"S", 5, false, 1⟩, ⟨"B1", 5, true, 2⟩, ⟨"B2", 4, true, 2⟩],
        [["Hello", "true", "true"], ["Hello", "false", ""]], [], []⟩ := by
  have h := (reflectInterface_in_bounds [] []
    [⟨"S", "", .basic .String⟩, ⟨"B1", "", .basic .Bool⟩, ⟨"B2", ",trueonly", .basic .Bool⟩]
    true
    [.struct [⟨"S", "", .str "Hello"⟩, ⟨"B1", "", .bool true⟩, ⟨"B2", ",trueonly", .bool true⟩],
      .struct [⟨"S", "", .str "Hello"⟩, ⟨"B1", "", .bool false⟩,
        ⟨"B2", ",trueonly", .bool false⟩]]
    (by simp)
    (by
      intro v hv
      simp only [List.mem_cons, List.mem_singleton, List.not_mem_nil, or_false] at hv
      rcases hv with rfl | rfl <;> exact ⟨_, rfl, rfl⟩)).1
  rw [h]
  decide!

/-! ## The annotation descriptor, the table interface and the registry -/

/-- C21: `parseTags` gives no descriptor exactly on the empty string; every
other input, also one of spaces or commas only, gives a descriptor. -/
theorem parseTags_none_iff (tagEntry : String) :
    (parseTags tagEntry = none ↔ tagEntry = "") ∧
    ((parseTags tagEntry).isSome = true ↔ tagEntry ≠ "") ∧
    (parseTags " ").isSome = true ∧ (parseTags ",").isSome = true ∧
    (parseTags " , ,").isSome = true := by
  refine ⟨?_, ?_, by decide!, by decide!, by decide!⟩
  · unfold parseTags
    split <;> simp_all
  · unfold parseTags
    split <;> simp_all

/-- C29: `GetTextStyleFromString` gives Aligned for the empty name and for
`aligned`, Grid for `grid` and Plain for `plain`, each without an error; it
gives an error exactly for every other name, so `Grid` and `markdown` are
errors. -/
theorem GetTextStyleFromString_spec (style : String) :
    GetTextStyleFromString "" = (Aligned, none) ∧
    GetTextStyleFromString "aligned" = (Aligned, none) ∧
    GetTextStyleFromString "grid" = (Grid, none) ∧
    GetTextStyleFromString "plain" = (Plain, none) ∧
    ((GetTextStyleFromString style).2 ≠ none ↔
      ¬ (style = "" ∨ style = "aligned" ∨ style = "grid" ∨ style = "plain")) ∧
    (GetTextStyleFromString "Grid").2 = some (.UnknownStyleName "Grid") ∧
    (GetTextStyleFromString "markdown").2 = some (.UnknownStyleName "markdown") := by
  refine ⟨by decide!, by decide!, by decide!, by decide!, ?_, by decide!, by decide!⟩
  unfold GetTextStyleFromString
  by_cases h1 : style = "plain"
  · simp [h1]
  by_cases h2 : style = ""
  · simp [h2]
  by_cases h3 : style = "aligned"
  · simp [h3]
  by_cases h4 : style = "grid"
  · simp [h4]
  simp [h1, h2, h3, h4]

theorem addColumn_exact (t t' : tabular) (name : String) (rightAlign : Bool) (hint : String)
    (c : Int) (h : addColumn t name rightAlign hint = .ok (t', c)) :
    ∃ w, hintValue hint = some w ∧ c = t.columns.length ∧
      t' = { t with columns := t.columns ++ [⟨name, len name, rightAlign, max (len name) w⟩] } := by
  unfold addColumn at h
  unfold hintValue
  by_cases hh : hint = ""
  · simp only [hh, ne_eq, not_true_eq_false, if_false, if_true] at h ⊢
    injection h with h
    injection h with h1 h2
    refine ⟨0, rfl, h2.symm, ?_⟩
    rw [← h1, max_eq_left (by unfold len; exact Int.natCast_nonneg _)]
  · simp only [hh, ne_eq, not_false_eq_true, if_true, if_false] at h ⊢
    cases hp : ParseInt32 hint with
    | none => rw [hp] at h; cases h
    | some w =>
      rw [hp] at h
      injection h with h
      injection h with h1 h2
      refine ⟨w, rfl, h2.symm, ?_⟩
      rw [← h1]
      by_cases hw : w > len name
      · rw [if_pos hw, max_eq_right (le_of_lt hw)]
      · rw [if_neg hw, max_eq_left (not_lt.1 hw)]

/-- C24, refuted as stated: a column added with the name `A` and the hint
`10` has the width 1, the length of its name, and not 10; the hint is kept
as its minimum width. -/
theorem addColumn_width_not_hint :
    addColumn (newTabular [] []) "A" false "10" =
      .ok (⟨[⟨"A", 1, false, 10⟩], [], [], []⟩, 0) ∧
    hintValue "10" = some 10 ∧ max (len "A") 10 = 10 ∧
    (⟨"A", 1, false, 10⟩ : column).width ≠ max (len "A") 10 := by
  decide!

/-- C24, amended: right after a successful `addColumn` the new column is the
last one, its width is the length of its name, and its minimum width is the
larger of the length of the name and the hint, an empty hint counting as 0. -/
theorem addColumn_widths (t t' : tabular) (name : String) (rightAlign : Bool) (hint : String)
    (c : Int) (h : addColumn t name rightAlign hint = .ok (t', c)) :
    ∃ w col, hintValue hint = some w ∧ t'.columns = t.columns ++ [col] ∧
      col.width = len name ∧ col.minWidth = max (len name) w := by
  obtain ⟨w, hw, _, ht⟩ := addColumn_exact t t' name rightAlign hint c h
  exact ⟨w, _, hw, by rw [ht], rfl, rfl⟩

theorem addColumn_widths_witness :
    addColumn (newTabular [] []) "Name" true "12" =
      .ok (⟨[⟨"Name", 4, true, 12⟩], [], [], []⟩, 0) ∧
    ∃ w col, hintValue "12" = some w ∧
      (⟨[⟨"Name", 4, true, 12⟩], [], [], []⟩ : tabular).columns =
        (newTabular [] []).columns ++ [col] ∧
      col.width = len "Name" ∧ col.minWidth = max (len "Name") w :=
  ⟨by decide!, addColumn_widths (newTabular [] []) _ "Name" true "12" 0 (by decide!)⟩

/-- C25: a successful `addColumn` returns the previous number of columns as
the id, leaves the columns there were as they were, in their places, puts one
column of the given name and alignment after them, also when a column of that
name is there already, and leaves the rows and both sets as they were. -/
theorem addColumn_appends (t t' : tabular) (name : String) (rightAlign : Bool) (hint : String)
    (c : Int) (h : addColumn t name rightAlign hint = .ok (t', c)) :
    c = t.columns.length ∧
    (∃ col, col.name = name ∧ col.rightAlign = rightAlign ∧ t'.columns = t.columns ++ [col]) ∧
    t'.columns.length = t.columns.length + 1 ∧
    (∀ k, k < t.columns.length → t'.columns[k]? = t.columns[k]?) ∧
    t'.rows = t.rows ∧ t'.columnSet = t.columnSet ∧ t'.excludeSet = t.excludeSet := by
  obtain ⟨w, _, hc, ht⟩ := addColumn_exact t t' name rightAlign hint c h
  subst ht
  refine ⟨hc, ⟨_, rfl, rfl, rfl⟩, by simp, ?_, rfl, rfl, rfl⟩
  intro k hk
  exact List.getElem?_append_left hk

theorem addColumn_appends_witness :
    addColumn ⟨[⟨"A", 3, false, 1⟩], [["abc"]], [], []⟩ "A" true "" =
      .ok (⟨[⟨"A", 3, false, 1⟩, ⟨"A", 1, true, 1⟩], [["abc"]], [], []⟩, 1) ∧
    ((1 : Int) = (⟨[⟨"A", 3, false, 1⟩], [["abc"]], [], []⟩ : tabular).columns.length ∧
    (∃ col, col.name = "A" ∧ col.rightAlign = true ∧
      (⟨[⟨"A", 3, false, 1⟩, ⟨"A", 1, true, 1⟩], [["abc"]], [], []⟩ : tabular).columns =
        (⟨[⟨"A", 3, false, 1⟩], [["abc"]], [], []⟩ : tabular).columns ++ [col]) ∧
    (⟨[⟨"A", 3, false, 1⟩, ⟨"A", 1, true, 1⟩], [["abc"]], [], []⟩ : tabular).columns.length =
      (⟨[⟨"A", 3, false, 1⟩], [["abc"]], [], []⟩ : tabular).columns.length + 1 ∧
    (∀ k, k < (⟨[⟨"A", 3, false, 1⟩], [["abc"]], [], []⟩ : tabular).columns.length →
      (⟨[⟨"A", 3, false, 1⟩, ⟨"A", 1, true, 1⟩], [["abc"]], [], []⟩ : tabular).columns[k]? =
        (⟨[⟨"A", 3, false, 1⟩], [["abc"]], [], []⟩ : tabular).columns[k]?) ∧
    (⟨[⟨"A", 3, false, 1⟩, ⟨"A", 1, true, 1⟩], [["abc"]], [], []⟩ : tabular).rows =
      (⟨[⟨"A", 3, false, 1⟩], [["abc"]], [], []⟩ : tabular).rows ∧
    (⟨[⟨"A", 3, false, 1⟩, ⟨"A", 1, true, 1⟩], [["abc"]], [], []⟩ : tabular).columnSet =
      (⟨[⟨"A", 3, false, 1⟩], [["abc"]], [], []⟩ : tabular).columnSet ∧
    (⟨[⟨"A", 3, false, 1⟩, ⟨"A", 1, true, 1⟩], [["abc"]], [], []⟩ : tabular).excludeSet =
      (⟨[⟨"A", 3, false, 1⟩], [["abc"]], [], []⟩ : tabular).excludeSet) :=
  ⟨by decide!, addColumn_appends _ _ "A" true "" 1 (by decide!)⟩

/-- A successful `addColumn` leaves the rows as they were. -/
theorem addColumn_rows (t t' : tabular) (name : String) (rightAlign : Bool) (hint : String)
    (c : Int) (h : addColumn t name rightAlign hint = .ok (t', c)) : t'.rows = t.rows := by
  obtain ⟨m, _, ht⟩ := addColumn_inv t t' name rightAlign hint c h
  rw [ht]

/-- C26: `newRow` returns the previous number of rows as the id, leaves the
rows there were as they were, in their places, and puts after them one row
of as many cells as the table has columns, each the empty text; the columns
stay as they were, and no successful `addColumn` on any table changes a row. -/
theorem newRow_appends (t : tabular) :
    (newRow t).2 = t.rows.length ∧
    (∃ row : List String, (newRow t).1.rows = t.rows ++ [row] ∧
      row.length = t.columns.length ∧ ∀ s ∈ row, s = "") ∧
    (∀ k, k < t.rows.length → (newRow t).1.rows[k]? = t.rows[k]?) ∧
    (newRow t).1.columns = t.columns ∧
    (newRow t).1.columnSet = t.columnSet ∧ (newRow t).1.excludeSet = t.excludeSet ∧
    ∀ (u u' : tabular) (name : String) (rightAlign : Bool) (hint : String) (c : Int),
      addColumn u name rightAlign hint = .ok (u', c) → u'.rows = u.rows := by
  refine ⟨rfl, ⟨_, rfl, List.length_replicate _ _, fun s hs => List.eq_of_mem_replicate hs⟩,
    ?_, rfl, rfl, rfl, addColumn_rows⟩
  intro k hk
  exact List.getElem?_append_left hk

theorem newRow_appends_witness :
    newRow ⟨[⟨"A", 1, false, 1⟩, ⟨"B", 1, false, 1⟩], [["x", "y"]], [], []⟩ =
      (⟨[⟨"A", 1, false, 1⟩, ⟨"B", 1, false, 1⟩], [["x", "y"], ["", ""]], [], []⟩, 1) ∧
    addColumn ⟨[⟨"A", 1, false, 1⟩, ⟨"B", 1, false, 1⟩], [["x", "y"], ["", ""]], [], []⟩
        "C" false "" =
      .ok (⟨[⟨"A", 1, false, 1⟩, ⟨"B", 1, false, 1⟩, ⟨"C", 1, false, 1⟩],
        [["x", "y"], ["", ""]], [], []⟩, 2) ∧
    (⟨[⟨"A", 1, false, 1⟩, ⟨"B", 1, false, 1⟩, ⟨"C", 1, false, 1⟩],
        [["x", "y"], ["", ""]], [], []⟩ : tabular).rows =
      (⟨[⟨"A", 1, false, 1⟩, ⟨"B", 1, false, 1⟩], [["x", "y"], ["", ""]], [], []⟩ :
        tabular).rows :=
  ⟨by decide!, by decide!,
    (newRow_appends ⟨[⟨"A", 1, false, 1⟩, ⟨"B", 1, false, 1⟩], [["x", "y"]], [], []⟩).2.2.2.2.2.2
      _ _ "C" false "" 2 (by decide!)⟩

/-- The outcome of `setField` in full: the column id is checked first, then
the row id; with both in bounds the text is stored when the stored row has a
cell for the column, and the call panics otherwise. -/
theorem setField_cases (t : tabular) (r c : Int) (s : String) :
    setField t r c s =
      if c < 0 ∨ c ≥ t.columns.length then .error (.ColumnInvalidID c)
      else if r < 0 ∨ r ≥ t.rows.length then .error (.RowInvalidID r)
      else if c.toNat < (t.rows.getD r.toNat []).length then .ok (setCell t r.toNat c.toNat s)
      else .error (.Panic "index out of range") := by
  by_cases hc : c < 0 ∨ c ≥ t.columns.length
  · rw [if_pos hc]; unfold setField; rw [if_pos hc]
  by_cases hr : r < 0 ∨ r ≥ t.rows.length
  · rw [if_neg hc, if_pos hr]; unfold setField; rw [if_neg hc, if_pos hr]
  rw [if_neg hc, if_neg hr]
  have hr1 : r.toNat < t.rows.length := by omega
  have hc1 : c.toNat < t.columns.length := by omega
  have hr2 : ((r.toNat : Nat) : Int) = r := by omega
  have hc2 : ((c.toNat : Nat) : Int) = c := by omega
  by_cases hl : c.toNat < (t.rows.getD r.toNat []).length
  · rw [if_pos hl]
    have := setField_eq_setCell t r.toNat c.toNat s ⟨hr1, by omega, by omega⟩
    rw [hr2, hc2] at this
    exact this
  · rw [if_neg hl]
    unfold setField
    rw [if_neg hc, if_neg hr]
    rw [List.getD_eq_getElem?_getD, List.getElem?_eq_getElem hr1] at hl
    simp only [List.get?_eq_getElem?, List.getElem?_eq_getElem hr1, List.getElem?_eq_getElem hc1]
    simp only [Option.getD_some] at hl
    rw [if_neg hl]

/-- C27, the code against the claim: `setField` checks the column id, then
the row id, and with both in bounds it stores the text when the stored row
has a cell for the column; but a row made before a column was added has no
cell for it, and on the table built by `newRow` then `addColumn` the call
with the ids 0 and 0, both in bounds, panics on the index. -/
theorem setField_short_row (t : tabular) (r c : Int) (s : String) :
    (setField t r c s =
      if c < 0 ∨ c ≥ t.columns.length then .error (.ColumnInvalidID c)
      else if r < 0 ∨ r ≥ t.rows.length then .error (.RowInvalidID r)
      else if c.toNat < (t.rows.getD r.toNat []).length then .ok (setCell t r.toNat c.toNat s)
      else .error (.Panic "index out of range")) ∧
    Traced [] [] ⟨[⟨"A", 1, false, 1⟩], [[]], [], []⟩ [[]] ∧
    (0 : Int) < (⟨[⟨"A", 1, false, 1⟩], [[]], [], []⟩ : tabular).columns.length ∧
    (0 : Int) < (⟨[⟨"A", 1, false, 1⟩], [[]], [], []⟩ : tabular).rows.length ∧
    setField ⟨[⟨"A", 1, false, 1⟩], [[]], [], []⟩ 0 0 "x" =
      .error (.Panic "index out of range") := by
  refine ⟨setField_cases t r c s, ?_, by decide, by decide, by decide!⟩
  exact Traced.column (Traced.row Traced.start)
    (show addColumn (newRow (newTabular [] [])).1 "A" false "" =
      .ok (⟨[⟨"A", 1, false, 1⟩], [[]], [], []⟩, 0) by decide!)

/-- Looking a key up after `mapSet`. -/
theorem lookup_mapSet {V : Type} (m : List (String × V)) (k k' : String) (v : V) :
    (mapSet m k v).lookup k' = if k' = k then some v else m.lookup k' := by
  induction m with
  | nil =>
    by_cases h : k' = k
    · have hb : (k' == k) = true := by simp [h]
      simp [mapSet, List.lookup, h]
    · have hb : (k' == k) = false := by simp [h]
      simp [mapSet, List.lookup, h, hb]
  | cons e rest ih =>
    obtain ⟨k0, v0⟩ := e
    by_cases h0 : k0 = k
    · subst h0
      by_cases h : k' = k0
      · simp [mapSet, List.lookup, h]
      · have hb : (k' == k0) = false := by simp [h]
        simp [mapSet, List.lookup, h, hb]
    · by_cases h : k' = k0
      · have hk : ¬ k' = k := fun e => h0 (h ▸ e)
        have hk0 : ¬ k0 = k := h0
        subst h
        simp [mapSet, List.lookup, hk0]
      · have hb : (k' == k0) = false := by simp [h]
        simp [mapSet, List.lookup, h0, h, ih, hb]

/-- The registry after one more `Register` call. -/
theorem registerAll_append {φ : Type} (calls : List (String × Option (NewFormatter φ)))
    (call : String × Option (NewFormatter φ)) :
    registerAll (calls ++ [call]) = Register (registerAll calls) call.1 call.2 := by
  unfold registerAll
  rw [List.foldl_append]
  rfl

/-- The most recent registration of a name after one more call. -/
theorem lastRegistered_append {φ : Type} (calls : List (String × Option (NewFormatter φ)))
    (call : String × Option (NewFormatter φ)) (name : String) :
    lastRegistered (calls ++ [call]) name =
      if name = call.1 then some call.2 else lastRegistered calls name := by
  unfold lastRegistered
  rw [List.filter_append]
  have e : ∀ b : Bool, (fun c : String × Option (NewFormatter φ) => decide (c.1 = name)) call = b →
      List.filter (fun c : String × Option (NewFormatter φ) => decide (c.1 = name)) [call] =
        if b then [call] else [] := by
    intro b hb
    cases b
    · exact List.filter_cons_of_neg (fun h => Bool.false_ne_true (hb.symm.trans h))
    · exact List.filter_cons_of_pos hb
  by_cases h : name = call.1
  · rw [if_pos h, e true (by simp [h]), if_pos rfl, List.getLast?_append]
    rfl
  · rw [if_neg h, e false (by simp only [decide_eq_false_iff_not]; exact fun e => h e.symm)]
    simp

/-- The binding of a name after a sequence of `Register` calls is the one of
the most recent call that registered it. -/
theorem lookup_registerAll {φ : Type} (calls : List (String × Option (NewFormatter φ)))
    (name : String) : (registerAll calls).factories.lookup name = lastRegistered calls name := by
  induction calls using List.reverseRecOn with
  | nil => rfl
  | append_singleton init call ih =>
    rw [registerAll_append, lastRegistered_append, ← ih]
    unfold Register
    exact lookup_mapSet _ _ _ _

/-- C30, refuted as stated: a name registered with a factory that is not nil
still fails with the unknown formatter error when the factory itself returns
that error. -/
theorem GetFormatter_factory_unknown :
    lastRegistered [("x", some (fun _ => ((none : Option Unit), some (Error.UnknownFormatter "x"))))]
        "x" ≠ none ∧
    lastRegistered [("x", some (fun _ => ((none : Option Unit), some (Error.UnknownFormatter "x"))))]
        "x" ≠ some none ∧
    GetFormatter
        (registerAll [("x", some (fun _ => ((none : Option Unit), some (Error.UnknownFormatter "x"))))])
        "x" = (none, some (.UnknownFormatter "x")) := by
  refine ⟨?_, ?_, ?_⟩
  · simp [lastRegistered]
  · simp [lastRegistered]
  · simp [GetFormatter, getFactory, registerAll, Register, NewRegistry, mapSet, List.lookup]

/-- C30, amended: after any sequence of `Register` calls on a new registry,
`GetFormatter` on a name that was never registered, or whose most recent
registration passed nil, gives no formatter and the unknown formatter error
of that name; on any other name it gives exactly the result of the factory
most recently registered for it. -/
theorem GetFormatter_registered {φ : Type} (calls : List (String × Option (NewFormatter φ)))
    (name : String) :
    ((lastRegistered calls name = none ∨ lastRegistered calls name = some none) →
      GetFormatter (registerAll calls) name = (none, some (.UnknownFormatter name))) ∧
    ∀ factory, lastRegistered calls name = some (some factory) →
      GetFormatter (registerAll calls) name = factory () := by
  unfold GetFormatter getFactory
  rw [lookup_registerAll]
  refine ⟨?_, ?_⟩
  · rintro (h | h) <;> rw [h]
  · intro factory h
    rw [h]

theorem GetFormatter_registered_witness :
    lastRegistered [("json", some (fun _ => (some 1, none))), ("text", none),
      ("json", some (fun _ => ((some 2 : Option Nat), none)))] "yaml" = none ∧
    GetFormatter (registerAll [("json", some (fun _ => (some 1, none))), ("text", none),
      ("json", some (fun _ => ((some 2 : Option Nat), none)))]) "yaml" =
        (none, some (.UnknownFormatter "yaml")) ∧
    GetFormatter (registerAll [("json", some (fun _ => (some 1, none))), ("text", none),
      ("json", some (fun _ => ((some 2 : Option Nat), none)))]) "json" = (some 2, none) :=
  ⟨by simp [lastRegistered],
    (GetFormatter_registered _ "yaml").1 (Or.inl (by simp [lastRegistered])),
    (GetFormatter_registered [("json", some (fun _ => (some 1, none))), ("text", none),
      ("json", some (fun _ => ((some 2 : Option Nat), none)))] "json").2
      (fun _ => (some 2, none)) (by simp [lastRegistered])⟩

/-- The first piece of a split is the run of characters before the first
separator. -/
theorem splitChars_head (sep : Char) (cs : List Char) :
    ∃ rest, splitChars sep cs = cs.takeWhile (fun c => c ≠ sep) :: rest := by
  induction cs with
  | nil => exact ⟨[], rfl⟩
  | cons c cs ih =>
    obtain ⟨rest, hr⟩ := ih
    by_cases h : c = sep
    · exact ⟨splitChars sep cs, by simp [splitChars, h]⟩
    · exact ⟨rest, by simp [splitChars, h, hr]⟩

/-- The pieces `Split` gives: the text before the first separator, then the
later pieces. -/
theorem Split_head (s : String) (sep : Char) :
    Split s sep = String.mk (s.data.takeWhile (fun c => c ≠ sep)) :: (Split s sep).drop 1 := by
  unfold Split
  obtain ⟨rest, hr⟩ := splitChars_head sep s.data
  rw [hr]
  rfl

/-- Cutting at the first separator, in terms of the runs before and after it. -/
theorem cutChars_eq (sep : Char) (cs : List Char) :
    cutChars sep cs =
      if sep ∈ cs then
        some (cs.takeWhile (fun c => c ≠ sep), (cs.dropWhile (fun c => c ≠ sep)).drop 1)
      else none := by
  induction cs with
  | nil => rfl
  | cons c cs ih =>
    by_cases h : c = sep
    · subst h
      simp [cutChars]
    · have h' : ¬ sep = c := fun e => h e.symm
      by_cases hm : sep ∈ cs
      · simp [cutChars, h, h', ih, hm]
      · simp [cutChars, h, h', ih, hm]

/-- After the first token the loop of `parseTags` does to the descriptor what
`tokenStep` says, token by token. -/
theorem parseTagsLoop_later : ∀ (tokens : List String) (i : Nat) (d : tagData), 0 < i →
    parseTagsLoop tokens i d = tokens.foldl tokenStep d
  | [], _, _, _ => rfl
  | token :: rest, i, d, hi => by
    have hi0 : ¬ i = 0 := by omega
    rw [List.foldl_cons, ← parseTagsLoop_later rest (i + 1) _ (by omega)]
    rw [parseTagsLoop]
    unfold tokenStep
    by_cases hs : Trim token ' ' = ""
    · simp only [hs, if_true]
    · simp only [hs, if_false, hi0]
      unfold SplitN2
      rw [cutChars_eq]
      by_cases hm : '=' ∈ (Trim token ' ').data
      · simp only [hm, if_true]
      · simp only [hm, if_false]

/-- The steps of the later tokens leave the name as it is. -/
theorem foldl_tokenStep_name (tokens : List String) (d : tagData) (name : String) :
    tokens.foldl tokenStep { d with Name := name } =
      { tokens.foldl tokenStep d with Name := name } := by
  induction tokens generalizing d with
  | nil => rfl
  | cons token rest ih =>
    rw [List.foldl_cons, List.foldl_cons, ← ih]
    congr 1
    unfold tokenStep
    by_cases hs : Trim token ' ' = ""
    · simp only [hs, if_true]
    · by_cases hm : '=' ∈ (Trim token ' ').data
      · simp only [hs, hm, if_true, if_false]
      · simp only [hs, hm, if_false]

/-- The descriptor of a non-empty annotation: the name is the trimmed first
token, the maps are those the later tokens build. -/
theorem parseTags_eq (tag : String) (h : tag ≠ "") :
    parseTags tag = some { ((Split tag ',').drop 1).foldl tokenStep ⟨"", [], []⟩ with
      Name := Trim (firstToken tag) ' ' } := by
  unfold parseTags
  rw [if_neg h, Split_head]
  simp only [List.drop_succ_cons, List.drop_zero]
  congr 1
  rw [parseTagsLoop]
  by_cases hs : Trim (String.mk (tag.data.takeWhile (fun c => c ≠ ','))) ' ' = ""
  · simp only [hs, if_true]
    rw [parseTagsLoop_later _ _ _ (by omega)]
    unfold firstToken
    rw [hs]
    exact foldl_tokenStep_name _ ⟨"", [], []⟩ ""
  · simp only [hs, if_false, if_true]
    rw [parseTagsLoop_later _ _ _ (by omega)]
    exact foldl_tokenStep_name _ ⟨"", [], []⟩ _

/-- Trimming a run of the trimmed character leaves nothing. -/
theorem trimLeftChars_all (c : Char) (cs : List Char) (h : ∀ d ∈ cs, d = c) :
    trimLeftChars c cs = [] := by
  induction cs with
  | nil => rfl
  | cons d ds ih =>
    have hd : d = c := h d (List.mem_cons_self _ _)
    simp only [trimLeftChars, hd, if_true]
    exact ih (fun e he => h e (List.mem_cons_of_mem _ he))

/-- A text of spaces only trims to the empty text. -/
theorem Trim_all (s : String) (c : Char) (h : ∀ d ∈ s.data, d = c) : Trim s c = "" := by
  unfold Trim
  rw [trimLeftChars_all c s.data h]
  rfl

/-- C22: the name of the descriptor of a non-empty annotation is the text
before its first comma, all of it when it has no comma, with the spaces at
both ends removed; it is empty when that text is empty or all spaces, whatever
tokens follow. -/
theorem parseTags_name (tag : String) (h : tag ≠ "") :
    ∃ d, parseTags tag = some d ∧ d.Name = Trim (firstToken tag) ' ' ∧
      ((∀ c ∈ (firstToken tag).data, c = ' ') → d.Name = "") := by
  refine ⟨_, parseTags_eq tag h, rfl, fun hall => Trim_all _ _ hall⟩

theorem parseTags_name_witness :
    " winter , summer,spring=12.7" ≠ "" ∧
    firstToken " winter , summer,spring=12.7" = " winter " ∧
    Trim " winter " ' ' = "winter" ∧
    (parseTags "  ,summer").map tagData.Name = some "" ∧
    ∃ d, parseTags " winter , summer,spring=12.7" = some d ∧
      d.Name = Trim (firstToken " winter , summer,spring=12.7") ' ' ∧
      ((∀ c ∈ (firstToken " winter , summer,spring=12.7").data, c = ' ') → d.Name = "") :=
  ⟨by decide, by decide!, by decide!, by decide!,
    parseTags_name " winter , summer,spring=12.7" (by decide)⟩

/-- Reading a key after `mapSet` on a map of booleans. -/
theorem mapGet_mapSet (m : List (String × Bool)) (k k' : String) (v : Bool) :
    mapGet (mapSet m k v) k' = if k' = k then v else mapGet m k' := by
  unfold mapGet
  rw [lookup_mapSet]
  by_cases h : k' = k
  · simp only [h, if_true]
  · simp only [h, if_false]

/-- A step of a later token keeps the options that are true. -/
theorem tokenStep_option (d : tagData) (token key : String) (h : mapGet d.Options key = true) :
    mapGet (tokenStep d token).Options key = true := by
  unfold tokenStep
  by_cases hs : Trim token ' ' = ""
  · simp only [hs, if_true]; exact h
  · by_cases hm : '=' ∈ (Trim token ' ').data
    · simp only [hs, hm, if_true, if_false]; exact h
    · simp only [hs, hm, if_false]
      rw [mapGet_mapSet]
      split
      · rfl
      · exact h

/-- A step of a later token keeps the parameters that are bound. -/
theorem tokenStep_param (d : tagData) (token key : String)
    (h : (d.Params.lookup key).isSome = true) :
    ((tokenStep d token).Params.lookup key).isSome = true := by
  unfold tokenStep
  by_cases hs : Trim token ' ' = ""
  · simp only [hs, if_true]; exact h
  · by_cases hm : '=' ∈ (Trim token ' ').data
    · simp only [hs, hm, if_true, if_false]
      rw [lookup_mapSet]
      split
      · rfl
      · exact h
    · simp only [hs, hm, if_false]; exact h

theorem foldl_tokenStep_option (tokens : List String) (d : tagData) (key : String)
    (h : mapGet d.Options key = true) : mapGet (tokens.foldl tokenStep d).Options key = true := by
  induction tokens generalizing d with
  | nil => exact h
  | cons token rest ih => exact ih _ (tokenStep_option d token key h)

theorem foldl_tokenStep_param (tokens : List String) (d : tagData) (key : String)
    (h : (d.Params.lookup key).isSome = true) :
    ((tokens.foldl tokenStep d).Params.lookup key).isSome = true := by
  induction tokens generalizing d with
  | nil => exact h
  | cons token rest ih => exact ih _ (tokenStep_param d token key h)

/-- Every later token without `=` is a true option at the end. -/
theorem foldl_tokenStep_bare (tokens : List String) (d : tagData) (token : String)
    (hm : token ∈ tokens) (hs : Trim token ' ' ≠ "") (he : '=' ∉ (Trim token ' ').data) :
    mapGet (tokens.foldl tokenStep d).Options (Trim token ' ') = true := by
  induction tokens generalizing d with
  | nil => cases hm
  | cons t rest ih =>
    rcases List.mem_cons.1 hm with rfl | hm
    · rw [List.foldl_cons]
      apply foldl_tokenStep_option
      unfold tokenStep
      simp only [hs, he, if_false]
      rw [mapGet_mapSet, if_pos rfl]
    · exact ih _ hm

/-- Every later token with `=` has its key bound at the end. -/
theorem foldl_tokenStep_keyed (tokens : List String) (d : tagData) (token : String)
    (hm : token ∈ tokens) (hs : Trim token ' ' ≠ "") (he : '=' ∈ (Trim token ' ').data) :
    ((tokens.foldl tokenStep d).Params.lookup
      (String.mk ((Trim token ' ').data.takeWhile (fun c => c ≠ '=')))).isSome = true := by
  induction tokens generalizing d with
  | nil => cases hm
  | cons t rest ih =>
    rcases List.mem_cons.1 hm with rfl | hm
    · rw [List.foldl_cons]
      apply foldl_tokenStep_param
      unfold tokenStep
      simp only [hs, he, if_false, if_true]
      rw [lookup_mapSet, if_pos rfl]
      rfl
    · exact ih _ hm

/-- C23: the options and the parameters of the descriptor of a non-empty
annotation are those its tokens after the first build one after the other
from empty maps, a token that is empty once trimmed adding nothing, a token
without `=` becoming a true option only, and a token with `=` becoming only
the parameter whose key is the text before its first `=` and whose value is
all the text after it; so every later token without `=` is a true option of
the descriptor and the key of every later token with `=` is bound in its
parameters. -/
theorem parseTags_tokens (tag : String) (h : tag ≠ "") :
    ∃ d, parseTags tag = some d ∧
      d.Options = (((Split tag ',').drop 1).foldl tokenStep ⟨"", [], []⟩).Options ∧
      d.Params = (((Split tag ',').drop 1).foldl tokenStep ⟨"", [], []⟩).Params ∧
      (∀ token ∈ (Split tag ',').drop 1, Trim token ' ' ≠ "" → '=' ∉ (Trim token ' ').data →
        mapGet d.Options (Trim token ' ') = true) ∧
      (∀ token ∈ (Split tag ',').drop 1, Trim token ' ' ≠ "" → '=' ∈ (Trim token ' ').data →
        (d.Params.lookup
          (String.mk ((Trim token ' ').data.takeWhile (fun c => c ≠ '=')))).isSome = true) :=
  ⟨_, parseTags_eq tag h, rfl, rfl,
    fun token hm hs he => foldl_tokenStep_bare _ _ token hm hs he,
    fun token hm hs he => foldl_tokenStep_keyed _ _ token hm hs he⟩

theorem parseTags_tokens_witness :
    "winter, summer,, a=b=c ,x=" ≠ "" ∧
    parseTags "winter, summer,, a=b=c ,x=" =
      some ⟨"winter", [("summer", true)], [("a", "b=c"), ("x", "")]⟩ ∧
    (Split "winter, summer,, a=b=c ,x=" ',').drop 1 = [" summer", "", " a=b=c ", "x="] ∧
    ∃ d, parseTags "winter, summer,, a=b=c ,x=" = some d ∧
      d.Options = (((Split "winter, summer,, a=b=c ,x=" ',').drop 1).foldl tokenStep
        ⟨"", [], []⟩).Options ∧
      d.Params = (((Split "winter, summer,, a=b=c ,x=" ',').drop 1).foldl tokenStep
        ⟨"", [], []⟩).Params ∧
      (∀ token ∈ (Split "winter, summer,, a=b=c ,x=" ',').drop 1, Trim token ' ' ≠ "" →
        '=' ∉ (Trim token ' ').data → mapGet d.Options (Trim token ' ') = true) ∧
      (∀ token ∈ (Split "winter, summer,, a=b=c ,x=" ',').drop 1, Trim token ' ' ≠ "" →
        '=' ∈ (Trim token ' ').data →
        (d.Params.lookup
          (String.mk ((Trim token ' ').data.takeWhile (fun c => c ≠ '=')))).isSome = true) :=
  ⟨by decide, by decide!, by decide!,
    parseTags_tokens "winter, summer,, a=b=c ,x=" (by decide)⟩

theorem widest_ge (name : String) (texts : List String) : len name ≤ widest name texts := by
  unfold widest
  generalize len name = b
  induction texts generalizing b with
  | nil => exact le_refl _
  | cons s rest ih => exact le_trans (le_max_left _ _) (ih _)

theorem widest_append (name : String) (texts : List String) (s : String) :
    widest name (texts ++ [s]) = max (widest name texts) (len s) := by
  unfold widest
  rw [List.foldl_append]
  rfl

theorem widen_width (s : String) (col : column) : (widen s col).width = max col.width (len s) := by
  unfold widen
  by_cases h : col.width < len s
  · rw [if_pos h, max_eq_right (le_of_lt h)]
  · rw [if_neg h, max_eq_left (not_lt.1 h)]

theorem tracked_start (cs xs : List (String × Bool)) : Tracked (newTabular cs xs) [] := by
  refine ⟨rfl, ?_, ?_⟩
  · intro k col h
    simp [newTabular] at h
  · intro r row k s h
    simp [newTabular] at h

theorem tracked_column (t t' : tabular) (sets : List (List String)) (name : String)
    (rightAlign : Bool) (hint : String) (c : Int)
    (h : addColumn t name rightAlign hint = .ok (t', c)) (ht : Tracked t sets) :
    Tracked t' (sets ++ [[]]) := by
  obtain ⟨m, _, rfl⟩ := addColumn_inv t t' name rightAlign hint c h
  obtain ⟨h1, h2, h3⟩ := ht
  refine ⟨by simp [h1], ?_, ?_⟩
  · intro k col hk
    simp only at hk
    by_cases hlt : k < t.columns.length
    · rw [List.getElem?_append_left hlt] at hk
      rw [List.getD_eq_getElem?_getD, List.getElem?_append_left (by omega),
        ← List.getD_eq_getElem?_getD]
      exact h2 k col hk
    · rw [List.getElem?_append_right (by omega)] at hk
      have hk0 : k - t.columns.length = 0 := by
        by_contra hne
        rw [List.getElem?_eq_none (by simp; omega)] at hk
        cases hk
      rw [hk0] at hk
      simp only [List.getElem?_cons_zero, Option.some.injEq] at hk
      subst hk
      have hk1 : k = sets.length := by omega
      rw [List.getD_eq_getElem?_getD, List.getElem?_append_right (by omega), hk1]
      simp [widest]
  · intro r row k s hr hs
    obtain ⟨col, hc, hle⟩ := h3 r row k s hr hs
    refine ⟨col, ?_, hle⟩
    simp only
    rw [List.getElem?_append_left (List.getElem?_eq_some.1 hc).1]
    exact hc

theorem tracked_row (t : tabular) (sets : List (List String)) (ht : Tracked t sets) :
    Tracked (newRow t).1 sets := by
  obtain ⟨h1, h2, h3⟩ := ht
  refine ⟨h1, h2, ?_⟩
  intro r row k s hr hs
  simp only [newRow] at hr ⊢
  by_cases hlt : r < t.rows.length
  · rw [List.getElem?_append_left hlt] at hr
    exact h3 r row k s hr hs
  · rw [List.getElem?_append_right (by omega)] at hr
    have hr0 : r - t.rows.length = 0 := by
      by_contra hne
      rw [List.getElem?_eq_none (by simp; omega)] at hr
      cases hr
    rw [hr0] at hr
    simp only [List.getElem?_cons_zero, Option.some.injEq] at hr
    subst hr
    rw [List.getElem?_replicate] at hs
    by_cases hk : k < t.columns.length
    · rw [if_pos hk] at hs
      injection hs with hs
      subst hs
      refine ⟨t.columns[k], List.getElem?_eq_getElem hk, ?_⟩
      rw [h2 k _ (List.getElem?_eq_getElem hk)]
      refine le_trans ?_ (widest_ge _ _)
      unfold len
      exact Int.natCast_nonneg _
    · rw [if_neg hk] at hs
      cases hs

theorem noNarrower_setCell (t : tabular) (r c : Nat) (s : String) :
    NoNarrower t (setCell t r c s) := by
  intro k col hk
  have hlt := (List.getElem?_eq_some.1 hk).1
  simp only [setCell]
  by_cases hkc : c = k
  · subst hkc
    rw [List.getElem?_set_self hlt, List.getD_eq_getElem?_getD, hk]
    exact ⟨_, rfl, widen_name s col, widen_width_ge s col⟩
  · rw [List.getElem?_set_ne hkc]
    exact ⟨col, hk, rfl, le_refl _⟩

theorem tracked_field (t t' : tabular) (sets : List (List String)) (r c : Int) (s : String)
    (h : setField t r c s = .ok t') (ht : Tracked t sets) :
    Tracked t' (sets.set c.toNat (sets.getD c.toNat [] ++ [s])) := by
  obtain ⟨_, _, hf, rfl⟩ := setField_inv t t' r c s h
  obtain ⟨h1, h2, h3⟩ := ht
  obtain ⟨f1, f2, f3⟩ := hf
  generalize r.toNat = r' at *
  generalize c.toNat = c' at *
  have hc' : c' < t.columns.length := by omega
  refine ⟨by simp [setCell, h1], ?_, ?_⟩
  · intro k col hk
    simp only [setCell] at hk
    by_cases hkc : c' = k
    · subst hkc
      rw [List.getElem?_set_self hc', List.getD_eq_getElem?_getD,
        List.getElem?_eq_getElem hc'] at hk
      simp only [Option.getD_some, Option.some.injEq] at hk
      subst hk
      rw [widen_name, widen_width]
      rw [List.getD_eq_getElem?_getD (sets.set _ _), List.getElem?_set_self (by omega)]
      simp only [Option.getD_some]
      rw [widest_append, ← h2 c' _ (List.getElem?_eq_getElem hc')]
    · rw [List.getElem?_set_ne hkc] at hk
      rw [List.getD_eq_getElem?_getD (sets.set _ _), List.getElem?_set_ne hkc,
        ← List.getD_eq_getElem?_getD]
      exact h2 k col hk
  · intro r0 row k x hr hx
    have hn := noNarrower_setCell t r' c' s
    by_cases hrr : r' = r0
    · subst hrr
      simp only [setCell] at hr
      rw [List.getElem?_set_self f1] at hr
      injection hr with hr
      subst hr
      by_cases hkc : c' = k
      · subst hkc
        rw [List.getElem?_set_self (by omega)] at hx
        injection hx with hx
        subst hx
        refine ⟨widen s t.columns[c'], ?_, widen_width_text _ _⟩
        simp only [setCell]
        rw [List.getElem?_set_self hc', List.getD_eq_getElem?_getD,
          List.getElem?_eq_getElem hc']
        rfl
      · rw [List.getElem?_set_ne hkc] at hx
        have hrow : t.rows[r']? = some (t.rows.getD r' []) := by
          rw [List.getD_eq_getElem?_getD, List.getElem?_eq_getElem f1]
          rfl
        obtain ⟨col, hc, hle⟩ := h3 r' _ k x hrow hx
        obtain ⟨col', hc1, _, hw⟩ := hn k col hc
        exact ⟨col', hc1, le_trans hle hw⟩
    · simp only [setCell] at hr
      rw [List.getElem?_set_ne hrr] at hr
      obtain ⟨col, hc, hle⟩ := h3 r0 row k x hr hx
      obtain ⟨col', hc1, _, hw⟩ := hn k col hc
      exact ⟨col', hc1, le_trans hle hw⟩

theorem traced_tracked {cs xs : List (String × Bool)} {t : tabular} {sets : List (List String)}
    (h : Traced cs xs t sets) : Tracked t sets := by
  induction h with
  | start => exact tracked_start cs xs
  | column _ hc ih => exact tracked_column _ _ _ _ _ _ _ hc ih
  | row _ ih => exact tracked_row _ _ ih
  | field _ hf ih => exact tracked_field _ _ _ _ _ _ hf ih

/-- C28: in a table built from an empty table by `addColumn`, `newRow` and
`setField`, the width of each column is the largest of the length of its
name and the lengths of the texts set in the column so far, and every stored
cell is no longer than the width of its column; each further successful call
leaves every column in its place, under its name, and no narrower. -/
theorem traced_widths {cs xs : List (String × Bool)} {t : tabular} {sets : List (List String)}
    (h : Traced cs xs t sets) :
    Tracked t sets ∧
    (∀ r c s t', setField t r c s = .ok t' → NoNarrower t t') ∧
    (∀ name rightAlign hint t' c, addColumn t name rightAlign hint = .ok (t', c) →
      NoNarrower t t') ∧
    NoNarrower t (newRow t).1 := by
  refine ⟨traced_tracked h, ?_, ?_, ?_⟩
  · intro r c s t' hs
    obtain ⟨_, _, _, rfl⟩ := setField_inv t t' r c s hs
    exact noNarrower_setCell _ _ _ _
  · intro name rightAlign hint t' c ha
    obtain ⟨m, _, rfl⟩ := addColumn_inv t t' name rightAlign hint c ha
    intro k col hk
    refine ⟨col, ?_, rfl, le_refl _⟩
    simp only
    rw [List.getElem?_append_left (List.getElem?_eq_some.1 hk).1]
    exact hk
  · intro k col hk
    exact ⟨col, hk, rfl, le_refl _⟩

theorem traced_widths_witness :
    Traced [] [] ⟨[⟨"A", 5, false, 1⟩], [["hi"]], [], []⟩ [["hello", "hi"]] ∧
    widest "A" ["hello", "hi"] = 5 ∧
    Tracked ⟨[⟨"A", 5, false, 1⟩], [["hi"]], [], []⟩ [["hello", "hi"]] :=
  have h : Traced [] [] ⟨[⟨"A", 5, false, 1⟩], [["hi"]], [], []⟩ [["hello", "hi"]] :=
    Traced.field
      (Traced.field
        (Traced.row
          (Traced.column Traced.start
            (show addColumn (newTabular [] []) "A" false "" =
              .ok (⟨[⟨"A", 1, false, 1⟩], [], [], []⟩, 0) by decide!)))
        (show setField (newRow ⟨[⟨"A", 1, false, 1⟩], [], [], []⟩).1 0 0 "hello" =
          .ok ⟨[⟨"A", 5, false, 1⟩], [["hello"]], [], []⟩ by decide!))
      (show setField ⟨[⟨"A", 5, false, 1⟩], [["hello"]], [], []⟩ 0 0 "hi" =
        .ok ⟨[⟨"A", 5, false, 1⟩], [["hi"]], [], []⟩ by decide!)
  ⟨h, by decide!, (traced_widths h).1⟩

/-! ## The names of the registry, sets from lists, rounds of the negotiation, wrapped lines -/

/-- The keys after `mapSet`: the key is added at the end when it is new. -/
theorem keys_mapSet {V : Type} (m : List (String × V)) (k : String) (v : V) :
    (mapSet m k v).map Prod.fst =
      if k ∈ m.map Prod.fst then m.map Prod.fst else m.map Prod.fst ++ [k] := by
  induction m with
  | nil => simp [mapSet]
  | cons e rest ih =>
    obtain ⟨k0, v0⟩ := e
    by_cases h0 : k0 = k
    · subst h0
      simp [mapSet]
    · have h0' : ¬ k = k0 := fun e => h0 e.symm
      simp only [mapSet, if_neg h0, List.map_cons, ih, List.mem_cons, h0', false_or]
      by_cases hm : k ∈ rest.map Prod.fst
      · simp only [hm, if_true]
      · simp only [hm, if_false, List.cons_append]

/-- The keys stay distinct under `mapSet`. -/
theorem keys_mapSet_nodup {V : Type} (m : List (String × V)) (k : String) (v : V)
    (h : (m.map Prod.fst).Nodup) : ((mapSet m k v).map Prod.fst).Nodup := by
  rw [keys_mapSet]
  by_cases hm : k ∈ m.map Prod.fst
  · rw [if_pos hm]; exact h
  · rw [if_neg hm]
    exact List.nodup_append.2 ⟨h, List.nodup_singleton _, by
      intro a ha hb
      rw [List.mem_singleton] at hb
      exact hm (hb ▸ ha)⟩

theorem mem_keys_mapSet {V : Type} (m : List (String × V)) (k k' : String) (v : V) :
    k' ∈ (mapSet m k v).map Prod.fst ↔ k' = k ∨ k' ∈ m.map Prod.fst := by
  rw [keys_mapSet]
  by_cases hm : k ∈ m.map Prod.fst
  · rw [if_pos hm]
    constructor
    · exact Or.inr
    · rintro (rfl | h)
      · exact hm
      · exact h
  · rw [if_neg hm, List.mem_append, List.mem_singleton]
    exact or_comm

/-- The keys of the registry after a sequence of `Register` calls are distinct
and are the names registered. -/
theorem keys_registerAll {φ : Type} (calls : List (String × Option (NewFormatter φ))) :
    ((registerAll calls).factories.map Prod.fst).Nodup ∧
    ∀ name, name ∈ (registerAll calls).factories.map Prod.fst ↔ name ∈ calls.map Prod.fst := by
  induction calls using List.reverseRecOn with
  | nil => exact ⟨List.nodup_nil, fun name => Iff.rfl⟩
  | append_singleton init call ih =>
    rw [registerAll_append]
    unfold Register
    refine ⟨keys_mapSet_nodup _ _ _ ih.1, fun name => ?_⟩
    simp only
    rw [mem_keys_mapSet, ih.2 name, List.map_append, List.mem_append, List.map_cons,
      List.map_nil, List.mem_singleton]
    exact or_comm

/-- Two lists without repeats and with the same members are equally long. -/
theorem length_eq_of_nodup {l l' : List String} (h : l.Nodup) (h' : l'.Nodup)
    (hm : ∀ a, a ∈ l ↔ a ∈ l') : l.length = l'.length :=
  ((List.perm_ext_iff_of_nodup h h').2 hm).length_eq

/-- C31: after any sequence of `Register` calls on a new registry, `Formats`
lists each name registered once and nothing else, whatever the factories, nil
included; a new registry lists nothing, a name registered with nil on it makes
one name, a new name makes the list longer by one and a name registered before
leaves its length as it was. -/
theorem Formats_registerAll {φ : Type} (calls : List (String × Option (NewFormatter φ))) :
    (Formats (registerAll calls)).Nodup ∧
    (∀ name, name ∈ Formats (registerAll calls) ↔ name ∈ calls.map Prod.fst) ∧
    (Formats (registerAll calls)).length = (calls.map Prod.fst).dedup.length ∧
    Formats (NewRegistry φ) = [] ∧
    (∀ name, Formats (Register (NewRegistry φ) name none) = [name]) ∧
    (∀ name factory, name ∉ calls.map Prod.fst →
      (Formats (Register (registerAll calls) name factory)).length =
        (Formats (registerAll calls)).length + 1) ∧
    (∀ name factory, name ∈ calls.map Prod.fst →
      (Formats (Register (registerAll calls) name factory)).length =
        (Formats (registerAll calls)).length) := by
  obtain ⟨h1, h2⟩ := keys_registerAll calls
  have hF : Formats (registerAll calls) = (registerAll calls).factories.map Prod.fst := by
    unfold Formats
    exact List.Nodup.dedup h1
  have hR : ∀ name factory, Formats (Register (registerAll calls) name factory) =
      (mapSet (registerAll calls).factories name factory).map Prod.fst := by
    intro name factory
    unfold Formats Register
    exact List.Nodup.dedup (keys_mapSet_nodup _ _ _ h1)
  refine ⟨hF ▸ h1, fun name => by rw [hF]; exact h2 name, ?_, rfl, fun name => rfl, ?_, ?_⟩
  · apply length_eq_of_nodup (hF ▸ h1) (List.nodup_dedup _)
    intro a
    rw [hF, h2 a, List.mem_dedup]
  · intro name factory hn
    rw [hR, hF, keys_mapSet, if_neg (fun h => hn ((h2 name).1 h))]
    simp
  · intro name factory hn
    rw [hR, hF, keys_mapSet, if_pos ((h2 name).2 hn)]

theorem Formats_registerAll_witness :
    Formats (registerAll [("json", some (fun _ => (some 1, none))), ("text", none),
      ("json", (none : Option (NewFormatter Nat)))]) = ["json", "text"] ∧
    (Formats (Register (registerAll [("json", some (fun _ => (some 1, none))), ("text", none),
      ("json", (none : Option (NewFormatter Nat)))]) "yaml" none)).length =
      (Formats (registerAll [("json", some (fun _ => (some 1, none))), ("text", none),
        ("json", (none : Option (NewFormatter Nat)))])).length + 1 ∧
    (Formats (Register (registerAll [("json", some (fun _ => (some 1, none))), ("text", none),
      ("json", (none : Option (NewFormatter Nat)))]) "text" none)).length =
      (Formats (registerAll [("json", some (fun _ => (some 1, none))), ("text", none),
        ("json", (none : Option (NewFormatter Nat)))])).length :=
  ⟨by decide!,
    (Formats_registerAll [("json", some (fun _ => (some 1, none))), ("text", none),
      ("json", (none : Option (NewFormatter Nat)))]).2.2.2.2.2.1 "yaml" none (by decide),
    (Formats_registerAll [("json", some (fun _ => (some 1, none))), ("text", none),
      ("json", (none : Option (NewFormatter Nat)))]).2.2.2.2.2.2 "text" none (by decide)⟩

theorem mem_mapSet {V : Type} (m : List (String × V)) (k : String) (v : V) (e : String × V)
    (h : e ∈ mapSet m k v) : e = (k, v) ∨ e ∈ m := by
  induction m with
  | nil =>
    simp only [mapSet, List.mem_singleton] at h
    exact Or.inl h
  | cons e0 rest ih =>
    obtain ⟨k0, v0⟩ := e0
    by_cases h0 : k0 = k
    · simp only [mapSet, if_pos h0, List.mem_cons] at h
      rcases h with h | h
      · exact Or.inl h
      · exact Or.inr (List.mem_cons_of_mem _ h)
    · simp only [mapSet, if_neg h0, List.mem_cons] at h
      rcases h with h | h
      · exact Or.inr (h ▸ List.mem_cons_self _ _)
      · rcases ih h with h | h
        · exact Or.inl h
        · exact Or.inr (List.mem_cons_of_mem _ h)

/-- In a map whose values are all true, a key reads true exactly when it is
bound. -/
theorem mapGet_true_iff (m : List (String × Bool)) (k : String) (h : ∀ e ∈ m, e.2 = true) :
    mapGet m k = true ↔ k ∈ m.map Prod.fst := by
  induction m with
  | nil => simp [mapGet, List.lookup]
  | cons e rest ih =>
    obtain ⟨k0, v0⟩ := e
    have hv : v0 = true := h (k0, v0) (List.mem_cons_self _ _)
    have ih' := ih (fun e he => h e (List.mem_cons_of_mem _ he))
    by_cases hk : k = k0
    · subst hk
      simp [mapGet, List.lookup, hv]
    · have hb : (k == k0) = false := by simp [hk]
      unfold mapGet at ih' ⊢
      simp only [List.lookup, hb, List.map_cons, List.mem_cons, hk, false_or]
      exact ih'

/-- What the loop of `mapFromList` leaves: distinct keys, bound to true, the
keys there were and the tokens of the items. -/
theorem mapFromListLoop_spec : ∀ (items : List String) (m : List (String × Bool)),
    (m.map Prod.fst).Nodup → (∀ e ∈ m, e.2 = true) →
    ((mapFromListLoop items m).map Prod.fst).Nodup ∧
    (∀ e ∈ mapFromListLoop items m, e.2 = true) ∧
    ∀ k, k ∈ (mapFromListLoop items m).map Prod.fst ↔
      k ∈ m.map Prod.fst ∨
        k ∈ (items.map (fun s => ToLower (Trim s ' '))).filter (fun s => s ≠ "")
  | [], m, hn, hv => ⟨hn, hv, fun k => by simp [mapFromListLoop]⟩
  | s :: items, m, hn, hv => by
    rw [mapFromListLoop]
    by_cases hs : ToLower (Trim s ' ') = ""
    · simp only [hs, ne_eq, not_true_eq_false, if_false]
      obtain ⟨h1, h2, h3⟩ := mapFromListLoop_spec items m hn hv
      refine ⟨h1, h2, fun k => ?_⟩
      rw [h3 k, List.map_cons, List.filter_cons_of_neg (by simp [hs])]
    · simp only [hs, ne_eq, not_false_eq_true, if_true]
      obtain ⟨h1, h2, h3⟩ := mapFromListLoop_spec items (mapSet m (ToLower (Trim s ' ')) true)
        (keys_mapSet_nodup _ _ _ hn)
        (fun e he => by
          rcases mem_mapSet _ _ _ _ he with rfl | he
          · rfl
          · exact hv e he)
      refine ⟨h1, h2, fun k => ?_⟩
      rw [h3 k, mem_keys_mapSet, List.map_cons, List.filter_cons_of_pos (by simp [hs]),
        List.mem_cons]
      tauto

/-- C36: the keys of the map of `mapFromList` are the tokens of the list, its
comma-separated pieces trimmed of spaces and in lower case, the empty ones
left out; each key is there once and is bound to true, so a key reads true
exactly when it is a token, and the map has as many keys as the list has
distinct tokens: none for the empty list, three for
`one, two,    three, two`. -/
theorem mapFromList_keys (list : String) :
    ((mapFromList list).map Prod.fst).Nodup ∧
    (∀ k, k ∈ (mapFromList list).map Prod.fst ↔ k ∈ listTokens list) ∧
    (∀ e ∈ mapFromList list, e.2 = true) ∧
    (∀ k, mapGet (mapFromList list) k = true ↔ k ∈ listTokens list) ∧
    mapLen (mapFromList list) = (listTokens list).dedup.length ∧
    mapFromList "" = [] ∧
    mapFromList "one, two,    three, two" = [("one", true), ("two", true), ("three", true)] ∧
    mapFromList " One,,TWO , one" = [("one", true), ("two", true)] := by
  obtain ⟨h1, h2, h3⟩ := mapFromListLoop_spec (Split list ',') [] List.nodup_nil (by simp)
  have hk : ∀ k, k ∈ (mapFromList list).map Prod.fst ↔ k ∈ listTokens list := by
    intro k
    unfold mapFromList listTokens
    rw [h3 k]
    simp
  refine ⟨h1, hk, h2, fun k => ?_, ?_, by decide!, by decide!, by decide!⟩
  · rw [← hk k]
    exact mapGet_true_iff _ _ h2
  · unfold mapLen
    have h1' : ((mapFromList list).map Prod.fst).Nodup := h1
    rw [List.Nodup.dedup h1']
    exact length_eq_of_nodup h1' (List.nodup_dedup _) (fun a => by rw [hk a, List.mem_dedup])

theorem slack_nonneg (col : column) : 0 ≤ slack col := le_max_left _ _

theorem give_zero (col : column) : give 0 col = col := by
  unfold give
  rw [if_neg (lt_irrefl _)]

theorem afterRounds_zero (cols : List column) : afterRounds 0 cols = cols := by
  unfold afterRounds
  have : ∀ col : column, give (min (slack col) ((0 : Nat) : Int)) col = col := by
    intro col
    have h : min (slack col) ((0 : Nat) : Int) = 0 := by
      have := slack_nonneg col
      simp only [Nat.cast_zero]
      omega
    rw [h, give_zero]
  simp only [this, List.map_id']

theorem unitsGiven_zero (cols : List column) : unitsGiven 0 cols = 0 := by
  unfold unitsGiven
  induction cols with
  | nil => rfl
  | cons col rest ih =>
    have := slack_nonneg col
    simp only [List.map_cons, List.sum_cons, ih, Nat.cast_zero] at *
    omega

theorem calcNeeded_slack : ∀ (cols : List column),
    calcNeeded cols = (cols.map slack, (cols.map slack).sum)
  | [] => rfl
  | col :: cols => by
    rw [calcNeeded, calcNeeded_slack cols]
    unfold slack
    by_cases hp : col.width - col.minWidth > 0
    · simp only [hp, if_true, List.map_cons, List.sum_cons]
      rw [max_eq_right (le_of_lt hp)]
    · simp only [hp, if_false, List.map_cons, List.sum_cons]
      rw [max_eq_left (not_lt.1 hp), zero_add]

/-- The state `calcWidths` starts its loop in is the state after no round. -/
theorem roundState_zero (cols : List column) (A : Int) :
    roundState cols A 0 =
      { columns := cols, needed := (calcNeeded cols).1, available := A,
        totalNeeded := (calcNeeded cols).2 } := by
  unfold roundState
  rw [afterRounds_zero, unitsGiven_zero, calcNeeded_slack]
  have : ∀ col : column, slack col - min (slack col) ((0 : Nat) : Int) = slack col := by
    intro col
    have := slack_nonneg col
    simp only [Nat.cast_zero]
    omega
  simp only [this, sub_zero]

/-- One pass of the inner loop takes the state after `R` rounds to the state
after `R + 1` rounds. -/
theorem calcWidthsPass_round (R : Nat) : ∀ (cols : List column) (a tn : Int),
    calcWidthsPass (afterRounds R cols) (cols.map (fun col => slack col - min (slack col) R))
        a tn =
      { columns := afterRounds (R + 1) cols,
        needed := cols.map (fun col => slack col - min (slack col) ((R + 1 : Nat) : Int)),
        available := a - (unitsGiven (R + 1) cols - unitsGiven R cols),
        totalNeeded := tn - (unitsGiven (R + 1) cols - unitsGiven R cols) }
  | [], a, tn => by
    simp [afterRounds, unitsGiven, calcWidthsPass]
  | col :: cols, a, tn => by
    have hs := slack_nonneg col
    simp only [afterRounds, List.map_cons, unitsGiven, List.sum_cons]
    rw [calcWidthsPass]
    by_cases hn : slack col - min (slack col) (R : Int) > 0
    · have hlt : (R : Int) < slack col := by omega
      have e1 : min (slack col) (R : Int) = R := by omega
      have e2 : min (slack col) ((R + 1 : Nat) : Int) = R + 1 := by push_cast; omega
      have ih := calcWidthsPass_round R cols (a - 1) (tn - 1)
      simp only [afterRounds, unitsGiven] at ih
      rw [if_pos hn, ih]
      simp only [widthState.mk.injEq, List.cons.injEq, and_true]
      refine ⟨?_, ?_, ?_, ?_⟩
      · rw [e1, e2]
        unfold give
        by_cases hR : (R : Int) > 0
        · rw [if_pos hR, if_pos (by omega)]
          simp only [add_assoc]
        · have hR0 : (R : Int) = 0 := by omega
          rw [if_neg hR, if_pos (by omega), hR0, zero_add]
      · rw [e1, e2]; ring
      · rw [e1, e2]; ring
      · rw [e1, e2]; ring
    · have e1 : min (slack col) (R : Int) = slack col := by omega
      have e2 : min (slack col) ((R + 1 : Nat) : Int) = slack col := by push_cast; omega
      have ih := calcWidthsPass_round R cols a tn
      simp only [afterRounds, unitsGiven] at ih
      rw [if_neg hn, ih]
      simp only [widthState.mk.injEq, List.cons.injEq, and_true]
      refine ⟨?_, ?_, ?_, ?_⟩
      · rw [e1, e2]
      · rw [e1, e2]
      · rw [e1, e2]; ring
      · rw [e1, e2]; ring

theorem calcWidthsPass_roundState (cols : List column) (A : Int) (R : Nat) :
    calcWidthsPass (roundState cols A R).columns (roundState cols A R).needed
      (roundState cols A R).available (roundState cols A R).totalNeeded =
      roundState cols A (R + 1) := by
  unfold roundState
  simp only
  rw [calcWidthsPass_round]
  congr 1 <;> ring

/-- The outer loop stops after some number of rounds: the state it returns is
the state after `R` rounds, the loop condition fails there, and it held after
every earlier round. -/
theorem calcWidthsLoop_rounds (cols : List column) (A : Int) : ∀ (fuel k : Nat) (st' : widthState),
    calcWidthsLoop fuel (roundState cols A k) = some st' →
    ∃ R, k ≤ R ∧ st' = roundState cols A R ∧
      ¬ ((roundState cols A R).available > 0 ∧ (roundState cols A R).totalNeeded > 0) ∧
      ∀ j, k ≤ j → j < R →
        (roundState cols A j).available > 0 ∧ (roundState cols A j).totalNeeded > 0
  | 0, k, st', h => by
    rw [calcWidthsLoop] at h
    by_cases hc : (roundState cols A k).available > 0 ∧ (roundState cols A k).totalNeeded > 0
    · simp [hc] at h
    · simp only [hc, if_false, Option.some.injEq] at h
      exact ⟨k, le_refl _, h.symm, hc, fun j h1 h2 => absurd h2 (by omega)⟩
  | fuel + 1, k, st', h => by
    rw [calcWidthsLoop] at h
    by_cases hc : (roundState cols A k).available > 0 ∧ (roundState cols A k).totalNeeded > 0
    · simp only [hc, and_self, if_true] at h
      rw [calcWidthsPass_roundState] at h
      obtain ⟨R, hR, he, hn, hj⟩ := calcWidthsLoop_rounds cols A fuel (k + 1) st' h
      refine ⟨R, by omega, he, hn, fun j h1 h2 => ?_⟩
      by_cases hjk : j = k
      · subst hjk; exact hc
      · exact hj j (by omega) h2
    · simp only [hc, if_false, Option.some.injEq] at h
      exact ⟨k, le_refl _, h.symm, hc, fun j h1 h2 => absurd h2 (by omega)⟩

/-- The width negotiation in rounds: it returns the table with the columns
after some number `R` of rounds, where the loop condition fails after `R`
rounds and held after every earlier round. -/
theorem calcWidths_rounds (t : tabular) (ms W : Int) :
    ∃ R : Nat, calcWidths t ms W = some { t with columns := afterRounds R t.columns } ∧
      ¬ (W - ms - unitsGiven R t.columns > 0 ∧
          (t.columns.map slack).sum - unitsGiven R t.columns > 0) ∧
      ∀ j, j < R → W - ms - unitsGiven j t.columns > 0 ∧
        (t.columns.map slack).sum - unitsGiven j t.columns > 0 := by
  obtain ⟨cols, hc, _⟩ := calcWidths_spec t ms W
  have h0 := hc
  unfold calcWidths at hc
  simp only at hc
  rw [← roundState_zero] at hc
  cases hl : calcWidthsLoop (calcNeeded t.columns).2.toNat (roundState t.columns (W - ms) 0) with
  | none => rw [hl] at hc; cases hc
  | some st' =>
    obtain ⟨R, _, he, hn, hj⟩ := calcWidthsLoop_rounds t.columns (W - ms) _ 0 st' hl
    refine ⟨R, ?_, hn, fun j hjR => hj j (Nat.zero_le _) hjR⟩
    unfold calcWidths
    simp only
    rw [← roundState_zero, hl, he]
    rfl

theorem give_minWidth (u : Int) (col : column) (hu : 0 ≤ u) :
    (give u col).minWidth = col.minWidth + u := by
  unfold give
  by_cases h : u > 0
  · rw [if_pos h]
  · rw [if_neg h]
    have : u = 0 := by omega
    rw [this, add_zero]

theorem give_name (u : Int) (col : column) : (give u col).name = col.name := by
  unfold give
  split <;> rfl

theorem getElem?_afterRounds (R : Nat) (cols : List column) (i : Nat) (col col' : column)
    (h : cols[i]? = some col) (h' : (afterRounds R cols)[i]? = some col') :
    col' = give (min (slack col) R) col := by
  unfold afterRounds at h'
  rw [List.getElem?_map, h] at h'
  simp only [Option.map_some', Option.some.injEq] at h'
  exact h'.symm

theorem units_nonneg (R : Nat) (col : column) : 0 ≤ min (slack col) (R : Int) := by
  have := slack_nonneg col
  omega

/-- C34: the width negotiation returns, and there is a number `R` of rounds
such that the minimum width of every column has grown by the smaller of its
slack and `R`, the slack being the width less the minimum width, or 0; so two
columns that both have slack left have received the same number of units, and
when a column has received two units every column with slack has received
one. -/
theorem calcWidths_round_robin (t : tabular) (ms W : Int) :
    ∃ (R : Nat) (t' : tabular), calcWidths t ms W = some t' ∧
      t'.columns.length = t.columns.length ∧
      (∀ (i : Nat) (col col' : column), t.columns[i]? = some col → t'.columns[i]? = some col' →
        col'.minWidth - col.minWidth = min (slack col) R) ∧
      (∀ (i j : Nat) (ci ci' cj cj' : column),
        t.columns[i]? = some ci → t'.columns[i]? = some ci' →
        t.columns[j]? = some cj → t'.columns[j]? = some cj' →
        ci'.minWidth - ci.minWidth < slack ci → cj'.minWidth - cj.minWidth < slack cj →
        ci'.minWidth - ci.minWidth = cj'.minWidth - cj.minWidth) ∧
      (∀ (i j : Nat) (ci ci' cj cj' : column),
        t.columns[i]? = some ci → t'.columns[i]? = some ci' →
        t.columns[j]? = some cj → t'.columns[j]? = some cj' →
        2 ≤ ci'.minWidth - ci.minWidth → 0 < slack cj → 1 ≤ cj'.minWidth - cj.minWidth) := by
  obtain ⟨R, hR, _, _⟩ := calcWidths_rounds t ms W
  have key : ∀ (i : Nat) (col col' : column), t.columns[i]? = some col →
      (afterRounds R t.columns)[i]? = some col' →
      col'.minWidth - col.minWidth = min (slack col) R := by
    intro i col col' h h'
    rw [getElem?_afterRounds R _ i col col' h h', give_minWidth _ _ (units_nonneg R col)]
    ring
  refine ⟨R, _, hR, by simp [afterRounds], key, ?_, ?_⟩
  · intro i j ci ci' cj cj' hi hi' hj hj' h1 h2
    have ki := key i ci ci' hi hi'
    have kj := key j cj cj' hj hj'
    omega
  · intro i j ci ci' cj cj' hi hi' hj hj' h1 h2
    have ki := key i ci ci' hi hi'
    have kj := key j cj cj' hj hj'
    omega

theorem calcWidths_round_robin_witness :
    calcWidths ⟨[⟨"A", 10, false, 1⟩, ⟨"B", 3, false, 1⟩, ⟨"C", 2, false, 5⟩], [], [], []⟩ 12 20 =
      some ⟨[⟨"A", 7, false, 7⟩, ⟨"B", 3, false, 3⟩, ⟨"C", 2, false, 5⟩], [], [], []⟩ ∧
    slack ⟨"A", 10, false, 1⟩ = 9 ∧ slack ⟨"B", 3, false, 1⟩ = 2 ∧ slack ⟨"C", 2, false, 5⟩ = 0 ∧
    ∃ (R : Nat) (t' : tabular),
      calcWidths ⟨[⟨"A", 10, false, 1⟩, ⟨"B", 3, false, 1⟩, ⟨"C", 2, false, 5⟩], [], [], []⟩
        12 20 = some t' ∧
      t'.columns.length =
        (⟨[⟨"A", 10, false, 1⟩, ⟨"B", 3, false, 1⟩, ⟨"C", 2, false, 5⟩], [], [], []⟩ :
          tabular).columns.length ∧
      (∀ (i : Nat) (col col' : column),
        (⟨[⟨"A", 10, false, 1⟩, ⟨"B", 3, false, 1⟩, ⟨"C", 2, false, 5⟩], [], [], []⟩ :
          tabular).columns[i]? = some col → t'.columns[i]? = some col' →
        col'.minWidth - col.minWidth = min (slack col) R) :=
  ⟨by decide!, by decide!, by decide!, by decide!,
    match calcWidths_round_robin
      ⟨[⟨"A", 10, false, 1⟩, ⟨"B", 3, false, 1⟩, ⟨"C", 2, false, 5⟩], [], [], []⟩ 12 20 with
    | ⟨R, t', h1, h2, h3, _⟩ => ⟨R, t', h1, h2, h3⟩⟩

/-- The loop returns its state when its condition fails. -/
theorem calcWidthsLoop_stop (fuel : Nat) (st : widthState)
    (hc : ¬ (st.available > 0 ∧ st.totalNeeded > 0)) : calcWidthsLoop fuel st = some st := by
  cases fuel with
  | zero => rw [calcWidthsLoop]; simp only [hc, if_false]
  | succ n => rw [calcWidthsLoop]; simp only [hc, if_false]

/-- More passes than needed change nothing in what the loop returns. -/
theorem calcWidthsLoop_fuel : ∀ (fuel : Nat) (st st' : widthState),
    calcWidthsLoop fuel st = some st' → ∀ more, calcWidthsLoop (fuel + more) st = some st'
  | 0, st, st', h, more => by
    rw [calcWidthsLoop] at h
    by_cases hc : st.available > 0 ∧ st.totalNeeded > 0
    · simp [hc] at h
    · simp only [hc, if_false] at h
      rw [calcWidthsLoop_stop _ _ hc]
      exact h
  | fuel + 1, st, st', h, more => by
    rw [calcWidthsLoop] at h
    have e : fuel + 1 + more = (fuel + more) + 1 := by omega
    rw [e, calcWidthsLoop]
    by_cases hc : st.available > 0 ∧ st.totalNeeded > 0
    · simp only [hc, and_self, if_true] at h ⊢
      exact calcWidthsLoop_fuel fuel _ st' h more
    · simp only [hc, if_false] at h ⊢
      exact h

/-- A list of numbers, none negative, with a positive sum has a positive
member. -/
theorem exists_pos_of_sum_pos : ∀ (L : List Int), (∀ n ∈ L, 0 ≤ n) → 0 < L.sum → ∃ n ∈ L, 0 < n
  | [], _, h => by simp at h
  | a :: L, hn, h => by
    by_cases ha : 0 < a
    · exact ⟨a, List.mem_cons_self _ _, ha⟩
    · have h0 : a = 0 := by
        have := hn a (List.mem_cons_self _ _)
        omega
      rw [List.sum_cons, h0, zero_add] at h
      obtain ⟨n, hm, hp⟩ := exists_pos_of_sum_pos L (fun n hm => hn n (List.mem_cons_of_mem _ hm)) h
      exact ⟨n, List.mem_cons_of_mem _ hm, hp⟩

theorem sum_nonneg_of_nonneg : ∀ (L : List Int), (∀ n ∈ L, 0 ≤ n) → 0 ≤ L.sum
  | [], _ => le_refl _
  | a :: L, hn => by
    rw [List.sum_cons]
    have := hn a (List.mem_cons_self _ _)
    have := sum_nonneg_of_nonneg L (fun n hm => hn n (List.mem_cons_of_mem _ hm))
    omega

/-- C37: `calcWidths` returns on every table and every pair of arguments. The
variables of its loop start with one need per column, none negative, and the
total their sum, and every pass keeps them so; whenever the loop condition
holds some column has a positive need, and the pass leaves a total that is
smaller and not negative. So the loop ends within as many passes as the total
first needed, and a larger number of passes allowed returns the same. -/
theorem calcWidths_terminates (t : tabular) (ms W : Int) :
    (∃ t', calcWidths t ms W = some t') ∧
    LoopInv { columns := t.columns, needed := (calcNeeded t.columns).1, available := W - ms,
              totalNeeded := (calcNeeded t.columns).2 } ∧
    (∀ st : widthState, LoopInv st → st.available > 0 ∧ st.totalNeeded > 0 →
      (∃ n ∈ st.needed, 0 < n) ∧
      LoopInv (calcWidthsPass st.columns st.needed st.available st.totalNeeded) ∧
      0 ≤ (calcWidthsPass st.columns st.needed st.available st.totalNeeded).totalNeeded ∧
      (calcWidthsPass st.columns st.needed st.available st.totalNeeded).totalNeeded <
        st.totalNeeded) ∧
    ∀ more : Nat, ∃ st',
      calcWidthsLoop (calcNeeded t.columns).2.toNat
        { columns := t.columns, needed := (calcNeeded t.columns).1, available := W - ms,
          totalNeeded := (calcNeeded t.columns).2 } = some st' ∧
      calcWidthsLoop ((calcNeeded t.columns).2.toNat + more)
        { columns := t.columns, needed := (calcNeeded t.columns).1, available := W - ms,
          totalNeeded := (calcNeeded t.columns).2 } = some st' := by
  obtain ⟨n1, n2, n3⟩ := calcNeeded_spec t.columns
  refine ⟨?_, ⟨n1, n2, n3⟩, ?_, ?_⟩
  · obtain ⟨cols, hc, _⟩ := calcWidths_spec t ms W
    exact ⟨_, hc⟩
  · rintro st ⟨i1, i2, i3⟩ ⟨_, hc⟩
    obtain ⟨p1, p2, p3, p4, p5⟩ :=
      calcWidthsPass_total st.columns st.needed st.available st.totalNeeded i1 i2
    have hsum : 0 < st.needed.sum := by rw [← i3]; exact hc
    have hp : (calcWidthsPass st.columns st.needed st.available st.totalNeeded).totalNeeded =
        (calcWidthsPass st.columns st.needed st.available st.totalNeeded).needed.sum := by
      omega
    refine ⟨exists_pos_of_sum_pos _ i2 hsum, ⟨p1, p2, hp⟩, ?_, p5 hsum⟩
    rw [hp]
    exact sum_nonneg_of_nonneg _ p2
  · intro more
    obtain ⟨st', h⟩ := calcWidthsLoop_isSome (calcNeeded t.columns).2.toNat
      { columns := t.columns, needed := (calcNeeded t.columns).1, available := W - ms,
        totalNeeded := (calcNeeded t.columns).2 } n1 n2 n3 (le_refl _)
    exact ⟨st', h, calcWidthsLoop_fuel _ _ _ h more⟩

/-- In a table built by the three calls every name is no longer than the
minimum width of its column. -/
theorem traced_minWidth {cs xs : List (String × Bool)} {t : tabular} {sets : List (List String)}
    (h : Traced cs xs t sets) : ∀ col ∈ t.columns, len col.name ≤ col.minWidth := by
  induction h with
  | start => intro col hc; simp [newTabular] at hc
  | column _ ha ih =>
    obtain ⟨m, hm, rfl⟩ := addColumn_inv _ _ _ _ _ _ ha
    intro col hc
    simp only [List.mem_append, List.mem_singleton] at hc
    rcases hc with hc | rfl
    · exact ih col hc
    · exact hm
  | row _ ih => exact ih
  | field _ hf ih =>
    obtain ⟨_, _, hfit, rfl⟩ := setField_inv _ _ _ _ _ hf
    intro col hc
    obtain ⟨col0, h0, rfl | rfl⟩ := mem_setCell_columns _ _ _ _ (by have := hfit.2.1; omega) col hc
    · exact ih _ h0
    · rw [widen_name, widen_minWidth]; exact ih _ h0

/-- C38: on a table built by `addColumn`, `newRow` and `setField` the width
negotiation returns a table with the same columns in the same places, each
under its name, no narrower than its name, no wider than it was, and as it
was when it had no slack. -/
theorem calcWidths_bounds {cs xs : List (String × Bool)} {t : tabular}
    {sets : List (List String)} (h : Traced cs xs t sets) (ms W : Int) :
    ∃ t', calcWidths t ms W = some t' ∧ t'.columns.length = t.columns.length ∧
      t'.rows = t.rows ∧
      ∀ (i : Nat) (col col' : column), t.columns[i]? = some col → t'.columns[i]? = some col' →
        col'.name = col.name ∧ len col.name ≤ col'.width ∧ col'.width ≤ col.width ∧
        (col.width ≤ col.minWidth → col' = col) := by
  obtain ⟨R, hR, _, _⟩ := calcWidths_rounds t ms W
  refine ⟨_, hR, by simp [afterRounds], rfl, ?_⟩
  intro i col col' hc hc'
  have hmem : col ∈ t.columns := List.mem_iff_getElem?.2 ⟨i, hc⟩
  have hmin := traced_minWidth h col hmem
  have hw : len col.name ≤ col.width := by
    rw [(traced_tracked h).2.1 i col hc]
    exact widest_ge _ _
  have e := getElem?_afterRounds R _ i col col' hc hc'
  subst e
  have hs : slack col = max 0 (col.width - col.minWidth) := rfl
  refine ⟨give_name _ _, ?_, ?_, ?_⟩
  · unfold give
    by_cases hu : min (slack col) (R : Int) > 0
    · rw [if_pos hu]
      show len col.name ≤ col.minWidth + min (slack col) (R : Int)
      omega
    · rw [if_neg hu]; exact hw
  · unfold give
    by_cases hu : min (slack col) (R : Int) > 0
    · rw [if_pos hu]
      show col.minWidth + min (slack col) (R : Int) ≤ col.width
      omega
    · rw [if_neg hu]
  · intro hle
    unfold give
    rw [if_neg (by omega)]

theorem calcWidths_bounds_witness :
    Traced [] [] ⟨[⟨"Name", 10, false, 6⟩], [["abcdefghij"]], [], []⟩ [["abcdefghij"]] ∧
    calcWidths ⟨[⟨"Name", 10, false, 6⟩], [["abcdefghij"]], [], []⟩ 7 9 =
      some ⟨[⟨"Name", 8, false, 8⟩], [["abcdefghij"]], [], []⟩ ∧
    ∃ t', calcWidths ⟨[⟨"Name", 10, false, 6⟩], [["abcdefghij"]], [], []⟩ 7 9 = some t' ∧
      t'.columns.length =
        (⟨[⟨"Name", 10, false, 6⟩], [["abcdefghij"]], [], []⟩ : tabular).columns.length ∧
      t'.rows = (⟨[⟨"Name", 10, false, 6⟩], [["abcdefghij"]], [], []⟩ : tabular).rows :=
  have h : Traced [] [] ⟨[⟨"Name", 10, false, 6⟩], [["abcdefghij"]], [], []⟩ [["abcdefghij"]] :=
    Traced.field
      (Traced.row
        (Traced.column Traced.start
          (show addColumn (newTabular [] []) "Name" false "6" =
            .ok (⟨[⟨"Name", 4, false, 6⟩], [], [], []⟩, 0) by decide!)))
      (show setField (newRow ⟨[⟨"Name", 4, false, 6⟩], [], [], []⟩).1 0 0 "abcdefghij" =
        .ok ⟨[⟨"Name", 10, false, 6⟩], [["abcdefghij"]], [], []⟩ by decide!)
  ⟨h, by decide!,
    match calcWidths_bounds h 7 9 with
    | ⟨t', h1, h2, h3, _⟩ => ⟨t', h1, h2, h3⟩⟩

/-- C35, the code against the claim: a pass of the inner loop gives a unit to
every column that needs one without looking at the budget. The table of two
columns, each 10 wide over a minimum width of 1, is built by the three calls;
in the grid style its total spacing is 27 and its minimum spacing 9, so a
terminal width of 10 triggers wrapping with a budget of 1; the negotiation
hands out 2 units and leaves a total spacing of 11, and every line written is
11 bytes long, wider than the terminal. -/
theorem calcWidths_over_budget :
    Traced [] [] ⟨[⟨"A", 10, false, 1⟩, ⟨"B", 10, false, 1⟩],
      [["abcdefghij", "klmnopqrst"]], [], []⟩ [["abcdefghij"], ["klmnopqrst"]] ∧
    calculateSpacing ⟨[⟨"A", 10, false, 1⟩, ⟨"B", 10, false, 1⟩],
      [["abcdefghij", "klmnopqrst"]], [], []⟩ true 1 = ([12, 12], 27, 9) ∧
    wrapTriggered ⟨[⟨"A", 10, false, 1⟩, ⟨"B", 10, false, 1⟩],
      [["abcdefghij", "klmnopqrst"]], [], []⟩ true 1 10 ∧
    (10 : Int) > 9 ∧
    calcWidths ⟨[⟨"A", 10, false, 1⟩, ⟨"B", 10, false, 1⟩],
      [["abcdefghij", "klmnopqrst"]], [], []⟩ 9 10 =
      some ⟨[⟨"A", 2, false, 2⟩, ⟨"B", 2, false, 2⟩], [["abcdefghij", "klmnopqrst"]], [], []⟩ ∧
    unitsGiven 1 [⟨"A", 10, false, 1⟩, ⟨"B", 10, false, 1⟩] = 2 ∧
    (2 : Int) > 10 - 9 ∧
    (calculateSpacing ⟨[⟨"A", 2, false, 2⟩, ⟨"B", 2, false, 2⟩],
      [["abcdefghij", "klmnopqrst"]], [], []⟩ true 1).2.1 = 11 ∧
    (write hardWrap ⟨[⟨"A", 10, false, 1⟩, ⟨"B", 10, false, 1⟩],
      [["abcdefghij", "klmnopqrst"]], [], []⟩ "" Grid false "" 10).2 =
      ("+----+----+\n| A  | B  |\n+----+----+\n| ab | kl |\n| cd | mn |\n| ef | op |\n" ++
        "| gh | qr |\n| ij | st |\n+----+----+\n", none) ∧
    len "+----+----+" = 11 := by
  refine ⟨?_, by decide!, ?_, by decide, by decide!, by decide!, by decide, by decide!, by decide!,
    by decide!⟩
  · exact Traced.field
      (Traced.field
        (Traced.row
          (Traced.column
            (Traced.column Traced.start
              (show addColumn (newTabular [] []) "A" false "" =
                .ok (⟨[⟨"A", 1, false, 1⟩], [], [], []⟩, 0) by decide!))
            (show addColumn ⟨[⟨"A", 1, false, 1⟩], [], [], []⟩ "B" false "" =
              .ok (⟨[⟨"A", 1, false, 1⟩, ⟨"B", 1, false, 1⟩], [], [], []⟩, 1) by decide!)))
        (show setField (newRow ⟨[⟨"A", 1, false, 1⟩, ⟨"B", 1, false, 1⟩], [], [], []⟩).1 0 0
            "abcdefghij" =
          .ok ⟨[⟨"A", 10, false, 1⟩, ⟨"B", 1, false, 1⟩], [["abcdefghij", ""]], [], []⟩ by
          decide!))
      (show setField ⟨[⟨"A", 10, false, 1⟩, ⟨"B", 1, false, 1⟩], [["abcdefghij", ""]], [], []⟩
          0 1 "klmnopqrst" =
        .ok ⟨[⟨"A", 10, false, 1⟩, ⟨"B", 10, false, 1⟩], [["abcdefghij", "klmnopqrst"]], [], []⟩
        by decide!)
  · unfold wrapTriggered
    exact ⟨by decide, by decide!⟩

theorem linesPerRow_eq : ∀ (l : List (List String)),
    linesPerRow l = (l.map List.length).foldr max 1
  | [] => rfl
  | a :: rest => by
    rw [linesPerRow, linesPerRow_eq rest, List.map_cons, List.foldr_cons]
    by_cases h : a.length > (rest.map List.length).foldr max 1
    · rw [if_pos h, max_eq_left (le_of_lt h)]
    · rw [if_neg h, max_eq_right (not_lt.1 h)]

theorem foldr_max_replicate (k : Nat) :
    ((List.replicate k ([] : List String)).map List.length).foldr max 1 = 1 := by
  induction k with
  | zero => rfl
  | succ n ih =>
    rw [List.replicate_succ, List.map_cons, List.foldr_cons, ih]
    rfl

theorem linesPerRow_pad (l : List (List String)) (k : Nat) :
    linesPerRow (l ++ List.replicate k []) = (l.map List.length).foldr max 1 := by
  rw [linesPerRow_eq, List.map_append, List.foldr_append, foldr_max_replicate]

theorem zipWith_wrap (wrapText : String → Int → List String) : ∀ (cols : List column)
    (row : List String),
    List.zipWith (fun (col : column) field => wrapText field col.minWidth) cols row =
      List.zipWith wrapText row (cols.map column.minWidth)
  | [], row => by cases row <;> rfl
  | _ :: _, [] => rfl
  | col :: cols, f :: row => by
    simp only [List.zipWith_cons_cons, List.map_cons, zipWith_wrap wrapText cols row]

theorem getD_pad (l : List (List String)) (k i : Nat) :
    (l ++ List.replicate k []).getD i [] = l.getD i [] := by
  rw [List.getD_eq_getElem?_getD, List.getD_eq_getElem?_getD]
  by_cases h : i < l.length
  · rw [List.getElem?_append_left h]
  · rw [List.getElem?_append_right (by omega), List.getElem?_eq_none (not_lt.1 h),
      List.getElem?_replicate]
    split <;> rfl

theorem map_eq_range {α β : Type} (l : List α) (d : α) (f : α → β) :
    l.map f = (List.range l.length).map (fun i => f (l.getD i d)) := by
  apply List.ext_getElem
  · simp
  · intro i h1 h2
    simp only [List.getElem_map, List.getElem_range, List.getD_eq_getElem?_getD]
    rw [List.getElem?_eq_getElem (by simpa using h1)]
    rfl

/-- The pivot of the wrapped cells of a row, in the words of the lines of the
row. -/
theorem pivotRow_eq (wrapText : String → Int → List String) (cols : List column)
    (row : List String) (h : row.length ≤ cols.length) :
    pivotRow cols.length
        (List.zipWith (fun (col : column) field => wrapText field col.minWidth) cols row) =
      physicalLines wrapText (cols.map column.minWidth) cols.length row := by
  unfold pivotRow physicalLines
  simp only
  rw [zipWith_wrap, linesPerRow_pad]
  apply List.map_congr_left
  intro j _
  have hl : (List.zipWith wrapText row (cols.map column.minWidth) ++
      List.replicate (cols.length - (List.zipWith wrapText row (cols.map column.minWidth)).length)
        []).length = cols.length := by
    rw [List.length_append, List.length_replicate, List.length_zipWith, List.length_map]
    omega
  rw [map_eq_range _ [] (fun linesPerCol => linesPerCol.getD j ""), hl]
  apply List.map_congr_left
  intro i _
  simp only [getD_pad]

/-- The wrapped rows of a table whose rows are no longer than its columns. -/
theorem wrapRows_eq (wrapText : String → Int → List String) (cols : List column) :
    ∀ (rows : List (List String)), (∀ row ∈ rows, row.length ≤ cols.length) →
      wrapRows wrapText cols rows =
        some (rows.map (physicalLines wrapText (cols.map column.minWidth) cols.length))
  | [], _ => rfl
  | row :: rows, h => by
    rw [wrapRows, wrapRow_eq wrapText cols row (h row (List.mem_cons_self _ _)),
      wrapRows_eq wrapText cols rows (fun r hr => h r (List.mem_cons_of_mem _ hr))]
    simp only [List.map_cons]
    rw [pivotRow_eq wrapText cols row (h row (List.mem_cons_self _ _))]

/-- The table cut into lines when wrapping is triggered: the columns after
some number of rounds of the negotiation, and the lines of every row wrapped
at the minimum widths of these columns. -/
theorem buildWrappedTable_wrapped (wrapText : String → Int → List String) (t : tabular)
    (hasGrid : Bool) (pad W : Int) (htr : wrapTriggered t hasGrid pad W)
    (hrows : ∀ row ∈ t.rows, row.length ≤ t.columns.length) :
    ∃ R : Nat, buildWrappedTable wrapText t hasGrid pad W =
      .ok ({ t with columns := afterRounds R t.columns },
        { totalSpacing :=
            (calculateSpacing { t with columns := afterRounds R t.columns } hasGrid pad).2.1,
          spacing := (calculateSpacing { t with columns := afterRounds R t.columns } hasGrid pad).1,
          rowsLinesColumns := t.rows.map (physicalLines wrapText
            ((afterRounds R t.columns).map column.minWidth) t.columns.length) }) := by
  obtain ⟨R, hR, _, _⟩ := calcWidths_rounds t (calculateSpacing t hasGrid pad).2.2 W
  refine ⟨R, ?_⟩
  have hlen : (afterRounds R t.columns).length = t.columns.length := by simp [afterRounds]
  rw [buildWrappedTable_triggered wrapText t hasGrid pad W htr, hR]
  simp only
  rw [wrapRows_eq wrapText _ t.rows (fun row hr => by rw [hlen]; exact hrows row hr), hlen]

theorem foldr_max_ge : ∀ (L : List Nat) (b n : Nat), n ∈ L → n ≤ L.foldr max b
  | [], _, _, h => by cases h
  | a :: L, b, n, h => by
    rw [List.foldr_cons]
    rcases List.mem_cons.1 h with rfl | h
    · exact le_max_left _ _
    · exact le_trans (foldr_max_ge L b n h) (le_max_right _ _)

theorem foldr_max_base : ∀ (L : List Nat) (b : Nat), b ≤ L.foldr max b
  | [], _ => le_refl _
  | a :: L, b => by
    rw [List.foldr_cons]
    exact le_trans (foldr_max_base L b) (le_max_right _ _)

theorem physicalLines_length (wrapText : String → Int → List String) (widths : List Int)
    (c : Nat) (row : List String) :
    (physicalLines wrapText widths c row).length =
      ((List.zipWith wrapText row widths).map List.length).foldr max 1 := by
  unfold physicalLines
  simp

theorem physicalLines_line (wrapText : String → Int → List String) (widths : List Int)
    (c : Nat) (row : List String) (line : List String)
    (h : line ∈ physicalLines wrapText widths c row) : line.length = c := by
  unfold physicalLines at h
  simp only [List.mem_map, List.mem_range] at h
  obtain ⟨j, _, rfl⟩ := h
  simp

/-- The text at line `j`, column `i` of the lines of a row: line `j` of the
wrapped cell, or the empty text. -/
theorem physicalLines_entry (wrapText : String → Int → List String) (widths : List Int)
    (c : Nat) (row : List String) (j i : Nat) (hi : i < c) :
    ((physicalLines wrapText widths c row).getD j []).getD i "" =
      ((List.zipWith wrapText row widths).getD i []).getD j "" := by
  by_cases hj : j < ((List.zipWith wrapText row widths).map List.length).foldr max 1
  · have e : (physicalLines wrapText widths c row).getD j [] =
        (List.range c).map (fun i => ((List.zipWith wrapText row widths).getD i []).getD j "") := by
      unfold physicalLines
      simp only
      rw [List.getD_eq_getElem?_getD, List.getElem?_map, List.getElem?_range hj]
      rfl
    rw [e, List.getD_eq_getElem?_getD, List.getElem?_map, List.getElem?_range hi]
    rfl
  · have h1 : (physicalLines wrapText widths c row).getD j [] = [] := by
      rw [List.getD_eq_getElem?_getD, List.getElem?_eq_none]
      · rfl
      · rw [physicalLines_length]; omega
    rw [h1]
    have h2 : ((List.zipWith wrapText row widths).getD i []).length ≤ j := by
      by_cases hil : i < (List.zipWith wrapText row widths).length
      · have hm : ((List.zipWith wrapText row widths).getD i []).length ∈
            (List.zipWith wrapText row widths).map List.length := by
          rw [List.getD_eq_getElem?_getD, List.getElem?_eq_getElem hil]
          exact List.mem_map_of_mem _ (List.getElem_mem _)
        have := foldr_max_ge _ 1 _ hm
        omega
      · rw [List.getD_eq_getElem?_getD, List.getElem?_eq_none (not_lt.1 hil)]
        simp
    rw [List.getD_eq_getElem?_getD, List.getD_eq_getElem?_getD, List.getElem?_eq_none h2]
    rfl

theorem zipWith_getD (wrapText : String → Int → List String) (row : List String)
    (widths : List Int) (i : Nat) (cell : String) (w : Int) (hc : row[i]? = some cell)
    (hw : widths[i]? = some w) : (List.zipWith wrapText row widths).getD i [] = wrapText cell w := by
  rw [List.getD_eq_getElem?_getD, List.getElem?_zipWith, hc, hw]
  rfl

theorem zipWith_getD_none (wrapText : String → Int → List String) (row : List String)
    (widths : List Int) (i : Nat) (hc : row.length ≤ i) :
    (List.zipWith wrapText row widths).getD i [] = [] := by
  rw [List.getD_eq_getElem?_getD, List.getElem?_eq_none]
  · rfl
  · simp; omega

/-- The rows of a table built by the three calls are no longer than its
columns. -/
theorem traced_rows {cs xs : List (String × Bool)} {t : tabular} {sets : List (List String)}
    (h : Traced cs xs t sets) : ∀ row ∈ t.rows, row.length ≤ t.columns.length := by
  intro row hr
  obtain ⟨r, hr'⟩ := List.mem_iff_getElem?.1 hr
  by_contra hlt
  have hlt' : t.columns.length < row.length := not_le.1 hlt
  obtain ⟨col, hc, _⟩ := (traced_tracked h).2.2 r row t.columns.length row[t.columns.length] hr'
    (List.getElem?_eq_getElem hlt')
  rw [List.getElem?_eq_none (le_refl _)] at hc
  cases hc

/-- After the rounds of the negotiation a column is as it was, or as wide as
its minimum width. -/
theorem give_width (u : Int) (col : column) :
    give u col = col ∨ (give u col).width = (give u col).minWidth := by
  unfold give
  by_cases h : u > 0
  · rw [if_pos h]; exact Or.inr rfl
  · rw [if_neg h]; exact Or.inl rfl

/-- C33: when wrapping is triggered on a table whose rows are no longer than
its columns, the table is cut into lines: every row gives as many physical
lines as its cell with the most lines has, at least one, the cells being
wrapped at the minimum widths the negotiation leaves; every physical line has
one entry per column; entry `i` of line `j` is line `j` of the wrapped cell
`i` when the cell has that line, and the empty text otherwise, also for a
column past the end of the row. -/
theorem buildWrappedTable_lines (wrapText : String → Int → List String) (t : tabular)
    (hasGrid : Bool) (pad W : Int) (htr : wrapTriggered t hasGrid pad W)
    (hrows : ∀ row ∈ t.rows, row.length ≤ t.columns.length) :
    ∃ t' wt, buildWrappedTable wrapText t hasGrid pad W = .ok (t', wt) ∧
      t'.rows = t.rows ∧ t'.columns.length = t.columns.length ∧
      wt.rowsLinesColumns =
        t.rows.map (physicalLines wrapText (t'.columns.map column.minWidth) t.columns.length) ∧
      ∀ row ∈ t.rows,
        (physicalLines wrapText (t'.columns.map column.minWidth) t.columns.length row).length =
          ((List.zipWith wrapText row (t'.columns.map column.minWidth)).map
            List.length).foldr max 1 ∧
        1 ≤ (physicalLines wrapText (t'.columns.map column.minWidth)
          t.columns.length row).length ∧
        (∀ line ∈ physicalLines wrapText (t'.columns.map column.minWidth) t.columns.length row,
          line.length = t.columns.length) ∧
        (∀ (j i : Nat) (cell : String) (col' : column),
          row[i]? = some cell → t'.columns[i]? = some col' →
          ((physicalLines wrapText (t'.columns.map column.minWidth)
            t.columns.length row).getD j []).getD i "" =
            (wrapText cell col'.minWidth).getD j "") ∧
        (∀ (j i : Nat), row.length ≤ i → i < t.columns.length →
          ((physicalLines wrapText (t'.columns.map column.minWidth)
            t.columns.length row).getD j []).getD i "" = "") := by
  obtain ⟨R, hR⟩ := buildWrappedTable_wrapped wrapText t hasGrid pad W htr hrows
  have hlen : (afterRounds R t.columns).length = t.columns.length := by simp [afterRounds]
  refine ⟨_, _, hR, rfl, hlen, rfl, ?_⟩
  intro row _
  refine ⟨physicalLines_length _ _ _ _, ?_, fun line hl => physicalLines_line _ _ _ _ line hl,
    ?_, ?_⟩
  · rw [physicalLines_length]
    exact foldr_max_base _ 1
  · intro j i cell col' hc hcol
    have hi : i < t.columns.length := by
      rw [← hlen]
      exact (List.getElem?_eq_some.1 hcol).1
    rw [physicalLines_entry _ _ _ _ j i hi,
      zipWith_getD wrapText row _ i cell col'.minWidth hc (by
        rw [List.getElem?_map]
        simp only at hcol
        rw [hcol]
        rfl)]
  · intro j i hi hc
    rw [physicalLines_entry _ _ _ _ j i hc, zipWith_getD_none wrapText row _ i hi]
    rfl

theorem buildWrappedTable_lines_witness :
    wrapTriggered ⟨[⟨"A", 10, false, 1⟩, ⟨"B", 2, false, 1⟩],
      [["abcdefghij", "xy"], ["k"]], [], []⟩ true 1 12 ∧
    buildWrappedTable hardWrap ⟨[⟨"A", 10, false, 1⟩, ⟨"B", 2, false, 1⟩],
      [["abcdefghij", "xy"], ["k"]], [], []⟩ true 1 12 =
      .ok (⟨[⟨"A", 3, false, 3⟩, ⟨"B", 2, false, 2⟩], [["abcdefghij", "xy"], ["k"]], [], []⟩,
        ⟨12, [5, 4], [[["abc", "xy"], ["def", ""], ["ghi", ""], ["j", ""]], [["k", ""]]]⟩) ∧
    ∃ t' wt, buildWrappedTable hardWrap ⟨[⟨"A", 10, false, 1⟩, ⟨"B", 2, false, 1⟩],
        [["abcdefghij", "xy"], ["k"]], [], []⟩ true 1 12 = .ok (t', wt) ∧
      t'.rows = [["abcdefghij", "xy"], ["k"]] ∧
      wt.rowsLinesColumns =
        [["abcdefghij", "xy"], ["k"]].map
          (physicalLines hardWrap (t'.columns.map column.minWidth) 2) :=
  ⟨⟨by decide, by decide!⟩, by decide!,
    match buildWrappedTable_lines hardWrap
      ⟨[⟨"A", 10, false, 1⟩, ⟨"B", 2, false, 1⟩], [["abcdefghij", "xy"], ["k"]], [], []⟩ true 1 12
      ⟨by decide, by decide!⟩ (by decide) with
    | ⟨t', wt, h1, h2, _, h4, _⟩ => ⟨t', wt, h1, h2, h4⟩⟩

/-- C32, refuted as stated: cells are wrapped at the minimum width of their
column, which need not be the width the column is padded to. The column `abc`
is declared with the width hint 10 and holds the cell `xy`, so it is 3 wide
under a minimum width of 10. Under a terminal width of 20, above the minimum
spacing of 13, the negotiation narrows the column `B` and leaves `abc` as it
is: for every wrapper its cell is wrapped at 10, while the column is padded
to 3. -/
theorem buildWrappedTable_wrap_not_width :
    Traced [] [] ⟨[⟨"abc", 3, false, 10⟩, ⟨"B", 20, false, 1⟩],
      [["xy", "abcdefghijklmnopqrst"]], [], []⟩ [["xy"], ["abcdefghijklmnopqrst"]] ∧
    calculateSpacing ⟨[⟨"abc", 3, false, 10⟩, ⟨"B", 20, false, 1⟩],
      [["xy", "abcdefghijklmnopqrst"]], [], []⟩ false 0 = ([3, 20], 25, 13) ∧
    wrapTriggered ⟨[⟨"abc", 3, false, 10⟩, ⟨"B", 20, false, 1⟩],
      [["xy", "abcdefghijklmnopqrst"]], [], []⟩ false 0 20 ∧
    (∀ wrapText : String → Int → List String,
      buildWrappedTable wrapText ⟨[⟨"abc", 3, false, 10⟩, ⟨"B", 20, false, 1⟩],
        [["xy", "abcdefghijklmnopqrst"]], [], []⟩ false 0 20 =
        .ok (⟨[⟨"abc", 3, false, 10⟩, ⟨"B", 8, false, 8⟩],
            [["xy", "abcdefghijklmnopqrst"]], [], []⟩,
          ⟨13, [3, 8], [physicalLines wrapText [10, 8] 2 ["xy", "abcdefghijklmnopqrst"]]⟩)) ∧
    (⟨"abc", 3, false, 10⟩ : column).width ≠ (⟨"abc", 3, false, 10⟩ : column).minWidth ∧
    write hardWrap ⟨[⟨"abc", 3, false, 10⟩, ⟨"B", 20, false, 1⟩],
      [["xy", "abcdefghijklmnopqrst"]], [], []⟩ "" Aligned false "" 20 =
      (⟨[⟨"abc", 3, false, 10⟩, ⟨"B", 8, false, 8⟩], [["xy", "abcdefghijklmnopqrst"]], [], []⟩,
        "abc B       \nxy  abcdefgh\n    ijklmnop\n    qrst    \n", none) := by
  refine ⟨?_, by decide!, ⟨by decide, by decide!⟩, ?_, by decide, by decide!⟩
  · exact Traced.field
      (Traced.field
        (Traced.row
          (Traced.column
            (Traced.column Traced.start
              (show addColumn (newTabular [] []) "abc" false "10" =
                .ok (⟨[⟨"abc", 3, false, 10⟩], [], [], []⟩, 0) by decide!))
            (show addColumn ⟨[⟨"abc", 3, false, 10⟩], [], [], []⟩ "B" false "" =
              .ok (⟨[⟨"abc", 3, false, 10⟩, ⟨"B", 1, false, 1⟩], [], [], []⟩, 1) by decide!)))
        (show setField (newRow ⟨[⟨"abc", 3, false, 10⟩, ⟨"B", 1, false, 1⟩], [], [], []⟩).1 0 0
            "xy" =
          .ok ⟨[⟨"abc", 3, false, 10⟩, ⟨"B", 1, false, 1⟩], [["xy", ""]], [], []⟩ by decide!))
      (show setField ⟨[⟨"abc", 3, false, 10⟩, ⟨"B", 1, false, 1⟩], [["xy", ""]], [], []⟩ 0 1
          "abcdefghijklmnopqrst" =
        .ok ⟨[⟨"abc", 3, false, 10⟩, ⟨"B", 20, false, 1⟩],
          [["xy", "abcdefghijklmnopqrst"]], [], []⟩ by decide!)
  · intro wrapText
    have htr : wrapTriggered ⟨[⟨"abc", 3, false, 10⟩, ⟨"B", 20, false, 1⟩],
        [["xy", "abcdefghijklmnopqrst"]], [], []⟩ false 0 20 := ⟨by decide, by decide!⟩
    rw [buildWrappedTable_triggered wrapText _ false 0 20 htr]
    have hc : calcWidths ⟨[⟨"abc", 3, false, 10⟩, ⟨"B", 20, false, 1⟩],
        [["xy", "abcdefghijklmnopqrst"]], [], []⟩
        (calculateSpacing ⟨[⟨"abc", 3, false, 10⟩, ⟨"B", 20, false, 1⟩],
          [["xy", "abcdefghijklmnopqrst"]], [], []⟩ false 0).2.2 20 =
        some ⟨[⟨"abc", 3, false, 10⟩, ⟨"B", 8, false, 8⟩],
          [["xy", "abcdefghijklmnopqrst"]], [], []⟩ := by decide!
    rw [hc]
    simp only
    rw [wrapRows_eq wrapText _ _ (by decide)]
    have hs : calculateSpacing ⟨[⟨"abc", 3, false, 10⟩, ⟨"B", 8, false, 8⟩],
        [["xy", "abcdefghijklmnopqrst"]], [], []⟩ false 0 = ([3, 8], 13, 20) := by decide!
    rw [hs]
    rfl

/-- The total spacing exceeds the minimum spacing by no more than the slack of
the columns. -/
theorem spacingLoop_slack (e : Int) : ∀ (cols : List column),
    (spacingLoop e cols).2.1 - (spacingLoop e cols).2.2 ≤ (cols.map slack).sum
  | [] => by simp [spacingLoop]
  | col :: cols => by
    have ih := spacingLoop_slack e cols
    have hs : col.width - col.minWidth ≤ slack col := le_max_right _ _
    rw [spacingLoop]
    rcases hsl : spacingLoop e cols with ⟨sp, tot, mn⟩
    rw [hsl] at ih
    simp only [List.map_cons, List.sum_cons] at ih ⊢
    omega

/-- The total spacing of a table exceeds its minimum spacing by no more than
the slack of its columns. -/
theorem calculateSpacing_slack (t : tabular) (hasGrid : Bool) (pad : Int) :
    (calculateSpacing t hasGrid pad).2.1 - (calculateSpacing t hasGrid pad).2.2 ≤
      (t.columns.map slack).sum := by
  have h := spacingLoop_slack (pad * 2) t.columns
  unfold calculateSpacing
  rcases hsl : spacingLoop (pad * 2) t.columns with ⟨sp, tot, mn⟩
  rw [hsl] at h
  simp only [hsl] at h ⊢
  omega

/-- The table cut into lines when wrapping is triggered under a terminal width
above the minimum spacing: the negotiation runs at least one round. -/
theorem buildWrappedTable_rounds (wrapText : String → Int → List String) (t : tabular)
    (hasGrid : Bool) (pad W : Int) (htr : wrapTriggered t hasGrid pad W)
    (hW : W > (calculateSpacing t hasGrid pad).2.2)
    (hrows : ∀ row ∈ t.rows, row.length ≤ t.columns.length) :
    ∃ R : Nat, 1 ≤ R ∧ buildWrappedTable wrapText t hasGrid pad W =
      .ok ({ t with columns := afterRounds R t.columns },
        { totalSpacing :=
            (calculateSpacing { t with columns := afterRounds R t.columns } hasGrid pad).2.1,
          spacing := (calculateSpacing { t with columns := afterRounds R t.columns } hasGrid pad).1,
          rowsLinesColumns := t.rows.map (physicalLines wrapText
            ((afterRounds R t.columns).map column.minWidth) t.columns.length) }) := by
  obtain ⟨R, hR, hn, _⟩ := calcWidths_rounds t (calculateSpacing t hasGrid pad).2.2 W
  have hR1 : 1 ≤ R := by
    by_contra h0
    have hz : R = 0 := by omega
    subst hz
    rw [unitsGiven_zero] at hn
    have hs := calculateSpacing_slack t hasGrid pad
    have ht : (calculateSpacing t hasGrid pad).2.1 > W := htr.2
    apply hn
    constructor <;> omega
  refine ⟨R, hR1, ?_⟩
  have hlen : (afterRounds R t.columns).length = t.columns.length := by simp [afterRounds]
  rw [buildWrappedTable_triggered wrapText t hasGrid pad W htr, hR]
  simp only
  rw [wrapRows_eq wrapText _ t.rows (fun row hr => by rw [hlen]; exact hrows row hr), hlen]

/-- After at least one round a column that was no narrower than its minimum
width is as wide as its minimum width, and a narrower column is as it was. -/
theorem give_rounds (R : Nat) (hR : 1 ≤ R) (col : column) :
    (col.minWidth ≤ col.width →
      (give (min (slack col) R) col).width = (give (min (slack col) R) col).minWidth) ∧
    (col.width < col.minWidth → give (min (slack col) R) col = col) := by
  constructor
  · intro h
    rcases give_width (min (slack col) R) col with e | e
    · rw [e]
      by_contra hne
      have hlt : col.width - col.minWidth > 0 := by omega
      have hs : slack col = col.width - col.minWidth := max_eq_right (le_of_lt hlt)
      have hu : min (slack col) (R : Int) > 0 := by
        rw [hs]
        have : (1 : Int) ≤ R := by exact_mod_cast hR
        omega
      unfold give at e
      rw [if_pos hu] at e
      have e' := congrArg column.minWidth e
      simp only at e'
      omega
    · exact e
  · intro h
    have hs : slack col = 0 := max_eq_left (by omega)
    rw [hs]
    have : min (0 : Int) (R : Int) = 0 := by omega
    rw [this, give_zero]

/-- C32, amended: when wrapping is triggered under a terminal width above the
minimum spacing, on a table whose rows are no longer than its columns, every
cell is wrapped at the minimum width the negotiation leaves its column. For a
column that was no narrower than its minimum width this is the width the
negotiation leaves it, to which the column is padded; a column narrower than
its minimum width, its width hint being above its content, is left as it
was. -/
theorem buildWrappedTable_wrap_width (wrapText : String → Int → List String) (t : tabular)
    (hasGrid : Bool) (pad W : Int) (htr : wrapTriggered t hasGrid pad W)
    (hW : W > (calculateSpacing t hasGrid pad).2.2)
    (hrows : ∀ row ∈ t.rows, row.length ≤ t.columns.length) :
    ∃ t' wt, buildWrappedTable wrapText t hasGrid pad W = .ok (t', wt) ∧
      wt.spacing = t'.columns.map (fun c => c.width + pad * 2) ∧
      (∀ (r : Nat) (row : List String) (i : Nat) (cell : String) (col' : column) (j : Nat),
        t.rows[r]? = some row → row[i]? = some cell → t'.columns[i]? = some col' →
        ((wt.rowsLinesColumns.getD r []).getD j []).getD i "" =
          (wrapText cell col'.minWidth).getD j "") ∧
      (∀ (i : Nat) (col col' : column), t.columns[i]? = some col → t'.columns[i]? = some col' →
        (col.minWidth ≤ col.width → col'.width = col'.minWidth) ∧
        (col.width < col.minWidth → col' = col)) := by
  obtain ⟨R, hR1, hR⟩ := buildWrappedTable_rounds wrapText t hasGrid pad W htr hW hrows
  have hlen : (afterRounds R t.columns).length = t.columns.length := by simp [afterRounds]
  refine ⟨_, _, hR, calculateSpacing_fst _ hasGrid pad, ?_, ?_⟩
  · intro r row i cell col' j hr hc hcol
    have hi : i < t.columns.length := by
      rw [← hlen]
      exact (List.getElem?_eq_some.1 hcol).1
    have e : (t.rows.map (physicalLines wrapText
        ((afterRounds R t.columns).map column.minWidth) t.columns.length)).getD r [] =
        physicalLines wrapText ((afterRounds R t.columns).map column.minWidth)
          t.columns.length row := by
      rw [List.getD_eq_getElem?_getD, List.getElem?_map, hr]
      rfl
    simp only
    rw [e, physicalLines_entry _ _ _ _ j i hi,
      zipWith_getD wrapText row _ i cell col'.minWidth hc (by
        rw [List.getElem?_map]
        simp only at hcol
        rw [hcol]
        rfl)]
  · intro i col col' hc hc'
    rw [getElem?_afterRounds R _ i col col' hc hc']
    exact give_rounds R hR1 col

theorem buildWrappedTable_wrap_width_witness :
    wrapTriggered ⟨[⟨"N", 1, false, 5⟩, ⟨"A", 10, false, 1⟩], [["x", "abcdefghij"]], [], []⟩
      false 0 10 ∧
    calculateSpacing ⟨[⟨"N", 1, false, 5⟩, ⟨"A", 10, false, 1⟩], [["x", "abcdefghij"]], [], []⟩
      false 0 = ([1, 10], 13, 8) ∧
    buildWrappedTable hardWrap ⟨[⟨"N", 1, false, 5⟩, ⟨"A", 10, false, 1⟩],
      [["x", "abcdefghij"]], [], []⟩ false 0 10 =
      .ok (⟨[⟨"N", 1, false, 5⟩, ⟨"A", 3, false, 3⟩], [["x", "abcdefghij"]], [], []⟩,
        ⟨6, [1, 3], [[["x", "abc"], ["", "def"], ["", "ghi"], ["", "j"]]]⟩) ∧
    hardWrap "abcdefghij" 3 = ["abc", "def", "ghi", "j"] ∧
    ∃ t' wt, buildWrappedTable hardWrap ⟨[⟨"N", 1, false, 5⟩, ⟨"A", 10, false, 1⟩],
        [["x", "abcdefghij"]], [], []⟩ false 0 10 = .ok (t', wt) ∧
      wt.spacing = t'.columns.map (fun c => c.width + 0 * 2) ∧
      ∀ (i : Nat) (col col' : column),
        [(⟨"N", 1, false, 5⟩ : column), ⟨"A", 10, false, 1⟩][i]? = some col →
        t'.columns[i]? = some col' →
        (col.minWidth ≤ col.width → col'.width = col'.minWidth) ∧
        (col.width < col.minWidth → col' = col) :=
  ⟨⟨by decide, by decide!⟩, by decide!, by decide!, by decide!,
    match buildWrappedTable_wrap_width hardWrap
      ⟨[⟨"N", 1, false, 5⟩, ⟨"A", 10, false, 1⟩], [["x", "abcdefghij"]], [], []⟩ false 0 10
      ⟨by decide, by decide!⟩ (by decide!) (by decide) with
    | ⟨t', wt, h1, h2, _, h4⟩ => ⟨t', wt, h1, h2, h4⟩⟩

/-- With a terminal width no larger than the minimum spacing the negotiation
runs no pass and leaves every column as it is: the column `A`, 10 wide over a
minimum width of 3, has its cell wrapped at 3 while its lines are padded to
10. -/
theorem buildWrappedTable_no_pass :
    wrapTriggered ⟨[⟨"A", 10, false, 3⟩], [["abcdefghij"]], [], []⟩ false 0 4 ∧
    calculateSpacing ⟨[⟨"A", 10, false, 3⟩], [["abcdefghij"]], [], []⟩ false 0 = ([10], 11, 4) ∧
    buildWrappedTable hardWrap ⟨[⟨"A", 10, false, 3⟩], [["abcdefghij"]], [], []⟩ false 0 4 =
      .ok (⟨[⟨"A", 10, false, 3⟩], [["abcdefghij"]], [], []⟩,
        ⟨11, [10], [[["abc"], ["def"], ["ghi"], ["j"]]]⟩) ∧
    write hardWrap ⟨[⟨"A", 10, false, 3⟩], [["abcdefghij"]], [], []⟩ "" Aligned false "" 4 =
      (⟨[⟨"A", 10, false, 3⟩], [["abcdefghij"]], [], []⟩,
        "A         \nabc       \ndef       \nghi       \nj         \n", none) := by
  exact ⟨⟨by decide, by decide!⟩, by decide!, by decide!, by decide!⟩

/-- The names in the first cells of the detail rows of leaf values are the
display names of their leaves. -/
theorem detailRow_names (lvs : List leafValue) :
    (lvs.map leafValue.detailRow).map (fun row => row.getD 0 "") =
      (lvs.map leafValue.leaf).map leaf.name := by
  induction lvs with
  | nil => rfl
  | cons lv rest ih =>
    simp only [List.map_cons, ih]
    rfl

/-- The detail pass on a record never fails, and the first cells of its rows
hold the display names of the visible leaves of the type of the record. -/
theorem reflectStructDetail_names (cs xs : List (String × Bool))
    (fields : List (StructField Value)) :
    ∃ td, reflectStructDetail (newTabular cs xs) (.struct fields) = .ok td ∧
      td.rows.map (fun row => row.getD 0 "") =
        (typeLeavesLoop cs xs (Value.fieldTypes fields)).map leaf.name := by
  by_cases hne : fields = []
  · subst hne
    refine ⟨newTabular cs xs, ?_, ?_⟩
    · simp [reflectStructDetail, Value.Kind, Value.fields]
    · simp [newTabular, Value.fieldTypes, typeLeavesLoop]
  · refine ⟨_, reflectStructDetail_eq cs xs fields hne, ?_⟩
    obtain ⟨h1, _, _⟩ := foldl_addRecord_rows 2
      ((valueLeavesLoop cs xs fields).map leafValue.detailRow)
      ⟨[⟨"Name", len "Name", true, len "Name"⟩, ⟨"Output", len "Output", false, len "Output"⟩],
        [], cs, xs⟩
      (by
        intro r hr
        obtain ⟨lv, _, rfl⟩ := List.mem_map.1 hr
        rfl)
      rfl
    rw [h1, List.nil_append, detailRow_names, typeLeavesLoop_type]

/-- The header pass on a record: the outcome of declaring the visible leaves
of its type. -/
theorem reflectStructHeader_result (cs xs : List (String × Bool))
    (fields : List (StructField Value)) :
    reflectStructHeader (newTabular cs xs) (.struct fields) =
      headResult (newTabular cs xs) (typeLeavesLoop cs xs (Value.fieldTypes fields)) := by
  rw [reflectStructHeader, Value.Type]
  exact reflectFieldHeadLoop_result _ (newTabular cs xs)

/-- C39, refuted as stated: a visible field whose width parameter is no number
is listed by the detail pass, which does not read the parameter, while the
header pass stops on it with the parse error and declares no column. -/
theorem reflectStructDetail_bad_width :
    reflectStructDetail (newTabular [] []) (.struct [⟨"A", "a,width=x", .other .Int "7"⟩]) =
      .ok ⟨[⟨"Name", 4, true, 4⟩, ⟨"Output", 6, false, 6⟩], [["a", "7"]], [], []⟩ ∧
    reflectStructHeader (newTabular [] []) (.struct [⟨"A", "a,width=x", .other .Int "7"⟩]) =
      .error (.ParseInt "x") ∧
    reflectFieldHeadLoop (newTabular [] []) [⟨"A", "a,width=x", .basic .Int⟩] =
      .error (.ParseInt "x") := by decide!

/-- C39, amended: for every record and all filter sets the detail pass
succeeds and the header pass gives the outcome of declaring the visible leaves
of the type of the record, which is the parse error of the first of them with
a width parameter that is no number; whenever the header pass succeeds, the
names in the first cells of the rows of the detail pass are, in the same
order, the names of the columns it declares. -/
theorem reflectStructDetail_header_names (cs xs : List (String × Bool))
    (fields : List (StructField Value)) :
    ∃ td, reflectStructDetail (newTabular cs xs) (.struct fields) = .ok td ∧
      reflectStructHeader (newTabular cs xs) (.struct fields) =
        headResult (newTabular cs xs) (typeLeavesLoop cs xs (Value.fieldTypes fields)) ∧
      ((∀ l ∈ typeLeavesLoop cs xs (Value.fieldTypes fields), l.hintOk = true) →
        ∃ th, reflectStructHeader (newTabular cs xs) (.struct fields) = .ok th) ∧
      ∀ th, reflectStructHeader (newTabular cs xs) (.struct fields) = .ok th →
        td.rows.map (fun row => row.getD 0 "") = th.columns.map column.name := by
  obtain ⟨td, h1, h2⟩ := reflectStructDetail_names cs xs fields
  have hh := reflectStructHeader_result cs xs fields
  refine ⟨td, h1, hh, ?_, ?_⟩
  · intro hok
    rw [hh, headResult_ok _ _ hok]
    exact ⟨_, rfl⟩
  · intro th hth
    rw [hh] at hth
    unfold headResult at hth
    cases hf : (typeLeavesLoop cs xs (Value.fieldTypes fields)).find? (fun l => !l.hintOk) with
    | some l => rw [hf] at hth; cases hth
    | none =>
      rw [hf] at hth
      injection hth with hth
      rw [h2, ← hth]
      simp [newTabular, leaf.column, Function.comp_def]

theorem reflectStructDetail_header_names_witness :
    reflectStructDetail (newTabular [] [("i", true)])
      (.struct [⟨"S", "", .str "Hello"⟩, ⟨"I", "", .other .Int "10"⟩,
        ⟨"N", "", .struct [⟨"Sin", "Sun,width=12", .str "Inside"⟩, ⟨"next", "", .ptr none "<nil>"⟩]⟩,
        ⟨"h", "", .other .Int "0"⟩]) =
      .ok ⟨[⟨"Name", 4, true, 4⟩, ⟨"Output", 6, false, 6⟩], [["S", "Hello"], ["Sun", "Inside"]],
        [], [("i", true)]⟩ ∧
    reflectStructHeader (newTabular [] [("i", true)])
      (.struct [⟨"S", "", .str "Hello"⟩, ⟨"I", "", .other .Int "10"⟩,
        ⟨"N", "", .struct [⟨"Sin", "Sun,width=12", .str "Inside"⟩, ⟨"next", "", .ptr none "<nil>"⟩]⟩,
        ⟨"h", "", .other .Int "0"⟩]) =
      .ok ⟨[⟨"S", 1, false, 1⟩, ⟨"Sun", 3, false, 12⟩], [], [], [("i", true)]⟩ ∧
    ∃ td, reflectStructDetail (newTabular [] [("i", true)])
        (.struct [⟨"S", "", .str "Hello"⟩, ⟨"I", "", .other .Int "10"⟩,
          ⟨"N", "", .struct [⟨"Sin", "Sun,width=12", .str "Inside"⟩,
            ⟨"next", "", .ptr none "<nil>"⟩]⟩,
          ⟨"h", "", .other .Int "0"⟩]) = .ok td ∧
      td.rows.map (fun row => row.getD 0 "") =
        (⟨[⟨"S", 1, false, 1⟩, ⟨"Sun", 3, false, 12⟩], [], [], [("i", true)]⟩ :
          tabular).columns.map column.name :=
  ⟨by decide!, by decide!,
    match reflectStructDetail_header_names [] [("i", true)]
      [⟨"S", "", .str "Hello"⟩, ⟨"I", "", .other .Int "10"⟩,
        ⟨"N", "", .struct [⟨"Sin", "Sun,width=12", .str "Inside"⟩, ⟨"next", "", .ptr none "<nil>"⟩]⟩,
        ⟨"h", "", .other .Int "0"⟩] with
    | ⟨td, h1, _, _, h4⟩ => ⟨td, h1, h4 _ (by decide!)⟩⟩

/-! ## The columns of a record type, with the exported fields -/

/-- The display name of an exported field: the name of its tag when the tag
has one, its declared name otherwise. -/
theorem getFieldName_upper (name : String) (tagInfo : Option tagData) (c : Char)
    (rest : List Char) (hd : name.data = c :: rest) (hu : IsUpper c = true) :
    getFieldName name tagInfo =
      (match tagInfo with
        | some d => if d.Name ≠ "" then d.Name else name
        | none => name) := by
  unfold getFieldName
  rw [hd]
  cases tagInfo <;> simp [hu]

/-- A field with a display name is exported, and its display name is the name
of its tag when the tag has one and its declared name otherwise. -/
theorem getFieldName_exported (name : String) (tagInfo : Option tagData)
    (h : getFieldName name tagInfo ≠ "") :
    (∃ c rest, name.data = c :: rest ∧ IsUpper c = true) ∧
    ((∃ d, tagInfo = some d ∧ d.Name ≠ "" ∧ getFieldName name tagInfo = d.Name) ∨
      ((∀ d, tagInfo = some d → d.Name = "") ∧ getFieldName name tagInfo = name)) := by
  cases hd : name.data with
  | nil =>
    exfalso
    apply h
    unfold getFieldName
    rw [hd]
  | cons c rest =>
    have hu : IsUpper c = true := by
      by_contra hu
      apply h
      unfold getFieldName
      rw [hd]
      simp [hu]
    refine ⟨⟨c, rest, rfl, hu⟩, ?_⟩
    have e := getFieldName_upper name tagInfo c rest hd hu
    cases tagInfo with
    | none => exact Or.inr ⟨fun d hd' => (by cases hd'), e⟩
    | some d =>
      by_cases hn : d.Name = ""
      · refine Or.inr ⟨fun d' hd' => ?_, ?_⟩
        · injection hd' with hd'
          rw [← hd']; exact hn
        · rw [e]; simp [hn]
      · refine Or.inl ⟨d, rfl, hn, ?_⟩
        rw [e]; simp [hn]

/-- The display name of an exported field is the name of its tag or its
declared name. -/
theorem displayName_exported (fieldName tag : String) (h : exported fieldName = true) :
    displayName fieldName tag = tagOrDeclaredName fieldName tag := by
  unfold exported at h
  cases hd : fieldName.data with
  | nil => rw [hd] at h; cases h
  | cons c rest =>
    rw [hd] at h
    exact getFieldName_upper fieldName (getTags tag) c rest hd h

/-- The display name of a field that is not exported is empty. -/
theorem displayName_not_exported (fieldName tag : String) (h : exported fieldName = false) :
    displayName fieldName tag = "" := by
  unfold exported at h
  unfold displayName getFieldName
  cases hd : fieldName.data with
  | nil => rfl
  | cons c rest =>
    rw [hd] at h
    simp only at h
    simp [h]

/-- The empty name is never visible. -/
theorem visible_empty (cs xs : List (String × Bool)) : visible cs xs "" = false := by
  cases h : visible cs xs ""
  · rfl
  · exact absurd rfl (visible_ne cs xs "" h).1

/-- The display name of a field is visible exactly when the field is exported
and its tag or declared name is visible. -/
theorem visible_displayName (cs xs : List (String × Bool)) (fieldName tag : String) :
    visible cs xs (displayName fieldName tag) =
      (exported fieldName && visible cs xs (tagOrDeclaredName fieldName tag)) := by
  cases h : exported fieldName
  · rw [displayName_not_exported _ _ h, visible_empty, Bool.false_and]
  · rw [displayName_exported _ _ h, Bool.true_and]

mutual
/-- The visible leaves of a field are the leaves it keeps. -/
theorem typeLeaves_exported (cs xs : List (String × Bool)) : ∀ (typ : GoType)
    (fieldName tag : String),
    typeLeaves cs xs fieldName tag typ = exportedLeaves cs xs fieldName tag typ
  | .struct fields, fieldName, tag => by
    rw [typeLeaves.eq_def, exportedLeaves.eq_def, visible_displayName]
    cases exported fieldName && visible cs xs (tagOrDeclaredName fieldName tag)
    · rfl
    · simp only [Bool.not_true, Bool.false_eq_true, if_false, if_true]
      exact typeLeavesLoop_exported cs xs fields
  | .basic k, fieldName, tag => by
    rw [typeLeaves.eq_def, exportedLeaves.eq_def, visible_displayName]
    cases exported fieldName && visible cs xs (tagOrDeclaredName fieldName tag)
    · rfl
    · rfl
/-- The visible leaves of a list of fields are the leaves it keeps. -/
theorem typeLeavesLoop_exported (cs xs : List (String × Bool)) :
    ∀ (fields : List (StructField GoType)),
    typeLeavesLoop cs xs fields = exportedLeavesLoop cs xs fields
  | [] => by rw [typeLeavesLoop, exportedLeavesLoop]
  | t :: rest => by
    rw [typeLeavesLoop, exportedLeavesLoop, typeLeaves_exported cs xs t.Item t.Name t.Tag,
      typeLeavesLoop_exported cs xs rest]
end

mutual
/-- Every leaf a field keeps is exported, and its tag or declared name is its
display name and is visible. -/
theorem exportedLeaves_kept (cs xs : List (String × Bool)) : ∀ (typ : GoType)
    (fieldName tag : String), ∀ l ∈ exportedLeaves cs xs fieldName tag typ,
      exported l.fieldName = true ∧
      visible cs xs (tagOrDeclaredName l.fieldName l.tag) = true ∧
      skippedKind l.kind = false ∧ l.kind ≠ Kind.Struct
  | .struct fields, fieldName, tag, l, hl => by
    rw [exportedLeaves.eq_def] at hl
    cases hv : exported fieldName && visible cs xs (tagOrDeclaredName fieldName tag)
    · rw [hv] at hl; simp at hl
    · rw [hv] at hl
      simp only [if_true] at hl
      exact exportedLeavesLoop_kept cs xs fields l hl
  | .basic k, fieldName, tag, l, hl => by
    rw [exportedLeaves.eq_def] at hl
    cases hv : exported fieldName && visible cs xs (tagOrDeclaredName fieldName tag)
    · rw [hv] at hl; simp at hl
    · rw [hv] at hl
      simp only [if_true] at hl
      split at hl
      · simp at hl
      · rename_i hk
        simp only [List.mem_singleton] at hl
        subst hl
        simp only [Bool.and_eq_true] at hv
        simp only [Bool.or_eq_true, beq_iff_eq, not_or] at hk
        exact ⟨hv.1, hv.2, by simpa using hk.1, hk.2⟩
/-- Every leaf a list of fields keeps is exported, and its tag or declared
name is visible. -/
theorem exportedLeavesLoop_kept (cs xs : List (String × Bool)) :
    ∀ (fields : List (StructField GoType)), ∀ l ∈ exportedLeavesLoop cs xs fields,
      exported l.fieldName = true ∧
      visible cs xs (tagOrDeclaredName l.fieldName l.tag) = true ∧
      skippedKind l.kind = false ∧ l.kind ≠ Kind.Struct
  | [], l, hl => by simp [exportedLeavesLoop] at hl
  | t :: rest, l, hl => by
    rw [exportedLeavesLoop, List.mem_append] at hl
    rcases hl with hl | hl
    · exact exportedLeaves_kept cs xs t.Item t.Name t.Tag l hl
    · exact exportedLeavesLoop_kept cs xs rest l hl
end

/-- The display names of the leaves a list of fields keeps are their tag or
declared names. -/
theorem exportedLeavesLoop_names (cs xs : List (String × Bool))
    (fields : List (StructField GoType)) :
    (exportedLeavesLoop cs xs fields).map leaf.name =
      (exportedLeavesLoop cs xs fields).map (fun l => tagOrDeclaredName l.fieldName l.tag) := by
  apply List.map_congr_left
  intro l hl
  exact displayName_exported _ _ (exportedLeavesLoop_kept cs xs fields l hl).1

/-- C1 (amended): the header pass of a record type on an empty table fails
with the parse error of the first kept leaf whose width hint is out of order;
when every such hint is absent or a 32-bit decimal integer it succeeds, leaves
the table without rows, and the column names it adds are, in depth-first
declaration order, the tag names, or the declared names where the tag has no
name, of the kept leaves. The kept leaves are the exported fields of a kind
other than record, array, slice, map, function, pointer or interface, reached
through nested records, for which the field itself and every record field
around it is exported and has a tag or declared name that is neither empty
nor `-`, is not denied, and is allowed when the allow set is not empty. -/
theorem reflectStructHeader_columns (cs xs : List (String × Bool)) (value : Value)
    (T : List (StructField GoType)) (hT : value.Type = .struct T) :
    reflectStructHeader (newTabular cs xs) value =
      headResult (newTabular cs xs) (exportedLeavesLoop cs xs T) ∧
    ((∀ l ∈ exportedLeavesLoop cs xs T, l.hintOk = true) →
      ∃ t, reflectStructHeader (newTabular cs xs) value = .ok t ∧
        t.columns.map column.name =
          (exportedLeavesLoop cs xs T).map (fun l => tagOrDeclaredName l.fieldName l.tag) ∧
        t.rows = []) ∧
    ∀ l ∈ exportedLeavesLoop cs xs T,
      exported l.fieldName = true ∧
      visible cs xs (tagOrDeclaredName l.fieldName l.tag) = true ∧
      skippedKind l.kind = false ∧ l.kind ≠ Kind.Struct := by
  have h1 : reflectStructHeader (newTabular cs xs) value =
      headResult (newTabular cs xs) (exportedLeavesLoop cs xs T) := by
    rw [reflectStructHeader, hT, ← typeLeavesLoop_exported]
    exact reflectFieldHeadLoop_result T (newTabular cs xs)
  refine ⟨h1, fun hh => ?_, exportedLeavesLoop_kept cs xs T⟩
  rw [h1, headResult_ok _ _ hh]
  refine ⟨_, rfl, ?_, rfl⟩
  rw [← exportedLeavesLoop_names]
  simp [newTabular, leaf.column, Function.comp_def]

/-- With "i" denied, the record of the tests declares the columns "S" and
"Sun": the field "I" is denied and the field "h" is not exported. -/
theorem reflectStructHeader_columns_witness :
    exportedLeavesLoop [] [("i", true)]
      [⟨"S", "", .basic .String⟩, ⟨"I", "", .basic .Int⟩,
        ⟨"N", "", .struct [⟨"Sin", "Sun,width=12", .basic .String⟩]⟩, ⟨"h", "", .basic .Int⟩] =
      [⟨"S", "", .String⟩, ⟨"Sin", "Sun,width=12", .String⟩] ∧
    exported "h" = false ∧
    ∃ t, reflectStructHeader (newTabular [] [("i", true)])
        (.struct [⟨"S", "", .str "Hello"⟩, ⟨"I", "", .other .Int "10"⟩,
          ⟨"N", "", .struct [⟨"Sin", "Sun,width=12", .str "Inside"⟩]⟩,
          ⟨"h", "", .other .Int "0"⟩]) = .ok t ∧
      t.columns.map column.name = ["S", "Sun"] := by
  refine ⟨by decide!, by decide!, ?_⟩
  obtain ⟨t, h1, h2, _⟩ := (reflectStructHeader_columns [] [("i", true)]
    (.struct [⟨"S", "", .str "Hello"⟩, ⟨"I", "", .other .Int "10"⟩,
      ⟨"N", "", .struct [⟨"Sin", "Sun,width=12", .str "Inside"⟩]⟩, ⟨"h", "", .other .Int "0"⟩])
    [⟨"S", "", .basic .String⟩, ⟨"I", "", .basic .Int⟩,
      ⟨"N", "", .struct [⟨"Sin", "Sun,width=12", .basic .String⟩]⟩, ⟨"h", "", .basic .Int⟩]
    rfl).2.1 (by decide!)
  exact ⟨t, h1, by rw [h2]; decide!⟩

end Yaff
